import Mathlib

/-! GPXSee: ENC (S-57) vector feature builder and JPEG-LS raster decoder.

A shallow embedding of `src/map/ENC/mapdata.cpp` and `src/map/IMG/jls.cpp`,
with the resolution of an offline map (`src/offlinemap.cpp`) and the block
demangling of the GPI parser (`src/data/gpiparser.cpp`).

Conventions of the embedding.

* Machine integers are `Nat` / `Int`; a wrap is written explicitly where the
  source can overflow.
* A `double` that the source obtains as `integer / (double) multiplier` is kept
  as the exact quotient (numerator and denominator), see `Dbl`; rounding is not
  modelled.
* Types that the sources only use (`ISO8211::Record`, `QVariant`, `Coordinates`,
  `RectC`, `Rect`, the R-tree, `BitStream`, `JLS::Context`) are declared in
  headers that are not part of the sources; each is modelled below and marked.
-/

namespace ENC

/-! ## Values, fields and records (ISO 8211 container, interface only) -/

/-- Modelled from the spec: a typed subfield value ("signed/unsigned integer of
fixed width, or raw byte sequence"); `invalid` is the default-constructed
`QVariant`. -/
inductive QVariant
  | invalid
  | int (v : Int)
  | uint (v : Nat)
  | bytes (b : List Nat)
deriving DecidableEq, Repr

/-- Value of one ASCII decimal digit, if the byte is one. -/
def digit? (b : Nat) : Option Nat :=
  if 48 ≤ b ∧ b ≤ 57 then some (b - 48) else none

/-- Decimal value of a run of digits, most significant first, continuing
`acc`; `none` when a byte is not a digit. -/
def digits? : List Nat → Nat → Option Nat
  | [], acc => some acc
  | b :: bs, acc =>
    match digit? b with
    | none => none
    | some d => digits? bs (acc * 10 + d)

/-- `QByteArray::toUInt(&ok)`: base-10 text of an unsigned 32-bit number
(whitespace trimming of the library is not modelled). -/
def baToUInt? (b : List Nat) : Option Nat :=
  match b with
  | [] => none
  | _ =>
    match digits? b 0 with
    | some n => if n < 2 ^ 32 then some n else none
    | none => none

/-- `QByteArray::toInt(&ok)`: base-10 text of a signed 32-bit number. -/
def baToInt? (b : List Nat) : Option Int :=
  match b with
  | [] => none
  | 45 :: ds =>
    match ds, digits? ds 0 with
    | _ :: _, some n => if n ≤ 2 ^ 31 then some (-(n : Int)) else none
    | _, _ => none
  | _ =>
    match digits? b 0 with
    | some n => if n < 2 ^ 31 then some (n : Int) else none
    | none => none

/-- `QByteArray::toUInt()`: 0 when the text is not a number. -/
def baToUInt (b : List Nat) : Nat := (baToUInt? b).getD 0

/-- Two's-complement reading of a value as a signed 32-bit `int`. -/
def toInt32 (v : Int) : Int :=
  let m := v % 2 ^ 32
  if m < 2 ^ 31 then m else m - 2 ^ 32

/-- ASCII decimal digits of a natural number. -/
def natText (n : Nat) : List Nat := (Nat.toDigits 10 n).map Char.toNat

/-- ASCII decimal text of an integer. -/
def intText (v : Int) : List Nat :=
  if v < 0 then 45 :: natText v.natAbs else natText v.natAbs

namespace QVariant

/-- `QVariant::toInt(&ok)`: `none` is `ok == false` (the value is then 0). The
result is a 32-bit `int`. -/
def toInt? : QVariant → Option Int
  | invalid => none
  | int v => some (toInt32 v)
  | uint v => some (toInt32 v)
  | bytes b => baToInt? b

/-- `QVariant::toInt()`. -/
def toInt (q : QVariant) : Int := q.toInt?.getD 0

/-- `QVariant::toUInt(&ok)`. The result is a 32-bit `uint`. -/
def toUInt? : QVariant → Option Nat
  | invalid => none
  | int v => some (v % 2 ^ 32).toNat
  | uint v => some (v % 2 ^ 32)
  | bytes b => baToUInt? b

/-- `QVariant::toUInt()`. -/
def toUInt (q : QVariant) : Nat := q.toUInt?.getD 0

/-- `QVariant::toByteArray()`. -/
def toByteArray : QVariant → List Nat
  | invalid => []
  | int v => intText v
  | uint v => natText v
  | bytes b => b

end QVariant

/-- Modelled from the spec: a field is "a 4-character tag plus an ordered
sequence of subfield rows"; `names` are the subfield names of the field's
definition, by which `subfield` looks a value up. -/
structure Field where
  tag : String
  names : List String
  data : List (List QVariant)
deriving DecidableEq, Repr

/-- Modelled from the spec: a record is an "ordered sequence of `Field`". -/
abbrev Record := List Field

/-- `QVector::at` on a row; an index outside the row (undefined in the source)
reads as an invalid value. -/
def cell (row : List QVariant) (i : Nat) : QVariant := row.getD i QVariant.invalid

/-- `f.data().at(i)`; an index outside the field reads as an empty row. -/
def Field.row (f : Field) (i : Nat) : List QVariant := f.data.getD i []

/-- Modelled from the spec: `ISO8211::Record::field(tag)`, the first field of
the record carrying the tag, or null. -/
def Record.field (r : Record) (tag : String) : Option Field :=
  r.find? (fun f => f.tag == tag)

/-- Modelled from the spec: `ISO8211::Field::subfield(name, uint *)`, the named
subfield of the first row converted to an unsigned integer; `none` is a
`false` return (the output argument is then left alone). -/
def Field.subfieldUInt (f : Field) (name : String) : Option Nat :=
  match f.names.indexOf? name with
  | none => none
  | some i =>
    match (f.row 0).get? i with
    | none => none
    | some v => v.toUInt?

/-- Modelled from the spec: `ISO8211::Field::subfield(name, QByteArray *)`. -/
def Field.subfieldBytes (f : Field) (name : String) : Option (List Nat) :=
  match f.names.indexOf? name with
  | none => none
  | some i =>
    match (f.row 0).get? i with
    | none => none
    | some v => some v.toByteArray

/-- `RecordMap` (`QMap<uint, ISO8211::Record>`): `insert` puts the binding in
front and `find` takes the first binding of the key, so a later `insert` of a
key replaces the earlier one as in `QMap`. -/
abbrev RecordMap := List (Nat × Record)

def RecordMap.insert (m : RecordMap) (k : Nat) (r : Record) : RecordMap := (k, r) :: m

def RecordMap.find (m : RecordMap) (k : Nat) : Option Record := List.lookup k m

def RCNM_VI : Nat := 110
def RCNM_VC : Nat := 120
def RCNM_VE : Nat := 130
def RCNM_VF : Nat := 140

def PRIM_P : Nat := 1
def PRIM_L : Nat := 2
def PRIM_A : Nat := 3

/-! ## Real numbers and coordinates -/

/-- A `double` produced by dividing an integer by a multiplier: not-a-number,
an infinity, or the exact quotient `n / d` with `d ≠ 0`. -/
inductive Dbl
  | nan
  | ninf
  | pinf
  | quot (n : Int) (d : Nat)
deriving DecidableEq, Repr

namespace Dbl

/-- `x / (double)c` for an `int` x and a `uint` c (IEEE: a zero divisor gives
an infinity, or not-a-number for 0/0). -/
def ofDiv (x : Int) (c : Nat) : Dbl :=
  if c = 0 then (if x = 0 then nan else if 0 < x then pinf else ninf)
  else quot x c

def isNaN : Dbl → Bool
  | nan => true
  | _ => false

/-- `a == b` on doubles. -/
def eq : Dbl → Dbl → Bool
  | nan, _ => false
  | _, nan => false
  | ninf, ninf => true
  | pinf, pinf => true
  | quot n d, quot m e => decide (n * (e : Int) = m * (d : Int))
  | _, _ => false

/-- `a < b` on doubles. -/
def lt : Dbl → Dbl → Bool
  | nan, _ => false
  | _, nan => false
  | ninf, ninf => false
  | ninf, _ => true
  | _, ninf => false
  | pinf, _ => false
  | quot _ _, pinf => true
  | quot n d, quot m e => decide (n * (e : Int) < m * (d : Int))

/-- `a <= b` on doubles. -/
def le (a b : Dbl) : Bool := lt a b || eq a b

/-- The rational value of a finite double. -/
def toRat? : Dbl → Option ℚ
  | quot n d => some ((n : ℚ) / (d : ℚ))
  | _ => none

end Dbl

/-- Modelled from the spec: `Coordinates`, a longitude / latitude pair; the
default-constructed value has not-a-number in both places. -/
structure Coordinates where
  lon : Dbl
  lat : Dbl
deriving DecidableEq, Repr

namespace Coordinates

/-- `Coordinates()`. -/
def null : Coordinates := ⟨Dbl.nan, Dbl.nan⟩

/-- `Coordinates::isNull()`: both places are not-a-number. -/
def isNull (c : Coordinates) : Bool := c.lon.isNaN && c.lat.isNaN

/-- `operator==` on `Coordinates`. -/
def eq (a b : Coordinates) : Bool := Dbl.eq a.lat b.lat && Dbl.eq a.lon b.lon

end Coordinates

/-- Modelled from the spec: the macro `UINT32` of `common/util.h`, the
little-endian 32-bit number in four bytes. -/
def UINT32 (b0 b1 b2 b3 : Nat) : Nat :=
  b0 % 256 + (b1 % 256) * 2 ^ 8 + (b2 % 256) * 2 ^ 16 + (b3 % 256) * 2 ^ 24

/-- The body of `parseNAME` on the row it reads: subfield 0 must be a 5-byte
array, record class in byte 0 and record id in bytes 1..4. -/
def parseNAMERow (row : List QVariant) : Option (Nat × Nat) :=
  match (cell row 0).toByteArray with
  | [t, b0, b1, b2, b3] => some (t % 256, UINT32 b0 b1 b2 b3)
  | _ => none

/-- `parseNAME(f, &type, &id, idx)`. -/
def parseNAME (f : Field) (idx : Nat) : Option (Nat × Nat) :=
  parseNAMERow (f.row idx)

/-- `SGXD(r)`: the `SG2D` field, else the `SG3D` field, else null. -/
def SGXD (r : Record) : Option Field :=
  match r.field "SG2D" with
  | some f => some f
  | none => r.field "SG3D"

/-- `coordinates(x, y, COMF)`. -/
def coordinates (x y : Int) (COMF : Nat) : Coordinates :=
  ⟨Dbl.ofDiv x COMF, Dbl.ofDiv y COMF⟩

/-- `point(r, COMF)`: row 0 of the coordinate field, `y` in subfield 0 and `x`
in subfield 1. -/
def point (r : Record) (COMF : Nat) : Coordinates :=
  match SGXD r with
  | none => Coordinates.null
  | some f =>
    let y := (cell (f.row 0) 0).toInt
    let x := (cell (f.row 0) 1).toInt
    coordinates x y COMF

/-! ## Geometry resolution -/

/-- `MapData::Sounding`: a position and a depth `z / (double)SOMF`. -/
structure Sounding where
  c : Coordinates
  depth : Dbl
deriving DecidableEq, Repr

/-- `MapData::soundings(r, COMF, SOMF)`: one sounding per row (y, x, z) of the
`SG3D` field. -/
def soundings (r : Record) (COMF SOMF : Nat) : List Sounding :=
  match r.field "SG3D" with
  | none => []
  | some f =>
    f.data.map (fun row =>
      let y := (cell row 0).toInt
      let x := (cell row 1).toInt
      let z := (cell row 2).toInt
      ⟨coordinates x y COMF, Dbl.ofDiv z SOMF⟩)

/-- The node record a point feature names: `FSPT` present with 4 subfields, a
well-formed name, record class isolated or connected node, id present in the
matching map. Shared by `soundingGeometry` and `pointGeometry`, whose source
texts coincide up to the last line. -/
def pointNode (r : Record) (vi vc : RecordMap) : Option Record :=
  match r.field "FSPT" with
  | none => none
  | some FSPT =>
    if (FSPT.row 0).length ≠ 4 then none
    else
      match parseNAME FSPT 0 with
      | none => none
      | some (type, id) =>
        if type = RCNM_VI then vi.find id
        else if type = RCNM_VC then vc.find id
        else none

/-- `MapData::soundingGeometry`. -/
def soundingGeometry (r : Record) (vi vc : RecordMap) (COMF SOMF : Nat) : List Sounding :=
  match pointNode r vi vc with
  | none => []
  | some n => soundings n COMF SOMF

/-- `MapData::pointGeometry`. -/
def pointGeometry (r : Record) (vi vc : RecordMap) (COMF : Nat) : Coordinates :=
  match pointNode r vi vc with
  | none => Coordinates.null
  | some n => point n COMF

/-- First check of the loop body of `lineGeometry` / `polyGeometry`: the row
names an edge (`parseNAME` succeeds and the record class is `RCNM_VE`). -/
def edgeName (row : List QVariant) : Option Nat :=
  match parseNAMERow row with
  | none => none
  | some (type, id) => if type = RCNM_VE then some id else none

/-- One pass of the inner `for (j ...)` loop: end node `j` of the edge. -/
def edgeNode (vc : RecordMap) (COMF : Nat) (VRPT : Field) (j : Nat) : Option Coordinates :=
  match parseNAME VRPT j with
  | none => none
  | some (type, id) =>
    if type ≠ RCNM_VC then none
    else
      match vc.find id with
      | none => none
      | some n =>
        let c := point n COMF
        if c.isNull then none else some c

/-- The interior vertices of an edge in stored order: `coordinates(cv.at(1),
cv.at(0), COMF)` for each row of the coordinate field, none when the edge has
no coordinate field. -/
def vertexes (FRID : Record) (COMF : Nat) : List Coordinates :=
  match SGXD FRID with
  | none => []
  | some f => f.data.map (fun cv => coordinates (cell cv 1).toInt (cell cv 0).toInt COMF)

/-- The rest of the loop body of `lineGeometry` / `polyGeometry` for edge `id`
with orientation `ORNT`: the vertices appended for this row, `none` where the
source returns the empty geometry. -/
def edgeVertices (vc ve : RecordMap) (COMF : Nat) (id ORNT : Nat) : Option (List Coordinates) :=
  match ve.find id with
  | none => none
  | some FRID =>
    match FRID.field "VRPT" with
    | none => none
    | some VRPT =>
      if VRPT.data.length ≠ 2 then none
      else
        match edgeNode vc COMF VRPT 0 with
        | none => none
        | some c0 =>
          match edgeNode vc COMF VRPT 1 with
          | none => none
          | some c1 =>
            if ORNT = 2 then some (c1 :: ((vertexes FRID COMF).reverse ++ [c0]))
            else some (c0 :: (vertexes FRID COMF ++ [c1]))

/-- The `for (i ...)` loop of `lineGeometry` over the rows still to be read,
`path` being the vertices appended so far. -/
def lineLoop (vc ve : RecordMap) (COMF : Nat) : List (List QVariant) → List Coordinates →
    List Coordinates
  | [], path => path
  | row :: rest, path =>
    match edgeName row with
    | none => []
    | some id =>
      match edgeVertices vc ve COMF id (cell row 1).toUInt with
      | none => []
      | some seg => lineLoop vc ve COMF rest (path ++ seg)

/-- `MapData::lineGeometry`. -/
def lineGeometry (r : Record) (vc ve : RecordMap) (COMF : Nat) : List Coordinates :=
  match r.field "FSPT" with
  | none => []
  | some FSPT =>
    if (FSPT.row 0).length ≠ 4 then []
    else lineLoop vc ve COMF FSPT.data []

/-- Modelled from the spec: `Polygon`, the "ring-list" of an area. -/
abbrev Polygon := List (List Coordinates)

/-- `v.first() == v.last()`. -/
def firstIsLast (v : List Coordinates) : Bool :=
  match v.head?, v.getLast? with
  | some a, some b => Coordinates.eq a b
  | _, _ => false

/-- The state of the loop of `polyGeometry`: the rings emitted so far (`path`)
and the vertices of the ring being accumulated (`v`). -/
abbrev PolyState := Polygon × List Coordinates

/-- The loop body of `polyGeometry` up to and including the appends to `v`:
name check, the `USAG == 2 && path.isEmpty()` emission, edge resolution and the
appended vertices; `none` where the source returns the empty polygon. -/
def polyAccum (vc ve : RecordMap) (COMF : Nat) (row : List QVariant) (st : PolyState) :
    Option PolyState :=
  match edgeName row with
  | none => none
  | some id =>
    let ORNT := (cell row 1).toUInt
    let USAG := (cell row 2).toUInt
    let st1 : PolyState := if USAG = 2 ∧ st.1.isEmpty then (st.1 ++ [st.2], []) else st
    match edgeVertices vc ve COMF id ORNT with
    | none => none
    | some seg => some (st1.1, st1.2 ++ seg)

/-- The end of the loop body: `if (USAG == 2 && v.first() == v.last())` the
ring is emitted and `v` cleared. -/
def polyClose (USAG : Nat) (st : PolyState) : PolyState :=
  if USAG = 2 ∧ firstIsLast st.2 then (st.1 ++ [st.2], []) else st

/-- One pass of the loop body of `polyGeometry`. -/
def polyStep (vc ve : RecordMap) (COMF : Nat) (row : List QVariant) (st : PolyState) :
    Option PolyState :=
  match polyAccum vc ve COMF row st with
  | none => none
  | some st2 => some (polyClose (cell row 2).toUInt st2)

/-- The `for (i ...)` loop of `polyGeometry` over the rows still to be read. -/
def polyRows (vc ve : RecordMap) (COMF : Nat) : List (List QVariant) → PolyState →
    Option PolyState
  | [], st => some st
  | row :: rest, st =>
    match polyStep vc ve COMF row st with
    | none => none
    | some st1 => polyRows vc ve COMF rest st1

/-- The final `if (!v.isEmpty()) path.append(v); return path;`. -/
def polyFlush (st : PolyState) : Polygon :=
  if st.2.isEmpty then st.1 else st.1 ++ [st.2]

/-- `MapData::polyGeometry`. -/
def polyGeometry (r : Record) (vc ve : RecordMap) (COMF : Nat) : Polygon :=
  match r.field "FSPT" with
  | none => []
  | some FSPT =>
    if (FSPT.row 0).length ≠ 4 then []
    else
      match polyRows vc ve COMF FSPT.data ([], []) with
      | none => []
      | some st => polyFlush st

end ENC

namespace ENC

/-! ## The edge of a pointer row, in the words of the specification -/

/-- The stored data of a resolved edge: raw coordinates of the begin node, of
the end node, and of the interior vertices in stored order (x, y). -/
structure EdgeData where
  c0 : Int × Int
  c1 : Int × Int
  vs : List (Int × Int)
deriving DecidableEq, Repr

/-- A stored integer pair in real-world units: each integer divided by COMF. -/
def scaled (COMF : Nat) (p : Int × Int) : Coordinates :=
  ⟨Dbl.ofDiv p.1 COMF, Dbl.ofDiv p.2 COMF⟩

/-- The vertex sequence an edge contributes, in the words of the
specification: `[c0, v1, ..., vn, c1]`, reversed when the orientation flag
is 2. -/
def edgePathSpec (COMF ORNT : Nat) (e : EdgeData) : List Coordinates :=
  let stored := scaled COMF e.c0 :: (e.vs.map (scaled COMF) ++ [scaled COMF e.c1])
  if ORNT = 2 then stored.reverse else stored

/-- The stored (x, y) of the first row of a record's coordinate field. -/
def rawPoint (r : Record) : Option (Int × Int) :=
  match SGXD r with
  | none => none
  | some f => some ((cell (f.row 0) 1).toInt, (cell (f.row 0) 0).toInt)

/-- The stored (x, y) pairs of all rows of a record's coordinate field. -/
def rawVertexes (r : Record) : List (Int × Int) :=
  match SGXD r with
  | none => []
  | some f => f.data.map (fun cv => ((cell cv 1).toInt, (cell cv 0).toInt))

/-- End `j` of the edge record `FRID` resolves to the stored pair `p`: row `j`
of `VRPT` names a connected node present in `vc` whose coordinate field starts
with `p`, and `p` scaled is not the null coordinate. -/
def NodeResolves (vc : RecordMap) (COMF : Nat) (VRPT : Field) (j : Nat) (p : Int × Int) : Prop :=
  ∃ id n, parseNAME VRPT j = some (RCNM_VC, id) ∧ vc.find id = some n ∧
    rawPoint n = some p ∧ (scaled COMF p).isNull = false

/-- The pointer row resolves completely, to orientation `ORNT` and edge data
`e`: it names an edge present in `ve` whose `VRPT` field has two rows, both
ends resolve, and `e.vs` are the edge's stored interior vertices. -/
def RowResolves (vc ve : RecordMap) (COMF : Nat) (row : List QVariant) (ORNT : Nat)
    (e : EdgeData) : Prop :=
  ∃ id FRID VRPT, edgeName row = some id ∧ (cell row 1).toUInt = ORNT ∧
    ve.find id = some FRID ∧ FRID.field "VRPT" = some VRPT ∧ VRPT.data.length = 2 ∧
    NodeResolves vc COMF VRPT 0 e.c0 ∧ NodeResolves vc COMF VRPT 1 e.c1 ∧
    rawVertexes FRID = e.vs

end ENC

namespace ENC

/-! ## A small dataset used to instantiate the theorems -/

namespace Sample

/-- A pointer name: record class and a one-byte record id. -/
def name (rcnm id : Nat) : QVariant := QVariant.bytes [rcnm, id, 0, 0, 0]

/-- A vector record: `0001`, `VRID` (RCNM, RCID, RVER, RUIN), then the given
fields. -/
def vector (rcnm id : Nat) (fields : List Field) : Record :=
  ⟨"0001", [], [[QVariant.uint id]]⟩ ::
  ⟨"VRID", ["RCNM", "RCID", "RVER", "RUIN"],
    [[QVariant.uint rcnm, QVariant.uint id, QVariant.uint 1, QVariant.uint 1]]⟩ :: fields

/-- An `SG2D` field with the given (y, x) rows. -/
def sg2d (rows : List (Int × Int)) : Field :=
  ⟨"SG2D", ["YCOO", "XCOO"], rows.map (fun p => [QVariant.int p.1, QVariant.int p.2])⟩

/-- A `VRPT` field naming the begin and the end node of an edge. -/
def vrpt (b e : Nat) : Field :=
  ⟨"VRPT", ["NAME", "ORNT", "USAG", "TOPI", "MASK"],
    [[name 120 b, QVariant.uint 255, QVariant.uint 255, QVariant.uint 1, QVariant.uint 255],
     [name 120 e, QVariant.uint 255, QVariant.uint 255, QVariant.uint 2, QVariant.uint 255]]⟩

/-- An `FSPT` field with one row per (record class, id, ORNT, USAG). -/
def fspt (rows : List (Nat × Nat × Nat × Nat)) : Field :=
  ⟨"FSPT", ["NAME", "ORNT", "USAG", "MASK"],
    rows.map (fun p => [name p.1 p.2.1, QVariant.uint p.2.2.1, QVariant.uint p.2.2.2,
      QVariant.uint 255])⟩

/-- A feature record: `0001`, `FRID` (RCNM, RCID, PRIM, GRUP, OBJL, RVER,
RUIN), `FOID`, then the given fields. -/
def feature (id prim objl : Nat) (fields : List Field) : Record :=
  ⟨"0001", [], [[QVariant.uint id]]⟩ ::
  ⟨"FRID", ["RCNM", "RCID", "PRIM", "GRUP", "OBJL", "RVER", "RUIN"],
    [[QVariant.uint 100, QVariant.uint id, QVariant.uint prim, QVariant.uint 2,
      QVariant.uint objl, QVariant.uint 1, QVariant.uint 1]]⟩ ::
  ⟨"FOID", ["AGEN", "FIDN", "FIDS"],
    [[QVariant.uint 1, QVariant.uint id, QVariant.uint 1]]⟩ :: fields

/-- Connected nodes 1, 2, 3 at stored (x, y) = (10, 20), (30, 40), (10, 20). -/
def vc : RecordMap :=
  [(1, vector 120 1 [sg2d [(20, 10)]]), (2, vector 120 2 [sg2d [(40, 30)]]),
   (3, vector 120 3 [sg2d [(20, 10)]])]

/-- Edge 7 from node 1 to node 2 through (15, 25); edge 8 from node 2 to node 3
without interior vertices; edge 9 from node 1 to node 1 through (12, 22). -/
def ve : RecordMap :=
  [(7, vector 130 7 [vrpt 1 2, sg2d [(25, 15)]]), (8, vector 130 8 [vrpt 2 3]),
   (9, vector 130 9 [vrpt 1 1, sg2d [(22, 12)]])]

/-- The pointer list of `lineFeature`: edge 7 forward, then edge 8 reversed. -/
def lineFSPT : Field := fspt [(130, 7, 1, 255), (130, 8, 2, 255)]

/-- A line feature of object class 43. -/
def lineFeature : Record := feature 5 2 43 [lineFSPT]

end Sample

end ENC

namespace ENC

namespace Sample

/-- An area feature of object class 42 whose two pointer rows both carry usage
flag 1: the closed edge 9, then edge 7. -/
def areaOuterOnly : Record := feature 6 3 42 [fspt [(130, 9, 1, 1), (130, 7, 1, 1)]]

/-- Pointer rows of `areaTwoRings`: edges 7 and 8 with usage flag 1 (a closed
outer boundary), then the closed edge 9 twice with usage flag 2. -/
def areaRows : List (Nat × Nat × Nat × Nat) :=
  [(130, 7, 1, 1), (130, 8, 1, 1), (130, 9, 1, 2), (130, 9, 1, 2)]

/-- An area feature of object class 42 over `areaRows`. -/
def areaTwoRings : Record := feature 7 3 42 [fspt areaRows]

end Sample

end ENC

namespace ENC

/-! ## Object classes, attributes and the three kinds of object -/

/-- The object-class and attribute codes of `objects.h` and `attributes.h`
that `mapdata.cpp` names. The two headers are not part of the sources, so the
codes are a parameter of everything that uses them. -/
structure Codes where
  ACHARE : Nat
  BUAARE : Nat
  BUISGL : Nat
  CURENT : Nat
  DEPARE : Nat
  DEPCNT : Nat
  HRBFAC : Nat
  LNDELV : Nat
  LNDMRK : Nat
  MARKUL : Nat
  MORFAC : Nat
  RCRTCL : Nat
  RDOCAL : Nat
  RECTRC : Nat
  RESARE : Nat
  SISTAT : Nat
  SMCFAC : Nat
  SOUNDG : Nat
  TSSLPT : Nat
  UWTROC : Nat
  WATTUR : Nat
  WRECKS : Nat
  I_ACHARE : Nat
  I_BERTHS : Nat
  I_DISMAR : Nat
  I_HRBFAC : Nat
  I_RDOCAL : Nat
  I_RESARE : Nat
  I_SISTAT : Nat
  CATACH : Nat
  CATBUA : Nat
  CATDIS : Nat
  CATHAF : Nat
  CATLMK : Nat
  CATMFA : Nat
  CATMOR : Nat
  CATREA : Nat
  CATSCF : Nat
  CATSIT : Nat
  CATTRK : Nat
  CATWAT : Nat
  CATWRK : Nat
  COMCHA : Nat
  CURVEL : Nat
  DRVAL1 : Nat
  ELEVAT : Nat
  FUNCTN : Nat
  OBJNAM : Nat
  ORIENT : Nat
  RESTRN : Nat
  VALDCO : Nat
  WATLEV : Nat
  I_CATACH : Nat
  I_CATBRT : Nat
  I_CATHAF : Nat
  I_CATSIT : Nat
  I_HUNITS : Nat
  I_RESTRN : Nat
  I_WTWDIS : Nat
deriving DecidableEq, Repr

/-- Modelled from the spec: the macro `SUBTYPE(c, s)` of `objects.h`, a 32-bit
type with the object class in the high 16 bits and the subtype below. -/
def SUBTYPE (c s : Nat) : Nat := ((c <<< 16) ||| s) % 2 ^ 32

/-- Modelled from the spec: the macro `TYPE(c)` of `objects.h`. -/
def TYPE (c : Nat) : Nat := (c <<< 16) % 2 ^ 32

/-- One piece of a `QString`: a character, or the text `QString::number`
prints for a double (kept symbolic). -/
inductive Piece
  | ch (c : Nat)
  | num (d : Dbl)
deriving DecidableEq, Repr

/-- A `QString`. -/
abbrev QString := List Piece

/-- `QString::fromLatin1(ba)`. -/
def fromLatin1 (ba : List Nat) : QString := ba.map Piece.ch

/-- A string literal. -/
def lit (s : String) : QString := s.toList.map (fun c => Piece.ch c.toNat)

/-- Digits after a decimal point: the value `acc / 10 ^ k` continued. -/
def fraction? : List Nat → Nat → Nat → Option (Nat × Nat)
  | [], acc, k => some (acc, k)
  | b :: bs, acc, k =>
    match digit? b with
    | none => none
    | some d => fraction? bs (acc * 10 + d) (k + 1)

/-- Unsigned decimal text `digits[.digits]` as numerator and power of ten. -/
def decimal? (b : List Nat) : Option (Nat × Nat) :=
  match b.span (fun c => c ≠ 46) with
  | ([], _) => none
  | (ip, []) => (digits? ip 0).map (fun n => (n, 0))
  | (ip, _ :: fp) =>
    match digits? ip 0 with
    | none => none
    | some n => fraction? fp n 0

/-- `QByteArray::toDouble()` on plain decimal text (sign, digits, optional
fraction); 0 when the text is not of that form. Exponents and the special
values of the library are not modelled. -/
def baToDouble (b : List Nat) : Dbl :=
  match b with
  | 45 :: rest =>
    match decimal? rest with
    | some (n, k) => Dbl.quot (-(n : Int)) (10 ^ k)
    | none => Dbl.quot 0 1
  | _ =>
    match decimal? b with
    | some (n, k) => Dbl.quot (n : Int) (10 ^ k)
    | none => Dbl.quot 0 1

/-- `depthLevel(ba)`. -/
def depthLevel (ba : List Nat) : Nat :=
  let minDepth := if ba.isEmpty then Dbl.quot (-1) 1 else baToDouble ba
  if Dbl.lt minDepth (Dbl.quot 0 1) then 0
  else if Dbl.lt minDepth (Dbl.quot 2 1) then 1
  else if Dbl.lt minDepth (Dbl.quot 5 1) then 2
  else if Dbl.lt minDepth (Dbl.quot 10 1) then 3
  else if Dbl.lt minDepth (Dbl.quot 20 1) then 4
  else if Dbl.lt minDepth (Dbl.quot 50 1) then 5
  else 6

/-- `hUnits(type)`. -/
def hUnits (type : Nat) : QString :=
  if type = 1 then lit "m"
  else if type = 2 then lit "ft"
  else if type = 3 then lit "km"
  else if type = 4 then lit "hm"
  else if type = 5 then lit "mi"
  else if type = 6 then lit "nm"
  else []

/-- `sistat(type)`. -/
def sistat (type : Nat) : QString :=
  if type = 1 then lit "SS (Port Control)"
  else if type = 3 then lit "SS (INT)"
  else if type = 6 then lit "SS (Lock)"
  else if type = 8 then lit "SS (Bridge)"
  else lit "SS"

/-- `MapData::Attr`: subtype, label and parameters of a feature. -/
structure Attr where
  subtype : Nat
  label : QString
  params : List (List Nat)
deriving DecidableEq, Repr

/-- Modelled from the spec: the default-constructed `Attr()` (declared in
`mapdata.h`): subtype 0, no label, no parameters. -/
def Attr.default : Attr := ⟨0, [], []⟩

/-- `params[i] = v` on a `QVector<QByteArray>`. -/
def setParam (params : List (List Nat)) (i : Nat) (v : List Nat) : List (List Nat) :=
  params.set i v

/-- One pass of the loop of `pointAttr` over the `ATTF` row `av`. -/
def pointAttrRow (k : Codes) (OBJL : Nat) (a : Attr) (av : List QVariant) : Attr :=
  let key := (cell av 0).toUInt
  let val := (cell av 1).toByteArray
  let label := if key = k.OBJNAM then fromLatin1 val else a.label
  let subtype :=
    if (OBJL = k.HRBFAC ∧ key = k.CATHAF)
        ∨ (OBJL = k.I_HRBFAC ∧ key = k.I_CATHAF)
        ∨ (OBJL = k.LNDMRK ∧ key = k.CATLMK)
        ∨ (OBJL = k.WRECKS ∧ key = k.CATWRK)
        ∨ (OBJL = k.MORFAC ∧ key = k.CATMOR)
        ∨ (OBJL = k.UWTROC ∧ key = k.WATLEV)
        ∨ (OBJL = k.BUAARE ∧ key = k.CATBUA)
        ∨ (OBJL = k.SMCFAC ∧ key = k.CATSCF)
        ∨ (OBJL = k.BUISGL ∧ key = k.FUNCTN)
        ∨ (OBJL = k.WATTUR ∧ key = k.CATWAT)
        ∨ (OBJL = k.SISTAT ∧ key = k.CATSIT)
        ∨ (OBJL = k.I_SISTAT ∧ key = k.I_CATSIT) then baToUInt val
    else if OBJL = k.I_DISMAR ∧ key = k.CATDIS then a.subtype ||| baToUInt val
    else if OBJL = k.I_DISMAR ∧ key = k.I_HUNITS then
      a.subtype ||| ((baToUInt val <<< 8) % 2 ^ 32)
    else a.subtype
  let params0 :=
    if (OBJL = k.I_DISMAR ∧ key = k.I_WTWDIS)
        ∨ (OBJL = k.RDOCAL ∧ key = k.ORIENT)
        ∨ (OBJL = k.I_RDOCAL ∧ key = k.ORIENT)
        ∨ (OBJL = k.CURENT ∧ key = k.ORIENT)
        ∨ (OBJL = k.LNDELV ∧ key = k.ELEVAT) then setParam a.params 0 val
    else a.params
  let params1 :=
    if (OBJL = k.I_RDOCAL ∧ key = k.COMCHA)
        ∨ (OBJL = k.RDOCAL ∧ key = k.COMCHA)
        ∨ (OBJL = k.CURENT ∧ key = k.CURVEL) then setParam params0 1 val
    else params0
  ⟨subtype, label, params1⟩

/-- `MapData::pointAttr`. -/
def pointAttr (k : Codes) (r : Record) (OBJL : Nat) : Attr :=
  match r.field "ATTF" with
  | none => Attr.default
  | some ATTF =>
    if (ATTF.row 0).length ≠ 2 then Attr.default
    else ATTF.data.foldl (pointAttrRow k OBJL) ⟨0, [], [[], []]⟩

/-- One pass of the loop of `lineAttr`. -/
def lineAttrRow (k : Codes) (OBJL : Nat) (a : Attr) (av : List QVariant) : Attr :=
  let key := (cell av 0).toUInt
  let val := (cell av 1).toByteArray
  let label := if key = k.OBJNAM then fromLatin1 val else a.label
  let subtype :=
    if (OBJL = k.RECTRC ∨ OBJL = k.RCRTCL) ∧ key = k.CATTRK then baToUInt val
    else a.subtype
  let params :=
    if (OBJL = k.DEPCNT ∧ key = k.VALDCO) ∨ (OBJL = k.LNDELV ∧ key = k.ELEVAT) then
      setParam a.params 0 val
    else a.params
  ⟨subtype, label, params⟩

/-- `MapData::lineAttr`. -/
def lineAttr (k : Codes) (r : Record) (OBJL : Nat) : Attr :=
  match r.field "ATTF" with
  | none => Attr.default
  | some ATTF =>
    if (ATTF.row 0).length ≠ 2 then Attr.default
    else ATTF.data.foldl (lineAttrRow k OBJL) ⟨0, [], [[]]⟩

/-- One pass of the loop of `polyAttr`. -/
def polyAttrRow (k : Codes) (OBJL : Nat) (a : Attr) (av : List QVariant) : Attr :=
  let key := (cell av 0).toUInt
  let val := (cell av 1).toByteArray
  let subtype :=
    if (OBJL = k.RESARE ∧ key = k.CATREA)
        ∨ (OBJL = k.I_RESARE ∧ key = k.CATREA)
        ∨ (OBJL = k.ACHARE ∧ key = k.CATACH)
        ∨ (OBJL = k.I_ACHARE ∧ key = k.I_CATACH)
        ∨ (OBJL = k.HRBFAC ∧ key = k.CATHAF)
        ∨ (OBJL = k.MARKUL ∧ key = k.CATMFA)
        ∨ (OBJL = k.I_BERTHS ∧ key = k.I_CATBRT) then baToUInt val
    else if (OBJL = k.RESARE ∧ key = k.RESTRN) ∨ (OBJL = k.I_RESARE ∧ key = k.I_RESTRN) then
      let s1 := if baToUInt val = 1 then 2 else a.subtype
      if baToUInt val = 7 then 17 else s1
    else a.subtype
  let params :=
    if (OBJL = k.TSSLPT ∧ key = k.ORIENT) ∨ (OBJL = k.DEPARE ∧ key = k.DRVAL1) then
      setParam a.params 0 val
    else a.params
  ⟨subtype, a.label, params⟩

/-- `MapData::polyAttr`. -/
def polyAttr (k : Codes) (r : Record) (OBJL : Nat) : Attr :=
  match r.field "ATTF" with
  | none => Attr.default
  | some ATTF =>
    if (ATTF.row 0).length ≠ 2 then Attr.default
    else ATTF.data.foldl (polyAttrRow k OBJL) ⟨0, [], [[]]⟩

end ENC

namespace ENC

/-- Modelled from the spec: `RectC`, a rectangle in real-world coordinates given
by its top-left and bottom-right corners. -/
structure RectC where
  tl : Coordinates
  br : Coordinates
deriving DecidableEq, Repr

namespace RectC

/-- `RectC()`. -/
def null : RectC := ⟨Coordinates.null, Coordinates.null⟩

def isNull (r : RectC) : Bool := r.tl.isNull && r.br.isNull

def left (r : RectC) : Dbl := r.tl.lon
def top (r : RectC) : Dbl := r.tl.lat
def right (r : RectC) : Dbl := r.br.lon
def bottom (r : RectC) : Dbl := r.br.lat

/-- Modelled from the spec: `RectC::isValid()`; a rectangle is valid when it
is neither degenerate nor inverted, that is when its left edge is strictly
west of its right edge and its bottom edge strictly south of its top edge. -/
def isValid (r : RectC) : Bool := Dbl.lt r.left r.right && Dbl.lt r.bottom r.top

/-- Modelled from the spec: `RectC::united(c)`, the bounding box grown to
hold `c`; a null point changes nothing and a null rectangle becomes the
point. -/
def united (r : RectC) (c : Coordinates) : RectC :=
  if c.isNull then r
  else if r.isNull then ⟨c, c⟩
  else
    let l := if Dbl.lt c.lon r.left then c.lon else r.left
    let rt := if Dbl.lt r.right c.lon then c.lon else r.right
    let t := if Dbl.lt r.top c.lat then c.lat else r.top
    let b := if Dbl.lt c.lat r.bottom then c.lat else r.bottom
    ⟨⟨l, t⟩, ⟨rt, b⟩⟩

end RectC

/-- `MapData::Point` (the sort key `_id` is a function of type and position
and is not stored here). -/
structure Point where
  type : Nat
  pos : Coordinates
  label : QString
  param : Option Dbl
deriving DecidableEq, Repr

/-- `MapData::Line`. -/
structure Line where
  type : Nat
  path : List Coordinates
  label : QString
deriving DecidableEq, Repr

/-- `MapData::Poly`. -/
structure Poly where
  type : Nat
  path : Polygon
  param : Option Dbl
deriving DecidableEq, Repr

/-- `params.at(i)`. -/
def paramAt (params : List (List Nat)) (i : Nat) : List Nat := params.getD i []

/-- The thin space of the `"\xE2\x80\x89"` literals. -/
def thinSpace : Piece := Piece.ch 8201

/-- `MapData::Point::Point(type, c, label, params)`. -/
def Point.new (k : Codes) (type : Nat) (c : Coordinates) (label : QString)
    (params : List (List Nat)) : Point :=
  let cls := type >>> 16
  if cls = k.I_DISMAR ∧ params.length ≠ 0 then
    ⟨SUBTYPE k.I_DISMAR (type &&& 255), c,
      hUnits ((type >>> 8) &&& 255) ++ lit " " ++ fromLatin1 (paramAt params 0), none⟩
  else if (cls = k.I_RDOCAL ∨ cls = k.RDOCAL) ∧ 1 < params.length then
    ⟨type, c,
      if (paramAt params 1).isEmpty then label else lit "VHF " ++ fromLatin1 (paramAt params 1),
      some (baToDouble (paramAt params 0))⟩
  else if cls = k.CURENT ∧ 1 < params.length then
    ⟨type, c,
      if (paramAt params 1).isEmpty then label
      else fromLatin1 (paramAt params 1) ++ [thinSpace] ++ lit "kt",
      some (baToDouble (paramAt params 0))⟩
  else if cls = k.I_SISTAT ∨ cls = k.SISTAT then
    ⟨TYPE k.SISTAT, c, if label.isEmpty then sistat (type &&& 255) else label, none⟩
  else if cls = k.LNDELV ∧ params.length ≠ 0 then
    ⟨type, c,
      if label.isEmpty then fromLatin1 (paramAt params 0) ++ [thinSpace] ++ lit "m"
      else label ++ (lit "\n(" ++ fromLatin1 (paramAt params 0) ++ [thinSpace] ++ lit "m)"),
      none⟩
  else ⟨type, c, label, none⟩

/-- `MapData::Poly::Poly(type, path, params)`. -/
def Poly.new (k : Codes) (type : Nat) (path : Polygon) (params : List (List Nat)) : Poly :=
  if type = TYPE k.DEPARE ∧ params.length ≠ 0 then
    ⟨SUBTYPE k.DEPARE (depthLevel (paramAt params 0)), path, none⟩
  else if type = TYPE k.TSSLPT ∧ params.length ≠ 0 then
    ⟨type, path, some (baToDouble (paramAt params 0))⟩
  else ⟨type, path, none⟩

/-- `MapData::Line::Line(type, path, label, params)`. -/
def Line.new (k : Codes) (type : Nat) (path : List Coordinates) (label : QString)
    (params : List (List Nat)) : Line :=
  if (type = TYPE k.DEPCNT ∨ type = TYPE k.LNDELV) ∧ params.length ≠ 0 then
    ⟨type, path, fromLatin1 (paramAt params 0)⟩
  else ⟨type, path, label⟩

/-- `MapData::Line::bounds()`. -/
def Line.bounds (l : Line) : RectC := l.path.foldl RectC.united RectC.null

/-- Modelled from the spec: `MapData::Poly::bounds()`, the bounding box of all
vertices of all rings. -/
def Poly.bounds (p : Poly) : RectC := p.path.flatten.foldl RectC.united RectC.null

/-- `MapData::pointObject(s)` for a sounding. -/
def pointObjectSounding (k : Codes) (s : Sounding) : Point :=
  Point.new k (TYPE k.SOUNDG) s.c [Piece.num s.depth] []

/-- `MapData::pointObject(r, vi, vc, COMF, OBJL)`; `none` is the null pointer. -/
def pointObject (k : Codes) (r : Record) (vi vc : RecordMap) (COMF OBJL : Nat) :
    Option Point :=
  let c := pointGeometry r vi vc COMF
  let attr := pointAttr k r OBJL
  if c.isNull then none
  else some (Point.new k (SUBTYPE OBJL attr.subtype) c attr.label attr.params)

/-- `MapData::lineObject`. -/
def lineObject (k : Codes) (r : Record) (vc ve : RecordMap) (COMF OBJL : Nat) :
    Option Line :=
  let path := lineGeometry r vc ve COMF
  let attr := lineAttr k r OBJL
  if path.isEmpty then none
  else some (Line.new k (SUBTYPE OBJL attr.subtype) path attr.label attr.params)

/-- `MapData::polyObject`. -/
def polyObject (k : Codes) (r : Record) (vc ve : RecordMap) (COMF OBJL : Nat) :
    Option Poly :=
  let path := polyGeometry r vc ve COMF
  let attr := polyAttr k r OBJL
  if path.isEmpty then none
  else some (Poly.new k (SUBTYPE OBJL attr.subtype) path attr.params)

/-! ## The full pass -/

/-- The output arguments of the full-pass `processRecord`. -/
structure FullPass where
  fe : List Record
  vi : RecordMap
  vc : RecordMap
  ve : RecordMap
  vf : RecordMap
  COMF : Nat
  SOMF : Nat
deriving DecidableEq, Repr

/-- The locals of `load` before the first record: empty collections,
`COMF = 1`, `SOMF = 1`. -/
def FullPass.init : FullPass := ⟨[], [], [], [], [], 1, 1⟩

/-- `MapData::processRecord(record, fe, vi, vc, ve, vf, COMF, SOMF)`: the
return value and the output arguments. -/
def processRecordFull (record : Record) (s : FullPass) : Bool × FullPass :=
  match record with
  | _ :: f :: _ =>
    if f.tag = "VRID" then
      if (f.row 0).length < 2 then (false, s)
      else
        let RCNM := (cell (f.row 0) 0).toInt
        let RCID := (cell (f.row 0) 1).toUInt
        if RCNM = (RCNM_VI : Int) then (true, { s with vi := s.vi.insert RCID record })
        else if RCNM = (RCNM_VC : Int) then (true, { s with vc := s.vc.insert RCID record })
        else if RCNM = (RCNM_VE : Int) then (true, { s with ve := s.ve.insert RCID record })
        else if RCNM = (RCNM_VF : Int) then (true, { s with vf := s.vf.insert RCID record })
        else (false, s)
    else if f.tag = "FRID" then (true, { s with fe := s.fe ++ [record] })
    else if f.tag = "DSPM" then
      match f.subfieldUInt "COMF" with
      | none => (false, s)
      | some c =>
        match f.subfieldUInt "SOMF" with
        | none => (false, { s with COMF := c })
        | some d => (true, { s with COMF := c, SOMF := d })
    else (true, s)
  | _ => (false, s)

/-- What `load` logs with `qWarning`. -/
inductive Warning
  | invalidRecord
  | invalidFeature (RCID PRIM : Nat)
deriving DecidableEq, Repr

/-- An entry of an R-tree: the box it was inserted with and the object. -/
structure Entry (α : Type) where
  min : Dbl × Dbl
  max : Dbl × Dbl
  obj : α
deriving DecidableEq, Repr

/-- The three spatial indices of a `MapData` (`_points`, `_lines`, `_areas`),
each as the list of its entries in insertion order, and the warnings logged. -/
structure Indices where
  points : List (Entry Point)
  lines : List (Entry Line)
  areas : List (Entry Poly)
  warnings : List Warning
deriving DecidableEq, Repr

def Indices.empty : Indices := ⟨[], [], [], []⟩

/-- `pointBounds(c, min, max)` followed by `_points.Insert(min, max, point)`. -/
def pointEntry (p : Point) : Entry Point :=
  ⟨(p.pos.lon, p.pos.lat), (p.pos.lon, p.pos.lat), p⟩

/-- `rectcBounds(rect, min, max)`. -/
def rectcBounds (rect : RectC) : (Dbl × Dbl) × (Dbl × Dbl) :=
  ((rect.left, rect.bottom), (rect.right, rect.top))

/-- `warning(FRID, PRIM)`: logs for the three primitive kinds only. -/
def warning (FRID : Field) (PRIM : Nat) (w : List Warning) : List Warning :=
  let RCID := (FRID.subfieldUInt "RCID").getD 4294967295
  if PRIM = PRIM_P ∨ PRIM = PRIM_L ∨ PRIM = PRIM_A then w ++ [Warning.invalidFeature RCID PRIM]
  else w

/-- The body of the `for` loop of `load` over the feature records. -/
def loadFeature (k : Codes) (s : FullPass) (idx : Indices) (r : Record) : Indices :=
  match r with
  | _ :: f :: _ =>
    if (f.row 0).length < 5 then idx
    else
      let PRIM := (cell (f.row 0) 2).toUInt
      let OBJL := (cell (f.row 0) 4).toUInt
      if PRIM = PRIM_P then
        if OBJL = k.SOUNDG then
          let snd := soundingGeometry r s.vi s.vc s.COMF s.SOMF
          { idx with points := idx.points ++ snd.map (fun x => pointEntry (pointObjectSounding k x)) }
        else
          match pointObject k r s.vi s.vc s.COMF OBJL with
          | some p => { idx with points := idx.points ++ [pointEntry p] }
          | none => { idx with warnings := warning f PRIM idx.warnings }
      else if PRIM = PRIM_L then
        match lineObject k r s.vc s.ve s.COMF OBJL with
        | some l =>
          let b := rectcBounds l.bounds
          { idx with lines := idx.lines ++ [⟨b.1, b.2, l⟩] }
        | none => { idx with warnings := warning f PRIM idx.warnings }
      else if PRIM = PRIM_A then
        match polyObject k r s.vc s.ve s.COMF OBJL with
        | some p =>
          let b := rectcBounds p.bounds
          { idx with areas := idx.areas ++ [⟨b.1, b.2, p⟩] }
        | none => { idx with warnings := warning f PRIM idx.warnings }
      else idx
  | _ => idx

/-- The `for` loop of `load` over the feature records `s.fe`. -/
def loadFeatures (k : Codes) (s : FullPass) (fe : List Record) (idx : Indices) : Indices :=
  fe.foldl (loadFeature k s) idx

/-- The `while (ddf.readRecord(record))` loop of `load`: every record is
offered to `processRecord`; a rejected record is logged and the loop goes
on. -/
def readRecords : List Record → FullPass × List Warning → FullPass × List Warning
  | [], st => st
  | record :: rest, (s, w) =>
    let res := processRecordFull record s
    readRecords rest (res.2, if res.1 then w else w ++ [Warning.invalidRecord])

/-- `MapData::load()` on a container whose descriptive record was read
(`ddrOk`) and whose data records are `records`, starting from the indices
`idx` the object holds. -/
def load (k : Codes) (ddrOk : Bool) (records : List Record) (idx : Indices) : Indices :=
  if ddrOk then
    let st := readRecords records (FullPass.init, idx.warnings)
    loadFeatures k st.1 st.1.fe { idx with warnings := st.2 }
  else idx

end ENC

namespace ENC

/-- The pointer list of the feature record `r` cannot be resolved: the
geometry function that `load` applies to it (chosen by PRIM and OBJL as in
`load`) returns the null or the empty geometry. -/
def unresolved (k : Codes) (s : FullPass) (r : Record) : Bool :=
  match r with
  | _ :: f :: _ =>
    let PRIM := (cell (f.row 0) 2).toUInt
    let OBJL := (cell (f.row 0) 4).toUInt
    if PRIM = PRIM_P then
      if OBJL = k.SOUNDG then (soundingGeometry r s.vi s.vc s.COMF s.SOMF).isEmpty
      else (pointGeometry r s.vi s.vc s.COMF).isNull
    else if PRIM = PRIM_L then (lineGeometry r s.vc s.ve s.COMF).isEmpty
    else if PRIM = PRIM_A then (polyGeometry r s.vc s.ve s.COMF).isEmpty
    else false
  | _ => false

/-- Two states of a `MapData` hold the same three indices. -/
def Indices.sameObjects (a b : Indices) : Prop :=
  a.points = b.points ∧ a.lines = b.lines ∧ a.areas = b.areas

namespace Sample

/-- Sample codes: the object classes used below carry their S-57 catalogue
numbers (`LNDMRK` = 74, `SOUNDG` = 129, `DEPARE` = 42, `DEPCNT` = 43); the
remaining codes are pairwise different numbers. -/
def codes : Codes :=
  { ACHARE := 4, BUAARE := 13, BUISGL := 12, CURENT := 36, DEPARE := 42, DEPCNT := 43,
    HRBFAC := 64, LNDELV := 72, LNDMRK := 74, MARKUL := 82, MORFAC := 84, RCRTCL := 108,
    RDOCAL := 104, RECTRC := 109, RESARE := 112, SISTAT := 123, SMCFAC := 128,
    SOUNDG := 129, TSSLPT := 148, UWTROC := 153, WATTUR := 156, WRECKS := 159,
    I_ACHARE := 17000, I_BERTHS := 17001, I_DISMAR := 17002, I_HRBFAC := 17003,
    I_RDOCAL := 17004, I_RESARE := 17005, I_SISTAT := 17006,
    CATACH := 8, CATBUA := 10, CATDIS := 17, CATHAF := 30, CATLMK := 35, CATMFA := 38,
    CATMOR := 40, CATREA := 56, CATSCF := 65, CATSIT := 62, CATTRK := 67, CATWAT := 70,
    CATWRK := 71, COMCHA := 77, CURVEL := 84, DRVAL1 := 87, ELEVAT := 90, FUNCTN := 94,
    OBJNAM := 116, ORIENT := 117, RESTRN := 131, VALDCO := 174, WATLEV := 187,
    I_CATACH := 18000, I_CATBRT := 18001, I_CATHAF := 18002, I_CATSIT := 18003,
    I_HUNITS := 18004, I_RESTRN := 18005, I_WTWDIS := 18006 }

/-- The record set of the samples: nodes `vc`, edges `ve`, COMF = 100. -/
def pass : FullPass := ⟨[], [], vc, ve, [], 100, 10⟩

/-- A line feature whose first pointer row resolves (edge 7) and whose second
row names edge 99, which is absent from `ve`. -/
def lineDangling : Record := feature 8 2 43 [fspt [(130, 7, 1, 255), (130, 99, 1, 255)]]

end Sample

end ENC

namespace ENC

namespace Sample

/-- A `DSPM` record with the given coordinate and sounding multipliers. -/
def dspm (COMF SOMF : Nat) : Record :=
  [⟨"0001", [], [[QVariant.uint 0]]⟩,
   ⟨"DSPM", ["RCNM", "RCID", "HDAT", "VDAT", "SDAT", "CSCL", "DUNI", "HUNI", "PUNI", "COUN",
      "COMF", "SOMF", "COMT"],
    [[QVariant.uint 20, QVariant.uint 1, QVariant.uint 2, QVariant.uint 17, QVariant.uint 23,
      QVariant.uint 50000, QVariant.uint 1, QVariant.uint 1, QVariant.uint 1, QVariant.uint 1,
      QVariant.uint COMF, QVariant.uint SOMF, QVariant.bytes []]]⟩]

/-- The point feature of the end-to-end scenario: PRIM = 1, object class 74,
one pointer naming isolated node 1. -/
def pointFeature : Record := feature 1 1 74 [fspt [(110, 1, 255, 255)]]

/-- The record stream of the end-to-end scenario: COMF = 10000000, isolated
node 1 at stored (x, y) = (1000000, 2000000), and `pointFeature`. -/
def pointStream : List Record :=
  [dspm 10000000 10, vector 110 1 [sg2d [(2000000, 1000000)]], pointFeature]

end Sample

end ENC

namespace ENC

/-! ## The validate pass -/

def INT_MAX : Int := 2147483647
def INT_MIN : Int := -2147483648

/-- Modelled from the spec: `MapData::Rect` (declared in `mapdata.h`), the
"running rectangle" of stored integer coordinates into which extents are
unioned. -/
structure Rect where
  minX : Int
  maxX : Int
  minY : Int
  maxY : Int
deriving DecidableEq, Repr

namespace Rect

/-- Modelled from the spec: `Rect()`, the rectangle that holds no point; its
minima are `INT_MAX` and its maxima `INT_MIN`. -/
def empty : Rect := ⟨INT_MAX, INT_MIN, INT_MAX, INT_MIN⟩

/-- Modelled from the spec: `Rect::unite(x, y)`. -/
def unite (r : Rect) (x y : Int) : Rect :=
  ⟨if x < r.minX then x else r.minX, if r.maxX < x then x else r.maxX,
   if y < r.minY then y else r.minY, if r.maxY < y then y else r.maxY⟩

/-- Modelled from the spec: `Rect::operator|=`. -/
def or (b r : Rect) : Rect :=
  ⟨if r.minX < b.minX then r.minX else b.minX, if b.maxX < r.maxX then r.maxX else b.maxX,
   if r.minY < b.minY then r.minY else b.minY, if b.maxY < r.maxY then r.maxY else b.maxY⟩

end Rect

/-- The `for` loop of `MapData::bounds(record, rect)` over the rows still to be
read: the return value and `rect`. A value that does not convert reads as 0 and
is united into `rect` before the function returns false. -/
def boundsRows : List (List QVariant) → Rect → Bool × Rect
  | [], rect => (true, rect)
  | c :: rest, rect =>
    let x := (cell c 1).toInt?
    let y := (cell c 0).toInt?
    let rect1 := rect.unite (x.getD 0) (y.getD 0)
    if x.isSome && y.isSome then boundsRows rest rect1 else (false, rect1)

/-- `MapData::bounds(record, rect)`. -/
def boundsRecord (record : Record) (rect : Rect) : Bool × Rect :=
  match SGXD record with
  | none => (true, rect)
  | some f => boundsRows f.data rect

/-- The `for` loop of `MapData::bounds(gv, b)` over the records still to be
read, `r` being the local rectangle and `b` the output argument. -/
def boundsLoop : List Record → Rect → Rect → Bool × Rect
  | [], _, b => (true, b)
  | g :: rest, r, b =>
    let res := boundsRecord g r
    if res.1 then boundsLoop rest res.2 (b.or res.2) else (false, b)

/-- `MapData::bounds(gv, b)`. -/
def bounds (gv : List Record) (b : Rect) : Bool × Rect := boundsLoop gv Rect.empty b

/-- The output arguments of the validate-pass `processRecord`. -/
structure ValidatePass where
  rv : List Record
  COMF : Nat
  name : List Nat
deriving DecidableEq, Repr

/-- `MapData::processRecord(record, rv, COMF, name)`: the return value and the
output arguments. -/
def processRecordValidate (record : Record) (s : ValidatePass) : Bool × ValidatePass :=
  match record with
  | _ :: f :: _ =>
    if f.tag = "VRID" then (true, { s with rv := s.rv ++ [record] })
    else if f.tag = "DSID" then
      match f.subfieldBytes "DSNM" with
      | none => (false, s)
      | some n => (true, { s with name := n })
    else if f.tag = "DSPM" then
      match f.subfieldUInt "COMF" with
      | none => (false, s)
      | some c => (true, { s with COMF := c })
    else (true, s)
  | _ => (false, s)

/-- The `while (ddf.readRecord(record))` loop of the constructor: it stops at
the first record `processRecord` rejects. -/
def validateRecords : List Record → ValidatePass → Bool × ValidatePass
  | [], s => (true, s)
  | record :: rest, s =>
    let res := processRecordValidate record s
    if res.1 then validateRecords rest res.2 else (false, res.2)

/-- Modelled from the spec: what the record reader hands to the constructor.
`ddrError` is the error string of a failed `readDDR`, `records` are the data
records read, `readError` is the error string the reader holds when the
records end (null when the stream just ended). By the spec the reader
"records a human-readable error string": `textual` says these strings are not
empty. -/
structure Container where
  ddrError : Option String
  records : List Record
  readError : Option String
deriving DecidableEq, Repr

/-- The reader's error strings are human-readable text: not empty. -/
def Container.textual (c : Container) : Prop :=
  c.ddrError ≠ some "" ∧ c.readError ≠ some ""

instance (c : Container) : Decidable c.textual := by
  unfold Container.textual
  infer_instance

/-- The members the constructor sets. -/
structure MapData where
  errorString : String
  name : List Nat
  bounds : RectC
deriving DecidableEq, Repr

/-- The rectangle the constructor builds from the integer bounds `b`:
top-left (minX/COMF, maxY/COMF), bottom-right (maxX/COMF, minY/COMF). -/
def boundsRect (b : Rect) (COMF : Nat) : RectC :=
  ⟨⟨Dbl.ofDiv b.minX COMF, Dbl.ofDiv b.maxY COMF⟩, ⟨Dbl.ofDiv b.maxX COMF, Dbl.ofDiv b.minY COMF⟩⟩

/-- `MapData::MapData(path)`, on what the reader finds at `path`. -/
def MapData.new (c : Container) : MapData :=
  match c.ddrError with
  | some e => ⟨e, [], RectC.null⟩
  | none =>
    let res := validateRecords c.records ⟨[], 1, []⟩
    if !res.1 then ⟨"Invalid S-57 record", res.2.name, RectC.null⟩
    else
      match c.readError with
      | some e => ⟨e, res.2.name, RectC.null⟩
      | none =>
        let bres := ENC.bounds res.2.rv Rect.empty
        if !bres.1 then ⟨"Error fetching geometries bounds", res.2.name, RectC.null⟩
        else
          let br := boundsRect bres.2 res.2.COMF
          if !br.isValid then ⟨"Invalid geometries bounds", res.2.name, RectC.null⟩
          else ⟨"", res.2.name, br⟩

/-- The rows of a record's coordinate field (`SG2D`, else `SG3D`); none when
the record has no coordinate field. -/
def coordinateRows (r : Record) : List (List QVariant) :=
  match SGXD r with
  | none => []
  | some f => f.data

/-- The x (subfield 1) or the y (subfield 0) of the row does not convert to an
integer. -/
def unparsable (row : List QVariant) : Bool :=
  (cell row 1).toInt?.isNone || (cell row 0).toInt?.isNone

/-- In the words of the specification: `u` is the union of the rectangle `b`
and the points `ps`, the smallest rectangle that holds them. -/
def Rect.IsUnion (b : Rect) (ps : List (Int × Int)) (u : Rect) : Prop :=
  (u.minX ≤ b.minX ∧ b.maxX ≤ u.maxX ∧ u.minY ≤ b.minY ∧ b.maxY ≤ u.maxY) ∧
  (∀ p ∈ ps, u.minX ≤ p.1 ∧ p.1 ≤ u.maxX ∧ u.minY ≤ p.2 ∧ p.2 ≤ u.maxY) ∧
  (u.minX = b.minX ∨ ∃ p ∈ ps, p.1 = u.minX) ∧
  (u.maxX = b.maxX ∨ ∃ p ∈ ps, p.1 = u.maxX) ∧
  (u.minY = b.minY ∨ ∃ p ∈ ps, p.2 = u.minY) ∧
  (u.maxY = b.maxY ∨ ∃ p ∈ ps, p.2 = u.maxY)

end ENC

namespace ENC

/-- The rectangle `r` after uniting the points `ps` into it one by one. -/
def uniteAll (ps : List (Int × Int)) (r : Rect) : Rect :=
  ps.foldl (fun r p => r.unite p.1 p.2) r

/-- The four numbers of the rectangle are values of an `int`. -/
def Rect.inRange (b : Rect) : Prop :=
  (INT_MIN ≤ b.minX ∧ b.minX ≤ INT_MAX) ∧ (INT_MIN ≤ b.maxX ∧ b.maxX ≤ INT_MAX) ∧
  (INT_MIN ≤ b.minY ∧ b.minY ≤ INT_MAX) ∧ (INT_MIN ≤ b.maxY ∧ b.maxY ≤ INT_MAX)

instance (b : Rect) : Decidable b.inRange := by
  unfold Rect.inRange
  infer_instance

namespace Sample

/-- Vector records for the validate pass: a node, an edge without coordinate
field, and an edge with two interior vertices. -/
def vectors : List Record :=
  [vector 120 1 [sg2d [(20, 10)]], vector 130 8 [vrpt 2 3],
   vector 130 7 [vrpt 1 2, sg2d [(25, 15), (-5, 40)]]]

end Sample

end ENC

namespace ENC

namespace Sample

/-- What the reader finds in a small valid dataset: a `DSPM` record with
COMF = 100, then `vectors`. -/
def container : Container := ⟨none, dspm 100 10 :: vectors, none⟩

end Sample

end ENC

namespace ENC

/-! ## Bounds against the objects of the full pass -/

/-- The point `c` lies in the rectangle `b` (edges included). -/
def RectC.holds (b : RectC) (c : Coordinates) : Prop :=
  Dbl.le b.left c.lon = true ∧ Dbl.le c.lon b.right = true ∧
  Dbl.le b.bottom c.lat = true ∧ Dbl.le c.lat b.top = true

/-- The box with corners `min` = (left, bottom) and `max` = (right, top) lies
in the rectangle `b`. -/
def RectC.holdsBox (b : RectC) (min max : Dbl × Dbl) : Prop :=
  b.holds ⟨min.1, min.2⟩ ∧ b.holds ⟨max.1, max.2⟩

/-- Every box under which an object was inserted lies in `b`. -/
def Indices.within (idx : Indices) (b : RectC) : Prop :=
  (∀ e ∈ idx.points, b.holdsBox e.min e.max) ∧
  (∀ e ∈ idx.lines, b.holdsBox e.min e.max) ∧
  (∀ e ∈ idx.areas, b.holdsBox e.min e.max)

/-- The boxes of all entries of the three indices. -/
def Indices.boxes (idx : Indices) : List ((Dbl × Dbl) × (Dbl × Dbl)) :=
  idx.points.map (fun e => (e.min, e.max)) ++ idx.lines.map (fun e => (e.min, e.max)) ++
    idx.areas.map (fun e => (e.min, e.max))

/-- The union of the bounding boxes of all objects in the three indices. -/
def Indices.unionOfBoxes (idx : Indices) : RectC :=
  idx.boxes.foldl (fun r b => (r.united ⟨b.1.1, b.1.2⟩).united ⟨b.2.1, b.2.2⟩) RectC.null

namespace Sample

/-- A valid dataset with COMF = 100, two isolated nodes at stored (10, 20) and
(30, 40), and one point feature of class 74 naming the first node; nothing
names the second node. -/
def spareNode : Container :=
  ⟨none,
   [dspm 100 10, vector 110 1 [sg2d [(20, 10)]], vector 110 2 [sg2d [(40, 30)]], pointFeature],
   none⟩

end Sample

end ENC

namespace ENC

/-- The stored pair `p` lies in the integer rectangle `b`. -/
def Rect.has (b : Rect) (p : Int × Int) : Prop :=
  b.minX ≤ p.1 ∧ p.1 ≤ b.maxX ∧ b.minY ≤ p.2 ∧ p.2 ≤ b.maxY

/-- The coordinate `c` is a stored pair of the coordinate field of one of the
records `rv`, scaled by COMF. -/
def Stored (rv : List Record) (COMF : Nat) (c : Coordinates) : Prop :=
  ∃ g ∈ rv, ∃ p ∈ rawVertexes g, c = scaled COMF p

/-- Every record held in the three maps the geometry functions read is one of
the records `rv`. -/
def FullPass.known (s : FullPass) (rv : List Record) : Prop :=
  (∀ p ∈ s.vi, p.2 ∈ rv) ∧ (∀ p ∈ s.vc, p.2 ∈ rv) ∧ (∀ p ∈ s.ve, p.2 ∈ rv)

end ENC

namespace ENC

/-- A coordinate field of the record is not without rows, and the record does
not carry an `SG2D` and an `SG3D` field at once. -/
def plainCoordinates (g : Record) : Bool :=
  (match SGXD g with
   | none => true
   | some f => !f.data.isEmpty) &&
  (match g.field "SG3D" with
   | none => true
   | some _ => (g.field "SG2D").isNone)

namespace Sample

/-- A valid dataset with COMF = 100: the nodes of `vc`, the edges of `ve`, a
line feature and an area feature. -/
def chart : Container :=
  ⟨none, dspm 100 10 :: (vc.map Prod.snd ++ ve.map Prod.snd ++ [lineFeature, areaTwoRings]), none⟩

end Sample

end ENC

namespace JLS

/-! ## The JPEG-LS raster decoder (`src/map/IMG/jls.cpp`) -/

/-- The table `Z`: leading zero bits of a byte below 128 (8 for 0). -/
def Z : List Nat :=
  [8, 7, 6, 6, 5, 5, 5, 5, 4, 4, 4, 4, 4, 4, 4, 4,
   3, 3, 3, 3, 3, 3, 3, 3, 3, 3, 3, 3, 3, 3, 3, 3,
   2, 2, 2, 2, 2, 2, 2, 2, 2, 2, 2, 2, 2, 2, 2, 2,
   2, 2, 2, 2, 2, 2, 2, 2, 2, 2, 2, 2, 2, 2, 2, 2,
   1, 1, 1, 1, 1, 1, 1, 1, 1, 1, 1, 1, 1, 1, 1, 1,
   1, 1, 1, 1, 1, 1, 1, 1, 1, 1, 1, 1, 1, 1, 1, 1,
   1, 1, 1, 1, 1, 1, 1, 1, 1, 1, 1, 1, 1, 1, 1, 1,
   1, 1, 1, 1, 1, 1, 1, 1, 1, 1, 1, 1, 1, 1, 1, 1]

/-- The table `J` of run-length orders. -/
def J : List Nat :=
  [0, 0, 0, 0, 1, 1, 1, 1, 2, 2, 2, 2, 3, 3, 3, 3,
   4, 4, 5, 5, 6, 6, 7, 7, 8, 9, 10, 11, 12, 13, 14, 15]

/-- Modelled from the spec: `BitStream` (declared in `jls.h`), an MSB-first
bit cursor over a byte source: the bytes and the number of bits consumed. -/
structure BitStream where
  data : List Nat
  pos : Nat
deriving DecidableEq, Repr

namespace BitStream

/-- Byte `i` of the source; past the end the lookahead holds zero bits. -/
def byte (bs : BitStream) (i : Nat) : Nat := (bs.data.getD i 0) % 256

/-- Modelled from the spec: `value()` / "peek", the 32-bit big-endian lookahead
register: the next 32 bits of the source. -/
def value (bs : BitStream) : Nat :=
  let i := bs.pos / 8
  let window := (((bs.byte i * 256 + bs.byte (i + 1)) * 256 + bs.byte (i + 2)) * 256
    + bs.byte (i + 3)) * 256 + bs.byte (i + 4)
  (window / 2 ^ (8 - bs.pos % 8)) % 2 ^ 32

/-- Bits of the source not yet consumed. -/
def remaining (bs : BitStream) : Nat := 8 * bs.data.length - bs.pos

/-- Modelled from the spec: `read(bits)` / "consume", which "fails if fewer
bits remain than requested and the underlying source is exhausted"; `none` is
the false return. -/
def read (bs : BitStream) (bits : Nat) : Option BitStream :=
  if bits ≤ bs.remaining then some ⟨bs.data, bs.pos + bits⟩ else none

/-- Modelled from the spec: `init()`, the first fill of the 32-bit register; it
fails when the source has fewer than 32 bits. -/
def init (data : List Nat) : Option BitStream :=
  if 32 ≤ 8 * data.length then some ⟨data, 0⟩ else none

end BitStream

/-- The members of a `JLS` object (declared in `jls.h`), and one parameter of
the model. `decodeError` has two statements that shift a 32-bit operand by a
count which can lie outside 0..31: `(bs.value() >> (0x20 - k)) + (MErrval <<
k)` for k >= 32 and `(bs.value() >> (0x20 - _qbpp)) + 1` for `_qbpp` = 0 or
above 32. The language gives such a shift no value; `undefinedShift v m n` is
the value the statement then leaves in `MErrval`, whatever it is, for the
lookahead `v`, the old `MErrval` `m` and the count parameter `n`. -/
structure Params where
  maxval : Nat
  near : Nat
  range : Nat
  qbpp : Nat
  limit : Int
  undefinedShift : Nat → Nat → Nat → Nat

/-- `qCeil(log2(n))` for an integer 1 ≤ n ≤ 2^32. -/
def ceilLog2 (n : Nat) : Nat := ((List.range 33).find? (fun k => n ≤ 2 ^ k)).getD 33

/-- `JLS::JLS(maxval, near)`; both arguments are 16-bit. The third argument
is the parameter `undefinedShift` of the model, which the constructor does not
determine. -/
def Params.new (maxval near : Nat) (undefinedShift : Nat → Nat → Nat → Nat) : Params :=
  let maxval := maxval % 65536
  let near := near % 65536
  let range := (maxval + near * 2) / (near * 2 + 1) + 1
  let qbpp := ceilLog2 range
  let bpp := (max 2 (ceilLog2 (maxval + 1))) % 256
  let LIMIT := (2 * (bpp + max 8 bpp)) % 256
  ⟨maxval, near, range, qbpp, (LIMIT : Int) - (qbpp : Int) - 1, undefinedShift⟩

/-- A sample for the parameter `undefinedShift`: a processor that takes the
count of a shift modulo 32 computes `(v >> 32) + 1` as v + 1. -/
def countMod32 (v _m _n : Nat) : Nat := v + 1

/-- Modelled from the spec: `JLS::Context` (declared in `jls.h`), the "raster
decode context": image width, previous-row and current-row sample buffers
(16-bit samples, width + 2 entries), the run-length state (run index, its order
`rk`, the run step `rg` and the order `lrk` at the last run end) and the
accumulators of the four context categories (magnitude sum `a`, bias sum `b`,
sample count `n`). The widths of the accumulators and of the run-length state
are not visible in `jls.cpp`; they are kept as unbounded integers. -/
structure Context where
  w : Nat
  last : List Nat
  current : List Nat
  runIndex : Nat
  rk : Nat
  rg : Nat
  lrk : Nat
  a : List Int
  b : List Int
  n : List Int
deriving DecidableEq, Repr

/-- Modelled from the spec: `Context::Context(width, range)`. The spec names
the codec "JPEG-LS-compatible" and gives no initial values; these are the
initial values of JPEG-LS: sample buffers at zero, run index 0, and in every
category a = max(2, (range + 32) / 64), b = 0, n = 1. -/
def Context.init (width range : Nat) : Context :=
  let A : Int := max 2 (((range : Int) + 32) / 64)
  ⟨width, List.replicate (width + 2) 0, List.replicate (width + 2) 0, 0, 0, 1, 0,
    [A, A, A, A], [0, 0, 0, 0], [1, 1, 1, 1]⟩

/-- `buf[i]` on a sample buffer. -/
def sample (buf : List Nat) (i : Nat) : Int := ((buf.getD i 0 : Nat) : Int)

/-- `acc[i]` on an accumulator array. -/
def acc (l : List Int) (i : Nat) : Int := l.getD i 0

/-- The update `ctx.runIndex++; ctx.rk = J[ctx.runIndex]; ctx.rg = 1U << ctx.rk`. -/
def Context.runUp (ctx : Context) : Context :=
  { ctx with runIndex := ctx.runIndex + 1, rk := J.getD (ctx.runIndex + 1) 0,
             rg := (1 <<< J.getD (ctx.runIndex + 1) 0) % 2 ^ 32 }

/-- The update `ctx.runIndex--; ctx.rk = J[ctx.runIndex]; ctx.rg = 1U << ctx.rk`. -/
def Context.runDown (ctx : Context) : Context :=
  { ctx with runIndex := ctx.runIndex - 1, rk := J.getD (ctx.runIndex - 1) 0,
             rg := (1 <<< J.getD (ctx.runIndex - 1) 0) % 2 ^ 32 }

/-- What `processRunMode` leaves behind: the return value, the bit stream, the
context and the output argument `samples`. -/
structure RunResult where
  ok : Bool
  bs : BitStream
  ctx : Context
  samples : Nat
deriving DecidableEq, Repr

/-- How the inner `for (i ...)` loop of `processRunMode` ends: by a failed
`read`, by the `return true` at `cnt >= col`, or by running through, leaving
`cnt` and the context to the code after it. -/
inductive ForResult
  | failed (ctx : Context)
  | hit (bs : BitStream) (ctx : Context)
  | through (cnt : Nat) (ctx : Context)
deriving DecidableEq, Repr

/-- The context the inner loop leaves behind. -/
def ForResult.ctx : ForResult → Context
  | failed c => c
  | hit _ c => c
  | through _ c => c

/-- The inner `for (quint8 i = 0; i < z; i++)` loop of `processRunMode`, with
`todo = z - i` passes left; `cnt` is 16-bit. -/
def runFor (col : Nat) (bs : BitStream) : Nat → Nat → Nat → Context → ForResult
  | 0, _, cnt, ctx => ForResult.through cnt ctx
  | todo + 1, i, cnt, ctx =>
    let cnt1 := (cnt + ctx.rg) % 65536
    let ctx1 := if cnt1 ≤ col ∧ ctx.runIndex < 31 then ctx.runUp else ctx
    if col ≤ cnt1 then
      match bs.read (i + 1) with
      | none => ForResult.failed ctx1
      | some bs1 => ForResult.hit bs1 ctx1
    else runFor col bs todo (i + 1) cnt1 ctx1

/-- The code of `processRunMode` after the inner loop, for `z != 8`: the run
ends here. -/
def runEnd (bs : BitStream) (ctx : Context) (z cnt : Nat) : RunResult :=
  match bs.read (z + 1) with
  | none => ⟨false, bs, ctx, 0⟩
  | some bs1 =>
    let ctx1 := { ctx with lrk := ctx.rk + 1 }
    let ctx2 := if ctx.runIndex ≠ 0 then ctx1.runDown else ctx1
    if ctx.rk ≠ 0 then
      let samples := ((bs1.value >>> (32 - ctx.rk)) + cnt) % 65536
      match bs1.read ctx.rk with
      | none => ⟨false, bs1, ctx, samples⟩
      | some bs2 => ⟨true, bs2, ctx2, samples⟩
    else ⟨true, bs1, ctx2, cnt⟩

/-- The `while (true)` loop of `processRunMode`. Every pass that does not
return consumes 8 bits, so `fuel` = remaining bits / 8 + 1 passes are enough
and the first case is never reached from `processRunMode`. -/
def runLoop (col : Nat) : Nat → BitStream → Context → Nat → RunResult
  | 0, bs, ctx, _ => ⟨false, bs, ctx, 0⟩
  | fuel + 1, bs, ctx, cnt =>
    if 2 ^ 31 ≤ bs.value then
      let z := Z.getD ((bs.value >>> 24) ^^^ 255) 0
      match runFor col bs z 0 cnt ctx with
      | ForResult.failed ctx1 => ⟨false, bs, ctx1, 0⟩
      | ForResult.hit bs1 ctx1 => ⟨true, bs1, ctx1, col⟩
      | ForResult.through cnt1 ctx1 =>
        if z ≠ 8 then runEnd bs ctx1 z cnt1
        else
          match bs.read 8 with
          | none => ⟨false, bs, ctx1, 0⟩
          | some bs1 => runLoop col fuel bs1 ctx1 cnt1
    else runEnd bs ctx 0 cnt

/-- `JLS::processRunMode(bs, ctx, col, samples)`; `col` is 16-bit. -/
def processRunMode (bs : BitStream) (ctx : Context) (col : Nat) : RunResult :=
  runLoop (col % 65536) (bs.remaining / 8 + 1) bs ctx 0

/-- What `decodeError` leaves behind: the return value, the bit stream and the
output argument `MErrval`. -/
structure ErrResult where
  ok : Bool
  bs : BitStream
  MErrval : Nat
deriving DecidableEq, Repr

/-- The `while ((int)bs.value() >= 0)` loop of `decodeError`: the return value
(false for a failed `read`), the bit stream, `cnt` and `MErrval` (32-bit).
Every pass that does not leave the loop consumes 8 bits. -/
def zeroRun : Nat → BitStream → Nat → Bool × BitStream × Nat × Nat
  | 0, bs, m => (false, bs, 0, m)
  | fuel + 1, bs, m =>
    if bs.value < 2 ^ 31 then
      let cnt := Z.getD (bs.value >>> 24) 0
      let m1 := (m + cnt) % 2 ^ 32
      if bs.value >>> 24 ≠ 0 then (true, bs, cnt, m1)
      else
        match bs.read 8 with
        | none => (false, bs, cnt, m1)
        | some bs1 => zeroRun fuel bs1 m1
    else (true, bs, 0, m)

/-- `JLS::decodeError(bs, limit, k, MErrval)`; `limit` and `k` are 8-bit.
The two statements that assign `MErrval` from shifts have the value of the
source where every shift count is in 0..31 (k below 32; `_qbpp` in 1..32) and
the value `undefinedShift` of the parameters elsewhere. -/
def decodeError (p : Params) (bs : BitStream) (limit k : Nat) : ErrResult :=
  match zeroRun (bs.remaining / 8 + 1) bs 0 with
  | (false, bs1, _, m) => ⟨false, bs1, m⟩
  | (true, bs1, cnt, m) =>
    match bs1.read (cnt + 1) with
    | none => ⟨false, bs1, m⟩
    | some bs2 =>
      if m < limit then
        if k ≠ 0 then
          let m1 :=
            if k < 32 then ((bs2.value >>> (32 - k)) + (m <<< k)) % 2 ^ 32
            else p.undefinedShift bs2.value m k % 2 ^ 32
          match bs2.read k with
          | none => ⟨false, bs2, m1⟩
          | some bs3 => ⟨true, bs3, m1⟩
        else ⟨true, bs2, m⟩
      else
        let m1 :=
          if 1 ≤ p.qbpp ∧ p.qbpp ≤ 32 then ((bs2.value >>> (32 - p.qbpp)) + 1) % 2 ^ 32
          else p.undefinedShift bs2.value m p.qbpp % 2 ^ 32
        match bs2.read p.qbpp with
        | none => ⟨false, bs2, m1⟩
        | some bs3 => ⟨true, bs3, m1⟩

end JLS

namespace JLS

/-- Why `readLine` returns false: a failed `read` (in `processRunMode` or
`decodeError`), a run longer than the rest of the row, or `Ra == Rc` in a run
interruption of category 2. `undefined` stands for the inputs on which the
source has no defined result: a search for `k` that does not end below 32. -/
inductive Failure
  | truncated
  | overrun
  | sameNeighbours
  | undefined
deriving DecidableEq, Repr

/-- A write of `readLine` into the current row: the border sample
`current[0]`, a pixel of a run, a regular-mode sample or a run-interruption
sample, with column and value. The trace is a record of what the function did;
it does not influence the decoding. -/
inductive Event
  | border (v : Nat)
  | fill (col v : Nat)
  | regular (col v : Nat)
  | interruption (col v : Nat)
deriving DecidableEq, Repr

/-- The value written by an event. -/
def Event.value : Event → Nat
  | border v => v
  | fill _ v => v
  | regular _ v => v
  | interruption _ v => v

/-- The event is a regular-mode sample. -/
def Event.isRegular : Event → Bool
  | regular _ _ => true
  | _ => false

/-- The locals of `readLine` together with the bit stream and the context. -/
structure Line where
  bs : BitStream
  ctx : Context
  Ra : Int
  Rb : Int
  Rc : Int
  col : Nat
  trace : List Event
deriving DecidableEq, Repr

/-- How one pass of the `do ... while` body ends: `return false`, `break`, or
the end of the body. -/
inductive StepResult
  | fail (f : Failure) (st : Line)
  | stop (st : Line)
  | next (st : Line)
deriving DecidableEq, Repr

/-- What `readLine` leaves behind: `err = none` is the return value true. -/
structure LineResult where
  err : Option Failure
  st : Line
deriving DecidableEq, Repr

/-- A value stored into a 16-bit sample buffer. -/
def toU16 (v : Int) : Nat := (v % 65536).toNat

/-- Two's-complement reading of a 32-bit unsigned value as `int`. -/
def toInt32 (v : Nat) : Int :=
  if v % 2 ^ 32 < 2 ^ 31 then ((v % 2 ^ 32 : Nat) : Int) else ((v % 2 ^ 32 : Nat) : Int) - 2 ^ 32

/-- The statements `if (Rx < -near) Rx += (near * 2 + 1) * range; else if
(Rx > maxval + near) Rx -= (near * 2 + 1) * range;`. -/
def wrapRange (p : Params) (Rx : Int) : Int :=
  if Rx < -(p.near : Int) then Rx + ((p.near : Int) * 2 + 1) * (p.range : Int)
  else if Rx > (p.maxval : Int) + (p.near : Int) then
    Rx - ((p.near : Int) * 2 + 1) * (p.range : Int)
  else Rx

/-- The statements `if (Rx < 0) Rx = 0; if (Rx > maxval) Rx = maxval;`. -/
def clamp (p : Params) (Rx : Int) : Int :=
  let r := if Rx < 0 then 0 else Rx
  if r > (p.maxval : Int) then (p.maxval : Int) else r

/-- The loop `for (k = 0; n << k < a; k++) ;`: the least `k` below 32 with
`n << k >= a`, or `none` when the source has no defined result: there is no
such `k` (the source then shifts by the width of an `int`), or the shifted
count `n << k` of the last test does not fit an `int` (the shifts before it
are below `a`). -/
def kSearch (n a : Int) : Option Nat :=
  match (List.range 32).find? (fun k => !decide (n * 2 ^ k < a)) with
  | none => none
  | some k => if n * 2 ^ k < 2 ^ 31 then some k else none

/-- The update of the counters of category `i` at the end of a step: halving
when the sample count is 64, else one more sample. -/
def halve (ctx : Context) (i : Nat) : Context :=
  if acc ctx.n i = 64 then
    { ctx with a := ctx.a.set i (acc ctx.a i >>> 1),
               b := ctx.b.set i (if 0 ≤ acc ctx.b i then acc ctx.b i >>> 1
                                 else -((1 - acc ctx.b i) >>> 1)),
               n := ctx.n.set i 33 }
  else { ctx with n := ctx.n.set i (acc ctx.n i + 1) }

/-- The bias correction of category 1 at the end of the regular-mode branch. -/
def biasFix (ctx : Context) : Context :=
  let b := acc ctx.b 1
  let n := acc ctx.n 1
  if b ≤ -n then
    { ctx with b := ctx.b.set 1 (if b + n ≤ -n then 1 - n else b + n) }
  else if 0 < b then
    { ctx with b := ctx.b.set 1 (if 0 < b - n then 0 else b - n) }
  else ctx

/-- The end of the loop body: `ctx.current[col] = Rx; Ra = Rx; col = col + 1`. -/
def store (st : Line) (Rx : Int) (ev : Nat → Nat → Event) : Line :=
  { st with ctx := { st.ctx with current := st.ctx.current.set st.col (toU16 Rx) },
            Ra := Rx, col := st.col + 1,
            trace := st.trace ++ [ev st.col (toU16 Rx)] }

/-- The prediction of the regular-mode branch: `Px = Ra + Rb - Rc`, brought
into [0, maxval]. -/
def predict (p : Params) (Ra Rb Rc : Int) : Int :=
  let Px := Ra + Rb - Rc
  if Px < 0 then 0 else if Px > (p.maxval : Int) then (p.maxval : Int) else Px

/-- The error mapping of the regular-mode branch: from the decoded `MErrval`
to the pair (`meh`, `mes`) added to `a[1]` and `b[1]`. -/
def errorMap (p : Params) (ctx : Context) (k M : Nat) : Int × Int :=
  let odd := M % 2 = 1
  let meh0 : Int := if odd then (((M + 1) % 2 ^ 32 : Nat) : Int) >>> 1 else ((M : Nat) : Int) >>> 1
  let mes0 : Int := if odd then -meh0 else meh0
  if p.near = 0 ∧ k = 0 ∧ acc ctx.b 1 * 2 ≤ -(acc ctx.n 1) then
    (if odd then -mes0 - 1 else mes0 + 1, -mes0 - 1)
  else (meh0, mes0 * ((p.near : Int) * 2 + 1))

/-- The update of the accumulators of category 1 in the regular-mode branch. -/
def regularUpdate (ctx : Context) (meh mes : Int) : Context :=
  biasFix (halve { ctx with a := ctx.a.set 1 (acc ctx.a 1 + meh),
                            b := ctx.b.set 1 (acc ctx.b 1 + mes) } 1)

/-- The regular-mode branch of the loop body of `readLine`. -/
def regularStep (p : Params) (st : Line) : StepResult :=
  match kSearch (acc st.ctx.n 1) (acc st.ctx.a 1) with
  | none => StepResult.fail Failure.undefined st
  | some k =>
    let r := decodeError p st.bs (p.limit % 256).toNat k
    if !r.ok then StepResult.fail Failure.truncated { st with bs := r.bs }
    else
      let e := errorMap p st.ctx k r.MErrval
      let Errval := if st.Ra < st.Rb then e.2 else -e.2
      let Rx := clamp p (wrapRange p (predict p st.Ra st.Rb st.Rc + Errval))
      StepResult.next
        (store { st with bs := r.bs, ctx := regularUpdate st.ctx e.1 e.2, Rc := st.Rb,
                         Rb := sample st.ctx.last (st.col + 1) } Rx Event.regular)

/-- One write of the fill loop: `ctx.current[col] = Ra; col++`. -/
def fillOne (st : Line) : Line :=
  { st with ctx := { st.ctx with current := st.ctx.current.set st.col (toU16 st.Ra) },
            col := st.col + 1,
            trace := st.trace ++ [Event.fill st.col (toU16 st.Ra)] }

/-- The loop `for (int i = 0; i < samples; i++)` of the run-mode branch: each
pass returns false when `col > ctx.w`, else writes `Ra` and advances. The
result is the state and whether the loop ran through. -/
def fillRun : Nat → Line → Bool × Line
  | 0, st => (true, st)
  | todo + 1, st =>
    if st.ctx.w < st.col then (false, st)
    else fillRun todo (fillOne st)

/-- The category of a run interruption: `rctx = (abs(Rc - Ra) <= near)`. -/
def runCategory (p : Params) (Ra Rc : Int) : Nat :=
  if |Rc - Ra| ≤ (p.near : Int) then 1 else 0

/-- The 16-bit `TEMP` of a run interruption. -/
def runTemp (ctx : Context) (rctx : Nat) : Int :=
  (acc ctx.a (rctx + 2) + (if rctx = 1 then acc ctx.n (rctx + 2) >>> 1 else 0)) % 65536

/-- The error mapping of a run interruption: from the decoded `MErrval` to
`Errval` (before the multiplication by `near * 2 + 1`), `evh`, and whether
`b[ictx]` is left alone (the even case). -/
def runErrorMap (ctx : Context) (rctx k M : Nat) : Int × Int × Bool :=
  let ictx := rctx + 2
  let s : Nat :=
    if k = 0 ∧ (rctx = 1 ∨ M ≠ 0) then (if acc ctx.b ictx * 2 < acc ctx.n ictx then 1 else 0)
    else 0
  let E : Int := toInt32 (M + rctx + s)
  if E % 2 = 0 then (E / 2, E / 2, true)
  else ((s : Int) - ((E + 1) >>> 1), -((s : Int) - ((E + 1) >>> 1)), false)

/-- The statement `ctx.b[ictx] = ctx.b[ictx] + 1` of the odd case. -/
def runBias (ctx : Context) (ictx : Nat) (even : Bool) : Context :=
  if even then ctx else { ctx with b := ctx.b.set ictx (acc ctx.b ictx + 1) }

/-- The update of the accumulators of category `ictx` after a run
interruption. -/
def runUpdate (ctx : Context) (rctx : Nat) (evh : Int) : Context :=
  halve { ctx with a := ctx.a.set (rctx + 2) (acc ctx.a (rctx + 2) + (evh - (rctx : Int))) }
    (rctx + 2)

/-- The run-interruption part of the run-mode branch, entered with `Rc` and
`Rb` set. -/
def interruption (p : Params) (st : Line) : StepResult :=
  let rctx := runCategory p st.Ra st.Rc
  match kSearch (acc st.ctx.n (rctx + 2)) (runTemp st.ctx rctx) with
  | none => StepResult.fail Failure.undefined st
  | some k =>
    let r := decodeError p st.bs ((p.limit - (st.ctx.lrk : Int)) % 256).toNat k
    if !r.ok then StepResult.fail Failure.truncated { st with bs := r.bs }
    else
      let e := runErrorMap st.ctx rctx k r.MErrval
      let ctx1 := runBias st.ctx (rctx + 2) e.2.2
      let Errval := e.1 * ((p.near : Int) * 2 + 1)
      if rctx = 0 ∧ st.Ra = st.Rc then
        StepResult.fail Failure.sameNeighbours { st with bs := r.bs, ctx := ctx1 }
      else
        let Rx0 :=
          if rctx = 0 then (if st.Ra < st.Rc then st.Rc + Errval else st.Rc - Errval)
          else st.Ra + Errval
        StepResult.next
          (store { st with bs := r.bs, ctx := runUpdate ctx1 rctx e.2.1 }
            (clamp p (wrapRange p Rx0)) Event.interruption)

/-- The 16-bit argument `ctx.w - col + 1` of `processRunMode`. -/
def runLength (st : Line) : Nat :=
  (((st.ctx.w : Int) - (st.col : Int) + 1) % 65536).toNat

/-- The statements `Rc = ctx.last[col]; Rb = ctx.last[col + 1]` after a run. -/
def afterRun (st : Line) : Line :=
  { st with Rc := sample st.ctx.last st.col, Rb := sample st.ctx.last (st.col + 1) }

/-- The statements `Rc = Rb; Rb = ctx.last[col + 1]` after an empty run. -/
def afterNoRun (st : Line) : Line :=
  { st with Rc := st.Rb, Rb := sample st.ctx.last (st.col + 1) }

/-- The run-mode branch of the loop body of `readLine`. -/
def runStep (p : Params) (st : Line) : StepResult :=
  let r := processRunMode st.bs st.ctx (runLength st)
  if !r.ok then StepResult.fail Failure.truncated { st with bs := r.bs, ctx := r.ctx }
  else if r.samples ≠ 0 then
    let f := fillRun r.samples { st with bs := r.bs, ctx := r.ctx }
    if !f.1 then StepResult.fail Failure.overrun f.2
    else if f.2.ctx.w < f.2.col then StepResult.stop f.2
    else interruption p (afterRun f.2)
  else interruption p (afterNoRun { st with bs := r.bs, ctx := r.ctx })

/-- One pass of the body of the `do ... while` loop of `readLine`. -/
def lineStep (p : Params) (st : Line) : StepResult :=
  if |st.Rb - st.Ra| > (p.near : Int) then regularStep p st else runStep p st

/-- The `do ... while (col <= ctx.w)` loop of `readLine`. Every pass advances
`col`, so `ctx.w + 1` passes are enough and the first case is never reached
from `readLine`. -/
def lineLoop (p : Params) : Nat → Line → LineResult
  | 0, st => ⟨some Failure.undefined, st⟩
  | fuel + 1, st =>
    match lineStep p st with
    | StepResult.fail f st1 => ⟨some f, st1⟩
    | StepResult.stop st1 => ⟨none, st1⟩
    | StepResult.next st1 =>
      if st1.col ≤ st1.ctx.w then lineLoop p fuel st1 else ⟨none, st1⟩

/-- `JLS::readLine(bs, ctx)`. -/
def readLine (p : Params) (bs : BitStream) (ctx : Context) : LineResult :=
  let first := ctx.last.getD 1 0
  lineLoop p (ctx.w + 1)
    ⟨bs, { ctx with current := ctx.current.set 0 first }, sample ctx.last 1, sample ctx.last 1,
      sample ctx.last 0, 1, [Event.border first]⟩

/-- A 16-bit sample read as the `qint16` of the image matrix. -/
def toInt16 (v : Nat) : Int :=
  if v % 65536 < 32768 then ((v % 65536 : Nat) : Int) else ((v % 65536 : Nat) : Int) - 65536

/-- `memcpy(img.row(i), ctx.current + 1, img.w() * sizeof(quint16))`: the `w`
samples after the border, read as `qint16`. -/
def imageRow (ctx : Context) : List Int :=
  (List.range ctx.w).map (fun i => toInt16 (ctx.current.getD (i + 1) 0))

/-- The swap of `ctx.last` and `ctx.current` after a row. -/
def Context.swap (ctx : Context) : Context :=
  { ctx with last := ctx.current, current := ctx.last }

/-- What `decode` leaves behind: the return value, the rows written into
`img` and the trace of all writes of `readLine`, row by row. -/
structure Decoded where
  ok : Bool
  img : List (List Int)
  trace : List (List Event)
deriving DecidableEq, Repr

/-- The `for (int i = 0; i < img.h(); i++)` loop of `decode`, with `h` rows
left. -/
def decodeRows (p : Params) : Nat → BitStream → Context → Decoded → Decoded
  | 0, _, _, d => { d with ok := true }
  | h + 1, bs, ctx, d =>
    let r := readLine p bs ctx
    match r.err with
    | some _ => { d with ok := false, trace := d.trace ++ [r.st.trace] }
    | none =>
      decodeRows p h r.st.bs r.st.ctx.swap
        ⟨d.ok, d.img ++ [imageRow r.st.ctx], d.trace ++ [r.st.trace]⟩

/-- `JLS::decode` from the context `ctx` that its first line constructs, on
the bytes `data` of the sub-file and an image of `h` rows. -/
def decodeFrom (p : Params) (ctx : Context) (data : List Nat) (h : Nat) : Decoded :=
  match BitStream.init data with
  | none => ⟨false, [], []⟩
  | some bs => decodeRows p h bs ctx ⟨true, [], []⟩

/-- `JLS::decode(file, hdl, img)` for an image of `w` by `h` samples. -/
def decode (p : Params) (data : List Nat) (w h : Nat) : Decoded :=
  decodeFrom p (Context.init w p.range) data h

end JLS

namespace JLS

/-- The state a step leaves behind, whatever its outcome. -/
def StepResult.state : StepResult → Line
  | fail _ st => st
  | stop st => st
  | next st => st

/-- The two contexts agree on width and on both sample buffers. -/
def Context.sameRows (c d : Context) : Prop :=
  d.w = c.w ∧ d.last = c.last ∧ d.current = c.current

/-- The loop state `st` is in range for `p`: the left neighbour `Ra`, every
value written so far and every sample of the current row left of `col` lie in
[0, maxval]. -/
def Line.inRange (p : Params) (st : Line) : Prop :=
  (0 ≤ st.Ra ∧ st.Ra ≤ (p.maxval : Int)) ∧ (∀ e ∈ st.trace, e.value ≤ p.maxval) ∧
  (∀ i, 1 ≤ i → i < st.col → st.ctx.current.getD i 0 ≤ p.maxval) ∧ 1 ≤ st.col

/-- The loop state `st1` continues `st`: same width and previous row, the
column did not go back, the current row is unchanged left of the old column,
and the trace was extended. -/
def Line.continues (st st1 : Line) : Prop :=
  st1.ctx.w = st.ctx.w ∧ st1.ctx.last = st.ctx.last ∧ st.col ≤ st1.col ∧
  (∀ i, i < st.col → st1.ctx.current.getD i 0 = st.ctx.current.getD i 0) ∧
  ∃ more, st1.trace = st.trace ++ more

end JLS

namespace JLS

/-- What `decode` has produced is in range for `p`: every value written by
`readLine` lies in [0, maxval], and every sample of the image is the `qint16`
reading of such a value. -/
def Decoded.inRange (p : Params) (d : Decoded) : Prop :=
  (∀ tr ∈ d.trace, ∀ e ∈ tr, e.value ≤ p.maxval) ∧
  (∀ row ∈ d.img, ∀ v ∈ row, ∃ u, u ≤ p.maxval ∧ v = toInt16 u)

end JLS

namespace JLS

/-- The bit stream and the context `decode` holds before row `i`: defined
when the rows before it were read successfully. -/
def rowState (p : Params) : Nat → BitStream → Context → Option (BitStream × Context)
  | 0, bs, ctx => some (bs, ctx)
  | i + 1, bs, ctx =>
    match (readLine p bs ctx).err with
    | some _ => none
    | none => rowState p i (readLine p bs ctx).st.bs (readLine p bs ctx).st.ctx.swap

/-- The bytes of a flat 4 by 4 image of value 100 (maxval 255, near 0). -/
def flatStream : List Nat := [0, 0, 1, 198, 149, 255]

/-- The 4 by 4 matrix whose samples are all 100. -/
def flatImage : List (List Int) := List.replicate 4 (List.replicate 4 100)

end JLS

namespace JLS

/-- What a step must satisfy: it keeps the state in range, continues it, moves
the column forward when the body runs to its end, and breaks only past the
last column. -/
def StepOk (p : Params) (st : Line) (r : StepResult) : Prop :=
  r.state.inRange p ∧ st.continues r.state ∧
  (∀ st1, r = StepResult.next st1 → st.col < st1.col) ∧
  (∀ st1, r = StepResult.stop st1 → st1.ctx.w < st1.col ∧ st.col < st1.col)

end JLS

namespace ENC

/-- What `load` inserts and logs for the feature record `r` by itself: the body
of its loop run on empty indices. -/
def inserted (k : Codes) (s : FullPass) (r : Record) : Indices :=
  loadFeature k s Indices.empty r

namespace Sample

/-- An `SG3D` field with the given (y, x, z) rows. -/
def sg3d (rows : List (Int × Int × Int)) : Field :=
  ⟨"SG3D", ["YCOO", "XCOO", "VE3D"],
    rows.map (fun p => [QVariant.int p.1, QVariant.int p.2.1, QVariant.int p.2.2])⟩

/-- The record set of the sounding samples: isolated node 4 with the two
soundings (x, y, z) = (10, 20, 55) and (30, 40, 123), isolated node 5 with a
plain position, the nodes `vc` and edges `ve`, COMF = 100, SOMF = 10. -/
def soundPass : FullPass :=
  ⟨[], [(4, vector 110 4 [sg3d [(20, 10, 55), (40, 30, 123)]]),
        (5, vector 110 5 [sg2d [(20, 10)]])], vc, ve, [], 100, 10⟩

/-- A point feature of the sounding class (129 in `codes`) naming node 4. -/
def soundFeature : Record := feature 9 1 129 [fspt [(110, 4, 255, 255)]]

/-- A point feature of the sounding class naming node 5, which has no `SG3D`
field. -/
def soundNoDepth : Record := feature 10 1 129 [fspt [(110, 5, 255, 255)]]

end Sample

end ENC

namespace ENC

/-- The Point of one sounding, in the words of the specification: type
`TYPE(SOUNDG)`, position (x / COMF, y / COMF) and the depth z / SOMF as label,
for the row (y, x, z). -/
def soundingPoint (k : Codes) (COMF SOMF : Nat) (row : List QVariant) : Point :=
  ⟨TYPE k.SOUNDG, ⟨Dbl.ofDiv (cell row 1).toInt COMF, Dbl.ofDiv (cell row 0).toInt COMF⟩,
    [Piece.num (Dbl.ofDiv (cell row 2).toInt SOMF)], none⟩

end ENC

namespace ENC

/-- The local `PRIM` of `load` for the feature record `r`
(`f.data().at(0).at(2).toUInt()` on its second field). -/
def featurePRIM (r : Record) : Nat :=
  match r with
  | _ :: f :: _ => (cell (f.row 0) 2).toUInt
  | _ => 0

/-- The local `OBJL` of `load` for the feature record `r`. -/
def featureOBJL (r : Record) : Nat :=
  match r with
  | _ :: f :: _ => (cell (f.row 0) 4).toUInt
  | _ => 0

/-- The feature record names, in some row of its pointer list, an edge whose
id is not present among the edge vector records `ve`. -/
def danglingEdge (ve : RecordMap) (r : Record) : Prop :=
  ∃ FSPT, r.field "FSPT" = some FSPT ∧
    ∃ row ∈ FSPT.data, ∃ id, edgeName row = some id ∧ ve.find id = none

/-- The feature record is valid for the record set `s`: its `FRID` field has
the five subfields `load` reads, it is a point, line or area feature, and its
pointer list resolves (the geometry function `load` applies to it does not
return the null or empty geometry). -/
def validFeature (k : Codes) (s : FullPass) (r : Record) : Bool :=
  match r with
  | _ :: f :: _ =>
    decide (5 ≤ (f.row 0).length) &&
    (featurePRIM r == PRIM_P || featurePRIM r == PRIM_L || featurePRIM r == PRIM_A) &&
    !unresolved k s r
  | _ => false

namespace Sample

/-- An area feature naming edge 7 and then edge 99, which is absent from `ve`. -/
def areaDangling : Record := feature 13 3 42 [fspt [(130, 7, 1, 1), (130, 99, 1, 1)]]

/-- A record stream with the nodes and edges of `vc` and `ve`, the valid line
feature `lineFeature`, the line feature `lineDangling` naming the absent edge
99, and the valid area feature `areaTwoRings`. -/
def danglingStream : List Record :=
  [dspm 100 10, vector 120 1 [sg2d [(20, 10)]], vector 120 2 [sg2d [(40, 30)]],
   vector 120 3 [sg2d [(20, 10)]], vector 130 7 [vrpt 1 2, sg2d [(25, 15)]],
   vector 130 8 [vrpt 2 3], vector 130 9 [vrpt 1 1, sg2d [(22, 12)]],
   lineFeature, lineDangling, areaTwoRings]

end Sample

end ENC

namespace ENC

namespace Sample

/-- The record set the full pass builds from `danglingStream`. -/
def danglingPass : FullPass :=
  ⟨[lineFeature, lineDangling, areaTwoRings], [],
    [(3, vector 120 3 [sg2d [(20, 10)]]), (2, vector 120 2 [sg2d [(40, 30)]]),
     (1, vector 120 1 [sg2d [(20, 10)]])],
    [(9, vector 130 9 [vrpt 1 1, sg2d [(22, 12)]]), (8, vector 130 8 [vrpt 2 3]),
     (7, vector 130 7 [vrpt 1 2, sg2d [(25, 15)]])], [], 100, 10⟩

end Sample

end ENC

namespace ENC

namespace Sample

/-- A point feature of the sounding class (129) naming isolated node 99, which
is absent from the record set. -/
def soundDangling : Record := feature 11 1 129 [fspt [(110, 99, 255, 255)]]

/-- A point feature of object class 74 naming the same absent node. -/
def pointDangling : Record := feature 12 1 74 [fspt [(110, 99, 255, 255)]]

/-- A record stream with isolated node 4 and the two point features naming the
absent node 99, the sounding first. -/
def unresolvedPoints : List Record :=
  [dspm 100 10, vector 110 4 [sg3d [(20, 10, 55), (40, 30, 123)]], soundDangling,
   pointDangling]

end Sample

end ENC

namespace ENC

namespace Sample

/-- Pointer rows of `areaInnerOfTwo`: edges 7 and 8 with usage flag 1 (the
closed outer boundary), then edges 7 and 8 again with usage flag 2 (an interior
boundary made of two edges). -/
def innerRows : List (Nat × Nat × Nat × Nat) :=
  [(130, 7, 1, 1), (130, 8, 1, 1), (130, 7, 1, 2), (130, 8, 1, 2)]

/-- An area feature of object class 42 over `innerRows`. -/
def areaInnerOfTwo : Record := feature 14 3 42 [fspt innerRows]

end Sample

end ENC

namespace ENC

namespace Sample

/-- The vertices of edge 7 in stored order, divided by COMF = 100. -/
def path7 : List Coordinates :=
  [⟨Dbl.quot 10 100, Dbl.quot 20 100⟩, ⟨Dbl.quot 15 100, Dbl.quot 25 100⟩,
   ⟨Dbl.quot 30 100, Dbl.quot 40 100⟩]

/-- The vertices of edge 8 in stored order, divided by COMF = 100. -/
def path8 : List Coordinates :=
  [⟨Dbl.quot 30 100, Dbl.quot 40 100⟩, ⟨Dbl.quot 10 100, Dbl.quot 20 100⟩]

/-- The fourth pointer row of `areaInnerOfTwo`: edge 8 with usage flag 2. -/
def innerRow4 : List QVariant :=
  [name 130 8, QVariant.uint 1, QVariant.uint 2, QVariant.uint 255]

end Sample

end ENC

namespace ENC

/-! ## The draw priority of a type and the sort key of a point -/

/-- The object classes of `objects.h` that `mapdata.cpp` names in
`orderMapInit` only. The header is not part of the sources, so the codes are a
parameter, as in `Codes`. -/
structure OrderCodes where
  ACHBRT : Nat
  BCNISD : Nat
  BCNLAT : Nat
  BCNSAW : Nat
  BCNSPP : Nat
  BOYCAR : Nat
  BOYINB : Nat
  BOYISD : Nat
  BOYLAT : Nat
  BOYSAW : Nat
  BOYSPP : Nat
  CGUSTA : Nat
  CRANES : Nat
  FOGSIG : Nat
  LIGHTS : Nat
  OBSTRN : Nat
  OFSPLF : Nat
  PILBOP : Nat
  PILPNT : Nat
  PYLONS : Nat
  RADSTA : Nat
  RDOSTA : Nat
  RSCSTA : Nat
  RTPBCN : Nat
  SILTNK : Nat
  SLCONS : Nat
  I_ACHBRT : Nat
  I_BCNLAT : Nat
  I_BOYLAT : Nat
  I_CRANES : Nat
  I_TRNBSN : Nat
  I_WTWGAG : Nat
deriving DecidableEq, Repr

/-- The calls `map.insert(key, value)` of `orderMapInit`, in source order. -/
def orderInserts (k : Codes) (o : OrderCodes) : List (Nat × Nat) :=
  [(TYPE o.LIGHTS, 0), (TYPE o.FOGSIG, 0),
   (TYPE o.CGUSTA, 1), (TYPE o.RSCSTA, 1),
   (SUBTYPE k.BUAARE 1, 2), (SUBTYPE k.BUAARE 5, 3), (SUBTYPE k.BUAARE 4, 4),
   (SUBTYPE k.BUAARE 3, 5), (SUBTYPE k.BUAARE 2, 6), (SUBTYPE k.BUAARE 6, 7),
   (SUBTYPE k.BUAARE 0, 8),
   (TYPE o.RDOSTA, 9), (TYPE o.RADSTA, 10), (TYPE o.RTPBCN, 11), (TYPE o.BCNISD, 12),
   (TYPE o.BCNLAT, 13), (TYPE o.I_BCNLAT, 13), (TYPE o.BCNSAW, 14), (TYPE o.BCNSPP, 15),
   (TYPE o.BOYCAR, 16), (TYPE o.BOYINB, 17), (TYPE o.BOYISD, 18), (TYPE o.BOYLAT, 19),
   (TYPE o.I_BOYLAT, 19), (TYPE o.BOYSAW, 20), (TYPE o.BOYSPP, 21), (TYPE k.MORFAC, 22),
   (TYPE o.OFSPLF, 23), (TYPE o.OBSTRN, 24), (TYPE k.WRECKS, 25), (TYPE k.UWTROC, 26),
   (TYPE k.WATTUR, 27), (TYPE k.CURENT, 28), (TYPE o.PILBOP, 29), (TYPE k.SISTAT, 30),
   (TYPE k.I_SISTAT, 30), (TYPE k.RDOCAL, 31), (TYPE k.I_RDOCAL, 31), (TYPE o.I_TRNBSN, 32),
   (TYPE k.HRBFAC, 33), (TYPE k.I_HRBFAC, 33), (TYPE o.PILPNT, 34), (TYPE o.ACHBRT, 35),
   (TYPE o.I_ACHBRT, 35), (TYPE o.CRANES, 36), (TYPE o.I_CRANES, 36), (TYPE o.I_WTWGAG, 37),
   (TYPE o.PYLONS, 38), (TYPE o.SLCONS, 39), (TYPE k.LNDMRK, 40), (TYPE o.SILTNK, 41),
   (TYPE k.LNDELV, 42), (TYPE k.SMCFAC, 43), (TYPE k.BUISGL, 44),
   (TYPE k.I_DISMAR, 4294967294),
   (TYPE k.SOUNDG, 4294967295)]

/-- A `QMap<uint,uint>`: `insert` puts the binding in front and `find` takes the
first binding of the key, so an `insert` of a key that is present replaces its
value as in `QMap`. -/
abbrev OrderMap := List (Nat × Nat)

def OrderMap.insert (m : OrderMap) (key value : Nat) : OrderMap := (key, value) :: m

def OrderMap.find (m : OrderMap) (key : Nat) : Option Nat := List.lookup key m

/-- `orderMapInit()`: the map after all its `insert` calls. -/
def orderMapInit (k : Codes) (o : OrderCodes) : OrderMap :=
  (orderInserts k o).foldl (fun m kv => m.insert kv.1 kv.2) []

/-- The static `orderMap`. -/
def orderMap (k : Codes) (o : OrderCodes) : OrderMap := orderMapInit k o

/-- `order(type)` for a 32-bit `type`: the priority of the subtype for the
class `BUAARE`, of the class otherwise; a key that is not in the map gives the
class plus 512. -/
def order (k : Codes) (o : OrderCodes) (type : Nat) : Nat :=
  let st := if type >>> 16 = k.BUAARE then type else type &&& 4294901760
  match (orderMap k o).find st with
  | none => ((type >>> 16) + 512) % 2 ^ 32
  | some v => v

/-- The sort key `_id` that `Point::Point(type, c, label, params)` computes:
`((quint64)order(type)) << 32 | hash`, where `hash` is the 32-bit
`(uint)qHash(QPair<double,double>(c.lon(), c.lat()))`. `qHash` is a function of
the Qt library and is a parameter here. -/
def Point.id (k : Codes) (o : OrderCodes) (qHash : Dbl × Dbl → Nat) (type : Nat)
    (c : Coordinates) : Nat :=
  let hash := qHash (c.lon, c.lat) % 2 ^ 32
  ((order k o type <<< 32) % 2 ^ 64) ||| hash

namespace Sample

/-- Sample codes for the classes of `OrderCodes`: numbers different from each
other and from those of `codes`. -/
def orderCodes : OrderCodes :=
  { ACHBRT := 3, BCNISD := 6, BCNLAT := 7, BCNSAW := 8, BCNSPP := 9, BOYCAR := 14,
    BOYINB := 15, BOYISD := 16, BOYLAT := 17, BOYSAW := 18, BOYSPP := 19, CGUSTA := 29,
    CRANES := 35, FOGSIG := 58, LIGHTS := 75, OBSTRN := 86, OFSPLF := 87, PILBOP := 90,
    PILPNT := 91, PYLONS := 98, RADSTA := 102, RDOSTA := 105, RSCSTA := 111, RTPBCN := 103,
    SILTNK := 125, SLCONS := 122, I_ACHBRT := 17010, I_BCNLAT := 17007, I_BOYLAT := 17008,
    I_CRANES := 17011, I_TRNBSN := 17009, I_WTWGAG := 17012 }

/-- A stand-in for `qHash` on a pair of doubles. -/
def hash (p : Dbl × Dbl) : Nat :=
  match p with
  | (Dbl.quot n _, Dbl.quot m _) => (n.natAbs * 31 + m.natAbs) % 2 ^ 32
  | _ => 0

end Sample

end ENC

namespace ENC

/-- The attribute code `key` is one that `pointAttr` reads for the object class
`OBJL`: `OBJNAM`, or a code that one of the conditions of its loop names
together with `OBJL`. -/
def pointAttrMapped (k : Codes) (OBJL key : Nat) : Bool :=
  decide (key = k.OBJNAM
    ∨ (OBJL = k.HRBFAC ∧ key = k.CATHAF)
    ∨ (OBJL = k.I_HRBFAC ∧ key = k.I_CATHAF)
    ∨ (OBJL = k.LNDMRK ∧ key = k.CATLMK)
    ∨ (OBJL = k.WRECKS ∧ key = k.CATWRK)
    ∨ (OBJL = k.MORFAC ∧ key = k.CATMOR)
    ∨ (OBJL = k.UWTROC ∧ key = k.WATLEV)
    ∨ (OBJL = k.BUAARE ∧ key = k.CATBUA)
    ∨ (OBJL = k.SMCFAC ∧ key = k.CATSCF)
    ∨ (OBJL = k.BUISGL ∧ key = k.FUNCTN)
    ∨ (OBJL = k.WATTUR ∧ key = k.CATWAT)
    ∨ (OBJL = k.SISTAT ∧ key = k.CATSIT)
    ∨ (OBJL = k.I_SISTAT ∧ key = k.I_CATSIT)
    ∨ (OBJL = k.I_DISMAR ∧ key = k.CATDIS)
    ∨ (OBJL = k.I_DISMAR ∧ key = k.I_HUNITS)
    ∨ (OBJL = k.I_DISMAR ∧ key = k.I_WTWDIS)
    ∨ (OBJL = k.RDOCAL ∧ key = k.ORIENT)
    ∨ (OBJL = k.I_RDOCAL ∧ key = k.ORIENT)
    ∨ (OBJL = k.CURENT ∧ key = k.ORIENT)
    ∨ (OBJL = k.LNDELV ∧ key = k.ELEVAT)
    ∨ (OBJL = k.I_RDOCAL ∧ key = k.COMCHA)
    ∨ (OBJL = k.RDOCAL ∧ key = k.COMCHA)
    ∨ (OBJL = k.CURENT ∧ key = k.CURVEL))

namespace Sample

/-- An `ATTF` field with the given (attribute code, value text) rows. -/
def attf (rows : List (Nat × List Nat)) : Field :=
  ⟨"ATTF", ["ATTL", "ATVL"], rows.map (fun p => [QVariant.uint p.1, QVariant.bytes p.2])⟩

/-- A landmark (class 74) with four attribute rows: code 200 (unmapped), the
category of landmark 35 = "17", code 201 (unmapped) and the object name
116 = "AB". -/
def landmark : Record :=
  feature 15 1 74 [fspt [(110, 1, 255, 255)],
    attf [(200, [49]), (35, [49, 55]), (201, [50]), (116, [65, 66])]]

/-- The landmark without its two unmapped attribute rows. -/
def landmarkPruned : Record :=
  feature 15 1 74 [fspt [(110, 1, 255, 255)], attf [(35, [49, 55]), (116, [65, 66])]]

end Sample

end ENC

namespace ENC

/-- `MapData::clear()`: deletes the objects of the three indices and empties
them. The log of warnings is not a member of the object and stays. -/
def clear (idx : Indices) : Indices := ⟨[], [], [], idx.warnings⟩

end ENC

namespace ENC

/-! ## Scaling a coordinate back -/

/-- Scaling a real-world value back by COMF with integer truncation,
`(int)(d * COMF)`, in the words of the specification and in exact arithmetic;
`none` where the product is not a finite number (an infinity or not-a-number
times COMF), for which the conversion to `int` has no defined result. -/
def scaleBack (d : Dbl) (COMF : Nat) : Option Int :=
  match d with
  | Dbl.quot n c => some ((n * (COMF : Int)).tdiv (c : Int))
  | _ => none

/-- The double `q` is the correctly rounded result of an operation whose exact
value is `v` (round to nearest, 53 significant bits, no overflow or underflow):
it differs from `v` by at most `|v| / 2 ^ 53`. -/
def Rounds (v q : ℚ) : Prop := |q - v| ≤ |v| / 2 ^ 53

/-- The conversion `(int)r` of a finite double: truncation towards zero. -/
def truncQ (r : ℚ) : Int := if 0 ≤ r then ⌊r⌋ else ⌈r⌉

end ENC

namespace ENC

/-- The attribute code of an `ATTF` row: `av.at(0).toUInt()`. -/
def attrKey (av : List QVariant) : Nat := (cell av 0).toUInt

/-- The value text of an `ATTF` row: `av.at(1).toByteArray()`. -/
def attrVal (av : List QVariant) : List Nat := (cell av 1).toByteArray

/-- The code of `I_DISMAR` is a 16-bit number different from the codes of the
other object classes that `pointAttr` reads a subtype or the first parameter
for, and the two attributes that make up its subtype have different codes. -/
def Codes.distanceMarkApart (k : Codes) : Prop :=
  k.I_DISMAR < 65536 ∧
  k.I_DISMAR ∉ [k.HRBFAC, k.I_HRBFAC, k.LNDMRK, k.WRECKS, k.MORFAC, k.UWTROC, k.BUAARE,
    k.SMCFAC, k.BUISGL, k.WATTUR, k.SISTAT, k.I_SISTAT, k.RDOCAL, k.I_RDOCAL, k.CURENT,
    k.LNDELV] ∧
  k.CATDIS ≠ k.I_HUNITS

instance (k : Codes) : Decidable k.distanceMarkApart := by
  unfold Codes.distanceMarkApart
  infer_instance

/-- The rows `rows` give the attribute `key`: at least one row carries it. -/
def hasAttr (rows : List (List QVariant)) (key : Nat) : Bool :=
  rows.any (fun av => decide (attrKey av = key))

namespace Sample

/-- A distance mark (class `I_DISMAR` = 17002) at isolated node 1 with the
object name "AB", category of distance mark 17 = "2", units 18004 = "3" and
distance 18006 = "45". -/
def distanceMark : Record :=
  feature 16 1 17002 [fspt [(110, 1, 255, 255)],
    attf [(116, [65, 66]), (17, [50]), (18004, [51]), (18006, [52, 53])]]

/-- Isolated node 1 at stored (x, y) = (10, 20). -/
def vi : RecordMap := [(1, vector 110 1 [sg2d [(20, 10)]])]

end Sample

end ENC

namespace JLS

/-! ## The passes of the row loop -/

/-- The branch the body of the loop of `readLine` takes. -/
inductive Mode
  | regular
  | run
deriving DecidableEq, Repr

/-- The test `abs(Rb - Ra) > _near` at the head of the loop body. -/
def mode (p : Params) (st : Line) : Mode :=
  if |st.Rb - st.Ra| > (p.near : Int) then Mode.regular else Mode.run

/-- The state in which `readLine` enters its loop: `Ra = Rb = ctx.last[1]`,
`Rc = ctx.last[0]`, `col = 1`, and the border sample `ctx.current[0]` written. -/
def Line.first (bs : BitStream) (ctx : Context) : Line :=
  ⟨bs, { ctx with current := ctx.current.set 0 (ctx.last.getD 1 0) }, sample ctx.last 1,
    sample ctx.last 1, sample ctx.last 0, 1, [Event.border (ctx.last.getD 1 0)]⟩

/-- The states in which the loop `lineLoop` starts a pass of its body, in
order: the state it is entered with, then the state every pass leaves that ends
at the `while (col <= ctx.w)` test with the test true. -/
def stepStarts (p : Params) : Nat → Line → List Line
  | 0, _ => []
  | fuel + 1, st =>
    st :: (match lineStep p st with
      | StepResult.next st1 => if st1.col ≤ st1.ctx.w then stepStarts p fuel st1 else []
      | _ => [])

/-- The states in which `readLine` starts a pass of its loop body. -/
def lineStarts (p : Params) (bs : BitStream) (ctx : Context) : List Line :=
  stepStarts p (ctx.w + 1) (Line.first bs ctx)

/-- The two contexts agree on the accumulators. -/
def Context.sameAcc (c d : Context) : Prop := d.a = c.a ∧ d.b = c.b ∧ d.n = c.n

/-- The property `P` of the loop state is kept by every update that the body
of the loop of `readLine` makes: a change of the bit stream, a call of
`processRunMode`, a write of the fill loop (made only when `col <= ctx.w`), the
reloading of `Rb` and `Rc`, the bias statement of a run interruption, and the
two ends of the body that store a sample (reached only with `col <= ctx.w`, or
in the first pass). -/
structure Kept (p : Params) (P : Line → Prop) : Prop where
  bits : ∀ (st : Line) (b : BitStream), P st → P { st with bs := b }
  run : ∀ (st : Line) (c : Nat), P st →
    P { st with bs := (processRunMode st.bs st.ctx c).bs,
                ctx := (processRunMode st.bs st.ctx c).ctx }
  fill : ∀ st : Line, P st → ¬ st.ctx.w < st.col → P (fillOne st)
  reload : ∀ st : Line, P st → P (afterRun st) ∧ P (afterNoRun st)
  bias : ∀ (st : Line) (b : BitStream) (i : Nat) (even : Bool), P st →
    P { st with bs := b, ctx := runBias st.ctx i even }
  regular : ∀ (st : Line) (b : BitStream) (meh mes x : Int), P st →
    st.col ≤ st.ctx.w ∨ st.col = 1 →
    P (store { st with bs := b, ctx := regularUpdate st.ctx meh mes, Rc := st.Rb,
                       Rb := sample st.ctx.last (st.col + 1) } (clamp p x) Event.regular)
  interrupt : ∀ (st : Line) (b : BitStream) (rctx : Nat) (even : Bool) (evh x : Int), P st →
    rctx ≤ 1 → st.col ≤ st.ctx.w ∨ st.col = 1 →
    P (store { st with bs := b, ctx := runUpdate (runBias st.ctx (rctx + 2) even) rctx evh }
      (clamp p x) Event.interruption)

/-- The sample counts of the four categories lie in [1, 64] (the arrays `b`
and `n` have four entries). -/
def Context.countsOk (ctx : Context) : Prop :=
  ctx.b.length = 4 ∧ ctx.n.length = 4 ∧ ∀ v ∈ ctx.n, 1 ≤ v ∧ v ≤ 64

instance (ctx : Context) : Decidable ctx.countsOk := by
  unfold Context.countsOk
  infer_instance

/-- The bias of the regular mode is corrected: `-n[1] < b[1] <= 0`. -/
def Context.biasOk (ctx : Context) : Prop :=
  -(acc ctx.n 1) < acc ctx.b 1 ∧ acc ctx.b 1 ≤ 0

/-- The left neighbour is in place: `Ra` is the sample `current[col - 1]`, a
16-bit value, and the row buffer has room for the columns 0 .. w + 1. -/
def Line.leftOk (st : Line) : Prop :=
  st.Ra = sample st.ctx.current (st.col - 1) ∧ 1 ≤ st.col ∧ 0 ≤ st.Ra ∧ st.Ra ≤ 65535 ∧
  st.ctx.w + 2 ≤ st.ctx.current.length

/-- Every pixel of a run written so far lies in a column 1 .. w. -/
def Line.fillsInside (st : Line) : Prop :=
  1 ≤ st.col ∧ ∀ c v, Event.fill c v ∈ st.trace → 1 ≤ c ∧ c ≤ st.ctx.w

end JLS

namespace JLS

/-- The bit stream and the context of `decode` before the second row of the
flat image of `flatStream`: the first row, all 100, is the previous row. -/
def flatRow2 : BitStream × Context :=
  (⟨flatStream, 39⟩,
   ⟨4, [0, 100, 100, 100, 100, 0], [0, 0, 0, 0, 0, 0], 0, 0, 1, 1, [4, 4, 4, 103],
     [0, 0, 0, 0], [1, 4, 1, 2]⟩)

/-- A stream whose first bits 1, 0, 1, 1 announce, at run index 7, a run of
5 samples. -/
def overrunStream : List Nat := [176, 0, 0, 0, 0]

/-- A context of width 3 over a previous row of zeros, at run index 7. -/
def overrunContext : Context :=
  ⟨3, [0, 0, 0, 0, 0], [0, 0, 0, 0, 0], 7, 1, 2, 0, [4, 4, 4, 4], [0, 0, 0, 0], [1, 1, 1, 1]⟩

end JLS

namespace JLS

/-- Bit `i` of the source, the most significant bit of each byte first; past
the end the bits are zero, as in the lookahead. -/
def BitStream.bit (bs : BitStream) (i : Nat) : Nat := (bs.byte (i / 8) / 2 ^ (7 - i % 8)) % 2

/-- At its position the stream holds `u` zero bits followed by a one bit. -/
def BitStream.zerosThenOne (bs : BitStream) (u : Nat) : Prop :=
  (∀ j, j < u → bs.bit (bs.pos + j) = 0) ∧ bs.bit (bs.pos + u) = 1

instance (bs : BitStream) (u : Nat) : Decidable (bs.zerosThenOne u) := by
  unfold BitStream.zerosThenOne
  infer_instance

end JLS

namespace JLS

/-! ## The run-length state -/

/-- The run-length state of the context is consistent: the run index is at
most 31, `rk` is the order `J[runIndex]` and `rg` the run step 2^rk. -/
def Context.runOk (ctx : Context) : Prop :=
  ctx.runIndex ≤ 31 ∧ ctx.rk = J.getD ctx.runIndex 0 ∧ ctx.rg = 2 ^ ctx.rk

instance (ctx : Context) : Decidable ctx.runOk := by
  unfold Context.runOk
  infer_instance

end JLS

namespace JLS

/-! ## Table reads with a bounds check -/

/-- The number of leading zero bits of the 8-bit value `b`, in the words of
the specification. -/
def leadingZeros8 (b : Nat) : Nat :=
  ((List.range 8).takeWhile (fun j => !(b.testBit (7 - j)))).length

/-- `Z[i]` with a bounds check: `none` is a read outside the table. -/
def readZ (i : Nat) : Option Nat := Z[i]?

/-- `J[i]` with a bounds check: `none` is a read outside the table. -/
def readJ (i : Nat) : Option Nat := J[i]?

/-- `Context.runUp` with the read of `J` checked. -/
def Context.runUpChecked (ctx : Context) : Option Context :=
  match readJ (ctx.runIndex + 1) with
  | none => none
  | some rk => some { ctx with runIndex := ctx.runIndex + 1, rk := rk, rg := (1 <<< rk) % 2 ^ 32 }

/-- `Context.runDown` with the read of `J` checked. -/
def Context.runDownChecked (ctx : Context) : Option Context :=
  match readJ (ctx.runIndex - 1) with
  | none => none
  | some rk => some { ctx with runIndex := ctx.runIndex - 1, rk := rk, rg := (1 <<< rk) % 2 ^ 32 }

/-- The inner loop `runFor` with the reads of `J` checked. -/
def runForChecked (col : Nat) (bs : BitStream) : Nat → Nat → Nat → Context → Option ForResult
  | 0, _, cnt, ctx => some (ForResult.through cnt ctx)
  | todo + 1, i, cnt, ctx =>
    let cnt1 := (cnt + ctx.rg) % 65536
    match (if cnt1 ≤ col ∧ ctx.runIndex < 31 then ctx.runUpChecked else some ctx) with
    | none => none
    | some ctx1 =>
      if col ≤ cnt1 then
        match bs.read (i + 1) with
        | none => some (ForResult.failed ctx1)
        | some bs1 => some (ForResult.hit bs1 ctx1)
      else runForChecked col bs todo (i + 1) cnt1 ctx1

/-- The code after the inner loop, `runEnd`, with the read of `J` checked. -/
def runEndChecked (bs : BitStream) (ctx : Context) (z cnt : Nat) : Option RunResult :=
  match bs.read (z + 1) with
  | none => some ⟨false, bs, ctx, 0⟩
  | some bs1 =>
    let ctx1 := { ctx with lrk := ctx.rk + 1 }
    if ctx.rk ≠ 0 then
      let samples := ((bs1.value >>> (32 - ctx.rk)) + cnt) % 65536
      match bs1.read ctx.rk with
      | none => some ⟨false, bs1, ctx, samples⟩
      | some bs2 =>
        match (if ctx.runIndex ≠ 0 then ctx1.runDownChecked else some ctx1) with
        | none => none
        | some ctx2 => some ⟨true, bs2, ctx2, samples⟩
    else
      match (if ctx.runIndex ≠ 0 then ctx1.runDownChecked else some ctx1) with
      | none => none
      | some ctx2 => some ⟨true, bs1, ctx2, cnt⟩

/-- The loop `runLoop` with the reads of `Z` and `J` checked. -/
def runLoopChecked (col : Nat) : Nat → BitStream → Context → Nat → Option RunResult
  | 0, bs, ctx, _ => some ⟨false, bs, ctx, 0⟩
  | fuel + 1, bs, ctx, cnt =>
    if 2 ^ 31 ≤ bs.value then
      match readZ ((bs.value >>> 24) ^^^ 255) with
      | none => none
      | some z =>
        match runForChecked col bs z 0 cnt ctx with
        | none => none
        | some (ForResult.failed ctx1) => some ⟨false, bs, ctx1, 0⟩
        | some (ForResult.hit bs1 ctx1) => some ⟨true, bs1, ctx1, col⟩
        | some (ForResult.through cnt1 ctx1) =>
          if z ≠ 8 then runEndChecked bs ctx1 z cnt1
          else
            match bs.read 8 with
            | none => some ⟨false, bs, ctx1, 0⟩
            | some bs1 => runLoopChecked col fuel bs1 ctx1 cnt1
    else runEndChecked bs ctx 0 cnt

/-- `processRunMode` with every read of `Z` and `J` checked: `none` when one
of them is outside its table. -/
def processRunModeChecked (bs : BitStream) (ctx : Context) (col : Nat) : Option RunResult :=
  runLoopChecked (col % 65536) (bs.remaining / 8 + 1) bs ctx 0

/-- The loop `zeroRun` with the reads of `Z` checked. -/
def zeroRunChecked : Nat → BitStream → Nat → Option (Bool × BitStream × Nat × Nat)
  | 0, bs, m => some (false, bs, 0, m)
  | fuel + 1, bs, m =>
    if bs.value < 2 ^ 31 then
      match readZ (bs.value >>> 24) with
      | none => none
      | some cnt =>
        let m1 := (m + cnt) % 2 ^ 32
        if bs.value >>> 24 ≠ 0 then some (true, bs, cnt, m1)
        else
          match bs.read 8 with
          | none => some (false, bs, cnt, m1)
          | some bs1 => zeroRunChecked fuel bs1 m1
    else some (true, bs, 0, m)

end JLS

namespace JLS

/-- The state in which the run-mode branch enters the run interruption, when
it does: after a successful `processRunMode`, the fill loop and the reloading
of `Rc` and `Rb`. -/
def interruptionStart (st : Line) : Option Line :=
  let r := processRunMode st.bs st.ctx (runLength st)
  if !r.ok then none
  else if r.samples ≠ 0 then
    let f := fillRun r.samples { st with bs := r.bs, ctx := r.ctx }
    if !f.1 then none
    else if f.2.ctx.w < f.2.col then none
    else some (afterRun f.2)
  else some (afterNoRun { st with bs := r.bs, ctx := r.ctx })

/-- What a failure of the pass of the loop body that starts in `st` is due
to. `truncated`: the call of `decodeError` of the regular mode, the call of
`processRunMode`, or the call of `decodeError` of the run interruption
returned false. `overrun`: `processRunMode` returned more samples than there
are columns left in the row. `undefined`: one of the two searches for `k` has
no defined result. `sameNeighbours` has no cause. -/
def Line.cause (p : Params) (st : Line) : Failure → Prop
  | Failure.truncated =>
    (∃ k, kSearch (acc st.ctx.n 1) (acc st.ctx.a 1) = some k ∧
      (decodeError p st.bs (p.limit % 256).toNat k).ok = false) ∨
    (processRunMode st.bs st.ctx (runLength st)).ok = false ∨
    (∃ s k, interruptionStart st = some s ∧
      kSearch (acc s.ctx.n (runCategory p s.Ra s.Rc + 2))
        (runTemp s.ctx (runCategory p s.Ra s.Rc)) = some k ∧
      (decodeError p s.bs ((p.limit - (s.ctx.lrk : Int)) % 256).toNat k).ok = false)
  | Failure.overrun =>
    (processRunMode st.bs st.ctx (runLength st)).ok = true ∧
    st.ctx.w + 1 < st.col + (processRunMode st.bs st.ctx (runLength st)).samples
  | Failure.sameNeighbours => False
  | Failure.undefined =>
    kSearch (acc st.ctx.n 1) (acc st.ctx.a 1) = none ∨
    ∃ s, interruptionStart st = some s ∧
      kSearch (acc s.ctx.n (runCategory p s.Ra s.Rc + 2))
        (runTemp s.ctx (runCategory p s.Ra s.Rc)) = none

/-- The run-length state of the loop state is consistent and the order `lrk`
of the last run end is at most 16. -/
def Line.runOk (st : Line) : Prop := st.ctx.runOk ∧ st.ctx.lrk ≤ 16

end JLS

namespace JLS

/-- The two contexts agree on the run-length state. -/
def Context.sameRun (c d : Context) : Prop :=
  d.runIndex = c.runIndex ∧ d.rk = c.rk ∧ d.rg = c.rg ∧ d.lrk = c.lrk

end JLS

namespace ENC

namespace Sample

/-- The vertices of the closed edge 9 in stored order, divided by COMF = 100. -/
def path9 : List Coordinates :=
  [⟨Dbl.quot 10 100, Dbl.quot 20 100⟩, ⟨Dbl.quot 12 100, Dbl.quot 22 100⟩,
   ⟨Dbl.quot 10 100, Dbl.quot 20 100⟩]

/-- Pointer rows of `areaInnerFirst`: the closed edge 9 with usage flag 2 in
the first row, then edge 7 with usage flag 1. -/
def innerFirstRows : List (Nat × Nat × Nat × Nat) := [(130, 9, 1, 2), (130, 7, 1, 1)]

/-- An area feature of object class 42 whose first pointer row carries usage
flag 2. -/
def areaInnerFirst : Record := feature 15 3 42 [fspt innerFirstRows]

/-- The edges `innerFirstRows` resolves to, with their orientation flags. -/
def innerFirstEdges : List (Nat × EdgeData) :=
  [(1, ⟨(10, 20), (10, 20), [(12, 22)]⟩), (1, ⟨(10, 20), (30, 40), [(15, 25)]⟩)]

end Sample

end ENC

namespace OfflineMap

/-! ## The resolution of an offline map (`offlinemap.cpp`) -/

/-- Modelled from the spec: `ReferencePoint` (declared in a header that is not
part of the sources), a calibration point tying the pixel position `xy` to the
coordinates `ll`. The longitude and the latitude are doubles; they are values
of a linearly ordered type here (numbers, no NaN), of which the selection uses
the order only. -/
structure ReferencePoint (α : Type) where
  xy : Int × Int
  lon : α
  lat : α
deriving DecidableEq, Repr

/-- The four indices `minLon`, `maxLon`, `minLat`, `maxLat` of
`computeResolution`. -/
structure Extremes where
  minLon : Nat
  maxLon : Nat
  minLat : Nat
  maxLat : Nat
deriving DecidableEq, Repr

/-- `points.at(i)`; the indices of the loop are inside the list. -/
def pointAt {α : Type} [Inhabited α] (points : List (ReferencePoint α)) (i : Nat) :
    ReferencePoint α :=
  points.getD i ⟨(0, 0), default, default⟩

/-- The body of the loop of `computeResolution` for the index `i`: its four
`if` statements. The last two compare the latitude of point `i` with the
longitude of the current extreme. -/
def select {α : Type} [LinearOrder α] [Inhabited α] (points : List (ReferencePoint α))
    (e : Extremes) (i : Nat) : Extremes :=
  { minLon := if (pointAt points i).lon < (pointAt points e.minLon).lon then i else e.minLon,
    maxLon := if (pointAt points i).lon > (pointAt points e.maxLon).lon then i else e.maxLon,
    minLat := if (pointAt points i).lat < (pointAt points e.minLat).lon then i else e.minLat,
    maxLat := if (pointAt points i).lat > (pointAt points e.maxLat).lon then i else e.maxLat }

/-- The loop `for (int i = 1; i < points.size(); i++)` with `n` passes left. -/
def selectLoop {α : Type} [LinearOrder α] [Inhabited α] (points : List (ReferencePoint α)) :
    Nat → Nat → Extremes → Extremes
  | 0, _, e => e
  | n + 1, i, e => selectLoop points n (i + 1) (select points e i)

/-- The indices `computeResolution` holds after its loop. -/
def extremes {α : Type} [LinearOrder α] [Inhabited α] (points : List (ReferencePoint α)) :
    Extremes :=
  selectLoop points (points.length - 1) 1 ⟨0, 0, 0, 0⟩

/-- The value `computeResolution` stores in `_resolution`: `(dLon/pLon +
dLat/pLat) / 2.0`. The geodesic distance `Coordinates::distanceTo`, the pixel
distance `QLineF::length` and the arithmetic of the doubles they return are
parameters. -/
def computeResolution {α γ : Type} [LinearOrder α] [Inhabited α] [Add γ] [Div γ] [OfNat γ 2]
    (distanceTo : α × α → α × α → γ) (length : Int × Int → Int × Int → γ)
    (points : List (ReferencePoint α)) : γ :=
  let e := extremes points
  let ll := fun i => ((pointAt points i).lon, (pointAt points i).lat)
  let xy := fun i => (pointAt points i).xy
  let dLon := distanceTo (ll e.minLon) (ll e.maxLon)
  let pLon := length (xy e.minLon) (xy e.maxLon)
  let dLat := distanceTo (ll e.minLat) (ll e.maxLat)
  let pLat := length (xy e.minLat) (xy e.maxLat)
  (dLon / pLon + dLat / pLat) / 2

/-- In the words of the specification: `i` is the first point with the
smallest value of `f`. -/
def IsFirstMin {α : Type} [LinearOrder α] [Inhabited α] (f : ReferencePoint α → α)
    (points : List (ReferencePoint α)) (i : Nat) : Prop :=
  i < points.length ∧ (∀ j, j < points.length → f (pointAt points i) ≤ f (pointAt points j)) ∧
  ∀ j, j < i → f (pointAt points i) < f (pointAt points j)

instance {α : Type} [LinearOrder α] [Inhabited α] (f : ReferencePoint α → α)
    (points : List (ReferencePoint α)) (i : Nat) : Decidable (IsFirstMin f points i) := by
  unfold IsFirstMin
  infer_instance

/-- In the words of the specification: `i` is the first point with the
largest value of `f`. -/
def IsFirstMax {α : Type} [LinearOrder α] [Inhabited α] (f : ReferencePoint α → α)
    (points : List (ReferencePoint α)) (i : Nat) : Prop :=
  i < points.length ∧ (∀ j, j < points.length → f (pointAt points j) ≤ f (pointAt points i)) ∧
  ∀ j, j < i → f (pointAt points j) < f (pointAt points i)

instance {α : Type} [LinearOrder α] [Inhabited α] (f : ReferencePoint α → α)
    (points : List (ReferencePoint α)) (i : Nat) : Decidable (IsFirstMax f points i) := by
  unfold IsFirstMax
  infer_instance

/-- Three reference points in whole degrees: (lon 10, lat 50), (lon 20, lat
40) and (lon 30, lat 60). -/
def samplePoints : List (ReferencePoint Int) :=
  [⟨(0, 100), 10, 50⟩, ⟨(100, 200), 20, 40⟩, ⟨(200, 0), 30, 60⟩]

end OfflineMap

namespace GPI

/-! ## Demangling of an encrypted GPI block (`gpiparser.cpp`) -/

/-- The table `shuf` of `demangle`. -/
def shuf : List Nat :=
  [0xb, 0xc, 0xa, 0x0, 0x8, 0xf, 0x2, 0x1, 0x6, 0x4, 0x9, 0x3, 0xd, 0x5, 0x7, 0xe]

/-- The byte `sum` of `demangle`: `shuf[((key >> 24) + (key >> 16) + (key >>
8) + key) & 0xf]`, the sum being computed in `quint32`. -/
def keySum (key : Nat) : Nat :=
  shuf.getD ((((key >>> 24) + (key >>> 16) + (key >>> 8) + key) % 2 ^ 32) &&& 0xf) 0

/-- `loCnt = (hiCnt > 6) ? 0 : hiCnt + 1`. -/
def loCntOf (hiCnt : Nat) : Nat := if hiCnt > 6 then 0 else hiCnt + 1

/-- `hiCnt = (loCnt > 6) ? 0 : loCnt + 1`, the counter of the next byte. -/
def nextHiCnt (hiCnt : Nat) : Nat := if loCntOf hiCnt > 6 then 0 else loCntOf hiCnt + 1

/-- The byte that one pass of the loop of `demangle` writes to `data[i]`,
from the byte `d` read there and the counter `hiCnt`; the key is 32-bit, the
other values are `quint8`. -/
def demangleByte (key hiCnt d : Nat) : Nat :=
  let hiAdd := (shuf.getD ((key >>> (hiCnt <<< 2)) &&& 0xf) 0 + keySum key) % 256
  let loAdd := (shuf.getD ((key >>> (loCntOf hiCnt <<< 2)) &&& 0xf) 0 + keySum key) % 256
  let hi := (((d : Int) - ((hiAdd <<< 4 : Nat) : Int)) % 256).toNat
  let lo := (((d : Int) - (loAdd : Int)) % 256).toNat
  (hi &&& 0xf0) ||| (lo &&& 0x0f)

/-- The loop of `demangle` over the bytes still to be read, entered with the
counter `hiCnt`. -/
def demangleLoop (key : Nat) : List Nat → Nat → List Nat
  | [], _ => []
  | d :: rest, hiCnt => demangleByte key hiCnt d :: demangleLoop key rest (nextHiCnt hiCnt)

/-- `demangle(data, size, key)`: the bytes it leaves in `data`. -/
def demangle (data : List Nat) (key : Nat) : List Nat := demangleLoop key data 0

/-- The value of `hiCnt` at the start of the pass for byte `i`. -/
def hiCntAt : Nat → Nat
  | 0 => 0
  | i + 1 => nextHiCnt (hiCntAt i)

/-- In the words of the specification: what is subtracted from the high
nibble of byte `i`, `shuf[(key >> 8*(i mod 4)) & 15] + sum`. -/
def hiSub (key i : Nat) : Nat :=
  shuf.getD ((key >>> (8 * (i % 4))) &&& 15) 0
    + shuf.getD (((key >>> 24) + (key >>> 16) + (key >>> 8) + key) &&& 15) 0

/-- In the words of the specification: what is subtracted from the low nibble
of byte `i`, `shuf[(key >> (8*(i mod 4) + 4)) & 15] + sum`. -/
def loSub (key i : Nat) : Nat :=
  shuf.getD ((key >>> (8 * (i % 4) + 4)) &&& 15) 0
    + shuf.getD (((key >>> 24) + (key >>> 16) + (key >>> 8) + key) &&& 15) 0

/-- In the words of the specification: the byte that replaces byte `i` of
value `d`, nibble by nibble. -/
def demangledByte (key i d : Nat) : Nat :=
  16 * ((((d / 16 : Nat) : Int) - (hiSub key i : Int)) % 16).toNat
    + ((((d % 16 : Nat) : Int) - (loSub key i : Int)) % 16).toNat

/-- The nibble-wise addition that undoes `demangledByte`. -/
def mangledByte (key i d : Nat) : Nat :=
  16 * ((d / 16 + hiSub key i) % 16) + (d % 16 + loSub key i) % 16

/-- The nibble-wise addition over a byte sequence whose first byte has the
index `i`. -/
def mangleFrom (key : Nat) : Nat → List Nat → List Nat
  | _, [] => []
  | i, d :: rest => mangledByte key i d :: mangleFrom key (i + 1) rest

/-- The inverse of `demangle`. -/
def mangle (data : List Nat) (key : Nat) : List Nat := mangleFrom key 0 data

/-- The byte sequences of length `n`. -/
def byteSeqs (n : Nat) : Set (List Nat) := {l | l.length = n ∧ ∀ b ∈ l, b < 256}

end GPI

namespace ENC

namespace Sample

/-- An area feature of object class 42 whose closed edge 9 comes twice: with
usage flag 1 in the first pointer row and with usage flag 2 in the second. -/
def areaClosedThenInner : Record := feature 16 3 42 [fspt [(130, 9, 1, 1), (130, 9, 1, 2)]]

end Sample

end ENC

/-! # Theorems -/

namespace ENC

/-! ## Line geometry -/

theorem point_of_rawPoint {r : Record} {p : Int × Int} (COMF : Nat) (h : rawPoint r = some p) :
    point r COMF = scaled COMF p := by
  unfold rawPoint at h
  unfold point
  cases hs : SGXD r with
  | none => simp [hs] at h
  | some f =>
    simp only [hs, Option.some.injEq] at h
    subst h
    rfl

theorem vertexes_eq_rawVertexes (r : Record) (COMF : Nat) :
    vertexes r COMF = (rawVertexes r).map (scaled COMF) := by
  unfold vertexes rawVertexes
  cases SGXD r with
  | none => rfl
  | some f => simp [List.map_map, Function.comp_def, scaled, coordinates]

theorem edgeNode_of_resolves {vc : RecordMap} {COMF : Nat} {VRPT : Field} {j : Nat}
    {p : Int × Int} (h : NodeResolves vc COMF VRPT j p) :
    edgeNode vc COMF VRPT j = some (scaled COMF p) := by
  obtain ⟨id, n, hn, hf, hp, hnull⟩ := h
  simp [edgeNode, hn, hf, point_of_rawPoint COMF hp, hnull]

theorem edgeVertices_of_resolves {vc ve : RecordMap} {COMF : Nat} {row : List QVariant}
    {ORNT : Nat} {e : EdgeData} (h : RowResolves vc ve COMF row ORNT e) :
    ∃ id, edgeName row = some id ∧
      edgeVertices vc ve COMF id (cell row 1).toUInt = some (edgePathSpec COMF ORNT e) := by
  obtain ⟨id, FRID, VRPT, hname, ho, hf, hv, hlen, h0, h1, hvs⟩ := h
  refine ⟨id, hname, ?_⟩
  simp only [edgeVertices, hf, hv, hlen, edgeNode_of_resolves h0, edgeNode_of_resolves h1,
    vertexes_eq_rawVertexes, hvs, ho, edgePathSpec]
  by_cases h2 : ORNT = 2 <;> simp [h2]

theorem length_edgePathSpec (COMF ORNT : Nat) (e : EdgeData) :
    (edgePathSpec COMF ORNT e).length = 2 + e.vs.length := by
  unfold edgePathSpec
  by_cases h2 : ORNT = 2 <;> simp [h2] <;> omega

end ENC

namespace ENC

end ENC

namespace ENC

/-! ## Area geometry -/

theorem length_polyFlush_le (st : PolyState) : st.1.length ≤ (polyFlush st).length := by
  unfold polyFlush
  split <;> simp

theorem polyAccum_grows {vc ve : RecordMap} {COMF : Nat} {row : List QVariant}
    {st st2 : PolyState} (h : polyAccum vc ve COMF row st = some st2) :
    st.1.length ≤ st2.1.length ∧ st2.2 ≠ [] := by
  unfold polyAccum at h
  cases hn : edgeName row with
  | none => simp [hn] at h
  | some id =>
    simp only [hn] at h
    cases hv : edgeVertices vc ve COMF id (cell row 1).toUInt with
    | none => simp [hv] at h
    | some seg =>
      simp only [hv, Option.some.injEq] at h
      have hseg : seg ≠ [] := by
        unfold edgeVertices at hv
        intro hs
        subst hs
        repeat' split at hv
        all_goals simp at hv
      subst h
      constructor
      · split <;> simp
      · simp [hseg]

theorem polyStep_grows {vc ve : RecordMap} {COMF : Nat} {row : List QVariant}
    {st st1 : PolyState} (h : polyStep vc ve COMF row st = some st1) :
    st.1.length < (polyFlush st1).length := by
  unfold polyStep at h
  cases ha : polyAccum vc ve COMF row st with
  | none => simp [ha] at h
  | some st2 =>
    simp only [ha, Option.some.injEq] at h
    obtain ⟨hlen, hne⟩ := polyAccum_grows ha
    subst h
    unfold polyClose polyFlush
    split <;> simp [hne] <;> omega

theorem polyRows_append (vc ve : RecordMap) (COMF : Nat) (pre post : List (List QVariant))
    (st : PolyState) :
    polyRows vc ve COMF (pre ++ post) st
      = (polyRows vc ve COMF pre st).bind (polyRows vc ve COMF post) := by
  induction pre generalizing st with
  | nil => rfl
  | cons row rest ih =>
    simp only [List.cons_append, polyRows]
    cases polyStep vc ve COMF row st with
    | none => rfl
    | some st1 => exact ih st1

theorem polyRows_extends {vc ve : RecordMap} {COMF : Nat} {rows : List (List QVariant)}
    {st st1 : PolyState} (h : polyRows vc ve COMF rows st = some st1) :
    ∃ more, st1.1 = st.1 ++ more := by
  induction rows generalizing st with
  | nil =>
    simp only [polyRows, Option.some.injEq] at h
    exact ⟨[], by simp [h]⟩
  | cons row rest ih =>
    unfold polyRows at h
    cases hs : polyStep vc ve COMF row st with
    | none => simp [hs] at h
    | some st2 =>
      simp only [hs] at h
      obtain ⟨more, hm⟩ := ih h
      have h2 : ∃ m2, st2.1 = st.1 ++ m2 := by
        unfold polyStep at hs
        cases ha : polyAccum vc ve COMF row st with
        | none => simp [ha] at hs
        | some st3 =>
          simp only [ha, Option.some.injEq] at hs
          have h3 : ∃ m3, st3.1 = st.1 ++ m3 := by
            unfold polyAccum at ha
            cases hn : edgeName row with
            | none => simp [hn] at ha
            | some id =>
              simp only [hn] at ha
              cases hv : edgeVertices vc ve COMF id (cell row 1).toUInt with
              | none => simp [hv] at ha
              | some seg =>
                simp only [hv, Option.some.injEq] at ha
                subst ha
                split
                · exact ⟨[st.2], rfl⟩
                · exact ⟨[], by simp⟩
          obtain ⟨m3, hm3⟩ := h3
          subst hs
          unfold polyClose
          split
          · exact ⟨m3 ++ [st3.2], by simp [hm3]⟩
          · exact ⟨m3, hm3⟩
      obtain ⟨m2, hm2⟩ := h2
      exact ⟨m2 ++ more, by rw [hm, hm2, List.append_assoc]⟩

theorem polyRows_grows {vc ve : RecordMap} {COMF : Nat} {rows : List (List QVariant)}
    {st st1 : PolyState} (h : polyRows vc ve COMF rows st = some st1) (hne : rows ≠ []) :
    st.1.length < (polyFlush st1).length := by
  induction rows generalizing st with
  | nil => exact absurd rfl hne
  | cons row rest ih =>
    unfold polyRows at h
    cases hs : polyStep vc ve COMF row st with
    | none => simp [hs] at h
    | some st2 =>
      simp only [hs] at h
      have h1 := polyStep_grows hs
      cases rest with
      | nil =>
        simp only [polyRows, Option.some.injEq] at h
        subst h
        exact h1
      | cons row2 rest2 =>
        have h2 := ih h (by simp)
        have hone : polyRows vc ve COMF [row] st = some st2 := by
          simp [polyRows, hs]
        obtain ⟨m, hm⟩ := polyRows_extends hone
        have h3 : st.1.length ≤ st2.1.length := by simp [hm]
        omega

theorem edgeVertices_ne_nil {vc ve : RecordMap} {COMF id ORNT : Nat} {seg : List Coordinates}
    (hv : edgeVertices vc ve COMF id ORNT = some seg) : seg ≠ [] := by
  unfold edgeVertices at hv
  intro hs
  subst hs
  repeat' split at hv
  all_goals simp at hv

/-- What the rows after a state add to the polygon: at least one ring, when
there is a row left or the ring being accumulated is not empty. -/
theorem polyRows_flush_more {vc ve : RecordMap} {COMF : Nat} {rows : List (List QVariant)}
    {s st3 : PolyState} (h : polyRows vc ve COMF rows s = some st3)
    (hne : rows ≠ [] ∨ s.2 ≠ []) :
    ∃ more, more ≠ [] ∧ polyFlush st3 = s.1 ++ more := by
  obtain ⟨m, hm⟩ := polyRows_extends h
  cases rows with
  | nil =>
    simp only [polyRows, Option.some.injEq] at h
    subst h
    have hv : s.2 ≠ [] := by
      rcases hne with h0 | h0
      · exact absurd rfl h0
      · exact h0
    refine ⟨[s.2], by simp, ?_⟩
    unfold polyFlush
    rw [if_neg (by simpa using hv)]
  | cons row rest =>
    have hlt := polyRows_grows h (List.cons_ne_nil row rest)
    unfold polyFlush at hlt ⊢
    split
    · rename_i he
      simp only [he, if_true] at hlt
      refine ⟨m, ?_, hm⟩
      intro h0
      subst h0
      rw [hm] at hlt
      simp at hlt
    · exact ⟨m ++ [st3.2], by simp, by rw [hm, List.append_assoc]⟩

theorem polyAccum_cases {vc ve : RecordMap} {COMF : Nat} {row : List QVariant}
    {st st2 : PolyState} (h : polyAccum vc ve COMF row st = some st2) :
    ∃ seg, seg ≠ [] ∧
      (((cell row 2).toUInt = 2 ∧ st.1 = [] ∧ st2 = ([st.2], seg)) ∨
       (¬ ((cell row 2).toUInt = 2 ∧ st.1 = []) ∧ st2 = (st.1, st.2 ++ seg))) := by
  unfold polyAccum at h
  cases hn : edgeName row with
  | none => simp [hn] at h
  | some id =>
    simp only [hn] at h
    cases hv : edgeVertices vc ve COMF id (cell row 1).toUInt with
    | none => simp [hv] at h
    | some seg =>
      simp only [hv, Option.some.injEq] at h
      refine ⟨seg, edgeVertices_ne_nil hv, ?_⟩
      by_cases hc : (cell row 2).toUInt = 2 ∧ st.1.isEmpty = true
      · rw [if_pos hc] at h
        have he : st.1 = [] := List.isEmpty_iff.1 hc.2
        refine Or.inl ⟨hc.1, he, ?_⟩
        rw [← h, he]
        rfl
      · rw [if_neg hc] at h
        refine Or.inr ⟨fun hx => hc ⟨hx.1, by simp [hx.2]⟩, h.symm⟩

theorem polyFlush_extends (st : PolyState) : ∃ l, polyFlush st = st.1 ++ l := by
  unfold polyFlush
  split
  · exact ⟨[], by simp⟩
  · exact ⟨[st.2], rfl⟩

/-- The ring being accumulated only grows: the first ring that the rows after
a state add to the polygon starts with the vertices accumulated in that
state. -/
theorem polyRows_head_extends {vc ve : RecordMap} {COMF : Nat} {rows : List (List QVariant)}
    {s st3 : PolyState} (h : polyRows vc ve COMF rows s = some st3) (hne : s.2 ≠ []) :
    ∃ more, polyFlush st3 = s.1 ++ more ∧ ∀ ring ∈ more.head?, ∃ tail, ring = s.2 ++ tail := by
  induction rows generalizing s with
  | nil =>
    simp only [polyRows, Option.some.injEq] at h
    subst h
    refine ⟨[s.2], ?_, ?_⟩
    · unfold polyFlush
      rw [if_neg (by simpa using hne)]
    · intro ring hr
      simp only [List.head?_cons, Option.mem_def, Option.some.injEq] at hr
      exact ⟨[], by rw [← hr]; simp⟩
  | cons row rest ih =>
    unfold polyRows at h
    cases hs : polyStep vc ve COMF row s with
    | none => simp [hs] at h
    | some s1 =>
      simp only [hs] at h
      unfold polyStep at hs
      cases ha : polyAccum vc ve COMF row s with
      | none => simp [ha] at hs
      | some s2 =>
        simp only [ha, Option.some.injEq] at hs
        obtain ⟨m, hm⟩ := polyRows_extends h
        obtain ⟨l, hl⟩ := polyFlush_extends st3
        obtain ⟨seg, hseg, hcase⟩ := polyAccum_cases ha
        have hemitted : ∀ (v : List Coordinates) (x : List (List Coordinates)),
            s1.1 = s.1 ++ [s.2 ++ v] ++ x →
            ∃ more, polyFlush st3 = s.1 ++ more ∧
              ∀ ring ∈ more.head?, ∃ tail, ring = s.2 ++ tail := by
          intro v x hx
          refine ⟨[s.2 ++ v] ++ x ++ m ++ l, by rw [hl, hm, hx]; simp [List.append_assoc], ?_⟩
          intro ring hr
          simp only [List.cons_append, List.nil_append, List.head?_cons, Option.mem_def,
            Option.some.injEq] at hr
          exact ⟨v, hr.symm⟩
        rcases hcase with ⟨_, he, h2⟩ | ⟨_, h2⟩
        · subst h2
          unfold polyClose at hs
          split at hs
          · exact hemitted [] [seg] (by rw [← hs, he]; simp)
          · exact hemitted [] [] (by rw [← hs, he]; simp)
        · subst h2
          unfold polyClose at hs
          split at hs
          · exact hemitted seg [] (by rw [← hs]; simp)
          · subst hs
            obtain ⟨more, h1, h2⟩ := ih h (by simp [hseg])
            refine ⟨more, h1, ?_⟩
            intro ring hr
            obtain ⟨tail, ht⟩ := h2 ring hr
            exact ⟨seg ++ tail, by rw [ht]; simp [List.append_assoc]⟩

/-- C3 (amended): in an area feature whose pointer list resolves completely,
let the vertices accumulated for the current ring (`st2.2`) have first vertex
equal to last vertex after the pointer row `row`, which is followed by the row
`next`. If `row` has usage flag 2, or `next` has usage flag 2 and no ring has
been emitted yet, `polyGeometry` emits the accumulated vertices as one ring and
starts a new ring with `next`: the polygon is the rings emitted before, then
that ring, then at least one more ring built from the remaining rows alone, so
it has at least two rings. In every other case the edge of `next` is appended
to the same ring being accumulated. -/
theorem polyGeometry_splits_closed_ring (r : Record) (vc ve : RecordMap)
    (COMF : Nat) (FSPT : Field) (pre post : List (List QVariant)) (row next : List QVariant)
    (st st2 : PolyState) (id : Nat) (seg : List Coordinates)
    (hF : r.field "FSPT" = some FSPT) (h4 : (FSPT.row 0).length = 4)
    (hrows : FSPT.data = pre ++ row :: next :: post)
    (hpre : polyRows vc ve COMF pre ([], []) = some st)
    (hrow : polyAccum vc ve COMF row st = some st2)
    (hclosed : firstIsLast st2.2 = true)
    (hid : edgeName next = some id)
    (hseg : edgeVertices vc ve COMF id (cell next 1).toUInt = some seg) :
    polyRows vc ve COMF (pre ++ [row]) ([], []) = some (polyClose (cell row 2).toUInt st2) ∧
    ((cell row 2).toUInt = 2 ∨ ((cell next 2).toUInt = 2 ∧ st2.1 = []) →
      polyAccum vc ve COMF next (polyClose (cell row 2).toUInt st2)
        = some (st2.1 ++ [st2.2], seg) ∧
      ∀ st3, polyRows vc ve COMF post
          (polyClose (cell next 2).toUInt (st2.1 ++ [st2.2], seg)) = some st3 →
        polyGeometry r vc ve COMF = polyFlush st3 ∧
        (∃ more, more ≠ [] ∧ polyGeometry r vc ve COMF = st2.1 ++ [st2.2] ++ more) ∧
        2 ≤ (polyGeometry r vc ve COMF).length) ∧
    ((cell row 2).toUInt ≠ 2 → ((cell next 2).toUInt ≠ 2 ∨ st2.1 ≠ []) →
      polyAccum vc ve COMF next (polyClose (cell row 2).toUInt st2)
        = some (st2.1, st2.2 ++ seg) ∧
      ∀ st3, polyRows vc ve COMF post
          (polyClose (cell next 2).toUInt (st2.1, st2.2 ++ seg)) = some st3 →
        polyGeometry r vc ve COMF = polyFlush st3 ∧
        ∃ more, polyGeometry r vc ve COMF = st2.1 ++ more ∧
          ∀ ring ∈ more.head?, ∃ tail, ring = st2.2 ++ seg ++ tail) := by
  have hsegne := edgeVertices_ne_nil hseg
  have hstep : polyStep vc ve COMF row st = some (polyClose (cell row 2).toUInt st2) := by
    simp only [polyStep, hrow]
  have hfront : polyRows vc ve COMF (pre ++ [row]) ([], [])
      = some (polyClose (cell row 2).toUInt st2) := by
    rw [polyRows_append, hpre]
    simp only [Option.bind, polyRows, hstep]
  have hall : ∀ s2 st3, polyAccum vc ve COMF next (polyClose (cell row 2).toUInt st2) = some s2 →
      polyRows vc ve COMF post (polyClose (cell next 2).toUInt s2) = some st3 →
      polyGeometry r vc ve COMF = polyFlush st3 := by
    intro s2 st3 ha hrest
    have hnext : polyStep vc ve COMF next (polyClose (cell row 2).toUInt st2)
        = some (polyClose (cell next 2).toUInt s2) := by
      simp only [polyStep, ha]
    have hdata : polyRows vc ve COMF FSPT.data ([], []) = some st3 := by
      rw [hrows, polyRows_append, hpre]
      simp only [Option.bind, polyRows, hstep, hnext, hrest]
    simp only [polyGeometry, hF, h4, ne_eq, not_true_eq_false, if_false, hdata]
  refine ⟨hfront, ?_, ?_⟩
  · intro hsplit
    have ha : polyAccum vc ve COMF next (polyClose (cell row 2).toUInt st2)
        = some (st2.1 ++ [st2.2], seg) := by
      by_cases hu : (cell row 2).toUInt = 2
      · have hc : polyClose (cell row 2).toUInt st2 = (st2.1 ++ [st2.2], []) := by
          unfold polyClose
          rw [if_pos ⟨hu, hclosed⟩]
        rw [hc]
        have hne : ¬ ((cell next 2).toUInt = 2 ∧ (st2.1 ++ [st2.2]).isEmpty = true) := by
          simp
        simp only [polyAccum, hid, hseg, if_neg hne, List.nil_append]
      · rcases hsplit with h2 | ⟨hn, hemp⟩
        · exact absurd h2 hu
        · have hc : polyClose (cell row 2).toUInt st2 = st2 := by
            unfold polyClose
            rw [if_neg (fun h => hu h.1)]
          rw [hc]
          have hpos : (cell next 2).toUInt = 2 ∧ st2.1.isEmpty = true := ⟨hn, by simp [hemp]⟩
          simp only [polyAccum, hid, hseg, if_pos hpos, List.nil_append]
    refine ⟨ha, ?_⟩
    intro st3 hrest
    have hg := hall _ st3 ha hrest
    have hmore : ∃ more, more ≠ [] ∧ polyFlush st3 = st2.1 ++ [st2.2] ++ more := by
      unfold polyClose at hrest
      by_cases hc : (cell next 2).toUInt = 2 ∧ firstIsLast seg = true
      · rw [if_pos hc] at hrest
        obtain ⟨m, hm⟩ := polyRows_extends hrest
        simp only at hm
        refine ⟨[seg] ++ (polyFlush st3).drop (st2.1 ++ [st2.2] ++ [seg]).length, by simp, ?_⟩
        obtain ⟨l, hl⟩ := polyFlush_extends st3
        rw [hl, hm]
        simp [List.append_assoc]
      · rw [if_neg hc] at hrest
        exact polyRows_flush_more hrest (Or.inr hsegne)
    obtain ⟨more, hne, hm⟩ := hmore
    refine ⟨hg, ⟨more, hne, by rw [hg, hm]⟩, ?_⟩
    rw [hg, hm]
    have : 1 ≤ more.length := List.length_pos.2 hne
    simp only [List.length_append, List.length_singleton]
    omega
  · intro hu hother
    have hc : polyClose (cell row 2).toUInt st2 = st2 := by
      unfold polyClose
      rw [if_neg (fun h => hu h.1)]
    have ha : polyAccum vc ve COMF next (polyClose (cell row 2).toUInt st2)
        = some (st2.1, st2.2 ++ seg) := by
      rw [hc]
      have hneg : ¬ ((cell next 2).toUInt = 2 ∧ st2.1.isEmpty = true) := by
        rintro ⟨h1, h2⟩
        rcases hother with h3 | h3
        · exact h3 h1
        · exact h3 (List.isEmpty_iff.1 h2)
      simp only [polyAccum, hid, hseg, if_neg hneg]
    refine ⟨ha, ?_⟩
    intro st3 hrest
    have hg := hall _ st3 ha hrest
    refine ⟨hg, ?_⟩
    rw [hg]
    unfold polyClose at hrest
    by_cases hcl : (cell next 2).toUInt = 2 ∧ firstIsLast (st2.2 ++ seg) = true
    · rw [if_pos hcl] at hrest
      obtain ⟨m, hm⟩ := polyRows_extends hrest
      simp only at hm
      obtain ⟨l, hl⟩ := polyFlush_extends st3
      refine ⟨[st2.2 ++ seg] ++ m ++ l, by rw [hl, hm]; simp [List.append_assoc], ?_⟩
      intro ring hr
      simp only [List.cons_append, List.nil_append, List.head?_cons, Option.mem_def,
        Option.some.injEq] at hr
      exact ⟨[], by rw [← hr]; simp⟩
    · rw [if_neg hcl] at hrest
      exact polyRows_head_extends hrest (by simp [hsegne])

theorem polyGeometry_splits_closed_ring_witness :
    (polyGeometry Sample.areaTwoRings Sample.vc Sample.ve 100
        = polyFlush ([Sample.path7 ++ Sample.path8, Sample.path9, Sample.path9], []) ∧
      (∃ more, more ≠ [] ∧ polyGeometry Sample.areaTwoRings Sample.vc Sample.ve 100
        = [Sample.path7 ++ Sample.path8] ++ [Sample.path9] ++ more) ∧
      2 ≤ (polyGeometry Sample.areaTwoRings Sample.vc Sample.ve 100).length) ∧
    (polyGeometry Sample.areaClosedThenInner Sample.vc Sample.ve 100
        = polyFlush ([Sample.path9, Sample.path9], []) ∧
      (∃ more, more ≠ [] ∧ polyGeometry Sample.areaClosedThenInner Sample.vc Sample.ve 100
        = [] ++ [Sample.path9] ++ more) ∧
      2 ≤ (polyGeometry Sample.areaClosedThenInner Sample.vc Sample.ve 100).length) ∧
    (polyAccum Sample.vc Sample.ve 100
        [Sample.name 130 7, QVariant.uint 1, QVariant.uint 1, QVariant.uint 255]
        (polyClose 1 ([], Sample.path9))
      = some ([], Sample.path9 ++ Sample.path7) ∧
      polyGeometry Sample.areaOuterOnly Sample.vc Sample.ve 100
        = polyFlush ([], Sample.path9 ++ Sample.path7)) :=
  ⟨((polyGeometry_splits_closed_ring Sample.areaTwoRings Sample.vc Sample.ve 100
        (Sample.fspt Sample.areaRows)
        ((Sample.fspt [(130, 7, 1, 1), (130, 8, 1, 1)]).data) []
        [Sample.name 130 9, QVariant.uint 1, QVariant.uint 2, QVariant.uint 255]
        [Sample.name 130 9, QVariant.uint 1, QVariant.uint 2, QVariant.uint 255]
        ([], Sample.path7 ++ Sample.path8) ([Sample.path7 ++ Sample.path8], Sample.path9)
        9 Sample.path9
        (by decide) (by decide) (by decide) (by decide) (by decide) (by decide) (by decide)
        (by decide)).2.1 (Or.inl (by decide))).2
      ([Sample.path7 ++ Sample.path8, Sample.path9, Sample.path9], []) (by decide),
    ((polyGeometry_splits_closed_ring Sample.areaClosedThenInner Sample.vc Sample.ve 100
        (Sample.fspt [(130, 9, 1, 1), (130, 9, 1, 2)]) [] []
        [Sample.name 130 9, QVariant.uint 1, QVariant.uint 1, QVariant.uint 255]
        [Sample.name 130 9, QVariant.uint 1, QVariant.uint 2, QVariant.uint 255]
        ([], []) ([], Sample.path9) 9 Sample.path9
        (by decide) (by decide) (by decide) (by decide) (by decide) (by decide) (by decide)
        (by decide)).2.1 (Or.inr ⟨by decide, rfl⟩)).2
      ([Sample.path9, Sample.path9], []) (by decide),
    ((polyGeometry_splits_closed_ring Sample.areaOuterOnly Sample.vc Sample.ve 100
        (Sample.fspt [(130, 9, 1, 1), (130, 7, 1, 1)]) [] []
        [Sample.name 130 9, QVariant.uint 1, QVariant.uint 1, QVariant.uint 255]
        [Sample.name 130 7, QVariant.uint 1, QVariant.uint 1, QVariant.uint 255]
        ([], []) ([], Sample.path9) 7 Sample.path7
        (by decide) (by decide) (by decide) (by decide) (by decide) (by decide) (by decide)
        (by decide)).2.2 (by decide) (Or.inl (by decide))).1,
    (((polyGeometry_splits_closed_ring Sample.areaOuterOnly Sample.vc Sample.ve 100
        (Sample.fspt [(130, 9, 1, 1), (130, 7, 1, 1)]) [] []
        [Sample.name 130 9, QVariant.uint 1, QVariant.uint 1, QVariant.uint 255]
        [Sample.name 130 7, QVariant.uint 1, QVariant.uint 1, QVariant.uint 255]
        ([], []) ([], Sample.path9) 7 Sample.path7
        (by decide) (by decide) (by decide) (by decide) (by decide) (by decide) (by decide)
        (by decide)).2.2 (by decide) (Or.inl (by decide))).2
      ([], Sample.path9 ++ Sample.path7) (by decide)).1⟩

/-- C3 (as stated) fails: the area feature `Sample.areaOuterOnly` resolves
completely, after its first pointer row (which is not the last) the accumulated
ring `[(10,20), (12,22), (10,20)] / 100` has first vertex equal to last vertex,
and yet `polyGeometry` returns a single ring holding the vertices of both rows,
because neither that row nor the next one carries usage flag 2. -/
theorem polyGeometry_keeps_closed_ring_open_without_usage_2 :
    polyAccum Sample.vc Sample.ve 100
        [Sample.name 130 9, QVariant.uint 1, QVariant.uint 1, QVariant.uint 255] ([], [])
      = some ([], [⟨Dbl.quot 10 100, Dbl.quot 20 100⟩, ⟨Dbl.quot 12 100, Dbl.quot 22 100⟩,
          ⟨Dbl.quot 10 100, Dbl.quot 20 100⟩]) ∧
    firstIsLast [⟨Dbl.quot 10 100, Dbl.quot 20 100⟩, ⟨Dbl.quot 12 100, Dbl.quot 22 100⟩,
      ⟨Dbl.quot 10 100, Dbl.quot 20 100⟩] = true ∧
    polyGeometry Sample.areaOuterOnly Sample.vc Sample.ve 100
      = [[⟨Dbl.quot 10 100, Dbl.quot 20 100⟩, ⟨Dbl.quot 12 100, Dbl.quot 22 100⟩,
          ⟨Dbl.quot 10 100, Dbl.quot 20 100⟩, ⟨Dbl.quot 10 100, Dbl.quot 20 100⟩,
          ⟨Dbl.quot 15 100, Dbl.quot 25 100⟩, ⟨Dbl.quot 30 100, Dbl.quot 40 100⟩]] ∧
    (polyGeometry Sample.areaOuterOnly Sample.vc Sample.ve 100).length = 1 := by
  decide

end ENC

namespace ENC

/-! ## The full pass drops what it cannot resolve -/

theorem lineLoop_unresolved_row (vc ve : RecordMap) (COMF : Nat)
    (rows : List (List QVariant)) (row : List QVariant) (hmem : row ∈ rows)
    (hrow : (edgeName row).bind (fun id => edgeVertices vc ve COMF id (cell row 1).toUInt) = none)
    (path : List Coordinates) :
    lineLoop vc ve COMF rows path = [] := by
  induction rows generalizing path with
  | nil => simp at hmem
  | cons r rest ih =>
    cases hn : edgeName r with
    | none => simp only [lineLoop, hn]
    | some id =>
      cases hv : edgeVertices vc ve COMF id (cell r 1).toUInt with
      | none => simp only [lineLoop, hn, hv]
      | some seg =>
        simp only [lineLoop, hn, hv]
        rcases List.mem_cons.1 hmem with h | h
        · subst h
          simp [hn, hv] at hrow
        · exact ih h _

theorem loadFeature_of_unresolved (k : Codes) (s : FullPass) (idx : Indices) (r : Record)
    (h : unresolved k s r = true) : (loadFeature k s idx r).sameObjects idx := by
  unfold unresolved at h
  unfold loadFeature Indices.sameObjects
  match r, h with
  | [], h => simp at h
  | [_], h => simp at h
  | _ :: f :: _, h =>
    simp only at h ⊢
    by_cases h5 : (f.row 0).length < 5
    · simp [h5]
    · simp only [h5, if_false]
      by_cases hP : (cell (f.row 0) 2).toUInt = PRIM_P
      · simp only [hP, if_true] at h ⊢
        by_cases hS : (cell (f.row 0) 4).toUInt = k.SOUNDG
        · simp only [hS, if_true] at h ⊢
          simp [List.isEmpty_iff.1 h]
        · simp only [hS, if_false] at h ⊢
          simp [pointObject, h]
      · simp only [hP, if_false] at h ⊢
        by_cases hL : (cell (f.row 0) 2).toUInt = PRIM_L
        · simp only [hL, if_true] at h ⊢
          simp [lineObject, h]
        · simp only [hL, if_false] at h ⊢
          by_cases hA : (cell (f.row 0) 2).toUInt = PRIM_A
          · simp only [hA, if_true] at h ⊢
            simp [polyObject, h]
          · simp [hA] at h

theorem loadFeature_sameObjects (k : Codes) (s : FullPass) (a b : Indices) (r : Record)
    (h : a.sameObjects b) : (loadFeature k s a r).sameObjects (loadFeature k s b r) := by
  obtain ⟨hp, hl, ha⟩ := h
  unfold loadFeature Indices.sameObjects
  match r with
  | [] => exact ⟨hp, hl, ha⟩
  | [_] => exact ⟨hp, hl, ha⟩
  | _ :: f :: _ =>
    simp only
    by_cases h5 : (f.row 0).length < 5
    · simp [h5, hp, hl, ha]
    · simp only [h5, if_false]
      by_cases hP : (cell (f.row 0) 2).toUInt = PRIM_P
      · simp only [hP, if_true]
        by_cases hS : (cell (f.row 0) 4).toUInt = k.SOUNDG
        · simp [hS, hp, hl, ha]
        · simp only [hS, if_false]
          cases pointObject k _ s.vi s.vc s.COMF (cell (f.row 0) 4).toUInt <;>
            simp [hp, hl, ha]
      · simp only [hP, if_false]
        by_cases hL : (cell (f.row 0) 2).toUInt = PRIM_L
        · simp only [hL, if_true]
          cases lineObject k _ s.vc s.ve s.COMF (cell (f.row 0) 4).toUInt <;>
            simp [hp, hl, ha]
        · simp only [hL, if_false]
          by_cases hA : (cell (f.row 0) 2).toUInt = PRIM_A
          · simp only [hA, if_true]
            cases polyObject k _ s.vc s.ve s.COMF (cell (f.row 0) 4).toUInt <;>
              simp [hp, hl, ha]
          · simp [hA, hp, hl, ha]

theorem loadFeatures_sameObjects (k : Codes) (s : FullPass) (fe : List Record)
    (a b : Indices) (h : a.sameObjects b) :
    (loadFeatures k s fe a).sameObjects (loadFeatures k s fe b) := by
  induction fe generalizing a b with
  | nil => exact h
  | cons r rest ih => exact ih _ _ (loadFeature_sameObjects k s a b r h)

/-- C1: for every full-pass record set `s` and every list of feature records
`pre ++ r :: post`, if the pointer list of `r` cannot be resolved (its geometry
function returns the null or empty geometry), `load` inserts nothing for `r`
and the three indices it produces are those produced on `pre ++ post`: the
features after `r` are processed as if `r` were not there. -/
theorem load_drops_unresolved_feature (k : Codes) (s : FullPass) (pre post : List Record)
    (r : Record) (idx : Indices) (h : unresolved k s r = true) :
    (loadFeature k s (loadFeatures k s pre idx) r).sameObjects (loadFeatures k s pre idx) ∧
    (loadFeatures k s (pre ++ r :: post) idx).sameObjects
      (loadFeatures k s (pre ++ post) idx) := by
  have h1 := loadFeature_of_unresolved k s (loadFeatures k s pre idx) r h
  refine ⟨h1, ?_⟩
  unfold loadFeatures at h1 ⊢
  rw [List.foldl_append, List.foldl_append, List.foldl_cons]
  exact loadFeatures_sameObjects k s post _ _ h1

theorem load_drops_unresolved_feature_witness :
    (loadFeature Sample.codes Sample.pass
      (loadFeatures Sample.codes Sample.pass [Sample.lineFeature] Indices.empty)
      Sample.lineDangling).sameObjects
      (loadFeatures Sample.codes Sample.pass [Sample.lineFeature] Indices.empty) ∧
    (loadFeatures Sample.codes Sample.pass
      ([Sample.lineFeature] ++ Sample.lineDangling :: [Sample.areaTwoRings])
      Indices.empty).sameObjects
      (loadFeatures Sample.codes Sample.pass ([Sample.lineFeature] ++ [Sample.areaTwoRings])
        Indices.empty) :=
  load_drops_unresolved_feature Sample.codes Sample.pass [Sample.lineFeature]
    [Sample.areaTwoRings] Sample.lineDangling Indices.empty (by decide)

end ENC

namespace ENC

/-! ## End-to-end: one point feature -/

/-- C10: on the record stream `Sample.pointStream` (a `DSPM` record with
COMF = 10000000, one node at raw (1000000, 2000000), one point feature of
object class 74 naming that node), for all codes in which class 74 is neither
the sounding class nor a signal-station class, `load` produces exactly one
Point, of class 74, at longitude 1000000/COMF = 0.1 and latitude
2000000/COMF = 0.2, no Line, no Poly and no warning. -/
theorem load_single_point_feature (k : Codes) (hS : k.SOUNDG ≠ 74) (hT : k.SISTAT ≠ 74)
    (hI : k.I_SISTAT ≠ 74) :
    load k true Sample.pointStream Indices.empty
      = ⟨[pointEntry ⟨SUBTYPE 74 0, ⟨Dbl.quot 1000000 10000000, Dbl.quot 2000000 10000000⟩,
            [], none⟩], [], [], []⟩ ∧
    SUBTYPE 74 0 >>> 16 = 74 ∧
    (Dbl.quot 1000000 10000000).toRat? = some (1 / 10) ∧
    (Dbl.quot 2000000 10000000).toRat? = some (2 / 10) := by
  have hst : readRecords Sample.pointStream (FullPass.init, [])
      = (⟨[Sample.pointFeature], [(1, Sample.vector 110 1 [Sample.sg2d [(2000000, 1000000)]])],
          [], [], [], 10000000, 10⟩, []) := by decide
  have hg : pointGeometry Sample.pointFeature
      [(1, Sample.vector 110 1 [Sample.sg2d [(2000000, 1000000)]])] [] 10000000
      = ⟨Dbl.quot 1000000 10000000, Dbl.quot 2000000 10000000⟩ := by decide
  have ha : pointAttr k Sample.pointFeature 74 = Attr.default := by
    have : Record.field Sample.pointFeature "ATTF" = none := by decide
    simp [pointAttr, this]
  have hprim : (cell (Field.row ⟨"FRID", ["RCNM", "RCID", "PRIM", "GRUP", "OBJL", "RVER", "RUIN"],
      [[QVariant.uint 100, QVariant.uint 1, QVariant.uint 1, QVariant.uint 2,
        QVariant.uint 74, QVariant.uint 1, QVariant.uint 1]]⟩ 0) 2).toUInt = PRIM_P := by decide
  have hobjl : (cell (Field.row ⟨"FRID", ["RCNM", "RCID", "PRIM", "GRUP", "OBJL", "RVER", "RUIN"],
      [[QVariant.uint 100, QVariant.uint 1, QVariant.uint 1, QVariant.uint 2,
        QVariant.uint 74, QVariant.uint 1, QVariant.uint 1]]⟩ 0) 4).toUInt = 74 := by decide
  have hlen : ¬ (Field.row ⟨"FRID", ["RCNM", "RCID", "PRIM", "GRUP", "OBJL", "RVER", "RUIN"],
      [[QVariant.uint 100, QVariant.uint 1, QVariant.uint 1, QVariant.uint 2,
        QVariant.uint 74, QVariant.uint 1, QVariant.uint 1]]⟩ 0).length < 5 := by decide
  have hcls : SUBTYPE 74 0 >>> 16 = 74 := by decide
  have hnew : Point.new k (SUBTYPE 74 0) ⟨Dbl.quot 1000000 10000000, Dbl.quot 2000000 10000000⟩
      [] [] = ⟨SUBTYPE 74 0, ⟨Dbl.quot 1000000 10000000, Dbl.quot 2000000 10000000⟩, [], none⟩ := by
    simp [Point.new, hcls, Ne.symm hT, Ne.symm hI]
  have hobj : pointObject k Sample.pointFeature
      [(1, Sample.vector 110 1 [Sample.sg2d [(2000000, 1000000)]])] [] 10000000 74
      = some ⟨SUBTYPE 74 0, ⟨Dbl.quot 1000000 10000000, Dbl.quot 2000000 10000000⟩, [], none⟩ := by
    simp only [pointObject, hg, ha]
    simp [Coordinates.isNull, Dbl.isNaN, Attr.default, hnew]
  refine ⟨?_, hcls, ?_, ?_⟩
  · simp only [load, if_true, Indices.empty, hst, loadFeatures, List.foldl_cons, List.foldl_nil]
    rw [show Sample.pointFeature = ⟨"0001", [], [[QVariant.uint 1]]⟩ ::
        ⟨"FRID", ["RCNM", "RCID", "PRIM", "GRUP", "OBJL", "RVER", "RUIN"],
          [[QVariant.uint 100, QVariant.uint 1, QVariant.uint 1, QVariant.uint 2,
            QVariant.uint 74, QVariant.uint 1, QVariant.uint 1]]⟩ ::
        ⟨"FOID", ["AGEN", "FIDN", "FIDS"],
          [[QVariant.uint 1, QVariant.uint 1, QVariant.uint 1]]⟩ ::
        [Sample.fspt [(110, 1, 255, 255)]] from rfl] at hobj ⊢
    simp only [loadFeature, hlen, if_false, hprim, if_true, hobjl, Ne.symm hS, hobj]
    simp
  · simp [Dbl.toRat?]; norm_num
  · simp [Dbl.toRat?]; norm_num

theorem load_single_point_feature_witness :
    load Sample.codes true Sample.pointStream Indices.empty
      = ⟨[pointEntry ⟨SUBTYPE 74 0, ⟨Dbl.quot 1000000 10000000, Dbl.quot 2000000 10000000⟩,
            [], none⟩], [], [], []⟩ ∧
    SUBTYPE 74 0 >>> 16 = 74 ∧
    (Dbl.quot 1000000 10000000).toRat? = some (1 / 10) ∧
    (Dbl.quot 2000000 10000000).toRat? = some (2 / 10) :=
  load_single_point_feature Sample.codes (by decide) (by decide) (by decide)

end ENC

namespace ENC

/-! ## The validate pass: bounds of the vector records -/

theorem toInt32_range (v : Int) : INT_MIN ≤ toInt32 v ∧ toInt32 v ≤ INT_MAX := by
  unfold toInt32 INT_MIN INT_MAX
  have h1 : 0 ≤ v % 2 ^ 32 := Int.emod_nonneg _ (by norm_num)
  have h2 : v % 2 ^ 32 < 2 ^ 32 := Int.emod_lt_of_pos _ (by norm_num)
  simp only
  split <;> omega

theorem digits?_eq_none_or (b : List Nat) (acc : Nat) :
    digits? b acc = none ∨ ∃ n, digits? b acc = some n := by
  cases digits? b acc with
  | none => exact Or.inl rfl
  | some n => exact Or.inr ⟨n, rfl⟩

theorem baToInt?_range {b : List Nat} {v : Int} (h : baToInt? b = some v) :
    INT_MIN ≤ v ∧ v ≤ INT_MAX := by
  unfold baToInt? at h
  unfold INT_MIN INT_MAX
  split at h
  · simp at h
  · split at h
    · split at h
      · simp only [Option.some.injEq] at h
        subst h
        rename_i hn
        have : (2 : Nat) ^ 31 = 2147483648 := by norm_num
        omega
      · simp at h
    · simp at h
  · split at h
    · split at h
      · simp only [Option.some.injEq] at h
        subst h
        rename_i hn
        have : (2 : Nat) ^ 31 = 2147483648 := by norm_num
        omega
      · simp at h
    · simp at h

theorem toInt?_range {q : QVariant} {v : Int} (h : q.toInt? = some v) :
    INT_MIN ≤ v ∧ v ≤ INT_MAX := by
  cases q with
  | invalid => simp [QVariant.toInt?] at h
  | int w =>
    simp only [QVariant.toInt?, Option.some.injEq] at h
    subst h
    exact toInt32_range w
  | uint w =>
    simp only [QVariant.toInt?, Option.some.injEq] at h
    subst h
    exact toInt32_range w
  | bytes b => exact baToInt?_range h

theorem toInt_range (q : QVariant) : INT_MIN ≤ q.toInt ∧ q.toInt ≤ INT_MAX := by
  unfold QVariant.toInt
  cases h : q.toInt? with
  | none => simp [INT_MIN, INT_MAX]
  | some v => simpa using toInt?_range h

theorem boundsRows_spec (rows : List (List QVariant)) (rect : Rect) :
    ((boundsRows rows rect).1 = false ↔ ∃ row ∈ rows, unparsable row = true) ∧
    ((boundsRows rows rect).1 = true → (boundsRows rows rect).2
      = uniteAll (rows.map (fun cv => ((cell cv 1).toInt, (cell cv 0).toInt))) rect) := by
  induction rows generalizing rect with
  | nil => simp [boundsRows, uniteAll]
  | cons c rest ih =>
    unfold boundsRows
    simp only
    by_cases hok : ((cell c 1).toInt?.isSome && (cell c 0).toInt?.isSome) = true
    · have hu : unparsable c = false := by
        cases hx : (cell c 1).toInt? <;> cases hy : (cell c 0).toInt? <;>
          simp [hx, hy, unparsable] at hok ⊢
      simp only [hok, if_true]
      obtain ⟨ih1, ih2⟩ := ih (rect.unite ((cell c 1).toInt?.getD 0) ((cell c 0).toInt?.getD 0))
      constructor
      · rw [ih1]
        simp [hu]
      · intro h
        rw [ih2 h]
        simp [uniteAll, QVariant.toInt]
    · have hu : unparsable c = true := by
        cases hx : (cell c 1).toInt? <;> cases hy : (cell c 0).toInt? <;>
          simp [hx, hy, unparsable] at hok ⊢
      simp [hok, hu]

theorem boundsRecord_spec (g : Record) (rect : Rect) :
    ((boundsRecord g rect).1 = false ↔ ∃ row ∈ coordinateRows g, unparsable row = true) ∧
    ((boundsRecord g rect).1 = true → (boundsRecord g rect).2 = uniteAll (rawVertexes g) rect) := by
  unfold boundsRecord coordinateRows rawVertexes
  cases SGXD g with
  | none => simp [uniteAll]
  | some f => exact boundsRows_spec f.data rect

theorem uniteAll_append (ps qs : List (Int × Int)) (r : Rect) :
    uniteAll (ps ++ qs) r = uniteAll qs (uniteAll ps r) := by
  simp [uniteAll, List.foldl_append]

theorem isUnion_unite (r : Rect) (p : Int × Int) : Rect.IsUnion r [p] (r.unite p.1 p.2) := by
  unfold Rect.IsUnion Rect.unite
  simp only [List.mem_singleton, forall_eq, exists_eq_left]
  refine ⟨⟨?_, ?_, ?_, ?_⟩, ⟨?_, ?_, ?_, ?_⟩, ?_, ?_, ?_, ?_⟩ <;> split <;> omega

theorem isUnion_trans {r r1 u : Rect} {p : Int × Int} {ps : List (Int × Int)}
    (h1 : Rect.IsUnion r [p] r1) (h2 : Rect.IsUnion r1 ps u) : Rect.IsUnion r (p :: ps) u := by
  obtain ⟨⟨a1, a2, a3, a4⟩, b, c1, c2, c3, c4⟩ := h1
  obtain ⟨⟨d1, d2, d3, d4⟩, e, f1, f2, f3, f4⟩ := h2
  have bp := b p (List.mem_singleton.2 rfl)
  simp only [List.mem_singleton, exists_eq_left] at c1 c2 c3 c4
  refine ⟨⟨by omega, by omega, by omega, by omega⟩, ?_, ?_, ?_, ?_, ?_⟩
  · intro q hq
    rcases List.mem_cons.1 hq with h | h
    · subst h
      omega
    · exact e q h
  · rcases f1 with h | ⟨q, hq, hq2⟩
    · rcases c1 with h' | h'
      · exact Or.inl (by omega)
      · exact Or.inr ⟨p, List.mem_cons_self _ _, by omega⟩
    · exact Or.inr ⟨q, List.mem_cons_of_mem _ hq, hq2⟩
  · rcases f2 with h | ⟨q, hq, hq2⟩
    · rcases c2 with h' | h'
      · exact Or.inl (by omega)
      · exact Or.inr ⟨p, List.mem_cons_self _ _, by omega⟩
    · exact Or.inr ⟨q, List.mem_cons_of_mem _ hq, hq2⟩
  · rcases f3 with h | ⟨q, hq, hq2⟩
    · rcases c3 with h' | h'
      · exact Or.inl (by omega)
      · exact Or.inr ⟨p, List.mem_cons_self _ _, by omega⟩
    · exact Or.inr ⟨q, List.mem_cons_of_mem _ hq, hq2⟩
  · rcases f4 with h | ⟨q, hq, hq2⟩
    · rcases c4 with h' | h'
      · exact Or.inl (by omega)
      · exact Or.inr ⟨p, List.mem_cons_self _ _, by omega⟩
    · exact Or.inr ⟨q, List.mem_cons_of_mem _ hq, hq2⟩

theorem isUnion_uniteAll (ps : List (Int × Int)) (r : Rect) :
    Rect.IsUnion r ps (uniteAll ps r) := by
  induction ps generalizing r with
  | nil =>
    unfold Rect.IsUnion uniteAll
    simp
  | cons p rest ih =>
    exact isUnion_trans (isUnion_unite r p) (ih (r.unite p.1 p.2))

theorem or_absorb (b r1 r2 : Rect) (h1 : r2.minX ≤ r1.minX) (h2 : r1.maxX ≤ r2.maxX)
    (h3 : r2.minY ≤ r1.minY) (h4 : r1.maxY ≤ r2.maxY) : (b.or r1).or r2 = b.or r2 := by
  unfold Rect.or
  simp only [Rect.mk.injEq]
  refine ⟨?_, ?_, ?_, ?_⟩ <;> split_ifs <;> omega

theorem boundsLoop_spec (gv : List Record) (r b : Rect) :
    ((boundsLoop gv r b).1 = false ↔
      ∃ g ∈ gv, ∃ row ∈ coordinateRows g, unparsable row = true) ∧
    ((boundsLoop gv r b).1 = true → (boundsLoop gv r b).2
      = if gv = [] then b else b.or (uniteAll (gv.flatMap rawVertexes) r)) := by
  induction gv generalizing r b with
  | nil => simp [boundsLoop]
  | cons g rest ih =>
    obtain ⟨hg1, hg2⟩ := boundsRecord_spec g r
    unfold boundsLoop
    simp only
    by_cases hok : (boundsRecord g r).1 = true
    · have hno : ¬ ∃ row ∈ coordinateRows g, unparsable row = true := by
        rw [← hg1]
        simp [hok]
      simp only [hok, if_true]
      obtain ⟨ih1, ih2⟩ := ih (boundsRecord g r).2 (b.or (boundsRecord g r).2)
      constructor
      · rw [ih1]
        constructor
        · rintro ⟨g', hg', hrow⟩
          exact ⟨g', List.mem_cons_of_mem _ hg', hrow⟩
        · rintro ⟨g', hg', hrow⟩
          rcases List.mem_cons.1 hg' with h | h
          · subst h
            exact absurd hrow hno
          · exact ⟨g', h, hrow⟩
      · intro h
        rw [ih2 h, hg2 hok]
        simp only [List.flatMap_cons, uniteAll_append, reduceCtorEq, if_false]
        split
        · rename_i hrest
          subst hrest
          simp [uniteAll]
        · obtain ⟨⟨a1, a2, a3, a4⟩, _⟩ :=
            isUnion_uniteAll (rest.flatMap rawVertexes) (uniteAll (rawVertexes g) r)
          exact or_absorb b _ _ a1 a2 a3 a4
    · simp only [hok]
      simp only [Bool.not_eq_true] at hok
      constructor
      · constructor
        · intro _
          obtain ⟨row, hrow, hu⟩ := hg1.1 hok
          exact ⟨g, List.mem_cons_self _ _, row, hrow, hu⟩
        · intro _
          simp
      · intro h
        simp at h

theorem isUnion_or_uniteAll (b : Rect) (hb : b.inRange) (ps : List (Int × Int)) :
    Rect.IsUnion b ps (b.or (uniteAll ps Rect.empty)) := by
  obtain ⟨⟨a1, a2, a3, a4⟩, e, f1, f2, f3, f4⟩ := isUnion_uniteAll ps Rect.empty
  obtain ⟨⟨_, b1⟩, ⟨b2, _⟩, ⟨_, b3⟩, ⟨b4, _⟩⟩ := hb
  generalize uniteAll ps Rect.empty = u at *
  simp only [Rect.empty, INT_MAX, INT_MIN] at *
  unfold Rect.IsUnion Rect.or
  simp only
  refine ⟨⟨?_, ?_, ?_, ?_⟩, ?_, ?_, ?_, ?_, ?_⟩
  · split <;> omega
  · split <;> omega
  · split <;> omega
  · split <;> omega
  · intro p hp
    have := e p hp
    refine ⟨?_, ?_, ?_, ?_⟩ <;> split <;> omega
  · split
    · rcases f1 with h | h
      · omega
      · exact Or.inr h
    · exact Or.inl rfl
  · split
    · rcases f2 with h | h
      · omega
      · exact Or.inr h
    · exact Or.inl rfl
  · split
    · rcases f3 with h | h
      · omega
      · exact Or.inr h
    · exact Or.inl rfl
  · split
    · rcases f4 with h | h
      · omega
      · exact Or.inr h
    · exact Or.inl rfl

theorem bounds_isUnion (gv : List Record) (b : Rect) (hb : b.inRange)
    (h : (bounds gv b).1 = true) :
    Rect.IsUnion b (gv.flatMap rawVertexes) (bounds gv b).2 := by
  obtain ⟨_, h2⟩ := boundsLoop_spec gv Rect.empty b
  unfold bounds
  rw [h2 h]
  split
  · rename_i hgv
    subst hgv
    have := isUnion_or_uniteAll b hb []
    simp only [List.flatMap_nil]
    unfold Rect.IsUnion
    simp
  · exact isUnion_or_uniteAll b hb _

/-- C6: `MapData::bounds(gv, b)` returns false if and only if some vector
record of `gv` has a coordinate field (`SG2D`, else `SG3D`) with a row whose x
(subfield 1) or y (subfield 0) does not convert to an integer; a record without
coordinate field has no rows and so is accepted and contributes no pair; and
when it returns true the rectangle is the union of `b` (empty in the
constructor) and all (x, y) pairs of all records. -/
theorem bounds_false_iff_unparsable (gv : List Record) (b : Rect) (hb : b.inRange) :
    ((bounds gv b).1 = false ↔ ∃ g ∈ gv, ∃ row ∈ coordinateRows g, unparsable row = true) ∧
    (∀ g, SGXD g = none → coordinateRows g = [] ∧ rawVertexes g = [] ∧
      ∀ r, boundsRecord g r = (true, r)) ∧
    ((bounds gv b).1 = true → Rect.IsUnion b (gv.flatMap rawVertexes) (bounds gv b).2) := by
  obtain ⟨h1, _⟩ := boundsLoop_spec gv Rect.empty b
  refine ⟨h1, ?_, bounds_isUnion gv b hb⟩
  intro g hg
  simp [coordinateRows, rawVertexes, boundsRecord, hg]

theorem bounds_false_iff_unparsable_witness :
    ((bounds Sample.vectors Rect.empty).1 = false ↔
      ∃ g ∈ Sample.vectors, ∃ row ∈ coordinateRows g, unparsable row = true) ∧
    (∀ g, SGXD g = none → coordinateRows g = [] ∧ rawVertexes g = [] ∧
      ∀ r, boundsRecord g r = (true, r)) ∧
    ((bounds Sample.vectors Rect.empty).1 = true →
      Rect.IsUnion Rect.empty (Sample.vectors.flatMap rawVertexes)
        (bounds Sample.vectors Rect.empty).2) :=
  bounds_false_iff_unparsable Sample.vectors Rect.empty (by decide)

end ENC

namespace ENC

/-! ## The validate pass: the constructor -/

theorem isValid_null : RectC.null.isValid = false := by decide

theorem isValid_boundsRect_empty (COMF : Nat) :
    (boundsRect Rect.empty COMF).isValid = false := by
  unfold boundsRect RectC.isValid RectC.left RectC.right RectC.top RectC.bottom Dbl.ofDiv
  by_cases h : COMF = 0
  · subst h
    decide
  · simp only [h, if_false, Rect.empty, INT_MAX, INT_MIN, Dbl.lt]
    simp only [Bool.and_eq_false_iff, decide_eq_false_iff_not]
    left
    omega

theorem bounds_of_no_coordinates (gv : List Record) (h : gv.flatMap rawVertexes = [])
    (hok : (bounds gv Rect.empty).1 = true) : (bounds gv Rect.empty).2 = Rect.empty := by
  unfold bounds at hok ⊢
  rw [(boundsLoop_spec gv Rect.empty Rect.empty).2 hok, h]
  split
  · rfl
  · decide

/-- C5: when the reader reports no error, every record is accepted and every
coordinate parses, the constructor records "Invalid geometries bounds" and
leaves the bounds unset exactly when the rectangle `boundsRect` (top-left
(minX/COMF, maxY/COMF), bottom-right (maxX/COMF, minY/COMF)) of the union of
all vector-record coordinates is degenerate or inverted, which is the case when
no vector record carries a coordinate; otherwise it records no error and the
bounds are that rectangle. In every case (the reader's error strings being
text) the error string is empty if and only if the bounds are a valid
rectangle. -/
theorem constructor_checks_bounds (c : Container) (ht : c.textual) :
    (c.ddrError = none → c.readError = none →
      (validateRecords c.records ⟨[], 1, []⟩).1 = true →
      (bounds (validateRecords c.records ⟨[], 1, []⟩).2.rv Rect.empty).1 = true →
      (((MapData.new c).errorString = "Invalid geometries bounds" ∧
          (MapData.new c).bounds = RectC.null) ↔
        (boundsRect (bounds (validateRecords c.records ⟨[], 1, []⟩).2.rv Rect.empty).2
          (validateRecords c.records ⟨[], 1, []⟩).2.COMF).isValid = false) ∧
      ((boundsRect (bounds (validateRecords c.records ⟨[], 1, []⟩).2.rv Rect.empty).2
          (validateRecords c.records ⟨[], 1, []⟩).2.COMF).isValid = true →
        (MapData.new c).errorString = "" ∧
        (MapData.new c).bounds
          = boundsRect (bounds (validateRecords c.records ⟨[], 1, []⟩).2.rv Rect.empty).2
              (validateRecords c.records ⟨[], 1, []⟩).2.COMF) ∧
      ((validateRecords c.records ⟨[], 1, []⟩).2.rv.flatMap rawVertexes = [] →
        (boundsRect (bounds (validateRecords c.records ⟨[], 1, []⟩).2.rv Rect.empty).2
          (validateRecords c.records ⟨[], 1, []⟩).2.COMF).isValid = false)) ∧
    ((MapData.new c).errorString = "" ↔ (MapData.new c).bounds.isValid = true) := by
  obtain ⟨ht1, ht2⟩ := ht
  constructor
  · intro hd hr hv hb
    refine ⟨?_, ?_, ?_⟩
    · unfold MapData.new
      simp only [hd, hr, hv, hb, Bool.not_true, Bool.false_eq_true, if_false]
      cases hval : (boundsRect (bounds (validateRecords c.records ⟨[], 1, []⟩).2.rv Rect.empty).2
          (validateRecords c.records ⟨[], 1, []⟩).2.COMF).isValid with
      | false => simp
      | true => simp
    · intro hval
      unfold MapData.new
      simp [hd, hr, hv, hb, hval]
    · intro hno
      rw [bounds_of_no_coordinates _ hno hb]
      exact isValid_boundsRect_empty _
  · unfold MapData.new
    cases hd : c.ddrError with
    | some e =>
      have he : e ≠ "" := fun h => ht1 (by rw [hd, h])
      simp [he, isValid_null]
    | none =>
      simp only
      cases hv : (validateRecords c.records ⟨[], 1, []⟩).1 with
      | false => simp [isValid_null]
      | true =>
        simp only [Bool.not_true, Bool.false_eq_true, if_false]
        cases hr : c.readError with
        | some e =>
          have he : e ≠ "" := fun h => ht2 (by rw [hr, h])
          simp [he, isValid_null]
        | none =>
          simp only
          cases hb : (bounds (validateRecords c.records ⟨[], 1, []⟩).2.rv Rect.empty).1 with
          | false => simp [isValid_null]
          | true =>
            simp only [Bool.not_true, Bool.false_eq_true, if_false]
            cases hval : (boundsRect
                (bounds (validateRecords c.records ⟨[], 1, []⟩).2.rv Rect.empty).2
                (validateRecords c.records ⟨[], 1, []⟩).2.COMF).isValid with
            | false => simp [isValid_null]
            | true => simp [hval]

theorem constructor_checks_bounds_witness :
    (MapData.new Sample.container).errorString = "" ∧
    (MapData.new Sample.container).bounds
      = ⟨⟨Dbl.quot 10 100, Dbl.quot 25 100⟩, ⟨Dbl.quot 40 100, Dbl.quot (-5) 100⟩⟩ ∧
    ((MapData.new Sample.container).errorString = "" ↔
      (MapData.new Sample.container).bounds.isValid = true) :=
  have h := constructor_checks_bounds Sample.container (by decide)
  ⟨((h.1 (by decide) (by decide) (by decide) (by decide)).2.1 (by decide)).1,
   ((h.1 (by decide) (by decide) (by decide) (by decide)).2.1 (by decide)).2, h.2⟩

end ENC

namespace ENC

/-! ## Bounds against the objects of the full pass -/

/-- C4 (as stated) fails: the validate pass accepts `Sample.spareNode` with
bounds (0.1 .. 0.3) x (0.2 .. 0.4), the full pass inserts one Point at
(0.1, 0.2) and nothing else, so the union of the bounding boxes of the inserted
objects is that single point and differs from `bounds()`. -/
theorem bounds_differ_from_union_of_objects :
    (MapData.new Sample.spareNode).errorString = "" ∧
    (MapData.new Sample.spareNode).bounds
      = ⟨⟨Dbl.quot 10 100, Dbl.quot 40 100⟩, ⟨Dbl.quot 30 100, Dbl.quot 20 100⟩⟩ ∧
    (load Sample.codes true Sample.spareNode.records Indices.empty).unionOfBoxes
      = ⟨⟨Dbl.quot 10 100, Dbl.quot 20 100⟩, ⟨Dbl.quot 10 100, Dbl.quot 20 100⟩⟩ ∧
    (MapData.new Sample.spareNode).bounds
      ≠ (load Sample.codes true Sample.spareNode.records Indices.empty).unionOfBoxes := by
  decide

end ENC

namespace ENC

theorem find_mem {m : RecordMap} {id : Nat} {n : Record} (h : m.find id = some n) :
    (id, n) ∈ m := by
  unfold RecordMap.find at h
  induction m with
  | nil => simp [List.lookup] at h
  | cons p rest ih =>
    obtain ⟨a, r⟩ := p
    by_cases ha : id = a
    · subst ha
      simp [List.lookup] at h
      simp [h]
    · have : (id == a) = false := by simp [ha]
      simp only [List.lookup, this] at h
      exact List.mem_cons_of_mem _ (ih h)

theorem holds_scaled {b : Rect} {COMF : Nat} (hc : COMF ≠ 0) {p : Int × Int} (hp : b.has p) :
    (boundsRect b COMF).holds (scaled COMF p) := by
  obtain ⟨h1, h2, h3, h4⟩ := hp
  have hpos : (0 : Int) ≤ (COMF : Int) := Int.ofNat_nonneg _
  have e1 := Int.mul_le_mul_of_nonneg_right h1 hpos
  have e2 := Int.mul_le_mul_of_nonneg_right h2 hpos
  have e3 := Int.mul_le_mul_of_nonneg_right h3 hpos
  have e4 := Int.mul_le_mul_of_nonneg_right h4 hpos
  unfold RectC.holds boundsRect scaled RectC.left RectC.right RectC.top RectC.bottom Dbl.ofDiv
  simp only [hc, if_false, Dbl.le, Dbl.lt, Dbl.eq, Bool.or_eq_true, decide_eq_true_eq]
  refine ⟨?_, ?_, ?_, ?_⟩
  · exact lt_or_eq_of_le e1
  · exact lt_or_eq_of_le e2
  · exact lt_or_eq_of_le e3
  · exact lt_or_eq_of_le e4

theorem has_of_bounds {rv : List Record} (hb : (bounds rv Rect.empty).1 = true)
    {g : Record} (hg : g ∈ rv) {p : Int × Int} (hp : p ∈ rawVertexes g) :
    (bounds rv Rect.empty).2.has p := by
  have h := bounds_isUnion rv Rect.empty (by decide) hb
  exact h.2.1 p (List.mem_flatMap.2 ⟨g, hg, hp⟩)

theorem holds_of_stored {rv : List Record} {COMF : Nat} (hc : COMF ≠ 0)
    (hb : (bounds rv Rect.empty).1 = true) {c : Coordinates} (h : Stored rv COMF c) :
    (boundsRect (bounds rv Rect.empty).2 COMF).holds c := by
  obtain ⟨g, hg, p, hp, rfl⟩ := h
  exact holds_scaled hc (has_of_bounds hb hg hp)

theorem stored_point {rv : List Record} {COMF : Nat} {n : Record} (hn : n ∈ rv)
    (hrows : ∀ g ∈ rv, ∀ f, SGXD g = some f → f.data ≠ [])
    (hnull : (point n COMF).isNull = false) : Stored rv COMF (point n COMF) := by
  unfold point at hnull ⊢
  cases hs : SGXD n with
  | none => simp [hs, Coordinates.isNull, Coordinates.null, Dbl.isNaN] at hnull
  | some f =>
    simp only [hs]
    have hne := hrows n hn f hs
    cases hd : f.data with
    | nil => exact absurd hd hne
    | cons row rest =>
      refine ⟨n, hn, ((cell row 1).toInt, (cell row 0).toInt), ?_, ?_⟩
      · simp [rawVertexes, hs, hd]
      · simp [Field.row, hd, coordinates, scaled]

theorem stored_vertexes {rv : List Record} {COMF : Nat} {g : Record} (hg : g ∈ rv)
    {c : Coordinates} (hc : c ∈ vertexes g COMF) : Stored rv COMF c := by
  rw [vertexes_eq_rawVertexes] at hc
  obtain ⟨p, hp, rfl⟩ := List.mem_map.1 hc
  exact ⟨g, hg, p, hp, rfl⟩

theorem stored_edgeNode {rv : List Record} {COMF : Nat} {vc : RecordMap}
    (hvc : ∀ p ∈ vc, p.2 ∈ rv) (hrows : ∀ g ∈ rv, ∀ f, SGXD g = some f → f.data ≠ [])
    {VRPT : Field} {j : Nat} {c : Coordinates} (h : edgeNode vc COMF VRPT j = some c) :
    Stored rv COMF c := by
  unfold edgeNode at h
  cases hn : parseNAME VRPT j with
  | none => simp [hn] at h
  | some ti =>
    obtain ⟨type, id⟩ := ti
    simp only [hn] at h
    by_cases ht : type ≠ RCNM_VC
    · simp [ht] at h
    · simp only [ht, if_false] at h
      cases hf : vc.find id with
      | none => simp [hf] at h
      | some n =>
        simp only [hf] at h
        by_cases hnull : (point n COMF).isNull = true
        · simp [hnull] at h
        · simp only [hnull, Bool.false_eq_true, if_false, Option.some.injEq] at h
          subst h
          exact stored_point (hvc _ (find_mem hf)) hrows (by simpa using hnull)

theorem stored_edgeVertices {rv : List Record} {COMF : Nat} {vc ve : RecordMap}
    (hvc : ∀ p ∈ vc, p.2 ∈ rv) (hve : ∀ p ∈ ve, p.2 ∈ rv)
    (hrows : ∀ g ∈ rv, ∀ f, SGXD g = some f → f.data ≠ [])
    {id ORNT : Nat} {seg : List Coordinates} (h : edgeVertices vc ve COMF id ORNT = some seg) :
    ∀ c ∈ seg, Stored rv COMF c := by
  unfold edgeVertices at h
  cases hf : ve.find id with
  | none => simp [hf] at h
  | some FRID =>
    simp only [hf] at h
    have hF : FRID ∈ rv := hve _ (find_mem hf)
    cases hv : FRID.field "VRPT" with
    | none => simp [hv] at h
    | some VRPT =>
      simp only [hv] at h
      by_cases hl : VRPT.data.length ≠ 2
      · simp [hl] at h
      · simp only [hl, if_false] at h
        cases h0 : edgeNode vc COMF VRPT 0 with
        | none => simp [h0] at h
        | some c0 =>
          cases h1 : edgeNode vc COMF VRPT 1 with
          | none => simp [h0, h1] at h
          | some c1 =>
            simp only [h0, h1] at h
            have s0 := stored_edgeNode hvc hrows h0
            have s1 := stored_edgeNode hvc hrows h1
            intro c hc
            by_cases ho : ORNT = 2
            · simp only [ho, if_true, Option.some.injEq] at h
              subst h
              simp only [List.mem_cons, List.mem_append, List.mem_reverse, List.mem_singleton,
                List.not_mem_nil, or_false] at hc
              rcases hc with rfl | hc | rfl
              · exact s1
              · exact stored_vertexes hF hc
              · exact s0
            · simp only [ho, if_false, Option.some.injEq] at h
              subst h
              simp only [List.mem_cons, List.mem_append, List.mem_singleton,
                List.not_mem_nil, or_false] at hc
              rcases hc with rfl | hc | rfl
              · exact s0
              · exact stored_vertexes hF hc
              · exact s1

theorem stored_lineLoop {rv : List Record} {COMF : Nat} {vc ve : RecordMap}
    (hvc : ∀ p ∈ vc, p.2 ∈ rv) (hve : ∀ p ∈ ve, p.2 ∈ rv)
    (hrows : ∀ g ∈ rv, ∀ f, SGXD g = some f → f.data ≠ [])
    (rows : List (List QVariant)) (path : List Coordinates)
    (hpath : ∀ c ∈ path, Stored rv COMF c) :
    ∀ c ∈ lineLoop vc ve COMF rows path, Stored rv COMF c := by
  induction rows generalizing path with
  | nil => simpa [lineLoop] using hpath
  | cons row rest ih =>
    unfold lineLoop
    cases hn : edgeName row with
    | none => simp
    | some id =>
      simp only
      cases hv : edgeVertices vc ve COMF id (cell row 1).toUInt with
      | none => simp
      | some seg =>
        simp only
        apply ih
        intro c hc
        rcases List.mem_append.1 hc with h | h
        · exact hpath c h
        · exact stored_edgeVertices hvc hve hrows hv c h

theorem stored_lineGeometry {rv : List Record} {COMF : Nat} {vc ve : RecordMap}
    (hvc : ∀ p ∈ vc, p.2 ∈ rv) (hve : ∀ p ∈ ve, p.2 ∈ rv)
    (hrows : ∀ g ∈ rv, ∀ f, SGXD g = some f → f.data ≠ []) (r : Record) :
    ∀ c ∈ lineGeometry r vc ve COMF, Stored rv COMF c := by
  unfold lineGeometry
  cases r.field "FSPT" with
  | none => simp
  | some FSPT =>
    simp only
    split
    · simp
    · exact stored_lineLoop hvc hve hrows _ _ (by simp)

end ENC

namespace ENC

theorem stored_polyStep {rv : List Record} {COMF : Nat} {vc ve : RecordMap}
    (hvc : ∀ p ∈ vc, p.2 ∈ rv) (hve : ∀ p ∈ ve, p.2 ∈ rv)
    (hrows : ∀ g ∈ rv, ∀ f, SGXD g = some f → f.data ≠ [])
    {row : List QVariant} {st st1 : PolyState} (h : polyStep vc ve COMF row st = some st1)
    (hst : (∀ ring ∈ st.1, ∀ c ∈ ring, Stored rv COMF c) ∧ ∀ c ∈ st.2, Stored rv COMF c) :
    ((∀ ring ∈ st1.1, ∀ c ∈ ring, Stored rv COMF c) ∧ ∀ c ∈ st1.2, Stored rv COMF c) ∧
    (st1.1.flatten ≠ [] ∨ st1.2 ≠ []) := by
  obtain ⟨hp, hv⟩ := hst
  unfold polyStep at h
  cases ha : polyAccum vc ve COMF row st with
  | none => simp [ha] at h
  | some st2 =>
    simp only [ha, Option.some.injEq] at h
    have hne := (polyAccum_grows ha).2
    have h2 : (∀ ring ∈ st2.1, ∀ c ∈ ring, Stored rv COMF c) ∧
        ∀ c ∈ st2.2, Stored rv COMF c := by
      unfold polyAccum at ha
      cases hn : edgeName row with
      | none => simp [hn] at ha
      | some id =>
        simp only [hn] at ha
        cases hs : edgeVertices vc ve COMF id (cell row 1).toUInt with
        | none => simp [hs] at ha
        | some seg =>
          simp only [hs, Option.some.injEq] at ha
          have hseg := stored_edgeVertices hvc hve hrows hs
          subst ha
          split
          · constructor
            · intro ring hr c hc
              rcases List.mem_append.1 hr with h1 | h1
              · exact hp ring h1 c hc
              · rw [List.mem_singleton.1 h1] at hc
                exact hv c hc
            · intro c hc
              simp only [List.nil_append] at hc
              exact hseg c hc
          · constructor
            · exact hp
            · intro c hc
              rcases List.mem_append.1 hc with h1 | h1
              · exact hv c h1
              · exact hseg c h1
    obtain ⟨hp2, hv2⟩ := h2
    subst h
    unfold polyClose
    split
    · refine ⟨⟨?_, by simp⟩, Or.inl ?_⟩
      · intro ring hr c hc
        rcases List.mem_append.1 hr with h1 | h1
        · exact hp2 ring h1 c hc
        · rw [List.mem_singleton.1 h1] at hc
          exact hv2 c hc
      · simp [hne]
    · exact ⟨⟨hp2, hv2⟩, Or.inr hne⟩

theorem stored_polyRows {rv : List Record} {COMF : Nat} {vc ve : RecordMap}
    (hvc : ∀ p ∈ vc, p.2 ∈ rv) (hve : ∀ p ∈ ve, p.2 ∈ rv)
    (hrows : ∀ g ∈ rv, ∀ f, SGXD g = some f → f.data ≠ [])
    {rows : List (List QVariant)} {st st1 : PolyState}
    (h : polyRows vc ve COMF rows st = some st1)
    (hst : (∀ ring ∈ st.1, ∀ c ∈ ring, Stored rv COMF c) ∧ ∀ c ∈ st.2, Stored rv COMF c) :
    ((∀ ring ∈ st1.1, ∀ c ∈ ring, Stored rv COMF c) ∧ ∀ c ∈ st1.2, Stored rv COMF c) ∧
    (rows ≠ [] → st1.1.flatten ≠ [] ∨ st1.2 ≠ []) := by
  induction rows generalizing st with
  | nil =>
    simp only [polyRows, Option.some.injEq] at h
    subst h
    exact ⟨hst, fun h => absurd rfl h⟩
  | cons row rest ih =>
    unfold polyRows at h
    cases hs : polyStep vc ve COMF row st with
    | none => simp [hs] at h
    | some st2 =>
      simp only [hs] at h
      obtain ⟨hst2, hpos2⟩ := stored_polyStep hvc hve hrows hs hst
      obtain ⟨hst1, hpos1⟩ := ih h hst2
      refine ⟨hst1, fun _ => ?_⟩
      cases rest with
      | nil =>
        simp only [polyRows, Option.some.injEq] at h
        subst h
        exact hpos2
      | cons r2 rest2 => exact hpos1 (by simp)

theorem stored_polyGeometry {rv : List Record} {COMF : Nat} {vc ve : RecordMap}
    (hvc : ∀ p ∈ vc, p.2 ∈ rv) (hve : ∀ p ∈ ve, p.2 ∈ rv)
    (hrows : ∀ g ∈ rv, ∀ f, SGXD g = some f → f.data ≠ []) (r : Record) :
    (∀ c ∈ (polyGeometry r vc ve COMF).flatten, Stored rv COMF c) ∧
    (polyGeometry r vc ve COMF ≠ [] → (polyGeometry r vc ve COMF).flatten ≠ []) := by
  unfold polyGeometry
  cases r.field "FSPT" with
  | none => simp
  | some FSPT =>
    simp only
    split
    · simp
    · rename_i h4
      cases hr : polyRows vc ve COMF FSPT.data ([], []) with
      | none => simp
      | some st =>
        simp only
        have hdata : FSPT.data ≠ [] := by
          intro h0
          simp [Field.row, h0] at h4
        obtain ⟨⟨hp, hv⟩, hpos⟩ := stored_polyRows hvc hve hrows hr (by simp)
        have hpos := hpos hdata
        unfold polyFlush
        split
        · rename_i he
          have hv0 : st.2 = [] := List.isEmpty_iff.1 he
          refine ⟨?_, fun _ => ?_⟩
          · intro c hc
            obtain ⟨ring, hring, hcr⟩ := List.mem_flatten.1 hc
            exact hp ring hring c hcr
          · rcases hpos with h | h
            · exact h
            · exact absurd hv0 h
        · rename_i he
          have hv0 : st.2 ≠ [] := fun h => he (by simp [h])
          refine ⟨?_, fun _ => ?_⟩
          · intro c hc
            obtain ⟨ring, hring, hcr⟩ := List.mem_flatten.1 hc
            rcases List.mem_append.1 hring with h | h
            · exact hp ring h c hcr
            · rw [List.mem_singleton.1 h] at hcr
              exact hv c hcr
          · simp [hv0]

theorem stored_pointNode {rv : List Record} {vi vc : RecordMap}
    (hvi : ∀ p ∈ vi, p.2 ∈ rv) (hvc : ∀ p ∈ vc, p.2 ∈ rv) {r n : Record}
    (h : pointNode r vi vc = some n) : n ∈ rv := by
  unfold pointNode at h
  cases hf : r.field "FSPT" with
  | none => simp [hf] at h
  | some FSPT =>
    simp only [hf] at h
    split at h
    · simp at h
    · cases hn : parseNAME FSPT 0 with
      | none => simp [hn] at h
      | some ti =>
        obtain ⟨type, id⟩ := ti
        simp only [hn] at h
        split at h
        · exact hvi _ (find_mem h)
        · split at h
          · exact hvc _ (find_mem h)
          · simp at h

theorem stored_soundings {rv : List Record} {COMF SOMF : Nat} {n : Record} (hn : n ∈ rv)
    (hone : ∀ g ∈ rv, g.field "SG3D" ≠ none → g.field "SG2D" = none) :
    ∀ s ∈ soundings n COMF SOMF, Stored rv COMF s.c := by
  unfold soundings
  cases h3 : n.field "SG3D" with
  | none => simp
  | some f =>
    have h2 : n.field "SG2D" = none := hone n hn (by simp [h3])
    have hs : SGXD n = some f := by simp [SGXD, h2, h3]
    intro s hsm
    obtain ⟨row, hrow, rfl⟩ := List.mem_map.1 hsm
    refine ⟨n, hn, ((cell row 1).toInt, (cell row 0).toInt), ?_, ?_⟩
    · simp only [rawVertexes, hs]
      exact List.mem_map.2 ⟨row, hrow, rfl⟩
    · simp [coordinates, scaled]

end ENC

namespace ENC

theorem not_null_of_holds {b : RectC} {c : Coordinates} (h : b.holds c) : c.isNull = false := by
  obtain ⟨h1, _, _, _⟩ := h
  unfold Coordinates.isNull
  cases hl : c.lon with
  | nan =>
    rw [hl] at h1
    cases hb : b.left <;> simp [hb, Dbl.le, Dbl.lt, Dbl.eq] at h1
  | ninf => simp [Dbl.isNaN]
  | pinf => simp [Dbl.isNaN]
  | quot n d => simp [Dbl.isNaN]

theorem holds_united {b r : RectC} {c : Coordinates} (hc : b.holds c)
    (hr : r.isNull = true ∨ (b.holds r.tl ∧ b.holds r.br)) :
    b.holds (r.united c).tl ∧ b.holds (r.united c).br := by
  by_cases hn : r.isNull = true
  · have hu : r.united c = ⟨c, c⟩ := by
      unfold RectC.united
      simp [not_null_of_holds hc, hn]
    rw [hu]
    exact ⟨hc, hc⟩
  · have hu : r.united c
        = ⟨⟨if Dbl.lt c.lon r.left then c.lon else r.left,
            if Dbl.lt r.top c.lat then c.lat else r.top⟩,
           ⟨if Dbl.lt r.right c.lon then c.lon else r.right,
            if Dbl.lt c.lat r.bottom then c.lat else r.bottom⟩⟩ := by
      unfold RectC.united
      simp [not_null_of_holds hc, hn]
    rw [hu]
    rcases hr with h | ⟨⟨t1, t2, t3, t4⟩, ⟨b1, b2, b3, b4⟩⟩
    · exact absurd h hn
    · obtain ⟨c1, c2, c3, c4⟩ := hc
      unfold RectC.holds
      simp only [RectC.left, RectC.right, RectC.top, RectC.bottom] at *
      refine ⟨⟨?_, ?_, ?_, ?_⟩, ⟨?_, ?_, ?_, ?_⟩⟩ <;> split_ifs <;> assumption

theorem holds_foldl_united {b : RectC} (path : List Coordinates) (r : RectC)
    (hpath : ∀ c ∈ path, b.holds c)
    (hr : r.isNull = true ∨ (b.holds r.tl ∧ b.holds r.br))
    (hne : path ≠ [] ∨ (b.holds r.tl ∧ b.holds r.br)) :
    b.holds (path.foldl RectC.united r).tl ∧ b.holds (path.foldl RectC.united r).br := by
  induction path generalizing r with
  | nil =>
    rcases hne with h | h
    · exact absurd rfl h
    · exact h
  | cons c rest ih =>
    have h1 := holds_united (hpath c (List.mem_cons_self _ _)) hr
    exact ih _ (fun x hx => hpath x (List.mem_cons_of_mem _ hx)) (Or.inr h1) (Or.inr h1)

theorem holdsBox_rectcBounds {b r : RectC} (h : b.holds r.tl ∧ b.holds r.br) :
    b.holdsBox (rectcBounds r).1 (rectcBounds r).2 := by
  obtain ⟨⟨t1, t2, t3, t4⟩, ⟨b1, b2, b3, b4⟩⟩ := h
  unfold RectC.holdsBox rectcBounds RectC.holds RectC.left RectC.right RectC.top RectC.bottom at *
  exact ⟨⟨t1, t2, b3, b4⟩, ⟨b1, b2, t3, t4⟩⟩

theorem holdsBox_of_path {b : RectC} {path : List Coordinates} (hpath : ∀ c ∈ path, b.holds c)
    (hne : path ≠ []) :
    b.holdsBox (rectcBounds (path.foldl RectC.united RectC.null)).1
      (rectcBounds (path.foldl RectC.united RectC.null)).2 :=
  holdsBox_rectcBounds (holds_foldl_united path RectC.null hpath (Or.inl (by decide)) (Or.inl hne))

theorem pos_new (k : Codes) (type : Nat) (c : Coordinates) (label : QString)
    (params : List (List Nat)) : (Point.new k type c label params).pos = c := by
  unfold Point.new
  simp only
  split_ifs <;> rfl

theorem path_line_new (k : Codes) (type : Nat) (path : List Coordinates) (label : QString)
    (params : List (List Nat)) : (Line.new k type path label params).path = path := by
  unfold Line.new
  split_ifs <;> rfl

theorem path_poly_new (k : Codes) (type : Nat) (path : Polygon) (params : List (List Nat)) :
    (Poly.new k type path params).path = path := by
  unfold Poly.new
  split_ifs <;> rfl

theorem holdsBox_pointEntry {b : RectC} {p : Point} (h : b.holds p.pos) :
    b.holdsBox (pointEntry p).min (pointEntry p).max := ⟨h, h⟩

theorem within_loadFeature (k : Codes) (s : FullPass) (rv : List Record)
    (hkn : s.known rv) (hc : s.COMF ≠ 0) (hb : (bounds rv Rect.empty).1 = true)
    (hrows : ∀ g ∈ rv, ∀ f, SGXD g = some f → f.data ≠ [])
    (hone : ∀ g ∈ rv, g.field "SG3D" ≠ none → g.field "SG2D" = none)
    (idx : Indices) (r : Record)
    (hidx : idx.within (boundsRect (bounds rv Rect.empty).2 s.COMF)) :
    (loadFeature k s idx r).within (boundsRect (bounds rv Rect.empty).2 s.COMF) := by
  obtain ⟨hvi, hvc, hve⟩ := hkn
  obtain ⟨ip, il, ia⟩ := hidx
  unfold loadFeature
  match r with
  | [] => exact ⟨ip, il, ia⟩
  | [_] => exact ⟨ip, il, ia⟩
  | r0 :: f :: rs =>
    simp only
    by_cases h5 : (f.row 0).length < 5
    · simp only [h5, if_true]
      exact ⟨ip, il, ia⟩
    · simp only [h5, if_false]
      by_cases hP : (cell (f.row 0) 2).toUInt = PRIM_P
      · simp only [hP, if_true]
        by_cases hS : (cell (f.row 0) 4).toUInt = k.SOUNDG
        · simp only [hS, if_true]
          refine ⟨?_, il, ia⟩
          intro e he
          rcases List.mem_append.1 he with h | h
          · exact ip e h
          · obtain ⟨x, hx, rfl⟩ := List.mem_map.1 h
            apply holdsBox_pointEntry
            unfold pointObjectSounding
            rw [pos_new]
            apply holds_of_stored hc hb
            unfold soundingGeometry at hx
            cases hn : pointNode (r0 :: f :: rs) s.vi s.vc with
            | none => simp [hn] at hx
            | some n =>
              simp only [hn] at hx
              exact stored_soundings (stored_pointNode hvi hvc hn) hone x hx
        · simp only [hS, if_false]
          cases ho : pointObject k (r0 :: f :: rs) s.vi s.vc s.COMF (cell (f.row 0) 4).toUInt with
          | none => exact ⟨ip, il, ia⟩
          | some p =>
            refine ⟨?_, il, ia⟩
            intro e he
            rcases List.mem_append.1 he with h | h
            · exact ip e h
            · rw [List.mem_singleton.1 h]
              apply holdsBox_pointEntry
              unfold pointObject at ho
              simp only at ho
              split at ho
              · simp at ho
              · rename_i hnull
                simp only [Option.some.injEq] at ho
                subst ho
                rw [pos_new]
                apply holds_of_stored hc hb
                unfold pointGeometry at hnull ⊢
                cases hn : pointNode (r0 :: f :: rs) s.vi s.vc with
                | none => simp [hn, Coordinates.isNull, Coordinates.null, Dbl.isNaN] at hnull
                | some n =>
                  simp only [hn] at hnull ⊢
                  exact stored_point (stored_pointNode hvi hvc hn) hrows (by simpa using hnull)
      · simp only [hP, if_false]
        by_cases hL : (cell (f.row 0) 2).toUInt = PRIM_L
        · simp only [hL, if_true]
          cases ho : lineObject k (r0 :: f :: rs) s.vc s.ve s.COMF (cell (f.row 0) 4).toUInt with
          | none => exact ⟨ip, il, ia⟩
          | some l =>
            refine ⟨ip, ?_, ia⟩
            intro e he
            rcases List.mem_append.1 he with h | h
            · exact il e h
            · rw [List.mem_singleton.1 h]
              unfold lineObject at ho
              simp only at ho
              split at ho
              · simp at ho
              · rename_i hne
                simp only [Option.some.injEq] at ho
                subst ho
                simp only [Line.bounds, path_line_new]
                apply holdsBox_of_path
                · intro c hcm
                  exact holds_of_stored hc hb (stored_lineGeometry hvc hve hrows _ c hcm)
                · intro h0
                  simp [h0] at hne
        · simp only [hL, if_false]
          by_cases hA : (cell (f.row 0) 2).toUInt = PRIM_A
          · simp only [hA, if_true]
            cases ho : polyObject k (r0 :: f :: rs) s.vc s.ve s.COMF
                (cell (f.row 0) 4).toUInt with
            | none => exact ⟨ip, il, ia⟩
            | some p =>
              refine ⟨ip, il, ?_⟩
              intro e he
              rcases List.mem_append.1 he with h | h
              · exact ia e h
              · rw [List.mem_singleton.1 h]
                unfold polyObject at ho
                simp only at ho
                split at ho
                · simp at ho
                · rename_i hne
                  simp only [Option.some.injEq] at ho
                  subst ho
                  simp only [Poly.bounds, path_poly_new]
                  obtain ⟨hst, hpos⟩ :=
                    @stored_polyGeometry rv s.COMF s.vc s.ve hvc hve hrows (r0 :: f :: rs)
                  apply holdsBox_of_path
                  · intro c hcm
                    exact holds_of_stored hc hb (hst c hcm)
                  · apply hpos
                    intro h0
                    simp [h0] at hne
          · simp only [hA, if_false]
            exact ⟨ip, il, ia⟩

end ENC

namespace ENC

theorem passes_agree_step (record : Record) (sv sv1 : ValidatePass) (sf : FullPass)
    (hv : processRecordValidate record sv = (true, sv1))
    (hkn : sf.known sv.rv) (hc : sf.COMF = sv.COMF) :
    (processRecordFull record sf).2.known sv1.rv ∧
    (processRecordFull record sf).2.COMF = sv1.COMF ∧
    (∀ g ∈ sv1.rv, g ∈ sv.rv ∨ g = record) := by
  obtain ⟨hvi, hvc, hve⟩ := hkn
  unfold processRecordValidate at hv
  unfold processRecordFull
  match record, hv with
  | [], hv => simp at hv
  | [_], hv => simp at hv
  | r0 :: f :: rs, hv =>
    simp only at hv ⊢
    by_cases hV : f.tag = "VRID"
    · simp only [hV, if_true, Prod.mk.injEq, true_and] at hv ⊢
      subst hv
      have hmem : ∀ p : Nat × Record, p.2 ∈ sv.rv → p.2 ∈ sv.rv ++ [r0 :: f :: rs] :=
        fun p h => List.mem_append_left _ h
      have hrec : (r0 :: f :: rs) ∈ sv.rv ++ [r0 :: f :: rs] :=
        List.mem_append_right _ (List.mem_singleton.2 rfl)
      have hsub : ∀ g ∈ sv.rv ++ [r0 :: f :: rs], g ∈ sv.rv ∨ g = r0 :: f :: rs := by
        intro g hg
        rcases List.mem_append.1 hg with h | h
        · exact Or.inl h
        · exact Or.inr (List.mem_singleton.1 h)
      have hbase : (∀ p ∈ sf.vi, p.2 ∈ sv.rv ++ [r0 :: f :: rs]) ∧
          (∀ p ∈ sf.vc, p.2 ∈ sv.rv ++ [r0 :: f :: rs]) ∧
          (∀ p ∈ sf.ve, p.2 ∈ sv.rv ++ [r0 :: f :: rs]) :=
        ⟨fun p hp => hmem p (hvi p hp), fun p hp => hmem p (hvc p hp),
          fun p hp => hmem p (hve p hp)⟩
      have hins : ∀ (m : RecordMap) (id : Nat), (∀ p ∈ m, p.2 ∈ sv.rv ++ [r0 :: f :: rs]) →
          ∀ p ∈ m.insert id (r0 :: f :: rs), p.2 ∈ sv.rv ++ [r0 :: f :: rs] := by
        intro m id hm p hp
        rcases List.mem_cons.1 hp with h | h
        · rw [h]
          exact hrec
        · exact hm p h
      split_ifs
      · exact ⟨hbase, hc, hsub⟩
      · exact ⟨⟨hins _ _ hbase.1, hbase.2.1, hbase.2.2⟩, hc, hsub⟩
      · exact ⟨⟨hbase.1, hins _ _ hbase.2.1, hbase.2.2⟩, hc, hsub⟩
      · exact ⟨⟨hbase.1, hbase.2.1, hins _ _ hbase.2.2⟩, hc, hsub⟩
      · exact ⟨hbase, hc, hsub⟩
      · exact ⟨hbase, hc, hsub⟩
    · simp only [hV, if_false] at hv ⊢
      by_cases hF : f.tag = "FRID"
      · have hD : ¬ f.tag = "DSID" := by rw [hF]; decide
        have hP : ¬ f.tag = "DSPM" := by rw [hF]; decide
        simp only [hD, hP, if_false, Prod.mk.injEq, true_and] at hv
        subst hv
        simp only [hF, if_true]
        exact ⟨⟨hvi, hvc, hve⟩, hc, fun g hg => Or.inl hg⟩
      · simp only [hF, if_false]
        by_cases hD : f.tag = "DSID"
        · have hP : ¬ f.tag = "DSPM" := by rw [hD]; decide
          simp only [hD, if_true] at hv
          simp only [hP, if_false]
          cases hn : f.subfieldBytes "DSNM" with
          | none => simp [hn] at hv
          | some n =>
            simp only [hn, Prod.mk.injEq, true_and] at hv
            subst hv
            exact ⟨⟨hvi, hvc, hve⟩, hc, fun g hg => Or.inl hg⟩
        · simp only [hD, if_false] at hv
          by_cases hP : f.tag = "DSPM"
          · simp only [hP, if_true] at hv ⊢
            cases hn : f.subfieldUInt "COMF" with
            | none => simp [hn] at hv
            | some cv =>
              simp only [hn, Prod.mk.injEq, true_and] at hv
              subst hv
              cases f.subfieldUInt "SOMF" with
              | none => exact ⟨⟨hvi, hvc, hve⟩, rfl, fun g hg => Or.inl hg⟩
              | some d => exact ⟨⟨hvi, hvc, hve⟩, rfl, fun g hg => Or.inl hg⟩
          · simp only [hP, if_false, Prod.mk.injEq, true_and] at hv ⊢
            subst hv
            exact ⟨⟨hvi, hvc, hve⟩, hc, fun g hg => Or.inl hg⟩

theorem passes_agree (records : List Record) (sv sv1 : ValidatePass) (sf : FullPass)
    (w : List Warning) (hv : validateRecords records sv = (true, sv1))
    (hkn : sf.known sv.rv) (hc : sf.COMF = sv.COMF) :
    (readRecords records (sf, w)).1.known sv1.rv ∧
    (readRecords records (sf, w)).1.COMF = sv1.COMF ∧
    (∀ g ∈ sv1.rv, g ∈ sv.rv ∨ g ∈ records) := by
  induction records generalizing sv sf w with
  | nil =>
    simp only [validateRecords, Prod.mk.injEq, true_and] at hv
    subst hv
    exact ⟨hkn, hc, fun g hg => Or.inl hg⟩
  | cons record rest ih =>
    unfold validateRecords at hv
    simp only at hv
    cases hp : (processRecordValidate record sv).1 with
    | false => simp [hp] at hv
    | true =>
      simp only [hp, if_true] at hv
      have hp2 : processRecordValidate record sv = (true, (processRecordValidate record sv).2) := by
        rw [← hp]
      obtain ⟨k1, c1, m1⟩ := passes_agree_step record sv _ sf hp2 hkn hc
      unfold readRecords
      simp only
      obtain ⟨k2, c2, m2⟩ := ih _ _ _ hv k1 c1
      refine ⟨k2, c2, ?_⟩
      intro g hg
      rcases m2 g hg with h | h
      · rcases m1 g h with h' | h'
        · exact Or.inl h'
        · exact Or.inr (by rw [h']; exact List.mem_cons_self _ _)
      · exact Or.inr (List.mem_cons_of_mem _ h)

theorem within_loadFeatures (k : Codes) (s : FullPass) (rv : List Record)
    (hkn : s.known rv) (hc : s.COMF ≠ 0) (hb : (bounds rv Rect.empty).1 = true)
    (hrows : ∀ g ∈ rv, ∀ f, SGXD g = some f → f.data ≠ [])
    (hone : ∀ g ∈ rv, g.field "SG3D" ≠ none → g.field "SG2D" = none)
    (fe : List Record) (idx : Indices)
    (hidx : idx.within (boundsRect (bounds rv Rect.empty).2 s.COMF)) :
    (loadFeatures k s fe idx).within (boundsRect (bounds rv Rect.empty).2 s.COMF) := by
  induction fe generalizing idx with
  | nil => exact hidx
  | cons r rest ih =>
    exact ih _ (within_loadFeature k s rv hkn hc hb hrows hone idx r hidx)

end ENC

namespace ENC

theorem accepted_unfold (c : Container) (ht : c.textual)
    (hacc : (MapData.new c).errorString = "") :
    c.ddrError = none ∧ (validateRecords c.records ⟨[], 1, []⟩).1 = true ∧
    (bounds (validateRecords c.records ⟨[], 1, []⟩).2.rv Rect.empty).1 = true ∧
    (MapData.new c).bounds
      = boundsRect (bounds (validateRecords c.records ⟨[], 1, []⟩).2.rv Rect.empty).2
          (validateRecords c.records ⟨[], 1, []⟩).2.COMF := by
  obtain ⟨ht1, ht2⟩ := ht
  unfold MapData.new at hacc ⊢
  cases hd : c.ddrError with
  | some e =>
    have he : e ≠ "" := fun h => ht1 (by rw [hd, h])
    simp [hd, he] at hacc
  | none =>
    simp only [hd] at hacc ⊢
    cases hv : (validateRecords c.records ⟨[], 1, []⟩).1 with
    | false => simp [hv] at hacc
    | true =>
      simp only [hv, Bool.not_true, Bool.false_eq_true, if_false] at hacc ⊢
      cases hr : c.readError with
      | some e =>
        have he : e ≠ "" := fun h => ht2 (by rw [hr, h])
        simp [hr, he] at hacc
      | none =>
        simp only [hr] at hacc ⊢
        cases hb : (bounds (validateRecords c.records ⟨[], 1, []⟩).2.rv Rect.empty).1 with
        | false => simp [hb] at hacc
        | true =>
          simp only [hb, Bool.not_true, Bool.false_eq_true, if_false] at hacc ⊢
          cases hval : (boundsRect
              (bounds (validateRecords c.records ⟨[], 1, []⟩).2.rv Rect.empty).2
              (validateRecords c.records ⟨[], 1, []⟩).2.COMF).isValid with
          | false => simp [hval] at hacc
          | true => simp

/-- C4 (amended): for every record stream that the validate pass accepts with
a non-zero COMF, in which no coordinate field is without rows and no record
carries both an `SG2D` and an `SG3D` field, `bounds()` contains the bounding
box of every Point, Line and Poly that `load` inserts into the three indices,
hence the union of these boxes. -/
theorem bounds_hold_inserted_objects (k : Codes) (c : Container) (ht : c.textual)
    (hacc : (MapData.new c).errorString = "")
    (hcomf : (validateRecords c.records ⟨[], 1, []⟩).2.COMF ≠ 0)
    (hwf : ∀ g ∈ c.records, plainCoordinates g = true) :
    (load k true c.records Indices.empty).within (MapData.new c).bounds := by
  obtain ⟨_, hv, hb, hbr⟩ := accepted_unfold c ht hacc
  have hv2 : validateRecords c.records ⟨[], 1, []⟩
      = (true, (validateRecords c.records ⟨[], 1, []⟩).2) := by rw [← hv]
  obtain ⟨hkn, hc, hsub⟩ := passes_agree c.records ⟨[], 1, []⟩ _ FullPass.init []
    hv2 ⟨by simp [FullPass.init], by simp [FullPass.init], by simp [FullPass.init]⟩ rfl
  have hin : ∀ g ∈ (validateRecords c.records ⟨[], 1, []⟩).2.rv, g ∈ c.records := by
    intro g hg
    rcases hsub g hg with h | h
    · simp at h
    · exact h
  have hrows : ∀ g ∈ (validateRecords c.records ⟨[], 1, []⟩).2.rv,
      ∀ f, SGXD g = some f → f.data ≠ [] := by
    intro g hg f hf
    have h := hwf g (hin g hg)
    unfold plainCoordinates at h
    simp only [hf, Bool.and_eq_true, Bool.not_eq_true', List.isEmpty_eq_false] at h
    exact h.1
  have hone : ∀ g ∈ (validateRecords c.records ⟨[], 1, []⟩).2.rv,
      g.field "SG3D" ≠ none → g.field "SG2D" = none := by
    intro g hg h3
    have h := hwf g (hin g hg)
    unfold plainCoordinates at h
    cases h3' : g.field "SG3D" with
    | none => exact absurd h3' h3
    | some f3 =>
      simp only [h3', Bool.and_eq_true, Option.isNone_iff_eq_none] at h
      exact h.2
  rw [hbr, ← hc]
  unfold load
  simp only [if_true, Indices.empty]
  apply within_loadFeatures k _ _ hkn (by rw [hc]; exact hcomf) hb hrows hone
  exact ⟨by simp, by simp, by simp⟩

theorem bounds_hold_inserted_objects_witness :
    (load Sample.codes true Sample.chart.records Indices.empty).within
      (MapData.new Sample.chart).bounds :=
  bounds_hold_inserted_objects Sample.codes Sample.chart (by decide) (by decide) (by decide)
    (by decide)

end ENC

namespace JLS

/-! ## Frame properties of the run-length decoder -/

theorem sameRows_refl (c : Context) : c.sameRows c := ⟨rfl, rfl, rfl⟩

theorem sameRows_trans {c d e : Context} (h1 : c.sameRows d) (h2 : d.sameRows e) :
    c.sameRows e :=
  ⟨h2.1.trans h1.1, h2.2.1.trans h1.2.1, h2.2.2.trans h1.2.2⟩

theorem sameRows_runUp (c : Context) : c.sameRows c.runUp := ⟨rfl, rfl, rfl⟩

theorem sameRows_runDown (c : Context) : c.sameRows c.runDown := ⟨rfl, rfl, rfl⟩

theorem sameRows_runFor (col : Nat) (bs : BitStream) (todo i cnt : Nat) (ctx : Context) :
    ctx.sameRows (runFor col bs todo i cnt ctx).ctx := by
  induction todo generalizing i cnt ctx with
  | zero => exact sameRows_refl ctx
  | succ t ih =>
    unfold runFor
    simp only
    have h1 : ctx.sameRows
        (if (cnt + ctx.rg) % 65536 ≤ col ∧ ctx.runIndex < 31 then ctx.runUp else ctx) := by
      split
      · exact sameRows_runUp ctx
      · exact sameRows_refl ctx
    by_cases hc : col ≤ (cnt + ctx.rg) % 65536
    · simp only [hc, if_true]
      cases bs.read (i + 1) with
      | none => exact h1
      | some b => exact h1
    · simp only [hc, if_false]
      exact sameRows_trans h1 (ih _ _ _)

theorem sameRows_runEnd (bs : BitStream) (ctx : Context) (z cnt : Nat) :
    ctx.sameRows (runEnd bs ctx z cnt).ctx := by
  unfold runEnd
  cases bs.read (z + 1) with
  | none => exact sameRows_refl ctx
  | some bs1 =>
    simp only
    by_cases hk : ctx.rk ≠ 0
    · rw [if_pos hk]
      cases bs1.read ctx.rk with
      | none => exact sameRows_refl ctx
      | some bs2 =>
        simp only
        split <;> exact ⟨rfl, rfl, rfl⟩
    · rw [if_neg hk]
      split <;> exact ⟨rfl, rfl, rfl⟩

theorem sameRows_runLoop (col fuel : Nat) (bs : BitStream) (ctx : Context) (cnt : Nat) :
    ctx.sameRows (runLoop col fuel bs ctx cnt).ctx := by
  induction fuel generalizing bs ctx cnt with
  | zero => exact sameRows_refl ctx
  | succ f ih =>
    unfold runLoop
    by_cases hv : 2 ^ 31 ≤ bs.value
    · simp only [hv, if_true]
      have h := sameRows_runFor col bs (Z.getD ((bs.value >>> 24) ^^^ 255) 0) 0 cnt ctx
      cases hr : runFor col bs (Z.getD ((bs.value >>> 24) ^^^ 255) 0) 0 cnt ctx with
      | failed c =>
        rw [hr] at h
        exact h
      | hit b c =>
        rw [hr] at h
        exact h
      | through n c =>
        rw [hr] at h
        simp only
        by_cases hz : Z.getD ((bs.value >>> 24) ^^^ 255) 0 ≠ 8
        · rw [if_pos hz]
          exact sameRows_trans h (sameRows_runEnd bs c _ n)
        · rw [if_neg hz]
          cases bs.read 8 with
          | none => exact h
          | some bs1 => exact sameRows_trans h (ih _ c n)
    · simp only [hv, if_false]
      exact sameRows_runEnd bs ctx 0 cnt

theorem sameRows_processRunMode (bs : BitStream) (ctx : Context) (col : Nat) :
    ctx.sameRows (processRunMode bs ctx col).ctx :=
  sameRows_runLoop _ _ bs ctx 0

theorem sameRows_halve (ctx : Context) (i : Nat) : ctx.sameRows (halve ctx i) := by
  unfold halve
  split <;> exact ⟨rfl, rfl, rfl⟩

theorem sameRows_biasFix (ctx : Context) : ctx.sameRows (biasFix ctx) := by
  unfold biasFix
  simp only
  split
  · exact ⟨rfl, rfl, rfl⟩
  · split <;> exact ⟨rfl, rfl, rfl⟩

end JLS

namespace JLS

/-! ## Every written sample is in range -/

theorem getD_set_ne (l : List Nat) {i j : Nat} (v : Nat) (h : j ≠ i) :
    (l.set i v).getD j 0 = l.getD j 0 := by
  simp [List.getD_eq_getElem?_getD, List.getElem?_set_ne (Ne.symm h)]

theorem getD_set_self_le (l : List Nat) (i v m : Nat) (h : v ≤ m) :
    (l.set i v).getD i 0 ≤ m := by
  by_cases hi : i < l.length
  · simp [List.getD_eq_getElem?_getD, List.getElem?_set_self hi, h]
  · have : (l.set i v)[i]? = none := by
      apply List.getElem?_eq_none
      simp only [List.length_set]
      omega
    simp [List.getD_eq_getElem?_getD, this]

theorem clamp_range (p : Params) (x : Int) : 0 ≤ clamp p x ∧ clamp p x ≤ (p.maxval : Int) := by
  unfold clamp
  have : (0 : Int) ≤ (p.maxval : Int) := Int.ofNat_nonneg _
  simp only
  split <;> split <;> omega

theorem toU16_le {x : Int} {m : Nat} (h0 : 0 ≤ x) (h1 : x ≤ (m : Int)) : toU16 x ≤ m := by
  unfold toU16
  omega

theorem inRange_store (p : Params) (st : Line) (Rx : Int) (ev : Nat → Nat → Event)
    (htr : ∀ e ∈ st.trace, e.value ≤ p.maxval)
    (hcur : ∀ i, 1 ≤ i → i < st.col → st.ctx.current.getD i 0 ≤ p.maxval)
    (hcol : 1 ≤ st.col) (hRx : 0 ≤ Rx ∧ Rx ≤ (p.maxval : Int))
    (hev : ∀ c v, (ev c v).value = v) : (store st Rx ev).inRange p := by
  have hv := toU16_le hRx.1 hRx.2
  refine ⟨hRx, ?_, ?_, ?_⟩
  · intro e he
    simp only [store, List.mem_append, List.mem_singleton] at he
    rcases he with h | h
    · exact htr e h
    · rw [h, hev]
      exact hv
  · intro i h1 h2
    simp only [store] at h2 ⊢
    by_cases hi : i = st.col
    · rw [hi]
      exact getD_set_self_le _ _ _ _ hv
    · rw [getD_set_ne _ _ hi]
      exact hcur i h1 (by omega)
  · simp only [store]
    omega

theorem continues_refl (st : Line) : st.continues st :=
  ⟨rfl, rfl, Nat.le_refl _, fun _ _ => rfl, [], by simp⟩

theorem continues_trans {a b c : Line} (h1 : a.continues b) (h2 : b.continues c) :
    a.continues c := by
  obtain ⟨w1, l1, c1, f1, m1, t1⟩ := h1
  obtain ⟨w2, l2, c2, f2, m2, t2⟩ := h2
  refine ⟨w2.trans w1, l2.trans l1, Nat.le_trans c1 c2, ?_, m1 ++ m2, ?_⟩
  · intro i hi
    rw [f2 i (by omega), f1 i hi]
  · rw [t2, t1, List.append_assoc]

theorem continues_store (st : Line) (Rx : Int) (ev : Nat → Nat → Event) :
    st.continues (store st Rx ev) := by
  refine ⟨rfl, rfl, ?_, ?_, [ev st.col (toU16 Rx)], rfl⟩
  · simp only [store]
    omega
  · intro i hi
    simp only [store]
    exact getD_set_ne _ _ (by omega)

/-- A state that differs from `st` only in the bit stream, in `Rb`, `Rc` and in
the parts of the context outside the two sample buffers. -/
theorem continues_of_same {st st1 : Line} (hc : st.ctx.sameRows st1.ctx) (hcol : st1.col = st.col)
    (htr : st1.trace = st.trace) : st.continues st1 := by
  obtain ⟨hw, hl, hcur⟩ := hc
  exact ⟨hw, hl, by omega, fun i _ => by rw [hcur], [], by simp [htr]⟩

theorem inRange_of_same {p : Params} {st st1 : Line} (h : st.inRange p)
    (hcur : st1.ctx.current = st.ctx.current) (hcol : st1.col = st.col)
    (htr : st1.trace = st.trace) (hRa : st1.Ra = st.Ra) : st1.inRange p := by
  obtain ⟨h1, h2, h3, h4⟩ := h
  refine ⟨by rw [hRa]; exact h1, by rw [htr]; exact h2, ?_, by omega⟩
  intro i hi1 hi2
  rw [hcur]
  exact h3 i hi1 (by omega)

theorem fillOne_spec (p : Params) (st : Line) (h : st.inRange p) :
    (fillOne st).inRange p ∧ st.continues (fillOne st) ∧ (fillOne st).Ra = st.Ra ∧
    (fillOne st).bs = st.bs ∧ (fillOne st).col = st.col + 1 := by
  obtain ⟨hRa, htr, hcur, hcol⟩ := h
  have hv := toU16_le hRa.1 hRa.2
  refine ⟨⟨hRa, ?_, ?_, ?_⟩, ⟨rfl, rfl, ?_, ?_, [Event.fill st.col (toU16 st.Ra)], rfl⟩,
    rfl, rfl, rfl⟩
  · intro e he
    simp only [fillOne, List.mem_append, List.mem_singleton] at he
    rcases he with h1 | h1
    · exact htr e h1
    · rw [h1]
      exact hv
  · intro i h1 h2
    simp only [fillOne] at h2 ⊢
    by_cases hi : i = st.col
    · rw [hi]
      exact getD_set_self_le _ _ _ _ hv
    · rw [getD_set_ne _ _ hi]
      exact hcur i h1 (by omega)
  · simp only [fillOne]
    omega
  · simp only [fillOne]
    omega
  · intro i hi
    simp only [fillOne]
    exact getD_set_ne _ _ (by omega)

theorem fillRun_spec (p : Params) (todo : Nat) (st : Line) (h : st.inRange p) :
    (fillRun todo st).2.inRange p ∧ st.continues (fillRun todo st).2 ∧
    (fillRun todo st).2.Ra = st.Ra ∧ (fillRun todo st).2.bs = st.bs ∧
    (todo ≠ 0 → (fillRun todo st).1 = true → st.col < (fillRun todo st).2.col) := by
  induction todo generalizing st with
  | zero =>
    exact ⟨h, continues_refl st, rfl, rfl, fun h0 => absurd rfl h0⟩
  | succ t ih =>
    by_cases hw : st.ctx.w < st.col
    · have e : fillRun (t + 1) st = (false, st) := by
        rw [fillRun, if_pos hw]
      rw [e]
      exact ⟨h, continues_refl st, rfl, rfl, fun _ h1 => by simp at h1⟩
    · have e : fillRun (t + 1) st = fillRun t (fillOne st) := by
        rw [fillRun, if_neg hw]
      rw [e]
      obtain ⟨o1, o2, o3, o4, o5⟩ := fillOne_spec p st h
      obtain ⟨i1, i2, i3, i4, _⟩ := ih _ o1
      refine ⟨i1, continues_trans o2 i2, i3.trans o3, i4.trans o4, fun _ _ => ?_⟩
      have := i2.2.2.1
      omega

end JLS

namespace JLS

theorem stepOk_fail (p : Params) {st st1 : Line} (f : Failure) (h : st1.inRange p)
    (hc : st.continues st1) : StepOk p st (StepResult.fail f st1) :=
  ⟨h, hc, fun _ h1 => by simp at h1, fun _ h1 => by simp at h1⟩

end JLS

namespace JLS

theorem stepOk_store (p : Params) (st st1 : Line) (x : Int) (ev : Nat → Nat → Event)
    (h : st.inRange p) (hrows : st.ctx.sameRows st1.ctx) (hcol : st1.col = st.col)
    (htr : st1.trace = st.trace) (hev : ∀ c v, (ev c v).value = v) :
    StepOk p st (StepResult.next (store st1 (clamp p x) ev)) := by
  obtain ⟨hRa, htr0, hcur, hc1⟩ := h
  have hco : st.continues st1 := continues_of_same hrows hcol htr
  refine ⟨?_, continues_trans hco (continues_store st1 _ ev), ?_, fun _ h1 => by simp at h1⟩
  · apply inRange_store p st1 _ ev _ _ _ (clamp_range p x) hev
    · rw [htr]
      exact htr0
    · intro i h1 h2
      rw [hrows.2.2]
      exact hcur i h1 (by omega)
    · omega
  · intro st2 h2
    simp only [StepResult.next.injEq] at h2
    rw [← h2]
    simp only [store]
    omega

theorem sameRows_regularUpdate (ctx : Context) (meh mes : Int) :
    ctx.sameRows (regularUpdate ctx meh mes) := by
  unfold regularUpdate
  refine sameRows_trans (sameRows_trans ?_ (sameRows_halve _ 1)) (sameRows_biasFix _)
  exact ⟨rfl, rfl, rfl⟩

theorem sameRows_runBias (ctx : Context) (ictx : Nat) (even : Bool) :
    ctx.sameRows (runBias ctx ictx even) := by
  unfold runBias
  split <;> exact ⟨rfl, rfl, rfl⟩

theorem sameRows_runUpdate (ctx : Context) (rctx : Nat) (evh : Int) :
    ctx.sameRows (runUpdate ctx rctx evh) := by
  unfold runUpdate
  refine sameRows_trans ?_ (sameRows_halve _ _)
  exact ⟨rfl, rfl, rfl⟩

theorem stepOk_regularStep (p : Params) (st : Line) (h : st.inRange p) :
    StepOk p st (regularStep p st) := by
  unfold regularStep
  cases kSearch (acc st.ctx.n 1) (acc st.ctx.a 1) with
  | none => exact stepOk_fail p _ h (continues_refl st)
  | some k =>
    simp only
    cases (decodeError p st.bs (p.limit % 256).toNat k).ok with
    | false =>
      simp only [Bool.not_false, if_true]
      exact stepOk_fail p _ (inRange_of_same h rfl rfl rfl rfl)
        (continues_of_same (sameRows_refl _) rfl rfl)
    | true =>
      simp only [Bool.not_true, Bool.false_eq_true, if_false]
      exact stepOk_store p st _ _ _ h (sameRows_regularUpdate _ _ _) rfl rfl (fun _ _ => rfl)

theorem stepOk_interruption (p : Params) (st : Line) (h : st.inRange p) :
    StepOk p st (interruption p st) := by
  unfold interruption
  simp only
  cases kSearch (acc st.ctx.n (runCategory p st.Ra st.Rc + 2))
      (runTemp st.ctx (runCategory p st.Ra st.Rc)) with
  | none => exact stepOk_fail p _ h (continues_refl st)
  | some k =>
    simp only
    cases (decodeError p st.bs ((p.limit - (st.ctx.lrk : Int)) % 256).toNat k).ok with
    | false =>
      simp only [Bool.not_false, if_true]
      exact stepOk_fail p _ (inRange_of_same h rfl rfl rfl rfl)
        (continues_of_same (sameRows_refl _) rfl rfl)
    | true =>
      simp only [Bool.not_true, Bool.false_eq_true, if_false]
      split
      · exact stepOk_fail p _ (inRange_of_same h (sameRows_runBias _ _ _).2.2 rfl rfl rfl)
          (continues_of_same (sameRows_runBias _ _ _) rfl rfl)
      · exact stepOk_store p st _ _ _ h
          (sameRows_trans (sameRows_runBias _ _ _) (sameRows_runUpdate _ _ _)) rfl rfl
          (fun _ _ => rfl)

theorem stepOk_of_continues (p : Params) {st st1 : Line} {r : StepResult}
    (hc : st.continues st1) (h : StepOk p st1 r) : StepOk p st r := by
  obtain ⟨h1, h2, h3, h4⟩ := h
  have hle : st.col ≤ st1.col := hc.2.2.1
  refine ⟨h1, continues_trans hc h2, ?_, ?_⟩
  · intro st2 e
    have := h3 st2 e
    omega
  · intro st2 e
    have := h4 st2 e
    exact ⟨this.1, by omega⟩

theorem stepOk_runStep (p : Params) (st : Line) (h : st.inRange p) :
    StepOk p st (runStep p st) := by
  unfold runStep
  simp only
  have hrows := sameRows_processRunMode st.bs st.ctx (runLength st)
  have hin : Line.inRange p
      { st with bs := (processRunMode st.bs st.ctx (runLength st)).bs,
                ctx := (processRunMode st.bs st.ctx (runLength st)).ctx } :=
    inRange_of_same h hrows.2.2 rfl rfl rfl
  have hco : st.continues
      { st with bs := (processRunMode st.bs st.ctx (runLength st)).bs,
                ctx := (processRunMode st.bs st.ctx (runLength st)).ctx } :=
    continues_of_same hrows rfl rfl
  cases (processRunMode st.bs st.ctx (runLength st)).ok with
  | false =>
    simp only [Bool.not_false, if_true]
    exact stepOk_fail p _ hin hco
  | true =>
    simp only [Bool.not_true, Bool.false_eq_true, if_false]
    by_cases hs : (processRunMode st.bs st.ctx (runLength st)).samples ≠ 0
    · rw [if_pos hs]
      obtain ⟨f1, f2, f3, f4, f5⟩ := fillRun_spec p
        (processRunMode st.bs st.ctx (runLength st)).samples _ hin
      cases hf : (fillRun (processRunMode st.bs st.ctx (runLength st)).samples
          { st with bs := (processRunMode st.bs st.ctx (runLength st)).bs,
                    ctx := (processRunMode st.bs st.ctx (runLength st)).ctx }).1 with
      | false =>
        simp only [Bool.not_false, if_true]
        exact stepOk_fail p _ f1 (continues_trans hco f2)
      | true =>
        simp only [Bool.not_true, Bool.false_eq_true, if_false]
        have hlt := f5 hs hf
        simp only at hlt
        split
        · rename_i hw
          exact ⟨f1, continues_trans hco f2, fun _ e => by simp at e,
            fun st1 e => by
              simp only [StepResult.stop.injEq] at e
              rw [← e]
              exact ⟨hw, hlt⟩⟩
        · apply stepOk_of_continues p (continues_trans hco
            (continues_trans f2 (continues_of_same (sameRows_refl _) rfl rfl)))
          exact stepOk_interruption p _ (inRange_of_same f1 rfl rfl rfl rfl)
    · rw [if_neg hs]
      apply stepOk_of_continues p (continues_trans hco
        (continues_of_same (sameRows_refl _) rfl rfl))
      exact stepOk_interruption p _ (inRange_of_same hin rfl rfl rfl rfl)

theorem stepOk_lineStep (p : Params) (st : Line) (h : st.inRange p) :
    StepOk p st (lineStep p st) := by
  unfold lineStep
  split
  · exact stepOk_regularStep p st h
  · exact stepOk_runStep p st h

/-- The row loop keeps the state in range and continues it; when it returns
true the column has moved and is past the last one. -/
theorem lineLoop_spec (p : Params) (fuel : Nat) (st : Line) (h : st.inRange p) :
    (lineLoop p fuel st).st.inRange p ∧ st.continues (lineLoop p fuel st).st ∧
    ((lineLoop p fuel st).err = none →
      (lineLoop p fuel st).st.ctx.w < (lineLoop p fuel st).st.col ∧
      st.col < (lineLoop p fuel st).st.col) := by
  induction fuel generalizing st with
  | zero => exact ⟨h, continues_refl st, fun e => by simp [lineLoop] at e⟩
  | succ f ih =>
    unfold lineLoop
    obtain ⟨s1, s2, s3, s4⟩ := stepOk_lineStep p st h
    cases hr : lineStep p st with
    | fail fl st1 =>
      rw [hr] at s1 s2
      exact ⟨s1, s2, fun e => by simp at e⟩
    | stop st1 =>
      rw [hr] at s1 s2
      exact ⟨s1, s2, fun _ => s4 st1 hr⟩
    | next st1 =>
      rw [hr] at s1 s2
      have hlt := s3 st1 hr
      simp only
      split
      · obtain ⟨i1, i2, i3⟩ := ih st1 s1
        exact ⟨i1, continues_trans s2 i2, fun e => ⟨(i3 e).1, by have := (i3 e).2; omega⟩⟩
      · rename_i hw
        exact ⟨s1, s2, fun _ => ⟨Nat.lt_of_not_le hw, hlt⟩⟩

end JLS

namespace JLS

theorem readLine_spec (p : Params) (bs : BitStream) (ctx : Context)
    (h1 : ctx.last.getD 1 0 ≤ p.maxval) :
    (∀ e ∈ (readLine p bs ctx).st.trace, e.value ≤ p.maxval) ∧
    (readLine p bs ctx).st.ctx.w = ctx.w ∧
    ((readLine p bs ctx).err = none →
      ∀ i, 1 ≤ i → i ≤ ctx.w ∨ i = 1 → (readLine p bs ctx).st.ctx.current.getD i 0 ≤ p.maxval) := by
  have hin : Line.inRange p
      ⟨bs, { ctx with current := ctx.current.set 0 (ctx.last.getD 1 0) }, sample ctx.last 1,
        sample ctx.last 1, sample ctx.last 0, 1, [Event.border (ctx.last.getD 1 0)]⟩ := by
    refine ⟨⟨?_, ?_⟩, ?_, ?_, Nat.le_refl 1⟩
    · exact Int.ofNat_nonneg _
    · exact Int.ofNat_le.2 h1
    · intro e he
      rw [List.mem_singleton.1 he]
      exact h1
    · intro i hi1 hi2
      simp only at hi2
      omega
  obtain ⟨r1, r2, r3⟩ := lineLoop_spec p (ctx.w + 1) _ hin
  refine ⟨r1.2.1, r2.1, fun e i hi1 hi2 => ?_⟩
  have hw := r3 e
  have hwid := r2.1
  apply r1.2.2.1 i hi1
  simp only at hw hwid
  omega

theorem mem_imageRow {ctx : Context} {v : Int} (h : v ∈ imageRow ctx) :
    ∃ i, 1 ≤ i ∧ i ≤ ctx.w ∧ v = toInt16 (ctx.current.getD i 0) := by
  unfold imageRow at h
  obtain ⟨i, hi, rfl⟩ := List.mem_map.1 h
  exact ⟨i + 1, by omega, by have := List.mem_range.1 hi; omega, rfl⟩

theorem decodeRows_spec (p : Params) (h : Nat) (bs : BitStream) (ctx : Context) (d : Decoded)
    (h1 : ctx.last.getD 1 0 ≤ p.maxval) (hd : d.inRange p) :
    (decodeRows p h bs ctx d).inRange p := by
  induction h generalizing bs ctx d with
  | zero => exact hd
  | succ n ih =>
    unfold decodeRows
    obtain ⟨r1, r2, r3⟩ := readLine_spec p bs ctx h1
    obtain ⟨d1, d2⟩ := hd
    have htr : ∀ tr ∈ d.trace ++ [(readLine p bs ctx).st.trace], ∀ e ∈ tr, e.value ≤ p.maxval := by
      intro tr htr e he
      rcases List.mem_append.1 htr with h2 | h2
      · exact d1 tr h2 e he
      · rw [List.mem_singleton.1 h2] at he
        exact r1 e he
    simp only
    cases he : (readLine p bs ctx).err with
    | some f => exact ⟨htr, d2⟩
    | none =>
      simp only
      apply ih
      · exact r3 he 1 (Nat.le_refl 1) (Or.inr rfl)
      · refine ⟨htr, ?_⟩
        intro row hrow v hv
        rcases List.mem_append.1 hrow with h2 | h2
        · exact d2 row h2 v hv
        · rw [List.mem_singleton.1 h2] at hv
          obtain ⟨i, hi1, hi2, rfl⟩ := mem_imageRow hv
          exact ⟨_, r3 he i hi1 (Or.inl (by rw [r2] at hi2; exact hi2)), rfl⟩

theorem toInt16_small {u m : Nat} (hu : u ≤ m) (hm : m ≤ 32767) :
    0 ≤ toInt16 u ∧ toInt16 u ≤ (m : Int) := by
  unfold toInt16
  have h1 : u % 65536 = u := Nat.mod_eq_of_lt (by omega)
  rw [h1]
  have h2 : u < 32768 := by omega
  simp only [h2, if_true]
  constructor
  · exact Int.ofNat_nonneg _
  · exact Int.ofNat_le.2 hu

/-- C8 (amended): provided the initial previous-row buffer holds values in
[0, maxval], every sample that `readLine` writes into the current row (border
sample, run pixels, regular-mode and run-interruption samples) lies in
[0, maxval], in every row that `decode` reads and whether or not the row
succeeds; every sample of the decoded image is the signed 16-bit reading of
such a value, and lies in [0, maxval] whenever maxval is at most 32767. -/
theorem written_samples_in_range (p : Params) (ctx : Context)
    (hlast : ∀ v ∈ ctx.last, v ≤ p.maxval) :
    (∀ bs : BitStream, ∀ e ∈ (readLine p bs ctx).st.trace, e.value ≤ p.maxval) ∧
    (∀ (data : List Nat) (h : Nat),
      (∀ tr ∈ (decodeFrom p ctx data h).trace, ∀ e ∈ tr, e.value ≤ p.maxval) ∧
      (∀ row ∈ (decodeFrom p ctx data h).img, ∀ v ∈ row, ∃ u, u ≤ p.maxval ∧ v = toInt16 u) ∧
      (p.maxval ≤ 32767 →
        ∀ row ∈ (decodeFrom p ctx data h).img, ∀ v ∈ row, 0 ≤ v ∧ v ≤ (p.maxval : Int))) := by
  have h1 : ctx.last.getD 1 0 ≤ p.maxval := by
    rw [List.getD_eq_getElem?_getD]
    cases hg : ctx.last[1]? with
    | none => simp
    | some v =>
      simp only [Option.getD_some]
      exact hlast v (List.getElem?_mem hg)
  refine ⟨fun bs => (readLine_spec p bs ctx h1).1, fun data h => ?_⟩
  have hd : (decodeFrom p ctx data h).inRange p := by
    unfold decodeFrom
    cases BitStream.init data with
    | none => exact ⟨by simp, by simp⟩
    | some bs => exact decodeRows_spec p h bs ctx _ h1 ⟨by simp, by simp⟩
  refine ⟨hd.1, hd.2, fun hm row hrow v hv => ?_⟩
  obtain ⟨u, hu, rfl⟩ := hd.2 row hrow v hv
  exact toInt16_small hu hm

end JLS

namespace JLS

theorem written_samples_in_range_witness :
    (∀ bs : BitStream, ∀ e ∈ (readLine (Params.new 255 0 countMod32) bs (Context.init 4 256)).st.trace,
      e.value ≤ (Params.new 255 0 countMod32).maxval) ∧
    (∀ (data : List Nat) (h : Nat),
      (∀ tr ∈ (decodeFrom (Params.new 255 0 countMod32) (Context.init 4 256) data h).trace,
        ∀ e ∈ tr, e.value ≤ (Params.new 255 0 countMod32).maxval) ∧
      (∀ row ∈ (decodeFrom (Params.new 255 0 countMod32) (Context.init 4 256) data h).img,
        ∀ v ∈ row, ∃ u, u ≤ (Params.new 255 0 countMod32).maxval ∧ v = toInt16 u) ∧
      ((Params.new 255 0 countMod32).maxval ≤ 32767 →
        ∀ row ∈ (decodeFrom (Params.new 255 0 countMod32) (Context.init 4 256) data h).img,
          ∀ v ∈ row, 0 ≤ v ∧ v ≤ ((Params.new 255 0 countMod32).maxval : Int))) :=
  written_samples_in_range (Params.new 255 0 countMod32) (Context.init 4 256) (by decide)

/-- C8 (as stated) fails for the image: with maxval = 40000 and near = 0 the
previous-row buffer starts at zero (in range), the 1 by 1 image encoded by the
bytes 0x40 0 0 0 decodes successfully, `readLine` writes the sample 40000,
which is in [0, maxval], and the image matrix of `qint16` receives -25536,
which is not. -/
theorem image_sample_can_leave_range :
    (∀ v ∈ (Context.init 1 (Params.new 40000 0 countMod32).range).last, v ≤ (Params.new 40000 0 countMod32).maxval) ∧
    decode (Params.new 40000 0 countMod32) [64, 0, 0, 0] 1 1
      = ⟨true, [[-25536]], [[Event.border 0, Event.interruption 1 40000]]⟩ ∧
    ¬ (0 ≤ (-25536 : Int)) := by
  decide

end JLS

namespace JLS

/-! ## A flat image over a zero previous row -/

theorem getD_set_self (l : List Nat) {i : Nat} (v : Nat) (h : i < l.length) :
    (l.set i v).getD i 0 = v := by
  simp [List.getD_eq_getElem?_getD, List.getElem?_set_self h]

theorem interruption_next (p : Params) (st st2 : Line)
    (h : interruption p st = StepResult.next st2) :
    st2.col = st.col + 1 ∧ st2.Rb = st.Rb ∧
    st2.ctx.current = st.ctx.current.set st.col (toU16 st2.Ra) := by
  unfold interruption at h
  simp only at h
  cases hk : kSearch (acc st.ctx.n (runCategory p st.Ra st.Rc + 2))
      (runTemp st.ctx (runCategory p st.Ra st.Rc)) with
  | none => simp [hk] at h
  | some k =>
    simp only [hk] at h
    cases hok : (decodeError p st.bs ((p.limit - (st.ctx.lrk : Int)) % 256).toNat k).ok with
    | false => simp [hok] at h
    | true =>
      simp only [hok, Bool.not_true, Bool.false_eq_true, if_false] at h
      split at h
      · simp at h
      · simp only [StepResult.next.injEq] at h
        rw [← h]
        refine ⟨rfl, rfl, ?_⟩
        simp only [store]
        rw [(sameRows_trans (sameRows_runBias _ _ _) (sameRows_runUpdate _ _ _)).2.2]

theorem interruption_not_stop (p : Params) (st st2 : Line) :
    interruption p st ≠ StepResult.stop st2 := by
  unfold interruption
  simp only
  cases kSearch (acc st.ctx.n (runCategory p st.Ra st.Rc + 2))
      (runTemp st.ctx (runCategory p st.Ra st.Rc)) with
  | none => simp
  | some k =>
    simp only
    cases (decodeError p st.bs ((p.limit - (st.ctx.lrk : Int)) % 256).toNat k).ok with
    | false => simp
    | true =>
      simp only [Bool.not_true, Bool.false_eq_true, if_false]
      split <;> simp

theorem store_regular (st : Line) (Rx : Int) :
    ∃ e ∈ (store st Rx Event.regular).trace, e.isRegular = true :=
  ⟨Event.regular st.col (toU16 Rx), by simp [store], rfl⟩

theorem regularStep_next (p : Params) (st st2 : Line)
    (h : regularStep p st = StepResult.next st2) : ∃ e ∈ st2.trace, e.isRegular = true := by
  unfold regularStep at h
  cases hk : kSearch (acc st.ctx.n 1) (acc st.ctx.a 1) with
  | none => simp [hk] at h
  | some k =>
    simp only [hk] at h
    cases hok : (decodeError p st.bs (p.limit % 256).toNat k).ok with
    | false => simp [hok] at h
    | true =>
      simp only [hok, Bool.not_true, Bool.false_eq_true, if_false, StepResult.next.injEq] at h
      rw [← h]
      exact store_regular _ _

theorem regularStep_not_stop (p : Params) (st st2 : Line) :
    regularStep p st ≠ StepResult.stop st2 := by
  unfold regularStep
  cases kSearch (acc st.ctx.n 1) (acc st.ctx.a 1) with
  | none => simp
  | some k =>
    simp only
    cases (decodeError p st.bs (p.limit % 256).toNat k).ok <;> simp

/-- The run-mode branch at a column inside the row either fails, or writes
`Ra` at that column (a run), or writes a run-interruption sample there and ends
with `Ra` equal to it and `Rb` the sample above the next column. -/
theorem runStep_shape (p : Params) (st : Line) (h : st.inRange p) (hcol : st.col ≤ st.ctx.w)
    (hlen : st.col < st.ctx.current.length) :
    (∃ f st1, runStep p st = StepResult.fail f st1) ∨
    ((runStep p st).state.ctx.current.getD st.col 0 = toU16 st.Ra ∧
      st.col < (runStep p st).state.col) ∨
    (∃ st2, runStep p st = StepResult.next st2 ∧ st2.col = st.col + 1 ∧
      st2.Rb = sample st.ctx.last (st.col + 1) ∧
      st2.ctx.current.getD st.col 0 = toU16 st2.Ra) := by
  unfold runStep
  simp only
  have hrows := sameRows_processRunMode st.bs st.ctx (runLength st)
  have hin : Line.inRange p
      { st with bs := (processRunMode st.bs st.ctx (runLength st)).bs,
                ctx := (processRunMode st.bs st.ctx (runLength st)).ctx } :=
    inRange_of_same h hrows.2.2 rfl rfl rfl
  cases (processRunMode st.bs st.ctx (runLength st)).ok with
  | false =>
    simp only [Bool.not_false, if_true]
    exact Or.inl ⟨_, _, rfl⟩
  | true =>
    simp only [Bool.not_true, Bool.false_eq_true, if_false]
    by_cases hs : (processRunMode st.bs st.ctx (runLength st)).samples ≠ 0
    · rw [if_pos hs]
      obtain ⟨s, hs1⟩ := Nat.exists_eq_succ_of_ne_zero hs
      have hw : ¬ (processRunMode st.bs st.ctx (runLength st)).ctx.w < st.col := by
        rw [hrows.1]
        omega
      have e : fillRun (processRunMode st.bs st.ctx (runLength st)).samples
          { st with bs := (processRunMode st.bs st.ctx (runLength st)).bs,
                    ctx := (processRunMode st.bs st.ctx (runLength st)).ctx }
          = fillRun s (fillOne
            { st with bs := (processRunMode st.bs st.ctx (runLength st)).bs,
                      ctx := (processRunMode st.bs st.ctx (runLength st)).ctx }) := by
        rw [hs1, fillRun, if_neg hw]
      rw [e]
      obtain ⟨o1, _, _, _, o5⟩ := fillOne_spec p _ hin
      obtain ⟨f1, f2, _, _, _⟩ := fillRun_spec p s _ o1
      have hone : (fillOne
          { st with bs := (processRunMode st.bs st.ctx (runLength st)).bs,
                    ctx := (processRunMode st.bs st.ctx (runLength st)).ctx }).ctx.current.getD
            st.col 0 = toU16 st.Ra := by
        simp only [fillOne]
        apply getD_set_self
        rw [hrows.2.2]
        exact hlen
      have hkeep : ∀ st3 : Line, (fillRun s (fillOne
          { st with bs := (processRunMode st.bs st.ctx (runLength st)).bs,
                    ctx := (processRunMode st.bs st.ctx (runLength st)).ctx })).2.continues st3 →
          st3.ctx.current.getD st.col 0 = toU16 st.Ra ∧ st.col < st3.col := by
        intro st3 h3
        have hc := continues_trans f2 h3
        have h4 := hc.2.2.2.1 st.col (by rw [o5]; exact Nat.lt_succ_self _)
        have h5 := hc.2.2.1
        rw [o5] at h5
        exact ⟨h4.trans hone, h5⟩
      cases (fillRun s (fillOne
          { st with bs := (processRunMode st.bs st.ctx (runLength st)).bs,
                    ctx := (processRunMode st.bs st.ctx (runLength st)).ctx })).1 with
      | false =>
        simp only [Bool.not_false, if_true]
        exact Or.inl ⟨_, _, rfl⟩
      | true =>
        simp only [Bool.not_true, Bool.false_eq_true, if_false]
        split
        · exact Or.inr (Or.inl (hkeep _ (continues_refl _)))
        · refine Or.inr (Or.inl (hkeep _ ?_))
          have hsame : (fillRun s (fillOne
              { st with bs := (processRunMode st.bs st.ctx (runLength st)).bs,
                        ctx := (processRunMode st.bs st.ctx (runLength st)).ctx })).2.continues
              (afterRun (fillRun s (fillOne
                { st with bs := (processRunMode st.bs st.ctx (runLength st)).bs,
                          ctx := (processRunMode st.bs st.ctx (runLength st)).ctx })).2) :=
            continues_of_same (sameRows_refl _) rfl rfl
          exact continues_trans hsame
            (stepOk_interruption p (afterRun _) (inRange_of_same f1 rfl rfl rfl rfl)).2.1
    · rw [if_neg hs]
      cases hi : interruption p (afterNoRun
          { st with bs := (processRunMode st.bs st.ctx (runLength st)).bs,
                    ctx := (processRunMode st.bs st.ctx (runLength st)).ctx }) with
      | fail f st1 => exact Or.inl ⟨_, _, rfl⟩
      | stop st1 => exact absurd hi (interruption_not_stop p _ _)
      | next st2 =>
        obtain ⟨i1, i2, i3⟩ := interruption_next p _ _ hi
        refine Or.inr (Or.inr ⟨st2, rfl, i1, ?_, ?_⟩)
        · rw [i2]
          simp only [afterNoRun, hrows.2.1]
        · rw [i3]
          simp only [afterNoRun]
          apply getD_set_self
          rw [hrows.2.2]
          exact hlen

end JLS

namespace JLS

theorem lineLoop_after_step (p : Params) (fuel : Nat) (st : Line) (h : st.inRange p) :
    (lineStep p st).state.continues (lineLoop p (fuel + 1) st).st ∧
    (∀ f st1, lineStep p st = StepResult.fail f st1 → (lineLoop p (fuel + 1) st).err = some f) := by
  obtain ⟨s1, _, _, _⟩ := stepOk_lineStep p st h
  unfold lineLoop
  cases hr : lineStep p st with
  | fail fl st1 => exact ⟨continues_refl _, fun f st2 e => by simp at e; simp [e.1]⟩
  | stop st1 => exact ⟨continues_refl _, fun f st2 e => by simp at e⟩
  | next st1 =>
    rw [hr] at s1
    simp only
    split
    · exact ⟨(lineLoop_spec p fuel st1 s1).2.1, fun f st2 e => by simp at e⟩
    · exact ⟨continues_refl _, fun f st2 e => by simp at e⟩

theorem sample_zero {l : List Nat} (h : ∀ v ∈ l, v = 0) (i : Nat) : sample l i = 0 := by
  unfold sample
  rw [List.getD_eq_getElem?_getD]
  cases hg : l[i]? with
  | none => simp
  | some v =>
    simp only [Option.getD_some]
    rw [h v (List.getElem?_mem hg)]
    rfl

theorem toInt16_toU16_zero : toInt16 (toU16 0) = 0 := by decide

/-- With near = 0 and a previous row of zeros, the row loop entered at column
1 with `Ra = Rb = 0` in a row of at least two samples, if it succeeds with a
first sample other than 0, has a sample produced in regular mode: the first is
a run-interruption sample, and the sample above the second is 0. -/
theorem lineLoop_needs_regular (p : Params) (hn : p.near = 0) (fuel : Nat) (st : Line)
    (hin : st.inRange p) (hRa : st.Ra = 0) (hRb0 : st.Rb = 0) (hcol : st.col = 1)
    (hw : 2 ≤ st.ctx.w) (hzero : ∀ v ∈ st.ctx.last, v = 0) (hlen : 1 < st.ctx.current.length)
    (herr : (lineLoop p (fuel + 2) st).err = none)
    (hpix : toInt16 ((lineLoop p (fuel + 2) st).st.ctx.current.getD 1 0) ≠ 0) :
    ∃ e ∈ (lineLoop p (fuel + 2) st).st.trace, e.isRegular = true := by
  have hs : ∀ i, sample st.ctx.last i = 0 := sample_zero hzero
  obtain ⟨a1, a2⟩ := lineLoop_after_step p (fuel + 1) st hin
  have hstep : lineStep p st = runStep p st := by
    unfold lineStep
    simp [hn, hRa, hRb0]
  rw [hstep] at a1 a2
  obtain ⟨s1, s2, _, _⟩ := stepOk_runStep p st hin
  rcases runStep_shape p st hin (by omega) (by omega) with
    ⟨f, st1, hf⟩ | ⟨hv, hc⟩ | ⟨st2, hnext, hcol2, hRb, hcur⟩
  · rw [a2 f st1 hf] at herr
    simp at herr
  · exfalso
    apply hpix
    rw [hcol] at hv hc
    rw [a1.2.2.2.1 1 hc, hv, hRa]
    exact toInt16_toU16_zero
  · rw [hnext] at a1 s1 s2
    simp only [StepResult.state] at a1 s1 s2
    rw [hcol] at hcol2 hRb hcur
    by_cases hRa2 : st2.Ra = 0
    · exfalso
      apply hpix
      rw [a1.2.2.2.1 1 (by rw [hcol2]; decide), hcur, hRa2]
      exact toInt16_toU16_zero
    · have hw2 : st2.ctx.w = st.ctx.w := s2.1
      have hloop : lineLoop p (fuel + 1 + 1) st = lineLoop p (fuel + 1) st2 := by
        rw [lineLoop, hstep, hnext]
        simp only
        rw [if_pos (by rw [hcol2, hw2]; omega)]
      rw [hloop] at herr ⊢
      obtain ⟨b1, b2⟩ := lineLoop_after_step p fuel st2 s1
      have hreg : lineStep p st2 = regularStep p st2 := by
        unfold lineStep
        have hb : st2.Rb = 0 := by rw [hRb]; exact hs _
        have : |st2.Rb - st2.Ra| > (p.near : Int) := by
          rw [hb, hn]
          simp only [zero_sub, abs_neg, Nat.cast_zero]
          exact abs_pos.2 hRa2
        rw [if_pos this]
      rw [hreg] at b1 b2
      cases hr : regularStep p st2 with
      | fail f st3 =>
        rw [b2 f st3 hr] at herr
        simp at herr
      | stop st3 => exact absurd hr (regularStep_not_stop p st2 st3)
      | next st3 =>
        obtain ⟨e, he, hreg2⟩ := regularStep_next p st2 st3 hr
        rw [hr] at b1
        obtain ⟨more, hmore⟩ := b1.2.2.2.2
        simp only [StepResult.state] at hmore
        exact ⟨e, by rw [hmore]; exact List.mem_append_left _ he, hreg2⟩

theorem first_row_needs_regular (p : Params) (hn : p.near = 0) (bs : BitStream) (ctx : Context)
    (hw : 2 ≤ ctx.w) (hzero : ∀ v ∈ ctx.last, v = 0) (hlen : 1 < ctx.current.length)
    (herr : (readLine p bs ctx).err = none)
    (hpix : toInt16 ((readLine p bs ctx).st.ctx.current.getD 1 0) ≠ 0) :
    ∃ e ∈ (readLine p bs ctx).st.trace, e.isRegular = true := by
  have hs : ∀ i, sample ctx.last i = 0 := sample_zero hzero
  have hfuel : ctx.w + 1 = ctx.w - 1 + 2 := by omega
  unfold readLine at herr hpix ⊢
  simp only at herr hpix ⊢
  rw [hfuel] at herr hpix ⊢
  apply lineLoop_needs_regular p hn _ _ _ (hs 1) (hs 1) rfl hw hzero (by simpa using hlen)
    herr hpix
  refine ⟨⟨?_, ?_⟩, ?_, ?_, Nat.le_refl 1⟩
  · simp only [hs]
    exact Int.le_refl 0
  · simp only [hs]
    exact Int.ofNat_nonneg _
  · intro e he
    rw [List.mem_singleton.1 he]
    have := hs 1
    unfold sample at this
    have h0 : ctx.last.getD 1 0 = 0 := by exact_mod_cast this
    rw [h0]
    exact Nat.zero_le _
  · intro i hi1 hi2
    simp only at hi2
    omega

theorem decodeRows_extends (p : Params) (h : Nat) (bs : BitStream) (ctx : Context) (d : Decoded) :
    (∃ mi, (decodeRows p h bs ctx d).img = d.img ++ mi) ∧
    (∃ mt, (decodeRows p h bs ctx d).trace = d.trace ++ mt) := by
  induction h generalizing bs ctx d with
  | zero => exact ⟨⟨[], by simp [decodeRows]⟩, ⟨[], by simp [decodeRows]⟩⟩
  | succ n ih =>
    unfold decodeRows
    simp only
    cases (readLine p bs ctx).err with
    | some f => exact ⟨⟨[], by simp⟩, ⟨[(readLine p bs ctx).st.trace], rfl⟩⟩
    | none =>
      simp only
      obtain ⟨⟨mi, hmi⟩, ⟨mt, hmt⟩⟩ := ih (readLine p bs ctx).st.bs (readLine p bs ctx).st.ctx.swap
        ⟨d.ok, d.img ++ [imageRow (readLine p bs ctx).st.ctx],
          d.trace ++ [(readLine p bs ctx).st.trace]⟩
      exact ⟨⟨imageRow (readLine p bs ctx).st.ctx :: mi, by rw [hmi]; simp⟩,
        ⟨(readLine p bs ctx).st.trace :: mt, by rw [hmt]; simp⟩⟩

theorem decodeRows_ok_first (p : Params) (h : Nat) (bs : BitStream) (ctx : Context)
    (hok : (decodeRows p (h + 1) bs ctx ⟨true, [], []⟩).ok = true) :
    (readLine p bs ctx).err = none ∧
    (∃ mi, (decodeRows p (h + 1) bs ctx ⟨true, [], []⟩).img
      = imageRow (readLine p bs ctx).st.ctx :: mi) ∧
    (∃ mt, (decodeRows p (h + 1) bs ctx ⟨true, [], []⟩).trace
      = (readLine p bs ctx).st.trace :: mt) := by
  unfold decodeRows at hok ⊢
  simp only at hok ⊢
  cases he : (readLine p bs ctx).err with
  | some f => simp [he] at hok
  | none =>
    simp only
    obtain ⟨⟨mi, hmi⟩, ⟨mt, hmt⟩⟩ := decodeRows_extends p h (readLine p bs ctx).st.bs
      (readLine p bs ctx).st.ctx.swap
      ⟨true, [] ++ [imageRow (readLine p bs ctx).st.ctx], [] ++ [(readLine p bs ctx).st.trace]⟩
    exact ⟨trivial, ⟨mi, by rw [hmi]; simp⟩, ⟨mt, by rw [hmt]; simp⟩⟩

/-- For every maxval and every bit stream, a successful `decode` with near = 0
of a 4 by 4 image whose samples are all 100 has a sample produced in regular
mode, in its first row. -/
theorem flat_image_needs_regular (maxval : Nat) (us : Nat → Nat → Nat → Nat)
    (data : List Nat)
    (hok : (decode (Params.new maxval 0 us) data 4 4).ok = true)
    (himg : (decode (Params.new maxval 0 us) data 4 4).img
      = List.replicate 4 (List.replicate 4 100)) :
    ∃ tr ∈ (decode (Params.new maxval 0 us) data 4 4).trace, ∃ e ∈ tr, e.isRegular = true := by
  unfold decode decodeFrom at hok himg ⊢
  cases hb : BitStream.init data with
  | none => simp [hb] at hok
  | some bs =>
    simp only [hb] at hok himg ⊢
    obtain ⟨herr, ⟨mi, hmi⟩, ⟨mt, hmt⟩⟩ := decodeRows_ok_first _ 3 bs _ hok
    rw [hmi] at himg
    rw [hmt]
    have hrow : imageRow (readLine (Params.new maxval 0 us) bs
        (Context.init 4 (Params.new maxval 0 us).range)).st.ctx = List.replicate 4 100 := by
      have := (List.cons.inj himg).1
      exact this
    have hzero : ∀ v ∈ (Context.init 4 (Params.new maxval 0 us).range).last, v = 0 := by
      intro v hv
      simp only [Context.init] at hv
      exact (List.mem_replicate.1 hv).2
    have hwid : (readLine (Params.new maxval 0 us) bs
        (Context.init 4 (Params.new maxval 0 us).range)).st.ctx.w = 4 :=
      (readLine_spec (Params.new maxval 0 us) bs _ (by
        rw [List.getD_eq_getElem?_getD]
        cases hg : (Context.init 4 (Params.new maxval 0 us).range).last[1]? with
        | none => simp
        | some v =>
          rw [hzero v (List.getElem?_mem hg)]
          simp)).2.1
    have hpix : toInt16 ((readLine (Params.new maxval 0 us) bs
        (Context.init 4 (Params.new maxval 0 us).range)).st.ctx.current.getD 1 0) = 100 := by
      unfold imageRow at hrow
      rw [hwid] at hrow
      have := congrArg (fun l => l.head?) hrow
      simpa [List.range_succ_eq_map] using this
    obtain ⟨e, he, hreg⟩ := first_row_needs_regular (Params.new maxval 0 us) rfl bs
      (Context.init 4 (Params.new maxval 0 us).range) (by simp [Context.init]) hzero
      (by simp [Context.init]) herr (by rw [hpix]; decide)
    exact ⟨_, List.mem_cons_self _ _, e, he, hreg⟩

end JLS

namespace JLS

/-- C9 (as stated) fails: for no maxval covering 100 and no bit stream does
`decode` with near = 0 produce the 4 by 4 matrix of all 100 with every pixel
produced by run mode; the trace of every such decode holds a regular-mode
sample. -/
theorem no_flat_image_by_run_mode_alone :
    ¬ ∃ (maxval : Nat) (us : Nat → Nat → Nat → Nat) (data : List Nat), 100 ≤ maxval ∧
      (decode (Params.new maxval 0 us) data 4 4).ok = true ∧
      (decode (Params.new maxval 0 us) data 4 4).img = flatImage ∧
      ∀ tr ∈ (decode (Params.new maxval 0 us) data 4 4).trace, ∀ e ∈ tr, e.isRegular = false := by
  rintro ⟨maxval, us, data, _, hok, himg, hno⟩
  obtain ⟨tr, htr, e, he, hreg⟩ := flat_image_needs_regular maxval us data hok himg
  rw [hno tr htr e he] at hreg
  exact Bool.false_ne_true hreg

/-- C9 (amended): the bytes 00 00 01 C6 95 FF are a bit stream which `decode`
(maxval 255, near 0, 4 by 4 image) decodes successfully to the 4 by 4 matrix of
all 100; in that decode the first sample is a run-interruption sample, the
other three samples of the first row are produced in regular mode and the rows
2 to 4 are runs. Run mode alone is not possible: every successful decode of
that matrix with near = 0 has a regular-mode sample, whatever the maxval and
the bit stream. -/
theorem flat_image_decodes_with_regular_first_row :
    decode (Params.new 255 0 countMod32) flatStream 4 4
      = ⟨true, flatImage,
          [[Event.border 0, Event.interruption 1 100, Event.regular 2 100, Event.regular 3 100,
              Event.regular 4 100],
           [Event.border 100, Event.fill 1 100, Event.fill 2 100, Event.fill 3 100,
              Event.fill 4 100],
           [Event.border 100, Event.fill 1 100, Event.fill 2 100, Event.fill 3 100,
              Event.fill 4 100],
           [Event.border 100, Event.fill 1 100, Event.fill 2 100, Event.fill 3 100,
              Event.fill 4 100]]⟩ ∧
    ∀ (maxval : Nat) (us : Nat → Nat → Nat → Nat) (data : List Nat),
      (decode (Params.new maxval 0 us) data 4 4).ok = true →
      (decode (Params.new maxval 0 us) data 4 4).img = flatImage →
      ∃ tr ∈ (decode (Params.new maxval 0 us) data 4 4).trace, ∃ e ∈ tr, e.isRegular = true := by
  constructor
  · decide
  · exact fun maxval us data hok himg => flat_image_needs_regular maxval us data hok himg

/-! ## Every failed bit-consume is reported -/

/-- The four `bs.read` calls of `processRunMode` (lines 55, 66, 71 and 86):
when one fails the function returns false. -/
theorem processRunMode_reads (col : Nat) :
    (∀ (bs : BitStream) (todo i cnt : Nat) (ctx : Context),
      col ≤ (cnt + ctx.rg) % 65536 → bs.read (i + 1) = none →
      ∃ c, runFor col bs (todo + 1) i cnt ctx = ForResult.failed c) ∧
    (∀ (bs : BitStream) (todo i cnt : Nat) (ctx : Context), ¬ col ≤ (cnt + ctx.rg) % 65536 →
      runFor col bs (todo + 1) i cnt ctx = runFor col bs todo (i + 1) ((cnt + ctx.rg) % 65536)
        (if (cnt + ctx.rg) % 65536 ≤ col ∧ ctx.runIndex < 31 then ctx.runUp else ctx)) ∧
    (∀ (fuel : Nat) (bs : BitStream) (ctx c : Context) (cnt : Nat), 2 ^ 31 ≤ bs.value →
      runFor col bs (Z.getD ((bs.value >>> 24) ^^^ 255) 0) 0 cnt ctx = ForResult.failed c →
      (runLoop col (fuel + 1) bs ctx cnt).ok = false) ∧
    (∀ (bs : BitStream) (ctx : Context) (z cnt : Nat), bs.read (z + 1) = none →
      (runEnd bs ctx z cnt).ok = false) ∧
    (∀ (bs bs1 : BitStream) (ctx : Context) (z cnt : Nat), bs.read (z + 1) = some bs1 →
      ctx.rk ≠ 0 → bs1.read ctx.rk = none → (runEnd bs ctx z cnt).ok = false) ∧
    (∀ (fuel : Nat) (bs : BitStream) (ctx : Context) (cnt : Nat), bs.value < 2 ^ 31 →
      runLoop col (fuel + 1) bs ctx cnt = runEnd bs ctx 0 cnt) ∧
    (∀ (fuel : Nat) (bs : BitStream) (ctx c : Context) (cnt cnt1 : Nat), 2 ^ 31 ≤ bs.value →
      runFor col bs (Z.getD ((bs.value >>> 24) ^^^ 255) 0) 0 cnt ctx = ForResult.through cnt1 c →
      (Z.getD ((bs.value >>> 24) ^^^ 255) 0 ≠ 8 →
        runLoop col (fuel + 1) bs ctx cnt
          = runEnd bs c (Z.getD ((bs.value >>> 24) ^^^ 255) 0) cnt1) ∧
      (Z.getD ((bs.value >>> 24) ^^^ 255) 0 = 8 → bs.read 8 = none →
        (runLoop col (fuel + 1) bs ctx cnt).ok = false) ∧
      (∀ bs1, Z.getD ((bs.value >>> 24) ^^^ 255) 0 = 8 → bs.read 8 = some bs1 →
        runLoop col (fuel + 1) bs ctx cnt = runLoop col fuel bs1 c cnt1)) := by
  refine ⟨?_, ?_, ?_, ?_, ?_, ?_, ?_⟩
  · intro bs todo i cnt ctx hc hr
    refine ⟨if (cnt + ctx.rg) % 65536 ≤ col ∧ ctx.runIndex < 31 then ctx.runUp else ctx, ?_⟩
    rw [runFor]
    simp only [hr]
    rw [if_pos hc]
  · intro bs todo i cnt ctx hc
    rw [runFor, if_neg hc]
  · intro fuel bs ctx c cnt hv hf
    rw [runLoop, if_pos hv]
    simp only [hf]
  · intro bs ctx z cnt hr
    simp only [runEnd, hr]
  · intro bs bs1 ctx z cnt hr hk hr1
    simp only [runEnd, hr]
    rw [if_pos hk]
    simp only [hr1]
  · intro fuel bs ctx cnt hv
    rw [runLoop, if_neg (Nat.not_le.2 hv)]
  · intro fuel bs ctx c cnt cnt1 hv hf
    refine ⟨?_, ?_, ?_⟩
    · intro hz
      rw [runLoop, if_pos hv]
      simp only [hf]
      rw [if_pos hz]
    · intro hz hr
      rw [runLoop, if_pos hv]
      simp only [hf]
      rw [if_neg (not_not.2 hz)]
      simp only [hr]
    · intro bs1 hz hr
      rw [runLoop, if_pos hv]
      simp only [hf]
      rw [if_neg (not_not.2 hz)]
      simp only [hr]

/-- The four `bs.read` calls of `decodeError` (lines 103, 109, 115 and 120):
when one fails the function returns false. -/
theorem decodeError_reads (p : Params) :
    (∀ (fuel : Nat) (bs : BitStream) (m : Nat), bs.value < 2 ^ 31 → bs.value >>> 24 = 0 →
      bs.read 8 = none → (zeroRun (fuel + 1) bs m).1 = false) ∧
    (∀ (fuel : Nat) (bs bs1 : BitStream) (m : Nat), bs.value < 2 ^ 31 →
      bs.value >>> 24 = 0 → bs.read 8 = some bs1 →
      zeroRun (fuel + 1) bs m = zeroRun fuel bs1 ((m + Z.getD (bs.value >>> 24) 0) % 2 ^ 32)) ∧
    (∀ (bs : BitStream) (limit k : Nat), (zeroRun (bs.remaining / 8 + 1) bs 0).1 = false →
      (decodeError p bs limit k).ok = false) ∧
    (∀ (bs bs1 : BitStream) (limit k cnt m : Nat),
      zeroRun (bs.remaining / 8 + 1) bs 0 = (true, bs1, cnt, m) →
      (bs1.read (cnt + 1) = none → (decodeError p bs limit k).ok = false) ∧
      (∀ bs2, bs1.read (cnt + 1) = some bs2 → m < limit → k ≠ 0 → bs2.read k = none →
        (decodeError p bs limit k).ok = false) ∧
      (∀ bs2, bs1.read (cnt + 1) = some bs2 → ¬ m < limit → bs2.read p.qbpp = none →
        (decodeError p bs limit k).ok = false)) := by
  refine ⟨?_, ?_, ?_, ?_⟩
  · intro fuel bs m hv h0 hr
    rw [zeroRun, if_pos hv]
    simp only
    rw [if_neg (not_not.2 h0)]
    simp only [hr]
  · intro fuel bs bs1 m hv h0 hr
    rw [zeroRun, if_pos hv]
    simp only
    rw [if_neg (not_not.2 h0)]
    simp only [hr]
  · intro bs limit k hz
    unfold decodeError
    rcases hzr : zeroRun (bs.remaining / 8 + 1) bs 0 with ⟨ok, bs1, cnt, m⟩
    rw [hzr] at hz
    simp only at hz
    subst hz
    rfl
  · intro bs bs1 limit k cnt m hz
    refine ⟨?_, ?_, ?_⟩
    · intro hr
      simp only [decodeError, hz, hr]
    · intro bs2 hr hm hk hr2
      simp only [decodeError, hz, hr]
      rw [if_pos hm, if_pos hk]
      simp only [hr2]
    · intro bs2 hr hm hr2
      simp only [decodeError, hz, hr]
      rw [if_neg hm]
      simp only [hr2]

/-! ## Failure propagation -/

theorem decodeRows_fail (p : Params) (i h : Nat) (bs : BitStream) (ctx : Context) (d : Decoded)
    (hi : i < h) (bsi : BitStream) (ctxi : Context) (f : Failure)
    (hst : rowState p i bs ctx = some (bsi, ctxi))
    (herr : (readLine p bsi ctxi).err = some f) :
    (decodeRows p h bs ctx d).ok = false ∧
    (decodeRows p h bs ctx d).img.length = d.img.length + i ∧
    (decodeRows p h bs ctx d).trace.length = d.trace.length + i + 1 := by
  induction i generalizing h bs ctx d with
  | zero =>
    obtain ⟨n, rfl⟩ : ∃ n, h = n + 1 := ⟨h - 1, by omega⟩
    simp only [rowState, Option.some.injEq, Prod.mk.injEq] at hst
    obtain ⟨rfl, rfl⟩ := hst
    unfold decodeRows
    simp [herr]
  | succ j ih =>
    obtain ⟨n, rfl⟩ : ∃ n, h = n + 1 := ⟨h - 1, by omega⟩
    unfold rowState at hst
    unfold decodeRows
    cases he : (readLine p bs ctx).err with
    | some g => simp [he] at hst
    | none =>
      simp only [he] at hst ⊢
      obtain ⟨i1, i2, i3⟩ := ih n _ _
        ⟨d.ok, d.img ++ [imageRow (readLine p bs ctx).st.ctx],
          d.trace ++ [(readLine p bs ctx).st.trace]⟩ (by omega) hst
      refine ⟨i1, ?_, ?_⟩
      · rw [i2]
        simp only [List.length_append, List.length_singleton]
        omega
      · rw [i3]
        simp only [List.length_append, List.length_singleton]
        omega

theorem decodeRows_ok_iff (p : Params) (h : Nat) (bs : BitStream) (ctx : Context) (d : Decoded) :
    ((decodeRows p h bs ctx d).ok = true ↔
      ∀ i, i < h → ∃ bsi ctxi, rowState p i bs ctx = some (bsi, ctxi) ∧
        (readLine p bsi ctxi).err = none) ∧
    ((decodeRows p h bs ctx d).ok = true → (decodeRows p h bs ctx d).img.length = d.img.length + h) := by
  induction h generalizing bs ctx d with
  | zero => simp [decodeRows]
  | succ n ih =>
    unfold decodeRows
    cases he : (readLine p bs ctx).err with
    | some g =>
      simp only [he]
      constructor
      · constructor
        · intro h0
          simp at h0
        · intro hall
          obtain ⟨bsi, ctxi, h1, h2⟩ := hall 0 (Nat.succ_pos n)
          simp only [rowState, Option.some.injEq, Prod.mk.injEq] at h1
          obtain ⟨rfl, rfl⟩ := h1
          rw [he] at h2
          simp at h2
      · intro h0
        simp at h0
    | none =>
      simp only [he]
      obtain ⟨i1, i2⟩ := ih (readLine p bs ctx).st.bs (readLine p bs ctx).st.ctx.swap
        ⟨d.ok, d.img ++ [imageRow (readLine p bs ctx).st.ctx],
          d.trace ++ [(readLine p bs ctx).st.trace]⟩
      constructor
      · rw [i1]
        constructor
        · intro hall i hi
          cases i with
          | zero => exact ⟨bs, ctx, rfl, he⟩
          | succ j =>
            obtain ⟨bsi, ctxi, h1, h2⟩ := hall j (by omega)
            exact ⟨bsi, ctxi, by simp only [rowState, he]; exact h1, h2⟩
        · intro hall i hi
          obtain ⟨bsi, ctxi, h1, h2⟩ := hall (i + 1) (by omega)
          simp only [rowState, he] at h1
          exact ⟨bsi, ctxi, h1, h2⟩
      · intro h0
        rw [i2 h0]
        simp only [List.length_append, List.length_singleton]
        omega

/-- Failure propagation of the row loop of `decode`, from any context. -/
theorem decodeFrom_propagates (p : Params) (ctx : Context) (data : List Nat) (h : Nat) :
    (BitStream.init data = none → decodeFrom p ctx data h = ⟨false, [], []⟩) ∧
    (∀ bs, BitStream.init data = some bs →
      (∀ i bsi ctxi f, i < h → rowState p i bs ctx = some (bsi, ctxi) →
        (readLine p bsi ctxi).err = some f →
        (decodeFrom p ctx data h).ok = false ∧ (decodeFrom p ctx data h).img.length = i ∧
        (decodeFrom p ctx data h).trace.length = i + 1) ∧
      ((decodeFrom p ctx data h).ok = true ↔
        ∀ i, i < h → ∃ bsi ctxi, rowState p i bs ctx = some (bsi, ctxi) ∧
          (readLine p bsi ctxi).err = none) ∧
      ((decodeFrom p ctx data h).ok = true → (decodeFrom p ctx data h).img.length = h)) ∧
    (∀ st : Line, (processRunMode st.bs st.ctx (runLength st)).ok = false →
      runStep p st = StepResult.fail Failure.truncated
        { st with bs := (processRunMode st.bs st.ctx (runLength st)).bs,
                  ctx := (processRunMode st.bs st.ctx (runLength st)).ctx }) ∧
    (∀ (st : Line) (k : Nat), kSearch (acc st.ctx.n 1) (acc st.ctx.a 1) = some k →
      (decodeError p st.bs (p.limit % 256).toNat k).ok = false →
      regularStep p st = StepResult.fail Failure.truncated
        { st with bs := (decodeError p st.bs (p.limit % 256).toNat k).bs }) ∧
    (∀ (st : Line) (k : Nat),
      kSearch (acc st.ctx.n (runCategory p st.Ra st.Rc + 2))
        (runTemp st.ctx (runCategory p st.Ra st.Rc)) = some k →
      (decodeError p st.bs ((p.limit - (st.ctx.lrk : Int)) % 256).toNat k).ok = false →
      interruption p st = StepResult.fail Failure.truncated
        { st with bs := (decodeError p st.bs ((p.limit - (st.ctx.lrk : Int)) % 256).toNat k).bs }) ∧
    (∀ (fuel : Nat) (st st1 : Line) (f : Failure), lineStep p st = StepResult.fail f st1 →
      lineLoop p (fuel + 1) st = ⟨some f, st1⟩) ∧
    (∀ (fuel : Nat) (st st1 : Line), lineStep p st = StepResult.next st1 →
      st1.col ≤ st1.ctx.w → lineLoop p (fuel + 1) st = lineLoop p fuel st1) := by
  refine ⟨?_, ?_, ?_, ?_, ?_, ?_, ?_⟩
  · intro hb
    simp [decodeFrom, hb]
  · intro bs hb
    have e : decodeFrom p ctx data h = decodeRows p h bs ctx ⟨true, [], []⟩ := by
      simp [decodeFrom, hb]
    rw [e]
    refine ⟨?_, (decodeRows_ok_iff p h bs ctx _).1, ?_⟩
    · intro i bsi ctxi f hi hst herr
      have := decodeRows_fail p i h bs ctx ⟨true, [], []⟩ hi bsi ctxi f hst herr
      simpa using this
    · intro hok
      have := (decodeRows_ok_iff p h bs ctx ⟨true, [], []⟩).2 hok
      simpa using this
  · intro st hr
    simp [runStep, hr]
  · intro st k hk hr
    simp [regularStep, hk, hr]
  · intro st k hk hr
    simp [interruption, hk, hr]
  · intro fuel st st1 f hs
    simp [lineLoop, hs]
  · intro fuel st st1 hs hc
    simp [lineLoop, hs, hc]

/-- C7: for every parameter set (maxval, near), bit stream and image size,
`decode` returns false when the bit stream cannot be initialised, and
then reads no row; when row `i` is the first row on which `readLine` returns
false (for a failed bit-consume, `Failure.truncated`, as for any other reason)
`decode` returns false having written the `i` rows before it and read no row
after it; `decode` returns true exactly when `readLine` succeeded on every one
of the `h` rows, and has then written `h` rows. Inside a row a failed
`processRunMode` or `decodeError` makes the step, and a failed step makes
`readLine`, return false; and each of the eight `bs.read` calls of
`processRunMode` and `decodeError` makes its function return false when it
fails. -/
theorem decode_propagates_failure (p : Params) (data : List Nat) (w h : Nat) :
    ((BitStream.init data = none → decode p data w h = ⟨false, [], []⟩) ∧
      (∀ bs, BitStream.init data = some bs →
        (∀ i bsi ctxi f, i < h →
          rowState p i bs (Context.init w p.range) = some (bsi, ctxi) →
          (readLine p bsi ctxi).err = some f →
          (decode p data w h).ok = false ∧ (decode p data w h).img.length = i ∧
          (decode p data w h).trace.length = i + 1) ∧
        ((decode p data w h).ok = true ↔
          ∀ i, i < h → ∃ bsi ctxi, rowState p i bs (Context.init w p.range) = some (bsi, ctxi) ∧
            (readLine p bsi ctxi).err = none) ∧
        ((decode p data w h).ok = true → (decode p data w h).img.length = h)) ∧
      (∀ st : Line, (processRunMode st.bs st.ctx (runLength st)).ok = false →
        runStep p st = StepResult.fail Failure.truncated
          { st with bs := (processRunMode st.bs st.ctx (runLength st)).bs,
                    ctx := (processRunMode st.bs st.ctx (runLength st)).ctx }) ∧
      (∀ (st : Line) (k : Nat), kSearch (acc st.ctx.n 1) (acc st.ctx.a 1) = some k →
        (decodeError p st.bs (p.limit % 256).toNat k).ok = false →
        regularStep p st = StepResult.fail Failure.truncated
          { st with bs := (decodeError p st.bs (p.limit % 256).toNat k).bs }) ∧
      (∀ (st : Line) (k : Nat),
        kSearch (acc st.ctx.n (runCategory p st.Ra st.Rc + 2))
          (runTemp st.ctx (runCategory p st.Ra st.Rc)) = some k →
        (decodeError p st.bs ((p.limit - (st.ctx.lrk : Int)) % 256).toNat k).ok = false →
        interruption p st = StepResult.fail Failure.truncated
          { st with bs := (decodeError p st.bs ((p.limit - (st.ctx.lrk : Int)) % 256).toNat k).bs }) ∧
      (∀ (fuel : Nat) (st st1 : Line) (f : Failure), lineStep p st = StepResult.fail f st1 →
        lineLoop p (fuel + 1) st = ⟨some f, st1⟩) ∧
      (∀ (fuel : Nat) (st st1 : Line), lineStep p st = StepResult.next st1 →
        st1.col ≤ st1.ctx.w → lineLoop p (fuel + 1) st = lineLoop p fuel st1)) ∧
    (∀ col : Nat,
        (∀ (bs : BitStream) (todo i cnt : Nat) (ctx : Context),
          col ≤ (cnt + ctx.rg) % 65536 → bs.read (i + 1) = none →
          ∃ c, runFor col bs (todo + 1) i cnt ctx = ForResult.failed c) ∧
        (∀ (bs : BitStream) (todo i cnt : Nat) (ctx : Context), ¬ col ≤ (cnt + ctx.rg) % 65536 →
          runFor col bs (todo + 1) i cnt ctx = runFor col bs todo (i + 1) ((cnt + ctx.rg) % 65536)
            (if (cnt + ctx.rg) % 65536 ≤ col ∧ ctx.runIndex < 31 then ctx.runUp else ctx)) ∧
        (∀ (fuel : Nat) (bs : BitStream) (ctx c : Context) (cnt : Nat), 2 ^ 31 ≤ bs.value →
          runFor col bs (Z.getD ((bs.value >>> 24) ^^^ 255) 0) 0 cnt ctx = ForResult.failed c →
          (runLoop col (fuel + 1) bs ctx cnt).ok = false) ∧
        (∀ (bs : BitStream) (ctx : Context) (z cnt : Nat), bs.read (z + 1) = none →
          (runEnd bs ctx z cnt).ok = false) ∧
        (∀ (bs bs1 : BitStream) (ctx : Context) (z cnt : Nat), bs.read (z + 1) = some bs1 →
          ctx.rk ≠ 0 → bs1.read ctx.rk = none → (runEnd bs ctx z cnt).ok = false) ∧
        (∀ (fuel : Nat) (bs : BitStream) (ctx : Context) (cnt : Nat), bs.value < 2 ^ 31 →
          runLoop col (fuel + 1) bs ctx cnt = runEnd bs ctx 0 cnt) ∧
        (∀ (fuel : Nat) (bs : BitStream) (ctx c : Context) (cnt cnt1 : Nat), 2 ^ 31 ≤ bs.value →
          runFor col bs (Z.getD ((bs.value >>> 24) ^^^ 255) 0) 0 cnt ctx = ForResult.through cnt1 c →
          (Z.getD ((bs.value >>> 24) ^^^ 255) 0 ≠ 8 →
            runLoop col (fuel + 1) bs ctx cnt
              = runEnd bs c (Z.getD ((bs.value >>> 24) ^^^ 255) 0) cnt1) ∧
          (Z.getD ((bs.value >>> 24) ^^^ 255) 0 = 8 → bs.read 8 = none →
            (runLoop col (fuel + 1) bs ctx cnt).ok = false) ∧
          (∀ bs1, Z.getD ((bs.value >>> 24) ^^^ 255) 0 = 8 → bs.read 8 = some bs1 →
            runLoop col (fuel + 1) bs ctx cnt = runLoop col fuel bs1 c cnt1))) ∧
    ((∀ (fuel : Nat) (bs : BitStream) (m : Nat), bs.value < 2 ^ 31 → bs.value >>> 24 = 0 →
        bs.read 8 = none → (zeroRun (fuel + 1) bs m).1 = false) ∧
      (∀ (fuel : Nat) (bs bs1 : BitStream) (m : Nat), bs.value < 2 ^ 31 →
        bs.value >>> 24 = 0 → bs.read 8 = some bs1 →
        zeroRun (fuel + 1) bs m = zeroRun fuel bs1 ((m + Z.getD (bs.value >>> 24) 0) % 2 ^ 32)) ∧
      (∀ (bs : BitStream) (limit k : Nat), (zeroRun (bs.remaining / 8 + 1) bs 0).1 = false →
        (decodeError p bs limit k).ok = false) ∧
      (∀ (bs bs1 : BitStream) (limit k cnt m : Nat),
        zeroRun (bs.remaining / 8 + 1) bs 0 = (true, bs1, cnt, m) →
        (bs1.read (cnt + 1) = none → (decodeError p bs limit k).ok = false) ∧
        (∀ bs2, bs1.read (cnt + 1) = some bs2 → m < limit → k ≠ 0 → bs2.read k = none →
          (decodeError p bs limit k).ok = false) ∧
        (∀ bs2, bs1.read (cnt + 1) = some bs2 → ¬ m < limit → bs2.read p.qbpp = none →
          (decodeError p bs limit k).ok = false))) :=
  ⟨decodeFrom_propagates p (Context.init w p.range) data h, processRunMode_reads,
    decodeError_reads p⟩

end JLS

namespace JLS

/-! ## The fuel of the loops is enough -/

theorem remaining_read {bs bs1 : BitStream} {bits : Nat} (h : bs.read bits = some bs1) :
    bits ≤ bs.remaining ∧ bs1.remaining = bs.remaining - bits := by
  unfold BitStream.read at h
  by_cases hb : bits ≤ bs.remaining
  · rw [if_pos hb] at h
    simp only [Option.some.injEq] at h
    subst h
    refine ⟨hb, ?_⟩
    unfold BitStream.remaining at hb ⊢
    simp only
    omega
  · rw [if_neg hb] at h
    simp at h

/-- The `while (true)` loop of `processRunMode` ends within remaining / 8 + 1
passes: more fuel does not change its result. -/
theorem runLoop_fuel (col fuel k : Nat) (bs : BitStream) (ctx : Context) (cnt : Nat)
    (hf : bs.remaining / 8 < fuel) :
    runLoop col (fuel + k) bs ctx cnt = runLoop col fuel bs ctx cnt := by
  induction fuel generalizing bs ctx cnt with
  | zero => omega
  | succ f ih =>
    rw [show f + 1 + k = (f + k) + 1 by omega]
    simp only [runLoop]
    split
    · split
      · rfl
      · rfl
      · split
        · rfl
        · cases hr : bs.read 8 with
          | none => rfl
          | some bs1 =>
            simp only
            obtain ⟨h1, h2⟩ := remaining_read hr
            exact ih bs1 _ _ (by omega)
    · rfl

/-- The loop of `decodeError` ends within remaining / 8 + 1 passes. -/
theorem zeroRun_fuel (fuel k : Nat) (bs : BitStream) (m : Nat)
    (hf : bs.remaining / 8 < fuel) :
    zeroRun (fuel + k) bs m = zeroRun fuel bs m := by
  induction fuel generalizing bs m with
  | zero => omega
  | succ f ih =>
    rw [show f + 1 + k = (f + k) + 1 by omega]
    simp only [zeroRun]
    split
    · split
      · rfl
      · cases hr : bs.read 8 with
        | none => rfl
        | some bs1 =>
          simp only
          obtain ⟨h1, h2⟩ := remaining_read hr
          exact ih bs1 _ (by omega)
    · rfl

/-- The `do ... while` loop of `readLine` ends within `w + 1` passes: from a
state in range more fuel does not change its result. -/
theorem lineLoop_fuel (p : Params) (fuel k : Nat) (st : Line) (h : st.inRange p)
    (hc : st.col ≤ st.ctx.w + 1) (hf : st.ctx.w + 1 < st.col + fuel) :
    lineLoop p (fuel + k) st = lineLoop p fuel st := by
  induction fuel generalizing st with
  | zero => omega
  | succ f ih =>
    rw [show f + 1 + k = (f + k) + 1 by omega]
    simp only [lineLoop]
    obtain ⟨s1, s2, s3, s4⟩ := stepOk_lineStep p st h
    cases hr : lineStep p st with
    | fail fl st1 => rfl
    | stop st1 => rfl
    | next st1 =>
      simp only
      rw [hr] at s1 s2
      have hcol := s3 st1 hr
      have hw : st1.ctx.w = st.ctx.w := s2.1
      by_cases hle : st1.col ≤ st1.ctx.w
      · rw [if_pos hle, if_pos hle]
        exact ih st1 s1 (by omega) (by omega)
      · rw [if_neg hle, if_neg hle]

end JLS

namespace JLS

theorem decode_propagates_failure_witness :
    (decode (Params.new 255 0 countMod32) [0, 0, 1, 198, 149] 4 4).ok = false ∧
    (decode (Params.new 255 0 countMod32) [0, 0, 1, 198, 149] 4 4).img.length = 1 ∧
    (decode (Params.new 255 0 countMod32) [0, 0, 1, 198, 149] 4 4).trace.length = 1 + 1 :=
  ((decode_propagates_failure (Params.new 255 0 countMod32) [0, 0, 1, 198, 149] 4 4).1.2.1
      ⟨[0, 0, 1, 198, 149], 0⟩ (by decide)).1 1 ⟨[0, 0, 1, 198, 149], 39⟩
    ⟨4, [0, 100, 100, 100, 100, 0], [0, 0, 0, 0, 0, 0], 0, 0, 1, 1, [4, 4, 4, 103],
      [0, 0, 0, 0], [1, 4, 1, 2]⟩
    Failure.truncated (by decide) (by decide) (by decide)

end JLS

namespace JLS

/-- The fuel `readLine` gives its loop is enough: when the sample above the
first column is in range, more fuel gives the same result. -/
theorem readLine_fuel (p : Params) (bs : BitStream) (ctx : Context)
    (h1 : ctx.last.getD 1 0 ≤ p.maxval) (k : Nat) :
    lineLoop p (ctx.w + 1 + k)
      ⟨bs, { ctx with current := ctx.current.set 0 (ctx.last.getD 1 0) }, sample ctx.last 1,
        sample ctx.last 1, sample ctx.last 0, 1, [Event.border (ctx.last.getD 1 0)]⟩
      = readLine p bs ctx := by
  have hin : Line.inRange p
      ⟨bs, { ctx with current := ctx.current.set 0 (ctx.last.getD 1 0) }, sample ctx.last 1,
        sample ctx.last 1, sample ctx.last 0, 1, [Event.border (ctx.last.getD 1 0)]⟩ := by
    refine ⟨⟨?_, ?_⟩, ?_, ?_, Nat.le_refl 1⟩
    · exact Int.ofNat_nonneg _
    · exact Int.ofNat_le.2 h1
    · intro e he
      rw [List.mem_singleton.1 he]
      exact h1
    · intro i hi1 hi2
      simp only at hi2
      omega
  unfold readLine
  simp only
  exact lineLoop_fuel p (ctx.w + 1) k _ hin (Nat.succ_le_succ (Nat.zero_le _))
    (by simp only; omega)

end JLS

namespace ENC

/-! ## What the feature loop adds to the indices -/

theorem warning_append (FRID : Field) (PRIM : Nat) (w : List Warning) :
    warning FRID PRIM w = w ++ warning FRID PRIM [] := by
  unfold warning
  simp only
  split <;> simp

/-- The body of the feature loop only appends: the indices after a feature
are the indices before it followed by what the feature inserts by itself. -/
theorem loadFeature_append (k : Codes) (s : FullPass) (idx : Indices) (r : Record) :
    loadFeature k s idx r
      = ⟨idx.points ++ (inserted k s r).points, idx.lines ++ (inserted k s r).lines,
          idx.areas ++ (inserted k s r).areas, idx.warnings ++ (inserted k s r).warnings⟩ := by
  unfold inserted loadFeature Indices.empty
  match r with
  | [] => simp
  | [_] => simp
  | _ :: f :: _ =>
    simp only
    by_cases h5 : (f.row 0).length < 5
    · simp [h5]
    · simp only [h5, if_false]
      by_cases hP : (cell (f.row 0) 2).toUInt = PRIM_P
      · simp only [hP, if_true]
        by_cases hS : (cell (f.row 0) 4).toUInt = k.SOUNDG
        · simp [hS]
        · simp only [hS, if_false]
          cases pointObject k _ s.vi s.vc s.COMF (cell (f.row 0) 4).toUInt with
          | none => simp [warning_append f PRIM_P idx.warnings]
          | some p => simp
      · simp only [hP, if_false]
        by_cases hL : (cell (f.row 0) 2).toUInt = PRIM_L
        · simp only [hL, if_true]
          cases lineObject k _ s.vc s.ve s.COMF (cell (f.row 0) 4).toUInt with
          | none => simp [warning_append f PRIM_L idx.warnings]
          | some p => simp
        · simp only [hL, if_false]
          by_cases hA : (cell (f.row 0) 2).toUInt = PRIM_A
          · simp only [hA, if_true]
            cases polyObject k _ s.vc s.ve s.COMF (cell (f.row 0) 4).toUInt with
            | none => simp [warning_append f PRIM_A idx.warnings]
            | some p => simp
          · simp [hA]

/-- The feature loop appends, feature by feature in list order, what each
feature inserts by itself. -/
theorem loadFeatures_append (k : Codes) (s : FullPass) (fe : List Record) (idx : Indices) :
    loadFeatures k s fe idx
      = ⟨idx.points ++ (fe.map (fun r => (inserted k s r).points)).flatten,
          idx.lines ++ (fe.map (fun r => (inserted k s r).lines)).flatten,
          idx.areas ++ (fe.map (fun r => (inserted k s r).areas)).flatten,
          idx.warnings ++ (fe.map (fun r => (inserted k s r).warnings)).flatten⟩ := by
  induction fe generalizing idx with
  | nil => simp [loadFeatures]
  | cons r rest ih =>
    unfold loadFeatures at ih ⊢
    rw [List.foldl_cons, ih, loadFeature_append]
    simp [List.append_assoc]

end ENC

namespace ENC

/-! ## Soundings -/

theorem class_of_TYPE {c : Nat} (h : c < 65536) : TYPE c >>> 16 = c := by
  unfold TYPE
  rw [Nat.shiftLeft_eq, Nat.shiftRight_eq_div_pow]
  norm_num
  omega

theorem pointObjectSounding_eq (k : Codes) (hS : k.SOUNDG < 65536) (hT : k.SOUNDG ≠ k.SISTAT)
    (hI : k.SOUNDG ≠ k.I_SISTAT) (COMF SOMF : Nat) (row : List QVariant) :
    pointObjectSounding k
        ⟨coordinates (cell row 1).toInt (cell row 0).toInt COMF, Dbl.ofDiv (cell row 2).toInt SOMF⟩
      = soundingPoint k COMF SOMF row := by
  unfold pointObjectSounding Point.new soundingPoint coordinates
  simp only [class_of_TYPE hS, List.length_nil, ne_eq, not_true_eq_false, and_false, if_false,
    Nat.not_lt_zero, hT, hI, or_self]

/-- C11: for a point feature of class SOUNDG (at least five subfields in
`FRID`, PRIM = 1, OBJL = SOUNDG) whose pointer resolves to the node record `n`,
`load` inserts, when `n` has an `SG3D` field of m rows (y, x, z), exactly m
Points into the point index and nothing else, one per row in row order, each
of type `TYPE(SOUNDG)`, at (x / COMF, y / COMF) and labelled with the depth
z / SOMF; when `n` has no `SG3D` field it inserts nothing. The points stand in
the index after those of the features before it and before those of the
features after it. -/
theorem load_expands_soundings (k : Codes) (s : FullPass) (pre post : List Record)
    (idx : Indices) (r0 f : Field) (rest : List Field) (n : Record)
    (hS : k.SOUNDG < 65536) (hT : k.SOUNDG ≠ k.SISTAT) (hI : k.SOUNDG ≠ k.I_SISTAT)
    (h5 : 5 ≤ (f.row 0).length)
    (hP : (cell (f.row 0) 2).toUInt = PRIM_P) (hO : (cell (f.row 0) 4).toUInt = k.SOUNDG)
    (hn : pointNode (r0 :: f :: rest) s.vi s.vc = some n) :
    (∀ SG3D, n.field "SG3D" = some SG3D →
      inserted k s (r0 :: f :: rest)
        = ⟨SG3D.data.map (fun row => pointEntry (soundingPoint k s.COMF s.SOMF row)),
            [], [], []⟩ ∧
      (inserted k s (r0 :: f :: rest)).points.length = SG3D.data.length) ∧
    (n.field "SG3D" = none → inserted k s (r0 :: f :: rest) = Indices.empty) ∧
    (loadFeatures k s (pre ++ (r0 :: f :: rest) :: post) idx).points
      = (loadFeatures k s pre idx).points ++ (inserted k s (r0 :: f :: rest)).points
          ++ (loadFeatures k s post Indices.empty).points := by
  have hins : inserted k s (r0 :: f :: rest)
      = ⟨(soundingGeometry (r0 :: f :: rest) s.vi s.vc s.COMF s.SOMF).map
          (fun x => pointEntry (pointObjectSounding k x)), [], [], []⟩ := by
    unfold inserted loadFeature Indices.empty
    simp only [Nat.not_lt.2 h5, if_false, hP, if_true, hO, List.nil_append]
  refine ⟨?_, ?_, ?_⟩
  · intro SG3D hf
    have e : inserted k s (r0 :: f :: rest)
        = ⟨SG3D.data.map (fun row => pointEntry (soundingPoint k s.COMF s.SOMF row)),
            [], [], []⟩ := by
      rw [hins]
      simp only [soundingGeometry, hn, soundings, hf, List.map_map]
      congr 1
      apply List.map_congr_left
      intro row _
      simp only [Function.comp]
      rw [pointObjectSounding_eq k hS hT hI]
    refine ⟨e, ?_⟩
    rw [e]
    simp
  · intro hf
    rw [hins]
    simp [soundingGeometry, hn, soundings, hf, Indices.empty]
  · rw [loadFeatures_append k s (pre ++ (r0 :: f :: rest) :: post),
      loadFeatures_append k s pre, loadFeatures_append k s post]
    simp [Indices.empty, List.append_assoc]

theorem load_expands_soundings_witness :
    (∀ SG3D, Record.field (Sample.vector 110 4 [Sample.sg3d [(20, 10, 55), (40, 30, 123)]])
        "SG3D" = some SG3D →
      inserted Sample.codes Sample.soundPass Sample.soundFeature
        = ⟨SG3D.data.map (fun row => pointEntry (soundingPoint Sample.codes
            Sample.soundPass.COMF Sample.soundPass.SOMF row)), [], [], []⟩ ∧
      (inserted Sample.codes Sample.soundPass Sample.soundFeature).points.length
        = SG3D.data.length) ∧
    (Record.field (Sample.vector 110 4 [Sample.sg3d [(20, 10, 55), (40, 30, 123)]]) "SG3D" = none →
      inserted Sample.codes Sample.soundPass Sample.soundFeature = Indices.empty) ∧
    (loadFeatures Sample.codes Sample.soundPass
        ([Sample.soundNoDepth] ++ Sample.soundFeature :: [Sample.lineFeature])
        Indices.empty).points
      = (loadFeatures Sample.codes Sample.soundPass [Sample.soundNoDepth] Indices.empty).points
          ++ (inserted Sample.codes Sample.soundPass Sample.soundFeature).points
          ++ (loadFeatures Sample.codes Sample.soundPass [Sample.lineFeature]
              Indices.empty).points :=
  load_expands_soundings Sample.codes Sample.soundPass [Sample.soundNoDepth]
    [Sample.lineFeature] Indices.empty _ _ _
    (Sample.vector 110 4 [Sample.sg3d [(20, 10, 55), (40, 30, 123)]])
    (by decide) (by decide) (by decide) (by decide) (by decide) (by decide) (by decide)

end ENC

namespace ENC

/-! ## A feature naming an absent edge -/

theorem polyRows_unresolved_row (vc ve : RecordMap) (COMF : Nat)
    (rows : List (List QVariant)) (row : List QVariant) (hmem : row ∈ rows)
    (hrow : (edgeName row).bind (fun id => edgeVertices vc ve COMF id (cell row 1).toUInt) = none)
    (st : PolyState) :
    polyRows vc ve COMF rows st = none := by
  induction rows generalizing st with
  | nil => simp at hmem
  | cons r rest ih =>
    unfold polyRows
    cases hs : polyStep vc ve COMF r st with
    | none => rfl
    | some st1 =>
      simp only
      rcases List.mem_cons.1 hmem with h | h
      · subst h
        exfalso
        unfold polyStep polyAccum at hs
        cases hn : edgeName row with
        | none => simp [hn] at hs
        | some id =>
          cases hv : edgeVertices vc ve COMF id (cell row 1).toUInt with
          | none => simp [hn, hv] at hs
          | some seg => simp [hn, hv] at hrow
      · exact ih h _

theorem edgeVertices_absent {vc ve : RecordMap} {COMF id : Nat} (ORNT : Nat)
    (h : ve.find id = none) : edgeVertices vc ve COMF id ORNT = none := by
  simp [edgeVertices, h]

theorem lineGeometry_of_dangling {r : Record} {vc ve : RecordMap} (COMF : Nat)
    (h : danglingEdge ve r) : lineGeometry r vc ve COMF = [] := by
  obtain ⟨FSPT, hF, row, hrow, id, hid, hfind⟩ := h
  unfold lineGeometry
  simp only [hF]
  split
  · rfl
  · exact lineLoop_unresolved_row vc ve COMF _ row hrow
      (by simp [hid, edgeVertices_absent _ hfind]) _

theorem polyGeometry_of_dangling {r : Record} {vc ve : RecordMap} (COMF : Nat)
    (h : danglingEdge ve r) : polyGeometry r vc ve COMF = [] := by
  obtain ⟨FSPT, hF, row, hrow, id, hid, hfind⟩ := h
  unfold polyGeometry
  simp only [hF]
  split
  · rfl
  · rw [polyRows_unresolved_row vc ve COMF _ row hrow
      (by simp [hid, edgeVertices_absent _ hfind]) _]

/-- A line or area feature naming an absent edge is dropped with one
warning. -/
theorem inserted_of_dangling (k : Codes) (s : FullPass) (r0 f : Field) (rest : List Field)
    (h5 : 5 ≤ (f.row 0).length)
    (hprim : (cell (f.row 0) 2).toUInt = PRIM_L ∨ (cell (f.row 0) 2).toUInt = PRIM_A)
    (hd : danglingEdge s.ve (r0 :: f :: rest)) :
    inserted k s (r0 :: f :: rest)
      = ⟨[], [], [], [Warning.invalidFeature ((f.subfieldUInt "RCID").getD 4294967295)
          (cell (f.row 0) 2).toUInt]⟩ := by
  unfold inserted loadFeature Indices.empty
  simp only [Nat.not_lt.2 h5, if_false]
  rcases hprim with hp | hp
  · rw [hp]
    simp only [show PRIM_L ≠ PRIM_P by decide, if_false, if_true, lineObject,
      lineGeometry_of_dangling s.COMF hd, List.isEmpty_nil]
    simp [warning]
  · rw [hp]
    simp only [show PRIM_A ≠ PRIM_P by decide, show PRIM_A ≠ PRIM_L by decide, if_false, if_true,
      polyObject, polyGeometry_of_dangling s.COMF hd, List.isEmpty_nil]
    simp [warning]

end ENC

namespace ENC

/-- A valid feature is inserted with the geometry its pointer list resolves
to, and logs nothing. -/
theorem inserted_of_valid (k : Codes) (s : FullPass) (x : Record)
    (hv : validFeature k s x = true) :
    (inserted k s x).warnings = [] ∧
    (featurePRIM x = PRIM_L →
      (inserted k s x).lines.map (fun e => e.obj.path) = [lineGeometry x s.vc s.ve s.COMF] ∧
      lineGeometry x s.vc s.ve s.COMF ≠ []) ∧
    (featurePRIM x = PRIM_A →
      (inserted k s x).areas.map (fun e => e.obj.path) = [polyGeometry x s.vc s.ve s.COMF] ∧
      polyGeometry x s.vc s.ve s.COMF ≠ []) ∧
    (featurePRIM x = PRIM_P → featureOBJL x ≠ k.SOUNDG →
      (inserted k s x).points.map (fun e => e.obj.pos) = [pointGeometry x s.vi s.vc s.COMF] ∧
      (pointGeometry x s.vi s.vc s.COMF).isNull = false) ∧
    (featurePRIM x = PRIM_P → featureOBJL x = k.SOUNDG →
      (inserted k s x).points.map (fun e => e.obj.pos)
        = (soundingGeometry x s.vi s.vc s.COMF s.SOMF).map (fun sd => sd.c) ∧
      soundingGeometry x s.vi s.vc s.COMF s.SOMF ≠ []) := by
  match x, hv with
  | [], hv => simp [validFeature] at hv
  | [_], hv => simp [validFeature] at hv
  | r0 :: f :: rest, hv =>
    simp only [validFeature, featurePRIM, Bool.and_eq_true, decide_eq_true_eq, Bool.or_eq_true,
      beq_iff_eq, Bool.not_eq_true', unresolved] at hv
    obtain ⟨⟨h5, hprim⟩, hres⟩ := hv
    unfold inserted loadFeature Indices.empty featurePRIM featureOBJL
    simp only [Nat.not_lt.2 h5, if_false]
    by_cases hP : (cell (f.row 0) 2).toUInt = PRIM_P
    · simp only [hP, if_true] at hres ⊢
      by_cases hS : (cell (f.row 0) 4).toUInt = k.SOUNDG
      · simp only [hS, if_true] at hres ⊢
        refine ⟨trivial, fun h => absurd h (by decide), fun h => absurd h (by decide),
          fun _ h => absurd rfl h, fun _ _ => ⟨?_, ?_⟩⟩
        · simp only [List.nil_append, List.map_map]
          apply List.map_congr_left
          intro sd _
          simp only [Function.comp, pointEntry, pointObjectSounding, pos_new]
        · intro h0
          rw [h0] at hres
          simp at hres
      · simp only [hS, if_false] at hres ⊢
        have hobj : pointObject k (r0 :: f :: rest) s.vi s.vc s.COMF (cell (f.row 0) 4).toUInt
            = some (Point.new k (SUBTYPE (cell (f.row 0) 4).toUInt
                (pointAttr k (r0 :: f :: rest) (cell (f.row 0) 4).toUInt).subtype)
                (pointGeometry (r0 :: f :: rest) s.vi s.vc s.COMF)
                (pointAttr k (r0 :: f :: rest) (cell (f.row 0) 4).toUInt).label
                (pointAttr k (r0 :: f :: rest) (cell (f.row 0) 4).toUInt).params) := by
          simp only [pointObject, hres, Bool.false_eq_true, if_false]
        simp only [hobj]
        refine ⟨trivial, fun h => absurd h (by decide), fun h => absurd h (by decide),
          fun _ _ => ⟨?_, hres⟩, fun _ h => h.elim⟩
        simp [pointEntry, pos_new]
    · simp only [hP, if_false] at hres ⊢
      by_cases hL : (cell (f.row 0) 2).toUInt = PRIM_L
      · simp only [hL, if_true] at hres ⊢
        have hne : lineGeometry (r0 :: f :: rest) s.vc s.ve s.COMF ≠ [] := by
          intro h0
          rw [h0] at hres
          simp at hres
        have hobj : lineObject k (r0 :: f :: rest) s.vc s.ve s.COMF (cell (f.row 0) 4).toUInt
            = some (Line.new k (SUBTYPE (cell (f.row 0) 4).toUInt
                (lineAttr k (r0 :: f :: rest) (cell (f.row 0) 4).toUInt).subtype)
                (lineGeometry (r0 :: f :: rest) s.vc s.ve s.COMF)
                (lineAttr k (r0 :: f :: rest) (cell (f.row 0) 4).toUInt).label
                (lineAttr k (r0 :: f :: rest) (cell (f.row 0) 4).toUInt).params) := by
          simp only [lineObject, hres, Bool.false_eq_true, if_false]
        simp only [hobj]
        refine ⟨trivial, fun _ => ⟨?_, hne⟩, fun h => absurd h (by decide),
          fun h => absurd h (by decide), fun h => absurd h (by decide)⟩
        simp [path_line_new]
      · simp only [hL, if_false] at hres ⊢
        have hA : (cell (f.row 0) 2).toUInt = PRIM_A := by
          rcases hprim with (h | h) | h
          · exact absurd h hP
          · exact absurd h hL
          · exact h
        simp only [hA, if_true] at hres ⊢
        have hne : polyGeometry (r0 :: f :: rest) s.vc s.ve s.COMF ≠ [] := by
          intro h0
          rw [h0] at hres
          simp at hres
        have hobj : polyObject k (r0 :: f :: rest) s.vc s.ve s.COMF (cell (f.row 0) 4).toUInt
            = some (Poly.new k (SUBTYPE (cell (f.row 0) 4).toUInt
                (polyAttr k (r0 :: f :: rest) (cell (f.row 0) 4).toUInt).subtype)
                (polyGeometry (r0 :: f :: rest) s.vc s.ve s.COMF)
                (polyAttr k (r0 :: f :: rest) (cell (f.row 0) 4).toUInt).params) := by
          simp only [polyObject, hres, Bool.false_eq_true, if_false]
        simp only [hobj]
        refine ⟨trivial, fun h => absurd h (by decide), fun _ => ⟨?_, hne⟩,
          fun h => absurd h (by decide), fun h => absurd h (by decide)⟩
        simp [path_poly_new]

end ENC

namespace ENC

theorem flatten_map_nil {α β : Type} (l : List α) (g : α → List β) (h : ∀ x ∈ l, g x = []) :
    (l.map g).flatten = [] := by
  induction l with
  | nil => rfl
  | cons a rest ih =>
    simp only [List.map_cons, List.flatten_cons]
    rw [h a (List.mem_cons_self _ _), ih (fun x hx => h x (List.mem_cons_of_mem _ hx))]
    rfl

/-- C12: for every dataset whose full pass yields the record set `s` and the
feature list `pre ++ r :: post`, where `r` is a line or area feature naming an
edge id absent from the edge records and every other feature is valid, `load`
logs exactly one warning after those of the read pass, the one for `r` (none
for the valid features), inserts nothing for `r`, and inserts for every other
feature the geometry its pointer list resolves to. -/
theorem load_warns_once_for_dangling_edge (k : Codes) (records : List Record) (idx : Indices)
    (s : FullPass) (w : List Warning) (pre post : List Record) (r0 f : Field)
    (rest : List Field)
    (hread : readRecords records (FullPass.init, idx.warnings) = (s, w))
    (hfe : s.fe = pre ++ (r0 :: f :: rest) :: post)
    (h5 : 5 ≤ (f.row 0).length)
    (hprim : (cell (f.row 0) 2).toUInt = PRIM_L ∨ (cell (f.row 0) 2).toUInt = PRIM_A)
    (hd : danglingEdge s.ve (r0 :: f :: rest))
    (hv : ∀ x ∈ pre ++ post, validFeature k s x = true) :
    (load k true records idx).warnings
      = w ++ [Warning.invalidFeature ((f.subfieldUInt "RCID").getD 4294967295)
          (cell (f.row 0) 2).toUInt] ∧
    inserted k s (r0 :: f :: rest)
      = ⟨[], [], [], [Warning.invalidFeature ((f.subfieldUInt "RCID").getD 4294967295)
          (cell (f.row 0) 2).toUInt]⟩ ∧
    (load k true records idx).points
      = idx.points ++ ((pre ++ post).map (fun x => (inserted k s x).points)).flatten ∧
    (load k true records idx).lines
      = idx.lines ++ ((pre ++ post).map (fun x => (inserted k s x).lines)).flatten ∧
    (load k true records idx).areas
      = idx.areas ++ ((pre ++ post).map (fun x => (inserted k s x).areas)).flatten ∧
    ∀ x ∈ pre ++ post,
      (inserted k s x).warnings = [] ∧
      (featurePRIM x = PRIM_L →
        (inserted k s x).lines.map (fun e => e.obj.path) = [lineGeometry x s.vc s.ve s.COMF] ∧
        lineGeometry x s.vc s.ve s.COMF ≠ []) ∧
      (featurePRIM x = PRIM_A →
        (inserted k s x).areas.map (fun e => e.obj.path) = [polyGeometry x s.vc s.ve s.COMF] ∧
        polyGeometry x s.vc s.ve s.COMF ≠ []) ∧
      (featurePRIM x = PRIM_P → featureOBJL x ≠ k.SOUNDG →
        (inserted k s x).points.map (fun e => e.obj.pos) = [pointGeometry x s.vi s.vc s.COMF] ∧
        (pointGeometry x s.vi s.vc s.COMF).isNull = false) ∧
      (featurePRIM x = PRIM_P → featureOBJL x = k.SOUNDG →
        (inserted k s x).points.map (fun e => e.obj.pos)
          = (soundingGeometry x s.vi s.vc s.COMF s.SOMF).map (fun sd => sd.c) ∧
        soundingGeometry x s.vi s.vc s.COMF s.SOMF ≠ []) := by
  have hins := inserted_of_dangling k s r0 f rest h5 hprim hd
  have hload : load k true records idx
      = loadFeatures k s (pre ++ (r0 :: f :: rest) :: post) { idx with warnings := w } := by
    simp only [load, if_true, hread, hfe]
  have hwpre : (pre.map (fun x => (inserted k s x).warnings)).flatten = [] :=
    flatten_map_nil _ _ (fun x hx =>
      (inserted_of_valid k s x (hv x (List.mem_append_left _ hx))).1)
  have hwpost : (post.map (fun x => (inserted k s x).warnings)).flatten = [] :=
    flatten_map_nil _ _ (fun x hx =>
      (inserted_of_valid k s x (hv x (List.mem_append_right _ hx))).1)
  rw [hload, loadFeatures_append]
  refine ⟨?_, hins, ?_, ?_, ?_, fun x hx => inserted_of_valid k s x (hv x hx)⟩
  · simp only [List.map_append, List.map_cons, List.flatten_append, List.flatten_cons, hwpre,
      hwpost, hins, List.nil_append, List.append_nil]
  · simp only [List.map_append, List.map_cons, List.flatten_append, List.flatten_cons, hins,
      List.nil_append]
  · simp only [List.map_append, List.map_cons, List.flatten_append, List.flatten_cons, hins,
      List.nil_append]
  · simp only [List.map_append, List.map_cons, List.flatten_append, List.flatten_cons, hins,
      List.nil_append]

end ENC

namespace ENC

theorem load_warns_once_for_dangling_edge_witness :
    (load Sample.codes true Sample.danglingStream Indices.empty).warnings
      = [] ++ [Warning.invalidFeature
          ((Field.subfieldUInt ⟨"FRID", ["RCNM", "RCID", "PRIM", "GRUP", "OBJL", "RVER", "RUIN"],
            [[QVariant.uint 100, QVariant.uint 8, QVariant.uint 2, QVariant.uint 2,
              QVariant.uint 43, QVariant.uint 1, QVariant.uint 1]]⟩ "RCID").getD 4294967295)
          (cell (Field.row ⟨"FRID", ["RCNM", "RCID", "PRIM", "GRUP", "OBJL", "RVER", "RUIN"],
            [[QVariant.uint 100, QVariant.uint 8, QVariant.uint 2, QVariant.uint 2,
              QVariant.uint 43, QVariant.uint 1, QVariant.uint 1]]⟩ 0) 2).toUInt] ∧
    (load Sample.codes true Sample.danglingStream Indices.empty).lines
      = [] ++ (([Sample.lineFeature] ++ [Sample.areaTwoRings]).map
          (fun x => (inserted Sample.codes Sample.danglingPass x).lines)).flatten :=
  have h := load_warns_once_for_dangling_edge Sample.codes Sample.danglingStream Indices.empty
    Sample.danglingPass [] [Sample.lineFeature] [Sample.areaTwoRings]
    ⟨"0001", [], [[QVariant.uint 8]]⟩
    ⟨"FRID", ["RCNM", "RCID", "PRIM", "GRUP", "OBJL", "RVER", "RUIN"],
      [[QVariant.uint 100, QVariant.uint 8, QVariant.uint 2, QVariant.uint 2,
        QVariant.uint 43, QVariant.uint 1, QVariant.uint 1]]⟩
    [⟨"FOID", ["AGEN", "FIDN", "FIDS"], [[QVariant.uint 1, QVariant.uint 8, QVariant.uint 1]]⟩,
      Sample.fspt [(130, 7, 1, 255), (130, 99, 1, 255)]]
    (by decide) (by decide) (by decide) (by decide)
    ⟨Sample.fspt [(130, 7, 1, 255), (130, 99, 1, 255)], by decide,
      [Sample.name 130 99, QVariant.uint 1, QVariant.uint 255, QVariant.uint 255], by decide,
      99, by decide, by decide⟩
    (by decide)
  ⟨h.1, h.2.2.2.1⟩

end ENC

namespace ENC

/-! ## Point features whose pointer does not resolve -/

/-- The pointer of a point feature does not resolve exactly in the cases the
source tests: no `FSPT` field, a first row that has not four subfields, a name
that is not five bytes long, a record class other than isolated or connected
node, or an id without a record in the map of its class. -/
theorem pointNode_eq_none_iff (r : Record) (vi vc : RecordMap) :
    pointNode r vi vc = none ↔
      r.field "FSPT" = none ∨
      ∃ FSPT, r.field "FSPT" = some FSPT ∧
        ((FSPT.row 0).length ≠ 4 ∨ parseNAME FSPT 0 = none ∨
          ∃ type id, parseNAME FSPT 0 = some (type, id) ∧
            ((type ≠ RCNM_VI ∧ type ≠ RCNM_VC) ∨ (type = RCNM_VI ∧ vi.find id = none) ∨
              (type = RCNM_VC ∧ vc.find id = none))) := by
  unfold pointNode
  cases hF : r.field "FSPT" with
  | none => simp
  | some FSPT =>
    simp only [false_or, Option.some.injEq, exists_eq_left', reduceCtorEq]
    by_cases h4 : (FSPT.row 0).length ≠ 4
    · simp [h4]
    · simp only [h4, if_false, false_or]
      cases hp : parseNAME FSPT 0 with
      | none => simp
      | some ti =>
        obtain ⟨type, id⟩ := ti
        simp only [reduceCtorEq, false_or, Option.some.injEq, Prod.mk.injEq]
        by_cases hi : type = RCNM_VI
        · subst hi
          simp only [if_true]
          constructor
          · intro h
            exact ⟨RCNM_VI, id, ⟨rfl, rfl⟩, Or.inr (Or.inl ⟨rfl, h⟩)⟩
          · rintro ⟨t, i, ⟨rfl, rfl⟩, h⟩
            rcases h with h | h | h
            · exact absurd rfl h.1
            · exact h.2
            · exact absurd h.1 (by decide)
        · simp only [hi, if_false]
          by_cases hc : type = RCNM_VC
          · subst hc
            simp only [if_true]
            constructor
            · intro h
              exact ⟨RCNM_VC, id, ⟨rfl, rfl⟩, Or.inr (Or.inr ⟨rfl, h⟩)⟩
            · rintro ⟨t, i, ⟨rfl, rfl⟩, h⟩
              rcases h with h | h | h
              · exact absurd rfl h.2
              · exact absurd h.1 (by decide)
              · exact h.2
          · simp only [hc, if_false, true_iff]
            exact ⟨type, id, ⟨rfl, rfl⟩, Or.inl ⟨hi, hc⟩⟩

/-- A point feature of a class other than SOUNDG whose pointer does not resolve
is dropped with one warning; a point feature of class SOUNDG whose pointer does
not resolve is dropped and nothing is logged. -/
theorem inserted_of_unresolved_point (k : Codes) (s : FullPass) (r0 f : Field)
    (rest : List Field) (h5 : 5 ≤ (f.row 0).length)
    (hP : (cell (f.row 0) 2).toUInt = PRIM_P)
    (hn : pointNode (r0 :: f :: rest) s.vi s.vc = none) :
    ((cell (f.row 0) 4).toUInt ≠ k.SOUNDG →
      inserted k s (r0 :: f :: rest)
        = ⟨[], [], [], [Warning.invalidFeature ((f.subfieldUInt "RCID").getD 4294967295)
            PRIM_P]⟩) ∧
    ((cell (f.row 0) 4).toUInt = k.SOUNDG → inserted k s (r0 :: f :: rest) = Indices.empty) := by
  unfold inserted loadFeature Indices.empty
  simp only [Nat.not_lt.2 h5, if_false, hP, if_true]
  constructor
  · intro hS
    simp only [hS, if_false, pointObject, pointGeometry, hn]
    simp [Coordinates.isNull, Coordinates.null, Dbl.isNaN, warning, PRIM_P]
  · intro hS
    simp [hS, soundingGeometry, hn]

theorem inserted_of_unresolved_point_example :
    inserted Sample.codes Sample.soundPass Sample.pointDangling
      = ⟨[], [], [], [Warning.invalidFeature 12 PRIM_P]⟩ :=
  (inserted_of_unresolved_point Sample.codes Sample.soundPass
    ⟨"0001", [], [[QVariant.uint 12]]⟩
    ⟨"FRID", ["RCNM", "RCID", "PRIM", "GRUP", "OBJL", "RVER", "RUIN"],
      [[QVariant.uint 100, QVariant.uint 12, QVariant.uint 1, QVariant.uint 2,
        QVariant.uint 74, QVariant.uint 1, QVariant.uint 1]]⟩
    [⟨"FOID", ["AGEN", "FIDN", "FIDS"], [[QVariant.uint 1, QVariant.uint 12, QVariant.uint 1]]⟩,
      Sample.fspt [(110, 99, 255, 255)]]
    (by decide) (by decide) (by decide)).1 (by decide)

/-- C13: the code at the point feature `Sample.soundDangling` of class SOUNDG,
whose pointer names node 99 for which there is no node record: its pointer does
not resolve, `load` inserts nothing for it and logs no warning for it, while
for the feature `Sample.pointDangling` of class 74 with the same pointer it
logs the warning of an invalid point feature. -/
theorem load_drops_unresolved_sounding_silently :
    featurePRIM Sample.soundDangling = PRIM_P ∧
    featureOBJL Sample.soundDangling = Sample.codes.SOUNDG ∧
    pointNode Sample.soundDangling Sample.soundPass.vi Sample.soundPass.vc = none ∧
    inserted Sample.codes Sample.soundPass Sample.soundDangling = Indices.empty ∧
    pointNode Sample.pointDangling Sample.soundPass.vi Sample.soundPass.vc = none ∧
    inserted Sample.codes Sample.soundPass Sample.pointDangling
      = ⟨[], [], [], [Warning.invalidFeature 12 PRIM_P]⟩ ∧
    load Sample.codes true Sample.unresolvedPoints Indices.empty
      = ⟨[], [], [], [Warning.invalidFeature 12 PRIM_P]⟩ := by
  decide

end ENC

namespace ENC

/-! ## Usage flag 2 in an area -/

/-- C14 (as stated) fails: the area feature `Sample.areaInnerOfTwo` resolves
completely; before its fourth pointer row, which has usage flag 2, one ring
has been emitted and the vertices of edge 7 are being accumulated; the row
does not emit them as a ring and its edge 8 does not start a new ring, it is
appended to them, so that the polygon has two rings and not three. -/
theorem polyGeometry_usage_2_row_continues_ring :
    polyRows Sample.vc Sample.ve 100 ((Sample.fspt Sample.innerRows).data.take 3) ([], [])
      = some ([Sample.path7 ++ Sample.path8], Sample.path7) ∧
    (Sample.fspt Sample.innerRows).data.drop 3 = [Sample.innerRow4] ∧
    (cell Sample.innerRow4 2).toUInt = 2 ∧
    polyAccum Sample.vc Sample.ve 100 Sample.innerRow4
        ([Sample.path7 ++ Sample.path8], Sample.path7)
      = some ([Sample.path7 ++ Sample.path8], Sample.path7 ++ Sample.path8) ∧
    polyAccum Sample.vc Sample.ve 100 Sample.innerRow4
        ([Sample.path7 ++ Sample.path8], Sample.path7)
      ≠ some ([Sample.path7 ++ Sample.path8, Sample.path7], Sample.path8) ∧
    polyGeometry Sample.areaInnerOfTwo Sample.vc Sample.ve 100
      = [Sample.path7 ++ Sample.path8, Sample.path7 ++ Sample.path8] := by
  decide

/-- C14 (amended): in an area feature whose pointer rows `pre` before the row
`row` resolve (leaving the state `st`: rings emitted and ring being
accumulated) and whose row `row` has usage flag 2 and resolves to the vertices
`seg`: when no ring has been emitted yet the row closes the ring being
accumulated (the vertices collected so far are emitted as the first ring) and
its edge starts a new ring; when a ring has been emitted the edge is appended
to the ring being accumulated; in both cases the ring is emitted after the row
when its first vertex equals its last vertex. -/
theorem polyGeometry_usage_2_closes_first_ring (vc ve : RecordMap) (COMF : Nat)
    (pre : List (List QVariant)) (row : List QVariant) (st : PolyState) (id : Nat)
    (seg : List Coordinates)
    (hpre : polyRows vc ve COMF pre ([], []) = some st)
    (hU : (cell row 2).toUInt = 2)
    (hid : edgeName row = some id)
    (hseg : edgeVertices vc ve COMF id (cell row 1).toUInt = some seg) :
    (st.1 = [] → polyAccum vc ve COMF row st = some ([st.2], seg)) ∧
    (st.1 ≠ [] → polyAccum vc ve COMF row st = some (st.1, st.2 ++ seg)) ∧
    (∀ st2, polyAccum vc ve COMF row st = some st2 →
      polyRows vc ve COMF (pre ++ [row]) ([], [])
        = some (if firstIsLast st2.2 then (st2.1 ++ [st2.2], []) else st2)) ∧
    (∀ (r : Record) (FSPT : Field) (post : List (List QVariant)) (st2 : PolyState),
      r.field "FSPT" = some FSPT → (FSPT.row 0).length = 4 → FSPT.data = pre ++ row :: post →
      polyAccum vc ve COMF row st = some st2 →
      polyGeometry r vc ve COMF
        = ((polyRows vc ve COMF post
            (if firstIsLast st2.2 then (st2.1 ++ [st2.2], []) else st2)).map polyFlush).getD []) := by
  have hstep : ∀ st2, polyAccum vc ve COMF row st = some st2 →
      polyStep vc ve COMF row st
        = some (if firstIsLast st2.2 then (st2.1 ++ [st2.2], []) else st2) := by
    intro st2 h2
    simp only [polyStep, h2, polyClose, hU, true_and]
  refine ⟨?_, ?_, ?_, ?_⟩
  · intro h0
    simp only [polyAccum, hid, hU, hseg, h0, List.isEmpty_nil, and_self, if_true,
      List.nil_append]
  · intro h0
    have : st.1.isEmpty = false := by
      cases h1 : st.1 with
      | nil => exact absurd h1 h0
      | cons a l => rfl
    simp only [polyAccum, hid, hU, hseg, this, Bool.false_eq_true, and_false, if_false]
  · intro st2 h2
    rw [polyRows_append, hpre]
    simp only [Option.bind, polyRows, hstep st2 h2]
  · intro r FSPT post st2 hF h4 hdata h2
    unfold polyGeometry
    simp only [hF, h4, ne_eq, not_true_eq_false, if_false, hdata]
    rw [polyRows_append, hpre]
    simp only [Option.bind, polyRows, hstep st2 h2]
    cases polyRows vc ve COMF post (if firstIsLast st2.2 then (st2.1 ++ [st2.2], []) else st2) <;>
      rfl

end ENC

namespace ENC

theorem polyGeometry_usage_2_closes_first_ring_witness :
    polyAccum Sample.vc Sample.ve 100
        [Sample.name 130 7, QVariant.uint 1, QVariant.uint 2, QVariant.uint 255]
        ([], Sample.path7 ++ Sample.path8)
      = some ([Sample.path7 ++ Sample.path8], Sample.path7) :=
  (polyGeometry_usage_2_closes_first_ring Sample.vc Sample.ve 100
    ((Sample.fspt Sample.innerRows).data.take 2)
    [Sample.name 130 7, QVariant.uint 1, QVariant.uint 2, QVariant.uint 255]
    ([], Sample.path7 ++ Sample.path8) 7 Sample.path7
    (by decide) (by decide) (by decide) (by decide)).1 rfl

end ENC

namespace ENC

/-! ## Orientation flag 2 in a line -/

end ENC

namespace ENC

end ENC

namespace ENC

/-! ## The full pass partitions the records -/

theorem find_insert_self (m : RecordMap) (i : Nat) (r : Record) :
    (m.insert i r).find i = some r := by
  simp [RecordMap.insert, RecordMap.find, List.lookup]

theorem find_insert_ne (m : RecordMap) {i j : Nat} (r : Record) (h : j ≠ i) :
    (m.insert i r).find j = m.find j := by
  have : (j == i) = false := by simpa using h
  simp [RecordMap.insert, RecordMap.find, List.lookup, this]

/-- C16: the full-pass `processRecord` on a record whose second field `f` is
`VRID` with record class 110, 120, 130 or 140 and id `i` (subfields 0 and 1 of
its first row) returns true and stores the record under key `i` in the map of
that class and in no other (isolated nodes, connected nodes, edges, faces): a
lookup of `i` then finds this record, whatever was stored under `i` before, the
other keys are untouched, and the other three maps, the feature list, COMF and
SOMF are unchanged; on a record whose second field is `FRID` it returns true
and appends the record to the end of the feature list, changing nothing else;
on a `VRID` record of any other record class it returns false with all outputs
unchanged. -/
theorem processRecord_partitions (s : FullPass) (r0 f : Field) (rest : List Field) :
    (f.tag = "VRID" → 2 ≤ (f.row 0).length →
      ((cell (f.row 0) 0).toInt = 110 →
        processRecordFull (r0 :: f :: rest) s
          = (true, ⟨s.fe, s.vi.insert (cell (f.row 0) 1).toUInt (r0 :: f :: rest), s.vc, s.ve,
              s.vf, s.COMF, s.SOMF⟩)) ∧
      ((cell (f.row 0) 0).toInt = 120 →
        processRecordFull (r0 :: f :: rest) s
          = (true, ⟨s.fe, s.vi, s.vc.insert (cell (f.row 0) 1).toUInt (r0 :: f :: rest), s.ve,
              s.vf, s.COMF, s.SOMF⟩)) ∧
      ((cell (f.row 0) 0).toInt = 130 →
        processRecordFull (r0 :: f :: rest) s
          = (true, ⟨s.fe, s.vi, s.vc, s.ve.insert (cell (f.row 0) 1).toUInt (r0 :: f :: rest),
              s.vf, s.COMF, s.SOMF⟩)) ∧
      ((cell (f.row 0) 0).toInt = 140 →
        processRecordFull (r0 :: f :: rest) s
          = (true, ⟨s.fe, s.vi, s.vc, s.ve,
              s.vf.insert (cell (f.row 0) 1).toUInt (r0 :: f :: rest), s.COMF, s.SOMF⟩))) ∧
    (∀ (m : RecordMap) (i : Nat) (r : Record),
      (m.insert i r).find i = some r ∧ ∀ j, j ≠ i → (m.insert i r).find j = m.find j) ∧
    (f.tag = "FRID" →
      processRecordFull (r0 :: f :: rest) s
        = (true, ⟨s.fe ++ [r0 :: f :: rest], s.vi, s.vc, s.ve, s.vf, s.COMF, s.SOMF⟩)) ∧
    (f.tag = "VRID" → (cell (f.row 0) 0).toInt ≠ 110 → (cell (f.row 0) 0).toInt ≠ 120 →
      (cell (f.row 0) 0).toInt ≠ 130 → (cell (f.row 0) 0).toInt ≠ 140 →
      processRecordFull (r0 :: f :: rest) s = (false, s)) := by
  refine ⟨?_, ?_, ?_, ?_⟩
  · intro hV h2
    have h2n : ¬ (f.row 0).length < 2 := Nat.not_lt.2 h2
    refine ⟨?_, ?_, ?_, ?_⟩
    · intro h
      simp [processRecordFull, hV, h2n, h, RCNM_VI]
    · intro h
      simp [processRecordFull, hV, h2n, h, RCNM_VI, RCNM_VC]
    · intro h
      simp [processRecordFull, hV, h2n, h, RCNM_VI, RCNM_VC, RCNM_VE]
    · intro h
      simp [processRecordFull, hV, h2n, h, RCNM_VI, RCNM_VC, RCNM_VE, RCNM_VF]
  · intro m i r
    exact ⟨find_insert_self m i r, fun j hj => find_insert_ne m r hj⟩
  · intro hF
    simp [processRecordFull, hF]
  · intro hV h1 h2 h3 h4
    simp only [processRecordFull, hV, if_true]
    split
    · rfl
    · simp [RCNM_VI, RCNM_VC, RCNM_VE, RCNM_VF, h1, h2, h3, h4]

end ENC

namespace ENC

theorem processRecord_partitions_witness :
    processRecordFull (Sample.vector 120 1 [Sample.sg2d [(21, 11)]]) Sample.pass
      = (true, ⟨Sample.pass.fe, Sample.pass.vi,
          Sample.pass.vc.insert
            (cell (Field.row ⟨"VRID", ["RCNM", "RCID", "RVER", "RUIN"],
              [[QVariant.uint 120, QVariant.uint 1, QVariant.uint 1, QVariant.uint 1]]⟩ 0)
              1).toUInt
            (Sample.vector 120 1 [Sample.sg2d [(21, 11)]]),
          Sample.pass.ve, Sample.pass.vf, Sample.pass.COMF, Sample.pass.SOMF⟩) :=
  ((processRecord_partitions Sample.pass ⟨"0001", [], [[QVariant.uint 1]]⟩
    ⟨"VRID", ["RCNM", "RCID", "RVER", "RUIN"],
      [[QVariant.uint 120, QVariant.uint 1, QVariant.uint 1, QVariant.uint 1]]⟩
    [Sample.sg2d [(21, 11)]]).1 (by decide) (by decide)).2.1 (by decide)

end ENC

namespace ENC

/-! ## Draw priorities -/

theorem and_high16 (x : Nat) (h : x < 2 ^ 32) : x &&& 4294901760 = (x >>> 16) <<< 16 := by
  apply Nat.eq_of_testBit_eq
  intro i
  have hm : (4294901760 : Nat) = (2 ^ 16 - 1) <<< 16 := by decide
  rw [Nat.testBit_and, hm, Nat.testBit_shiftLeft, Nat.testBit_shiftLeft, Nat.testBit_shiftRight,
    Nat.testBit_two_pow_sub_one]
  by_cases h16 : 16 ≤ i
  · have e : 16 + (i - 16) = i := by omega
    rw [e]
    by_cases h32 : i < 32
    · have : i - 16 < 16 := by omega
      simp [h16, this]
    · have hx : x.testBit i = false := by
        apply Nat.testBit_eq_false_of_lt
        calc x < 2 ^ 32 := h
          _ ≤ 2 ^ i := Nat.pow_le_pow_right (by decide) (by omega)
      simp [hx]
  · simp [h16]

theorem or_low32 (a b : Nat) (hb : b < 2 ^ 32) : (a <<< 32) ||| b = a * 2 ^ 32 + b := by
  rw [Nat.shiftLeft_eq, Nat.mul_comm, Nat.mul_add_lt_is_or hb]

theorem lookup_mem {key v : Nat} {m : List (Nat × Nat)} (h : List.lookup key m = some v) :
    (key, v) ∈ m := by
  induction m with
  | nil => simp at h
  | cons a rest ih =>
    obtain ⟨a1, a2⟩ := a
    by_cases hk : key = a1
    · subst hk
      simp only [List.lookup_cons, beq_self_eq_true, Option.some.injEq] at h
      subst h
      exact List.mem_cons_self _ _
    · have : (key == a1) = false := by simpa using hk
      simp only [List.lookup_cons, this] at h
      exact List.mem_cons_of_mem _ (ih h)

theorem foldl_insert (l : List (Nat × Nat)) (acc : OrderMap) :
    l.foldl (fun m kv => m.insert kv.1 kv.2) acc = l.reverse ++ acc := by
  induction l generalizing acc with
  | nil => rfl
  | cons a rest ih =>
    rw [List.foldl_cons, ih, List.reverse_cons, List.append_assoc]
    rfl

/-- What `order` finds in the map is one of the inserted bindings. -/
theorem find_orderMap {k : Codes} {o : OrderCodes} {key v : Nat}
    (h : (orderMap k o).find key = some v) : (key, v) ∈ orderInserts k o := by
  unfold orderMap orderMapInit OrderMap.find at h
  rw [foldl_insert, List.append_nil] at h
  exact List.mem_reverse.1 (lookup_mem h)

/-- The values of the table: 0 to 44 for the ordinary classes and the two
sentinel values for `I_DISMAR` and `SOUNDG`. -/
theorem orderInserts_values (k : Codes) (o : OrderCodes) :
    ∀ kv ∈ orderInserts k o,
      kv.2 ≤ 44 ∨ kv = (TYPE k.I_DISMAR, 4294967294) ∨ kv = (TYPE k.SOUNDG, 4294967295) := by
  simp [orderInserts]

/-- The key `order` looks up has the object class of the type. -/
theorem class_of_key (k : Codes) (type : Nat) (ht : type < 2 ^ 32) :
    (if type >>> 16 = k.BUAARE then type else type &&& 4294901760) >>> 16 = type >>> 16 := by
  split
  · rfl
  · rw [and_high16 type ht, Nat.shiftLeft_eq, Nat.shiftRight_eq_div_pow,
      Nat.shiftRight_eq_div_pow]
    omega

theorem order_lt (k : Codes) (o : OrderCodes) (type : Nat) : order k o type < 2 ^ 32 := by
  unfold order
  simp only
  cases hf : (orderMap k o).find
      (if type >>> 16 = k.BUAARE then type else type &&& 4294901760) with
  | none => exact Nat.mod_lt _ (by decide)
  | some v =>
    simp only
    rcases orderInserts_values k o _ (find_orderMap hf) with h | h | h
    · simp only at h
      omega
    · simp only [Prod.mk.injEq] at h
      omega
    · simp only [Prod.mk.injEq] at h
      omega

end ENC

namespace ENC

/-! ## The sort key of a point -/

theorem point_id_eq (k : Codes) (o : OrderCodes) (qHash : Dbl × Dbl → Nat) (type : Nat)
    (c : Coordinates) :
    Point.id k o qHash type c = order k o type * 2 ^ 32 + qHash (c.lon, c.lat) % 2 ^ 32 := by
  have ho := order_lt k o type
  have hh : qHash (c.lon, c.lat) % 2 ^ 32 < 2 ^ 32 := Nat.mod_lt _ (by decide)
  unfold Point.id
  simp only
  have e : (order k o type <<< 32) % 2 ^ 64 = order k o type <<< 32 := by
    rw [Nat.shiftLeft_eq]
    apply Nat.mod_eq_of_lt
    have : (2 : Nat) ^ 64 = 2 ^ 32 * 2 ^ 32 := by norm_num
    rw [this]
    exact Nat.mul_lt_mul_of_lt_of_le ho (Nat.le_refl _) (by decide)
  rw [e, or_low32 _ _ hh]

/-- C17: for every Point built from type `t` at position `c`, the 64-bit id
has its high 32 bits equal to `order(t)` and its low 32 bits equal to the
32-bit hash of (lon, lat); so for any two Points `order(t1) < order(t2)` gives
`id1 < id2` whatever the positions, and two Points with the same type and the
same position have the same id. -/
theorem point_id_layout (k : Codes) (o : OrderCodes) (qHash : Dbl × Dbl → Nat) :
    (∀ (t : Nat) (c : Coordinates),
      Point.id k o qHash t c < 2 ^ 64 ∧
      Point.id k o qHash t c >>> 32 = order k o t ∧
      Point.id k o qHash t c % 2 ^ 32 = qHash (c.lon, c.lat) % 2 ^ 32) ∧
    (∀ (t1 t2 : Nat) (c1 c2 : Coordinates), order k o t1 < order k o t2 →
      Point.id k o qHash t1 c1 < Point.id k o qHash t2 c2) ∧
    (∀ (t1 t2 : Nat) (c1 c2 : Coordinates), t1 = t2 → c1 = c2 →
      Point.id k o qHash t1 c1 = Point.id k o qHash t2 c2) := by
  refine ⟨?_, ?_, ?_⟩
  · intro t c
    have ho := order_lt k o t
    have hh : qHash (c.lon, c.lat) % 2 ^ 32 < 2 ^ 32 := Nat.mod_lt _ (by decide)
    rw [point_id_eq, Nat.shiftRight_eq_div_pow]
    norm_num at ho hh ⊢
    omega
  · intro t1 t2 c1 c2 h
    have h1 : qHash (c1.lon, c1.lat) % 2 ^ 32 < 2 ^ 32 := Nat.mod_lt _ (by decide)
    rw [point_id_eq, point_id_eq]
    norm_num at h1 ⊢
    omega
  · intro t1 t2 c1 c2 ht hc
    rw [ht, hc]

theorem point_id_layout_witness :
    Point.id Sample.codes Sample.orderCodes Sample.hash (TYPE 75)
        ⟨Dbl.quot 10 100, Dbl.quot 20 100⟩
      < Point.id Sample.codes Sample.orderCodes Sample.hash (TYPE 74)
        ⟨Dbl.quot 1 100, Dbl.quot 2 100⟩ :=
  (point_id_layout Sample.codes Sample.orderCodes Sample.hash).2.1 (TYPE 75) (TYPE 74)
    ⟨Dbl.quot 10 100, Dbl.quot 20 100⟩ ⟨Dbl.quot 1 100, Dbl.quot 2 100⟩ (by decide)

end ENC

namespace ENC

/-- C18: for every 32-bit type whose object class `c` (the high 16 bits) has no
entry in the priority table, `order(type) = c + 512`; the value lies in
[512, 66047], above the priorities 0..44 of the mapped non-sentinel classes and
below both sentinel priorities 0xFFFFFFFE and 0xFFFFFFFF, which are the only
other values of the table. -/
theorem order_of_unmapped_class (k : Codes) (o : OrderCodes) (type : Nat)
    (ht : type < 2 ^ 32)
    (hno : ∀ kv ∈ orderInserts k o, kv.1 >>> 16 ≠ type >>> 16) :
    order k o type = (type >>> 16) + 512 ∧
    512 ≤ order k o type ∧ order k o type ≤ 66047 ∧
    (∀ kv ∈ orderInserts k o, kv.2 ≤ 44 ∨ kv.2 = 4294967294 ∨ kv.2 = 4294967295) ∧
    (∀ kv ∈ orderInserts k o, kv.2 ≤ 44 → kv.2 < order k o type) ∧
    order k o type < 4294967294 ∧ order k o type < 4294967295 := by
  have hc : type >>> 16 ≤ 65535 := by
    rw [Nat.shiftRight_eq_div_pow]
    norm_num at ht ⊢
    omega
  have hord : order k o type = (type >>> 16) + 512 := by
    unfold order
    simp only
    cases hf : (orderMap k o).find
        (if type >>> 16 = k.BUAARE then type else type &&& 4294901760) with
    | none =>
      simp only
      apply Nat.mod_eq_of_lt
      norm_num
      omega
    | some v =>
      exfalso
      have := hno _ (find_orderMap hf)
      simp only at this
      exact this (class_of_key k type ht)
  rw [hord]
  refine ⟨rfl, by omega, by omega, ?_, ?_, by omega, by omega⟩
  · intro kv hkv
    rcases orderInserts_values k o kv hkv with h | h | h
    · exact Or.inl h
    · rw [h]
      exact Or.inr (Or.inl rfl)
    · rw [h]
      exact Or.inr (Or.inr rfl)
  · intro kv _ h44
    omega

theorem order_of_unmapped_class_witness :
    order Sample.codes Sample.orderCodes (SUBTYPE 200 3) = (SUBTYPE 200 3 >>> 16) + 512 ∧
    512 ≤ order Sample.codes Sample.orderCodes (SUBTYPE 200 3) ∧
    order Sample.codes Sample.orderCodes (SUBTYPE 200 3) ≤ 66047 :=
  have h := order_of_unmapped_class Sample.codes Sample.orderCodes (SUBTYPE 200 3) (by decide)
    (by decide)
  ⟨h.1, h.2.1, h.2.2.1⟩

end ENC

namespace ENC

/-! ## The two sentinel classes -/

theorem TYPE_eq {c : Nat} (h : c < 65536) : TYPE c = c * 65536 := by
  unfold TYPE
  rw [Nat.shiftLeft_eq]
  norm_num
  omega

/-- The key `order` looks up for a type of a class other than `BUAARE`. -/
theorem key_of_class (k : Codes) {type c : Nat} (ht : type < 2 ^ 32) (hc : type >>> 16 = c)
    (h16 : c < 65536) (hB : c ≠ k.BUAARE) :
    (if type >>> 16 = k.BUAARE then type else type &&& 4294901760) = TYPE c := by
  rw [if_neg (by rw [hc]; exact hB), and_high16 type ht, hc, TYPE_eq h16, Nat.shiftLeft_eq]

/-- C19 (as stated) fails: with the sample codes, `I_DISMAR` has priority
0xFFFFFFFE and `SOUNDG` priority 0xFFFFFFFF, while the type `TYPE(LIGHTS)` of
another class has priority 0; so neither of the two sentinel classes has a
priority strictly lower than that of every type of any other class: none sorts
first. -/
theorem no_sentinel_sorts_first :
    order Sample.codes Sample.orderCodes (TYPE Sample.codes.I_DISMAR) = 4294967294 ∧
    order Sample.codes Sample.orderCodes (TYPE Sample.codes.SOUNDG) = 4294967295 ∧
    order Sample.codes Sample.orderCodes (TYPE Sample.orderCodes.LIGHTS) = 0 ∧
    ¬ ((∀ t, t < 2 ^ 32 → t >>> 16 ≠ Sample.codes.I_DISMAR →
          order Sample.codes Sample.orderCodes (TYPE Sample.codes.I_DISMAR)
            < order Sample.codes Sample.orderCodes t) ∨
       (∀ t, t < 2 ^ 32 → t >>> 16 ≠ Sample.codes.SOUNDG →
          order Sample.codes Sample.orderCodes (TYPE Sample.codes.SOUNDG)
            < order Sample.codes Sample.orderCodes t)) := by
  refine ⟨by decide, by decide, by decide, ?_⟩
  rintro (h | h)
  · exact absurd (h (TYPE Sample.orderCodes.LIGHTS) (by decide) (by decide)) (by decide)
  · exact absurd (h (TYPE Sample.orderCodes.LIGHTS) (by decide) (by decide)) (by decide)

/-- C19 (amended): both sentinel classes of the priority table sort last: every
type of class `I_DISMAR` has priority 0xFFFFFFFE and every type of class
`SOUNDG` priority 0xFFFFFFFF, each strictly higher than the priority `order(t)`
of every type `t` of any other class, which is at most 66047. (The classes are
16-bit codes; `I_DISMAR`, `SOUNDG` and `BUAARE` are three different ones.) -/
theorem sentinels_sort_last (k : Codes) (o : OrderCodes)
    (hI : k.I_DISMAR < 65536) (hS : k.SOUNDG < 65536) (hIS : k.I_DISMAR ≠ k.SOUNDG)
    (hIB : k.I_DISMAR ≠ k.BUAARE) (hSB : k.SOUNDG ≠ k.BUAARE) :
    (∀ t, t < 2 ^ 32 → t >>> 16 = k.I_DISMAR → order k o t = 4294967294) ∧
    (∀ t, t < 2 ^ 32 → t >>> 16 = k.SOUNDG → order k o t = 4294967295) ∧
    (∀ t, t < 2 ^ 32 → t >>> 16 ≠ k.I_DISMAR → t >>> 16 ≠ k.SOUNDG →
      order k o t ≤ 66047 ∧ order k o t < 4294967294 ∧ order k o t < 4294967295) := by
  have hne : TYPE k.SOUNDG ≠ TYPE k.I_DISMAR := by
    rw [TYPE_eq hI, TYPE_eq hS]
    omega
  have hb : (TYPE k.I_DISMAR == TYPE k.SOUNDG) = false := by
    simpa using Ne.symm hne
  refine ⟨?_, ?_, ?_⟩
  · intro t ht hc
    unfold order
    simp only
    rw [key_of_class k ht hc hI hIB]
    simp [orderMap, orderMapInit, orderInserts, OrderMap.insert, OrderMap.find, List.lookup, hb]
  · intro t ht hc
    unfold order
    simp only
    rw [key_of_class k ht hc hS hSB]
    simp [orderMap, orderMapInit, orderInserts, OrderMap.insert, OrderMap.find, List.lookup]
  · intro t ht h1 h2
    have hcls : t >>> 16 ≤ 65535 := by
      rw [Nat.shiftRight_eq_div_pow]
      norm_num at ht ⊢
      omega
    have hle : order k o t ≤ 66047 := by
      unfold order
      simp only
      cases hf : (orderMap k o).find
          (if t >>> 16 = k.BUAARE then t else t &&& 4294901760) with
      | none =>
        simp only
        exact Nat.le_trans (Nat.mod_le _ _) (by omega)
      | some v =>
        simp only
        have hkey := class_of_key k t ht
        rcases orderInserts_values k o _ (find_orderMap hf) with h | h | h
        · simp only at h
          omega
        · exfalso
          simp only [Prod.mk.injEq] at h
          rw [h.1, class_of_TYPE hI] at hkey
          exact h1 hkey.symm
        · exfalso
          simp only [Prod.mk.injEq] at h
          rw [h.1, class_of_TYPE hS] at hkey
          exact h2 hkey.symm
    exact ⟨hle, by omega, by omega⟩

theorem sentinels_sort_last_witness :
    (∀ t, t < 2 ^ 32 → t >>> 16 = Sample.codes.I_DISMAR →
      order Sample.codes Sample.orderCodes t = 4294967294) ∧
    (∀ t, t < 2 ^ 32 → t >>> 16 = Sample.codes.SOUNDG →
      order Sample.codes Sample.orderCodes t = 4294967295) ∧
    (∀ t, t < 2 ^ 32 → t >>> 16 ≠ Sample.codes.I_DISMAR → t >>> 16 ≠ Sample.codes.SOUNDG →
      order Sample.codes Sample.orderCodes t ≤ 66047 ∧
      order Sample.codes Sample.orderCodes t < 4294967294 ∧
      order Sample.codes Sample.orderCodes t < 4294967295) :=
  sentinels_sort_last Sample.codes Sample.orderCodes (by decide) (by decide) (by decide)
    (by decide) (by decide)

end ENC

namespace ENC

/-! ## Attribute rows with unmapped codes -/

/-- A row whose attribute code is unmapped leaves the accumulated attributes
as they are. -/
theorem pointAttrRow_unmapped (k : Codes) (OBJL : Nat) (a : Attr) (av : List QVariant)
    (h : pointAttrMapped k OBJL (cell av 0).toUInt = false) : pointAttrRow k OBJL a av = a := by
  simp only [pointAttrMapped, decide_eq_false_iff_not, not_or] at h
  obtain ⟨h0, h1, h2, h3, h4, h5, h6, h7, h8, h9, h10, h11, h12, h13, h14, h15, h16, h17, h18,
    h19, h20, h21, h22⟩ := h
  unfold pointAttrRow
  simp only [h0, h1, h2, h3, h4, h5, h6, h7, h8, h9, h10, h11, h12, h13, h14, h15, h16, h17,
    h18, h19, h20, h21, h22, or_self, if_false]

theorem foldl_pointAttrRow_filter (k : Codes) (OBJL : Nat) (rows : List (List QVariant))
    (a : Attr) :
    rows.foldl (pointAttrRow k OBJL) a
      = (rows.filter (fun row => pointAttrMapped k OBJL (cell row 0).toUInt)).foldl
          (pointAttrRow k OBJL) a := by
  induction rows generalizing a with
  | nil => rfl
  | cons row rest ih =>
    cases hm : pointAttrMapped k OBJL (cell row 0).toUInt with
    | false =>
      rw [List.foldl_cons, pointAttrRow_unmapped k OBJL a row hm, List.filter_cons_of_neg
        (by simp [hm]), ih]
    | true =>
      rw [List.foldl_cons, List.filter_cons_of_pos (by simp [hm]), List.foldl_cons, ih]

theorem filter_eq_of_sublists {α : Type} (p : α → Bool) {l l' : List α} (hsub : l'.Sublist l)
    (hkeep : (l.filter p).Sublist l') : l'.filter p = l.filter p := by
  have h1 : (l'.filter p).Sublist (l.filter p) := hsub.filter p
  have h2 : (l.filter p).Sublist (l'.filter p) := by
    have := hkeep.filter p
    rwa [List.filter_filter, show (fun a => p a && p a) = p from by funext a; simp] at this
  exact h1.antisymm h2

theorem row_zero_length (ATTF : Field) (h2 : ∀ row ∈ ATTF.data, row.length = 2)
    (hne : ATTF.data ≠ []) : (ATTF.row 0).length = 2 := by
  cases hd : ATTF.data with
  | nil => exact absurd hd hne
  | cons row rest =>
    have : ATTF.row 0 = row := by simp [Field.row, hd]
    rw [this]
    exact h2 row (by rw [hd]; exact List.mem_cons_self _ _)

/-- C20: for every object class `OBJL` and every feature record whose `ATTF`
rows all have two subfields, `pointAttr` returns the same attributes for the
record and for every record obtained from it by deleting `ATTF` rows whose
attribute code is neither `OBJNAM` nor one of the codes read for `OBJL`, as long
as a row is left (`rows2` is a sublist of the rows that holds every mapped
row); when all attribute codes are unmapped the result is subtype 0, an empty
label and two empty parameters. -/
theorem pointAttr_ignores_unmapped (k : Codes) (OBJL : Nat) (r r2 : Record) (ATTF : Field)
    (rows2 : List (List QVariant))
    (hF : r.field "ATTF" = some ATTF)
    (hF2 : r2.field "ATTF" = some ⟨ATTF.tag, ATTF.names, rows2⟩)
    (h2 : ∀ row ∈ ATTF.data, row.length = 2)
    (hsub : rows2.Sublist ATTF.data)
    (hkeep : (ATTF.data.filter
      (fun row => pointAttrMapped k OBJL (cell row 0).toUInt)).Sublist rows2)
    (hne : rows2 ≠ []) :
    pointAttr k r2 OBJL = pointAttr k r OBJL ∧
    ((∀ row ∈ ATTF.data, pointAttrMapped k OBJL (cell row 0).toUInt = false) →
      pointAttr k r OBJL = ⟨0, [], [[], []]⟩) := by
  have hne1 : ATTF.data ≠ [] := by
    intro h0
    rw [h0] at hsub
    exact hne (List.sublist_nil.1 hsub)
  have hr : pointAttr k r OBJL
      = (ATTF.data.filter (fun row => pointAttrMapped k OBJL (cell row 0).toUInt)).foldl
          (pointAttrRow k OBJL) ⟨0, [], [[], []]⟩ := by
    unfold pointAttr
    simp only [hF, row_zero_length ATTF h2 hne1, ne_eq, not_true_eq_false, if_false]
    exact foldl_pointAttrRow_filter k OBJL _ _
  have hr2 : pointAttr k r2 OBJL
      = (rows2.filter (fun row => pointAttrMapped k OBJL (cell row 0).toUInt)).foldl
          (pointAttrRow k OBJL) ⟨0, [], [[], []]⟩ := by
    unfold pointAttr
    have hlen := row_zero_length ⟨ATTF.tag, ATTF.names, rows2⟩
      (fun row hrow => h2 row (hsub.subset hrow)) hne
    simp only [hF2, hlen, ne_eq, not_true_eq_false, if_false]
    exact foldl_pointAttrRow_filter k OBJL _ _
  refine ⟨?_, ?_⟩
  · rw [hr, hr2, filter_eq_of_sublists _ hsub hkeep]
  · intro hall
    rw [hr]
    have : ATTF.data.filter (fun row => pointAttrMapped k OBJL (cell row 0).toUInt) = [] := by
      apply List.filter_eq_nil_iff.2
      intro row hrow
      simp [hall row hrow]
    rw [this]
    rfl

theorem pointAttr_ignores_unmapped_witness :
    pointAttr Sample.codes Sample.landmarkPruned 74 = pointAttr Sample.codes Sample.landmark 74 :=
  (pointAttr_ignores_unmapped Sample.codes 74 Sample.landmark Sample.landmarkPruned
    (Sample.attf [(200, [49]), (35, [49, 55]), (201, [50]), (116, [65, 66])])
    (Sample.attf [(35, [49, 55]), (116, [65, 66])]).data
    (by decide) (by decide) (by decide) (by decide) (by decide) (by decide)).1

end ENC

namespace ENC

/-! ## Loading twice -/

theorem readRecords_fst (records : List Record) (s : FullPass) (w w2 : List Warning) :
    (readRecords records (s, w)).1 = (readRecords records (s, w2)).1 := by
  induction records generalizing s w w2 with
  | nil => rfl
  | cons r rest ih =>
    simp only [readRecords]
    exact ih _ _ _

/-- What `load` leaves in the indices is what they held before followed by
what `load` puts into empty indices. -/
theorem load_append (k : Codes) (records : List Record) (idx : Indices) :
    (load k true records idx).points
      = idx.points ++ (load k true records Indices.empty).points ∧
    (load k true records idx).lines
      = idx.lines ++ (load k true records Indices.empty).lines ∧
    (load k true records idx).areas
      = idx.areas ++ (load k true records Indices.empty).areas := by
  have h := readRecords_fst records FullPass.init idx.warnings Indices.empty.warnings
  simp only [load, if_true]
  rw [loadFeatures_append, loadFeatures_append k _ _ { Indices.empty with warnings := _ }, h]
  simp [Indices.empty]

/-- C21 (as stated) fails: on the record stream `Sample.pointStream`, `load`
leaves one Point in the point index, and `load` run a second time right after
leaves two: the second load adds the object again. -/
theorem load_twice_doubles :
    (load Sample.codes true Sample.pointStream Indices.empty).points.length = 1 ∧
    (load Sample.codes true Sample.pointStream
      (load Sample.codes true Sample.pointStream Indices.empty)).points.length = 2 ∧
    ¬ (load Sample.codes true Sample.pointStream
        (load Sample.codes true Sample.pointStream Indices.empty)).sameObjects
      (load Sample.codes true Sample.pointStream Indices.empty) := by
  refine ⟨by decide, by decide, ?_⟩
  intro h
  have := congrArg List.length h.1
  revert this
  decide

/-- C21 (amended): for every dataset, the contents of the point, line and
polygon indices after `load`, `clear` and `load` again are the same as after
`load` run once on empty indices: `load` after `clear` rebuilds from scratch.
`load` does not empty the indices itself: run twice in a row it leaves what the
first run inserted followed by the same objects once more. -/
theorem load_after_clear_rebuilds (k : Codes) (ddrOk : Bool) (records : List Record)
    (idx : Indices) :
    (load k ddrOk records (clear idx)).sameObjects (load k ddrOk records Indices.empty) ∧
    (load k ddrOk records (clear (load k ddrOk records idx))).sameObjects
      (load k ddrOk records Indices.empty) ∧
    (load k true records (load k true records idx)).points
      = (load k true records idx).points ++ (load k true records Indices.empty).points ∧
    (load k true records (load k true records idx)).lines
      = (load k true records idx).lines ++ (load k true records Indices.empty).lines ∧
    (load k true records (load k true records idx)).areas
      = (load k true records idx).areas ++ (load k true records Indices.empty).areas := by
  have hc : ∀ i : Indices,
      (load k ddrOk records (clear i)).sameObjects (load k ddrOk records Indices.empty) := by
    intro i
    cases ddrOk with
    | false => exact ⟨rfl, rfl, rfl⟩
    | true =>
      obtain ⟨h1, h2, h3⟩ := load_append k records (clear i)
      exact ⟨by rw [h1]; rfl, by rw [h2]; rfl, by rw [h3]; rfl⟩
  obtain ⟨h1, h2, h3⟩ := load_append k records (load k true records idx)
  exact ⟨hc idx, hc _, h1, h2, h3⟩

end ENC

namespace ENC

/-! ## The structural minimum of a record -/

theorem processRecordValidate_short (record : Record) (h : record.length < 2)
    (s : ValidatePass) : processRecordValidate record s = (false, s) := by
  match record, h with
  | [], _ => rfl
  | [_], _ => rfl
  | _ :: _ :: _, h => exact absurd h (by simp)

theorem validateRecords_short (record : Record) (h : record.length < 2)
    (pre post : List Record) (s : ValidatePass) :
    (validateRecords (pre ++ record :: post) s).1 = false ∧
    validateRecords (pre ++ record :: post) s = validateRecords (pre ++ [record]) s := by
  induction pre generalizing s with
  | nil =>
    simp [validateRecords, processRecordValidate_short record h]
  | cons r rest ih =>
    simp only [List.cons_append, validateRecords]
    split
    · exact ih _
    · rename_i hr
      exact ⟨rfl, rfl⟩

/-- C22: a record with fewer than 2 fields is rejected: both overloads of
`processRecord` return false on it and leave their output arguments as they
were; in the validate pass the constructor then stops reading (the records
after it play no part), records the error "Invalid S-57 record" and leaves the
bounds unset. -/
theorem short_record_rejected (record : Record) (h : record.length < 2) :
    (∀ s : ValidatePass, processRecordValidate record s = (false, s)) ∧
    (∀ s : FullPass, processRecordFull record s = (false, s)) ∧
    (∀ (pre post : List Record) (s : ValidatePass),
      (validateRecords (pre ++ record :: post) s).1 = false ∧
      validateRecords (pre ++ record :: post) s = validateRecords (pre ++ [record]) s) ∧
    (∀ (c : Container) (pre post : List Record), c.ddrError = none →
      c.records = pre ++ record :: post →
      (MapData.new c).errorString = "Invalid S-57 record" ∧
      (MapData.new c).bounds = RectC.null ∧ (MapData.new c).bounds.isValid = false) := by
  refine ⟨processRecordValidate_short record h, ?_, validateRecords_short record h, ?_⟩
  · intro s
    match record, h with
    | [], _ => rfl
    | [_], _ => rfl
    | _ :: _ :: _, h => exact absurd h (by simp)
  · intro c pre post hd hr
    have hv := (validateRecords_short record h pre post ⟨[], 1, []⟩).1
    unfold MapData.new
    simp only [hd, hr, hv, Bool.not_false, if_true]
    exact ⟨trivial, trivial, by decide⟩

theorem short_record_rejected_witness :
    (MapData.new ⟨none, [Sample.dspm 100 10] ++ [⟨"0001", [], [[QVariant.uint 3]]⟩]
        :: Sample.vectors, none⟩).errorString = "Invalid S-57 record" ∧
    (MapData.new ⟨none, [Sample.dspm 100 10] ++ [⟨"0001", [], [[QVariant.uint 3]]⟩]
        :: Sample.vectors, none⟩).bounds = RectC.null ∧
    (MapData.new ⟨none, [Sample.dspm 100 10] ++ [⟨"0001", [], [[QVariant.uint 3]]⟩]
        :: Sample.vectors, none⟩).bounds.isValid = false :=
  (short_record_rejected [⟨"0001", [], [[QVariant.uint 3]]⟩] (by decide)).2.2.2
    ⟨none, [Sample.dspm 100 10] ++ [⟨"0001", [], [[QVariant.uint 3]]⟩] :: Sample.vectors, none⟩
    [Sample.dspm 100 10] Sample.vectors rfl rfl

end ENC

namespace ENC

/-! ## Coordinate round trip -/

theorem trunc_near (x : Int) (r : ℚ) (h : |r - (x : ℚ)| < 1) : |truncQ r - x| ≤ 1 := by
  rw [abs_lt] at h
  obtain ⟨h1, h2⟩ := h
  unfold truncQ
  rw [abs_le]
  split
  · have f1 := Int.floor_le r
    have f2 := Int.lt_floor_add_one r
    constructor
    · have : ((x : ℚ)) - 2 < (⌊r⌋ : ℚ) := by linarith
      have : (x : ℤ) - 2 < ⌊r⌋ := by exact_mod_cast this
      omega
    · have : (⌊r⌋ : ℚ) < (x : ℚ) + 1 := by linarith
      have : ⌊r⌋ < (x : ℤ) + 1 := by exact_mod_cast this
      omega
  · have f1 := Int.le_ceil r
    have f2 := Int.ceil_lt_add_one r
    constructor
    · have : ((x : ℚ)) - 1 < (⌈r⌉ : ℚ) := by linarith
      have : (x : ℤ) - 1 < ⌈r⌉ := by exact_mod_cast this
      omega
    · have : (⌈r⌉ : ℚ) < (x : ℚ) + 2 := by linarith
      have : ⌈r⌉ < (x : ℤ) + 2 := by exact_mod_cast this
      omega

/-- Dividing a 32-bit integer by a non-zero multiplier and multiplying back,
each operation rounded as a double, lands within 1 of the integer after
truncation. -/
theorem rounded_round_trip (x : Int) (C : Nat) (q r : ℚ) (hC : C ≠ 0) (hx : |x| ≤ 2 ^ 31)
    (hq : Rounds ((x : ℚ) / (C : ℚ)) q) (hr : Rounds (q * (C : ℚ)) r) :
    |truncQ r - x| ≤ 1 := by
  apply trunc_near
  unfold Rounds at hq hr
  have hCpos : (0 : ℚ) < (C : ℚ) := by exact_mod_cast Nat.pos_of_ne_zero hC
  have hxq : |(x : ℚ)| ≤ 2 ^ 31 := by exact_mod_cast hx
  have e1 : q * C - x = (q - x / C) * C := by field_simp
  have h1 : |q * (C : ℚ) - x| ≤ |(x : ℚ)| / 2 ^ 53 := by
    rw [e1, abs_mul, abs_of_pos hCpos]
    have : |(x : ℚ) / C| * C = |(x : ℚ)| := by
      rw [abs_div, abs_of_pos hCpos]
      field_simp
    calc |q - x / C| * C ≤ (|(x : ℚ) / C| / 2 ^ 53) * C := by
          exact mul_le_mul_of_nonneg_right hq (le_of_lt hCpos)
      _ = |(x : ℚ)| / 2 ^ 53 := by rw [div_mul_eq_mul_div, this]
  have h2 : |q * (C : ℚ)| ≤ |(x : ℚ)| + |(x : ℚ)| / 2 ^ 53 := by
    have := abs_sub_abs_le_abs_sub (q * (C : ℚ)) x
    linarith
  have h3 : |r - q * (C : ℚ)| ≤ (|(x : ℚ)| + |(x : ℚ)| / 2 ^ 53) / 2 ^ 53 := by
    refine le_trans hr ?_
    exact div_le_div_of_nonneg_right h2 (by positivity)
  have h4 : |r - (x : ℚ)| ≤ |r - q * (C : ℚ)| + |q * (C : ℚ) - x| :=
    abs_sub_le r (q * (C : ℚ)) x
  have h5 : (|(x : ℚ)| + |(x : ℚ)| / 2 ^ 53) / 2 ^ 53 + |(x : ℚ)| / 2 ^ 53 < 1 := by
    have : (|(x : ℚ)| + |(x : ℚ)| / 2 ^ 53) / 2 ^ 53 + |(x : ℚ)| / 2 ^ 53
        = |(x : ℚ)| * ((1 + 1 / 2 ^ 53) / 2 ^ 53 + 1 / 2 ^ 53) := by ring
    rw [this]
    calc |(x : ℚ)| * ((1 + 1 / 2 ^ 53) / 2 ^ 53 + 1 / 2 ^ 53)
        ≤ 2 ^ 31 * ((1 + 1 / 2 ^ 53) / 2 ^ 53 + 1 / 2 ^ 53) := by
          apply mul_le_mul_of_nonneg_right hxq
          positivity
      _ < 1 := by norm_num
  linarith

/-- C23 (as stated) fails: the multiplier COMF = 0 is read from a `DSPM`
record like any other (both passes accept the record and store 0); for the
stored coordinate 5, `coordinates` then gives 5 / 0 = +infinity, and scaling
that back by COMF gives no number at all, so no integer within 1 of 5. -/
theorem round_trip_fails_for_zero_multiplier :
    processRecordValidate (Sample.dspm 0 10) ⟨[], 1, []⟩ = (true, ⟨[], 0, []⟩) ∧
    (processRecordFull (Sample.dspm 0 10) FullPass.init).1 = true ∧
    (processRecordFull (Sample.dspm 0 10) FullPass.init).2.COMF = 0 ∧
    coordinates 5 7 0 = ⟨Dbl.pinf, Dbl.pinf⟩ ∧
    scaleBack (coordinates 5 7 0).lon 0 = none ∧
    ¬ ∃ v : Int, scaleBack (coordinates 5 7 0).lon 0 = some v ∧ |v - 5| ≤ 1 := by
  refine ⟨by decide, by decide, by decide, by decide, by decide, ?_⟩
  rintro ⟨v, hv, _⟩
  have : scaleBack (coordinates 5 7 0).lon 0 = none := by decide
  rw [this] at hv
  exact Option.noConfusion hv

/-- C23 (amended): for every stored integer coordinates x, y and every
non-zero dataset multiplier COMF, converting to real-world units as
`coordinates` does (x / COMF) and scaling the result back by COMF with integer
truncation yields x again in exact arithmetic; and when x is a 32-bit integer
and the division and the multiplication are each rounded as a double, the
truncated result differs from x by at most 1. -/
theorem coordinate_round_trip (x y : Int) (COMF : Nat) (h : COMF ≠ 0) :
    scaleBack (coordinates x y COMF).lon COMF = some x ∧
    scaleBack (coordinates x y COMF).lat COMF = some y ∧
    (∀ q r : ℚ, |x| ≤ 2 ^ 31 → Rounds ((x : ℚ) / (COMF : ℚ)) q →
      Rounds (q * (COMF : ℚ)) r → |truncQ r - x| ≤ 1) := by
  have hc : (COMF : Int) ≠ 0 := by exact_mod_cast h
  refine ⟨?_, ?_, fun q r hx hq hr => rounded_round_trip x COMF q r h hx hq hr⟩
  · simp only [coordinates, Dbl.ofDiv, h, if_false, scaleBack, Int.mul_tdiv_cancel _ hc]
  · simp only [coordinates, Dbl.ofDiv, h, if_false, scaleBack, Int.mul_tdiv_cancel _ hc]

theorem coordinate_round_trip_witness :
    scaleBack (coordinates 1000000 2000000 10000000).lon 10000000 = some 1000000 ∧
    scaleBack (coordinates 1000000 2000000 10000000).lat 10000000 = some 2000000 :=
  have h := coordinate_round_trip 1000000 2000000 10000000 (by decide)
  ⟨h.1, h.2.1⟩

end ENC

namespace JLS

/-! ## The predictor of the regular mode -/

/-- C26 (as stated) fails: with maxval = 255 and the neighbours Ra = 10,
Rb = 20, Rc = 0, all in [0, maxval], the predicted value is
Ra + Rb − Rc = 30, which is above max(Ra, Rb) = 20 and is not the median 20 of
Ra, Rb and Ra + Rb − Rc. -/
theorem predictor_leaves_neighbour_range :
    predict (Params.new 255 0 countMod32) 10 20 0 = 30 ∧
    ¬ (predict (Params.new 255 0 countMod32) 10 20 0 ≤ max 10 20) ∧
    predict (Params.new 255 0 countMod32) 20 10 30 = 0 ∧
    ¬ (min 20 10 ≤ predict (Params.new 255 0 countMod32) 20 10 30) := by
  decide

/-- C26 (amended): for all neighbour samples Ra, Rb and Rc the predicted value
Px computed by `readLine` is Ra + Rb − Rc clamped into [0, maxval]: it always
satisfies 0 ≤ Px ≤ maxval; and it satisfies min(Ra, Rb) ≤ Px ≤ max(Ra, Rb)
whenever the three samples are in [0, maxval] and Rc lies between Ra and Rb. -/
theorem predictor_is_clamped_plane (p : Params) (Ra Rb Rc : Int) :
    predict p Ra Rb Rc = max 0 (min (p.maxval : Int) (Ra + Rb - Rc)) ∧
    0 ≤ predict p Ra Rb Rc ∧ predict p Ra Rb Rc ≤ (p.maxval : Int) ∧
    (0 ≤ Ra → Ra ≤ (p.maxval : Int) → 0 ≤ Rb → Rb ≤ (p.maxval : Int) →
      min Ra Rb ≤ Rc → Rc ≤ max Ra Rb →
      predict p Ra Rb Rc = Ra + Rb - Rc ∧
      min Ra Rb ≤ predict p Ra Rb Rc ∧ predict p Ra Rb Rc ≤ max Ra Rb) := by
  have hm : (0 : Int) ≤ (p.maxval : Int) := Int.ofNat_nonneg _
  unfold predict
  simp only
  refine ⟨?_, ?_, ?_, ?_⟩
  · split
    · omega
    · split <;> omega
  · split
    · omega
    · split <;> omega
  · split
    · omega
    · split <;> omega
  · intro h1 h2 h3 h4 h5 h6
    split
    · omega
    · split <;> omega

end JLS

namespace JLS

/-! ## Halving of the accumulators -/

theorem acc_set_self (l : List Int) {i : Nat} (v : Int) (h : i < l.length) :
    acc (l.set i v) i = v := by
  simp [acc, List.getD_eq_getElem?_getD, List.getElem?_set_self h]

theorem acc_set_ne (l : List Int) {i j : Nat} (v : Int) (h : j ≠ i) :
    acc (l.set i v) j = acc l j := by
  simp [acc, List.getD_eq_getElem?_getD, List.getElem?_set_ne (Ne.symm h)]

theorem shiftRight_one (a : Int) : a >>> 1 = a / 2 := by
  cases a with
  | ofNat m =>
    have h := Int.shiftRight_coe_nat m 1
    simp only [Nat.cast_one] at h
    rw [Int.ofNat_eq_coe, h, Nat.shiftRight_eq_div_pow]
    norm_num
  | negSucc m =>
    have h := Int.shiftRight_negSucc m 1
    simp only [Nat.cast_one] at h
    rw [h, Nat.shiftRight_eq_div_pow, Int.negSucc_eq, Int.negSucc_eq]
    push_cast
    omega

theorem neg_branch_is_floor (b : Int) : -((1 - b) >>> 1) = b / 2 := by
  rw [shiftRight_one]
  omega

/-- C28: in the accumulator update of category `i` (the regular mode uses it
for category 1, the run interruption for category 2 or 3), if the sample count
n is 64 before the update then the magnitude sum a is replaced by
floor(a / 2), the bias sum b by floor(b / 2) (the negative branch
−((1 − b) >> 1) equals floor division by 2 for every negative b) and n
becomes 33; otherwise a and b are not halved and n increases by exactly 1. The
other categories are left alone. -/
theorem halving_of_accumulators (ctx : Context) (i : Nat)
    (ha : i < ctx.a.length) (hb : i < ctx.b.length) (hn : i < ctx.n.length) :
    (acc ctx.n i = 64 →
      acc (halve ctx i).a i = acc ctx.a i / 2 ∧ acc (halve ctx i).b i = acc ctx.b i / 2 ∧
      acc (halve ctx i).n i = 33) ∧
    (acc ctx.n i ≠ 64 →
      (halve ctx i).a = ctx.a ∧ (halve ctx i).b = ctx.b ∧
      acc (halve ctx i).n i = acc ctx.n i + 1) ∧
    (∀ j, j ≠ i → acc (halve ctx i).a j = acc ctx.a j ∧ acc (halve ctx i).b j = acc ctx.b j ∧
      acc (halve ctx i).n j = acc ctx.n j) ∧
    (∀ b : Int, b < 0 → -((1 - b) >>> 1) = Int.fdiv b 2) ∧
    (∀ z : Int, z / 2 = Int.fdiv z 2) ∧
    (∀ meh mes : Int, ∃ c : Context, regularUpdate ctx meh mes = biasFix (halve c 1) ∧
      c.n = ctx.n ∧ c.a = ctx.a.set 1 (acc ctx.a 1 + meh) ∧
      c.b = ctx.b.set 1 (acc ctx.b 1 + mes)) ∧
    (∀ (rctx : Nat) (evh : Int), ∃ c : Context, runUpdate ctx rctx evh = halve c (rctx + 2) ∧
      c.n = ctx.n ∧ c.b = ctx.b ∧
      c.a = ctx.a.set (rctx + 2) (acc ctx.a (rctx + 2) + (evh - (rctx : Int)))) := by
  have hf : ∀ z : Int, z / 2 = Int.fdiv z 2 := fun z =>
    (Int.fdiv_eq_ediv z (by decide)).symm
  refine ⟨?_, ?_, ?_, fun b _ => (neg_branch_is_floor b).trans (hf b), hf,
    fun _ _ => ⟨_, rfl, rfl, rfl, rfl⟩, fun _ _ => ⟨_, rfl, rfl, rfl, rfl⟩⟩
  · intro h64
    unfold halve
    rw [if_pos h64]
    simp only
    refine ⟨?_, ?_, acc_set_self _ _ hn⟩
    · rw [acc_set_self _ _ ha, shiftRight_one]
    · rw [acc_set_self _ _ hb]
      split
      · exact shiftRight_one _
      · exact neg_branch_is_floor _
  · intro h64
    unfold halve
    rw [if_neg h64]
    exact ⟨rfl, rfl, acc_set_self _ _ hn⟩
  · intro j hj
    unfold halve
    split
    · exact ⟨acc_set_ne _ _ hj, acc_set_ne _ _ hj, acc_set_ne _ _ hj⟩
    · exact ⟨rfl, rfl, acc_set_ne _ _ hj⟩

theorem halving_of_accumulators_witness :
    acc (halve ⟨4, [], [], 0, 0, 1, 0, [4, 31, 4, 4], [0, -7, 0, 0], [1, 64, 1, 1]⟩ 1).a 1
      = acc [4, 31, 4, 4] 1 / 2 ∧
    acc (halve ⟨4, [], [], 0, 0, 1, 0, [4, 31, 4, 4], [0, -7, 0, 0], [1, 64, 1, 1]⟩ 1).b 1
      = acc [0, -7, 0, 0] 1 / 2 ∧
    acc (halve ⟨4, [], [], 0, 0, 1, 0, [4, 31, 4, 4], [0, -7, 0, 0], [1, 64, 1, 1]⟩ 1).n 1
      = 33 :=
  (halving_of_accumulators ⟨4, [], [], 0, 0, 1, 0, [4, 31, 4, 4], [0, -7, 0, 0], [1, 64, 1, 1]⟩ 1
    (by decide) (by decide) (by decide)).1 (by decide)

end JLS

namespace ENC

theorem pointAttrRow_distanceMark (k : Codes) (hk : k.distanceMarkApart) (a : Attr)
    (av : List QVariant) :
    pointAttrRow k k.I_DISMAR a av
      = ⟨if attrKey av = k.CATDIS then a.subtype ||| baToUInt (attrVal av)
          else if attrKey av = k.I_HUNITS then
            a.subtype ||| ((baToUInt (attrVal av) <<< 8) % 2 ^ 32)
          else a.subtype,
         if attrKey av = k.OBJNAM then fromLatin1 (attrVal av) else a.label,
         if attrKey av = k.I_WTWDIS then setParam a.params 0 (attrVal av) else a.params⟩ := by
  obtain ⟨_, hn, _⟩ := hk
  simp only [List.mem_cons, List.mem_singleton, not_or, List.not_mem_nil, not_false_eq_true,
    and_true] at hn
  obtain ⟨h1, h2, h3, h4, h5, h6, h7, h8, h9, h10, h11, h12, h13, h14, h15, h16⟩ := hn
  simp only [pointAttrRow, attrKey, attrVal, h1, h2, h3, h4, h5, h6, h7, h8, h9, h10, h11, h12,
    h13, h14, h15, h16, false_and, or_false, false_or, true_and, if_false]

end ENC

namespace ENC

theorem hasAttr_cons (av : List QVariant) (rest : List (List QVariant)) (key : Nat) :
    hasAttr (av :: rest) key = (decide (attrKey av = key) || hasAttr rest key) := rfl

theorem hasAttr_iff (rows : List (List QVariant)) (key : Nat) :
    hasAttr rows key = true ↔ ∃ av ∈ rows, attrKey av = key := by
  simp [hasAttr]

theorem or_first (s c u : Nat) (C U : Bool) :
    ((s ||| c) ||| (if C = true then c else 0)) ||| (if U = true then u else 0)
      = (s ||| c) ||| (if U = true then u else 0) := by
  apply Nat.eq_of_testBit_eq
  intro i
  cases C <;> cases U <;> simp only [Nat.testBit_or, if_true, Nat.zero_testBit, Bool.or_false,
    Bool.false_eq_true, if_false] <;>
    cases s.testBit i <;> cases c.testBit i <;> cases u.testBit i <;> rfl

theorem or_second (s c u : Nat) (C U : Bool) :
    ((s ||| u) ||| (if C = true then c else 0)) ||| (if U = true then u else 0)
      = (s ||| (if C = true then c else 0)) ||| u := by
  apply Nat.eq_of_testBit_eq
  intro i
  cases C <;> cases U <;> simp only [Nat.testBit_or, if_true, Nat.zero_testBit, Bool.or_false,
    Bool.false_eq_true, if_false] <;>
    cases s.testBit i <;> cases c.testBit i <;> cases u.testBit i <;> rfl

theorem foldl_distanceMark (k : Codes) (hk : k.distanceMarkApart) (c u : Nat) (d : List Nat)
    (rows : List (List QVariant))
    (hC : ∀ av ∈ rows, attrKey av = k.CATDIS → baToUInt (attrVal av) = c)
    (hU : ∀ av ∈ rows, attrKey av = k.I_HUNITS → (baToUInt (attrVal av) <<< 8) % 2 ^ 32 = u)
    (hD : ∀ av ∈ rows, attrKey av = k.I_WTWDIS → attrVal av = d) :
    ∀ (s : Nat) (l : QString) (x : List Nat),
      ∃ l1, rows.foldl (pointAttrRow k k.I_DISMAR) ⟨s, l, [x, []]⟩
        = ⟨(s ||| (if hasAttr rows k.CATDIS = true then c else 0))
            ||| (if hasAttr rows k.I_HUNITS = true then u else 0), l1,
           [if hasAttr rows k.I_WTWDIS = true then d else x, []]⟩ := by
  induction rows with
  | nil => intro s l x; exact ⟨l, by simp [hasAttr]⟩
  | cons av rest ih =>
    intro s l x
    have hne := hk.2.2
    have ih1 := ih (fun a ha => hC a (List.mem_cons_of_mem _ ha))
      (fun a ha => hU a (List.mem_cons_of_mem _ ha))
      (fun a ha => hD a (List.mem_cons_of_mem _ ha))
    have hCa := hC av (List.mem_cons_self _ _)
    have hUa := hU av (List.mem_cons_self _ _)
    have hDa := hD av (List.mem_cons_self _ _)
    rw [List.foldl_cons, pointAttrRow_distanceMark k hk]
    have hp : (if attrKey av = k.I_WTWDIS then setParam [x, []] 0 (attrVal av) else [x, []])
        = [if attrKey av = k.I_WTWDIS then d else x, []] := by
      by_cases h : attrKey av = k.I_WTWDIS
      · rw [if_pos h, if_pos h, hDa h]; rfl
      · rw [if_neg h, if_neg h]
    simp only [hp]
    obtain ⟨l1, h1⟩ := ih1
      (if attrKey av = k.CATDIS then s ||| baToUInt (attrVal av)
        else if attrKey av = k.I_HUNITS then s ||| ((baToUInt (attrVal av) <<< 8) % 2 ^ 32)
        else s)
      (if attrKey av = k.OBJNAM then fromLatin1 (attrVal av) else l)
      (if attrKey av = k.I_WTWDIS then d else x)
    refine ⟨l1, ?_⟩
    rw [h1]
    have hx : (if hasAttr rest k.I_WTWDIS = true then d
          else if attrKey av = k.I_WTWDIS then d else x)
        = if hasAttr (av :: rest) k.I_WTWDIS = true then d else x := by
      rw [hasAttr_cons]
      by_cases h : attrKey av = k.I_WTWDIS
      · rw [if_pos h, decide_eq_true h, Bool.true_or, if_pos rfl]
        split <;> rfl
      · rw [if_neg h, decide_eq_false h, Bool.false_or]
    rw [hx]
    congr 1
    rw [hasAttr_cons, hasAttr_cons]
    by_cases hc : attrKey av = k.CATDIS
    · have hu : attrKey av ≠ k.I_HUNITS := fun h => hne (hc.symm.trans h)
      rw [if_pos hc, hCa hc, decide_eq_true hc, decide_eq_false hu, Bool.true_or, Bool.false_or,
        if_pos rfl]
      exact or_first s c u _ _
    · by_cases hu : attrKey av = k.I_HUNITS
      · rw [if_neg hc, if_pos hu, hUa hu, decide_eq_false hc, decide_eq_true hu, Bool.true_or,
          Bool.false_or, if_pos rfl]
        exact or_second s c u _ _
      · rw [if_neg hc, if_neg hu, decide_eq_false hc, decide_eq_false hu, Bool.false_or,
          Bool.false_or]

end ENC
namespace ENC

theorem SUBTYPE_eq {D s : Nat} (hD : D < 65536) (hs : s < 65536) :
    SUBTYPE D s = D * 65536 + s := by
  unfold SUBTYPE
  have h : s < 2 ^ 16 := hs
  rw [Nat.shiftLeft_eq, Nat.mul_comm, ← Nat.mul_add_lt_is_or h]
  norm_num
  omega

theorem pack_eq {c u : Nat} (hc : c < 256) : c ||| (u <<< 8) = u * 256 + c := by
  have h : c < 2 ^ 8 := hc
  rw [Nat.or_comm, Nat.shiftLeft_eq, Nat.mul_comm, ← Nat.mul_add_lt_is_or h, Nat.mul_comm]

theorem and_255 (x : Nat) : x &&& 255 = x % 256 :=
  Nat.and_pow_two_sub_one_eq_mod x 8

theorem distanceMark_type {D c u : Nat} (hD : D < 65536) (hc : c < 256) (hu : u < 256) :
    SUBTYPE D (c ||| (u <<< 8)) >>> 16 = D ∧
    SUBTYPE D (c ||| (u <<< 8)) &&& 255 = c ∧
    (SUBTYPE D (c ||| (u <<< 8)) >>> 8) &&& 255 = u := by
  rw [pack_eq hc, SUBTYPE_eq hD (by omega), and_255, and_255, Nat.shiftRight_eq_div_pow,
    Nat.shiftRight_eq_div_pow]
  norm_num
  omega

/-- C29: for a point feature of class `I_DISMAR` whose `ATTF` rows give the
category `CATDIS` the value c and the unit code `I_HUNITS` the value u (both
below 256) and the distance `I_WTWDIS` the text d, `pointAttr` returns the
subtype c | u << 8 with the parameters (d, empty), and the `Point` that
`pointObject` builds through the constructor has the type
`SUBTYPE(I_DISMAR, c)` (the unit code is gone from the subtype) and the label
`hUnits(u)`, a space, then d, whatever label an `OBJNAM` row had set. The
point exists exactly when its geometry resolves. -/
theorem distance_mark_point (k : Codes) (r : Record) (vi vc : RecordMap) (COMF : Nat)
    (ATTF : Field) (c u : Nat) (d : List Nat)
    (hk : k.distanceMarkApart) (hf : r.field "ATTF" = some ATTF)
    (h2 : (ATTF.row 0).length = 2) (hc : c < 256) (hu : u < 256)
    (hC : hasAttr ATTF.data k.CATDIS = true)
    (hCv : ∀ av ∈ ATTF.data, attrKey av = k.CATDIS → baToUInt (attrVal av) = c)
    (hU : hasAttr ATTF.data k.I_HUNITS = true)
    (hUv : ∀ av ∈ ATTF.data, attrKey av = k.I_HUNITS → baToUInt (attrVal av) = u)
    (hD : hasAttr ATTF.data k.I_WTWDIS = true)
    (hDv : ∀ av ∈ ATTF.data, attrKey av = k.I_WTWDIS → attrVal av = d) :
    (pointAttr k r k.I_DISMAR).subtype = c ||| (u <<< 8) ∧
    (pointAttr k r k.I_DISMAR).params = [d, []] ∧
    pointObject k r vi vc COMF k.I_DISMAR
      = (if (pointGeometry r vi vc COMF).isNull then none
         else some ⟨SUBTYPE k.I_DISMAR c, pointGeometry r vi vc COMF,
           hUnits u ++ lit " " ++ fromLatin1 d, none⟩) := by
  have hu8 : (u <<< 8) % 2 ^ 32 = u <<< 8 := by
    rw [Nat.shiftLeft_eq]
    apply Nat.mod_eq_of_lt
    norm_num
    omega
  obtain ⟨l1, hfold⟩ := foldl_distanceMark k hk c (u <<< 8) d ATTF.data hCv
    (fun av h hkey => by rw [hUv av h hkey, hu8]) hDv 0 [] []
  rw [hC, hU, hD, if_pos rfl, if_pos rfl, if_pos rfl, Nat.zero_or] at hfold
  have ha : pointAttr k r k.I_DISMAR = ⟨c ||| (u <<< 8), l1, [d, []]⟩ := by
    unfold pointAttr
    simp only [hf]
    rw [if_neg (by rw [h2]; decide)]
    exact hfold
  refine ⟨by rw [ha], by rw [ha], ?_⟩
  unfold pointObject
  simp only [ha]
  obtain ⟨t1, t2, t3⟩ := distanceMark_type hk.1 hc hu
  split
  · rfl
  · unfold Point.new
    simp only [t1, t2, t3]
    rw [if_pos ⟨trivial, by simp⟩]
    rfl

end ENC

namespace ENC

theorem distance_mark_point_witness :
    (pointAttr Sample.codes Sample.distanceMark 17002).subtype = 2 ||| (3 <<< 8) ∧
    (pointAttr Sample.codes Sample.distanceMark 17002).params = [[52, 53], []] ∧
    pointObject Sample.codes Sample.distanceMark Sample.vi [] 100 17002
      = (if (pointGeometry Sample.distanceMark Sample.vi [] 100).isNull then none
         else some ⟨SUBTYPE 17002 2, pointGeometry Sample.distanceMark Sample.vi [] 100,
           hUnits 3 ++ lit " " ++ fromLatin1 [52, 53], none⟩) :=
  distance_mark_point Sample.codes Sample.distanceMark Sample.vi [] 100
    (Sample.attf [(116, [65, 66]), (17, [50]), (18004, [51]), (18006, [52, 53])]) 2 3 [52, 53]
    (by decide) (by decide) (by decide) (by decide) (by decide) (by decide) (by decide)
    (by decide) (by decide) (by decide) (by decide)

theorem distance_mark_example :
    pointObject Sample.codes Sample.distanceMark Sample.vi [] 100 17002
      = some ⟨SUBTYPE 17002 2, coordinates 10 20 100, lit "km 45", none⟩ := by
  decide

end ENC

namespace JLS

/-! ## Properties kept by every pass of the row loop -/

theorem readLine_eq (p : Params) (bs : BitStream) (ctx : Context) :
    readLine p bs ctx = lineLoop p (ctx.w + 1) (Line.first bs ctx) := rfl

theorem lineStep_mode (p : Params) (st : Line) :
    lineStep p st = (match mode p st with
      | Mode.regular => regularStep p st
      | Mode.run => runStep p st) := by
  unfold lineStep mode
  split <;> rfl

theorem runCategory_le (p : Params) (Ra Rc : Int) : runCategory p Ra Rc ≤ 1 := by
  unfold runCategory
  split <;> decide

theorem kept_regularStep {p : Params} {P : Line → Prop} (k : Kept p P) (st : Line) (h : P st)
    (hc : st.col ≤ st.ctx.w ∨ st.col = 1) : P (regularStep p st).state := by
  unfold regularStep
  cases kSearch (acc st.ctx.n 1) (acc st.ctx.a 1) with
  | none => exact h
  | some k0 =>
    simp only
    cases (decodeError p st.bs (p.limit % 256).toNat k0).ok with
    | false =>
      simp only [Bool.not_false, if_true]
      exact k.bits st _ h
    | true =>
      simp only [Bool.not_true, Bool.false_eq_true, if_false]
      exact k.regular st _ _ _ _ h hc

theorem kept_interruption {p : Params} {P : Line → Prop} (k : Kept p P) (st : Line) (h : P st)
    (hc : st.col ≤ st.ctx.w ∨ st.col = 1) : P (interruption p st).state := by
  unfold interruption
  simp only
  cases kSearch (acc st.ctx.n (runCategory p st.Ra st.Rc + 2))
      (runTemp st.ctx (runCategory p st.Ra st.Rc)) with
  | none => exact h
  | some k0 =>
    simp only
    cases (decodeError p st.bs ((p.limit - (st.ctx.lrk : Int)) % 256).toNat k0).ok with
    | false =>
      simp only [Bool.not_false, if_true]
      exact k.bits st _ h
    | true =>
      simp only [Bool.not_true, Bool.false_eq_true, if_false]
      split
      · exact k.bias st _ _ _ h
      · exact k.interrupt st _ _ _ _ _ h (runCategory_le p _ _) hc

theorem kept_fillRun {p : Params} {P : Line → Prop} (k : Kept p P) (todo : Nat) (st : Line)
    (h : P st) : P (fillRun todo st).2 := by
  induction todo generalizing st with
  | zero => exact h
  | succ t ih =>
    by_cases hw : st.ctx.w < st.col
    · rw [fillRun, if_pos hw]
      exact h
    · rw [fillRun, if_neg hw]
      exact ih _ (k.fill st h hw)

theorem kept_runStep {p : Params} {P : Line → Prop} (k : Kept p P) (st : Line) (h : P st)
    (hc : st.col ≤ st.ctx.w ∨ st.col = 1) : P (runStep p st).state := by
  unfold runStep
  simp only
  have hrows := sameRows_processRunMode st.bs st.ctx (runLength st)
  have h1 := k.run st (runLength st) h
  cases (processRunMode st.bs st.ctx (runLength st)).ok with
  | false =>
    simp only [Bool.not_false, if_true]
    exact h1
  | true =>
    simp only [Bool.not_true, Bool.false_eq_true, if_false]
    by_cases hs : (processRunMode st.bs st.ctx (runLength st)).samples ≠ 0
    · rw [if_pos hs]
      have h2 := kept_fillRun k (processRunMode st.bs st.ctx (runLength st)).samples _ h1
      cases (fillRun (processRunMode st.bs st.ctx (runLength st)).samples
          { st with bs := (processRunMode st.bs st.ctx (runLength st)).bs,
                    ctx := (processRunMode st.bs st.ctx (runLength st)).ctx }).1 with
      | false =>
        simp only [Bool.not_false, if_true]
        exact h2
      | true =>
        simp only [Bool.not_true, Bool.false_eq_true, if_false]
        split
        · exact h2
        · rename_i hw
          exact kept_interruption k _ (k.reload _ h2).1 (Or.inl (Nat.le_of_not_lt hw))
    · rw [if_neg hs]
      apply kept_interruption k _ (k.reload _ h1).2
      simp only [afterNoRun]
      rw [hrows.1]
      exact hc

theorem kept_lineStep {p : Params} {P : Line → Prop} (k : Kept p P) (st : Line) (h : P st)
    (hc : st.col ≤ st.ctx.w ∨ st.col = 1) : P (lineStep p st).state := by
  unfold lineStep
  split
  · exact kept_regularStep k st h hc
  · exact kept_runStep k st h hc

theorem kept_lineLoop {p : Params} {P : Line → Prop} (k : Kept p P) (fuel : Nat) (st : Line)
    (h : P st) (hc : st.col ≤ st.ctx.w ∨ st.col = 1) : P (lineLoop p fuel st).st := by
  induction fuel generalizing st with
  | zero => exact h
  | succ f ih =>
    have h1 := kept_lineStep k st h hc
    unfold lineLoop
    cases hr : lineStep p st with
    | fail fl st1 =>
      rw [hr] at h1
      exact h1
    | stop st1 =>
      rw [hr] at h1
      exact h1
    | next st1 =>
      rw [hr] at h1
      simp only
      split
      · rename_i hw
        exact ih st1 h1 (Or.inl hw)
      · exact h1

theorem kept_stepStarts {p : Params} {P E : Line → Prop} (k : Kept p P)
    (hE : ∀ st st2, st.col ≤ st.ctx.w ∨ st.col = 1 → E st →
      lineStep p st = StepResult.next st2 → E st2)
    (fuel : Nat) (st : Line) (h : P st) (h0 : E st) (hc : st.col ≤ st.ctx.w ∨ st.col = 1) :
    ∀ s ∈ stepStarts p fuel st, P s ∧ E s ∧ (s.col ≤ s.ctx.w ∨ s.col = 1) := by
  induction fuel generalizing st with
  | zero =>
    intro s hs
    simp [stepStarts] at hs
  | succ f ih =>
    intro s hs
    have h1 := kept_lineStep k st h hc
    unfold stepStarts at hs
    rcases List.mem_cons.1 hs with e | hs1
    · rw [e]
      exact ⟨h, h0, hc⟩
    · cases hr : lineStep p st with
      | fail fl st1 => simp [hr] at hs1
      | stop st1 => simp [hr] at hs1
      | next st1 =>
        rw [hr] at h1
        simp only [hr] at hs1
        by_cases hw : st1.col ≤ st1.ctx.w
        · rw [if_pos hw] at hs1
          exact ih st1 h1 (hE st st1 hc h0 hr) (Or.inl hw) s hs1
        · rw [if_neg hw] at hs1
          simp at hs1

/-- The loop passes through each of its step starts: the result of the loop is
the result of the loop resumed at that state. -/
theorem lineLoop_stepStarts (p : Params) (fuel : Nat) (st : Line) :
    ∀ s ∈ stepStarts p fuel st, ∃ f, f < fuel ∧ lineLoop p fuel st = lineLoop p (f + 1) s := by
  induction fuel generalizing st with
  | zero =>
    intro s hs
    simp [stepStarts] at hs
  | succ f ih =>
    intro s hs
    unfold stepStarts at hs
    rcases List.mem_cons.1 hs with e | hs1
    · rw [e]
      exact ⟨f, Nat.lt_succ_self f, rfl⟩
    · cases hr : lineStep p st with
      | fail fl st1 => simp [hr] at hs1
      | stop st1 => simp [hr] at hs1
      | next st1 =>
        simp only [hr] at hs1
        by_cases hw : st1.col ≤ st1.ctx.w
        · rw [if_pos hw] at hs1
          obtain ⟨g, hg, e⟩ := ih st1 s hs1
          refine ⟨g, by omega, ?_⟩
          rw [← e, lineLoop, hr]
          simp only
          rw [if_pos hw]
        · rw [if_neg hw] at hs1
          simp at hs1

end JLS
namespace JLS

/-! ## The accumulators outside the run-length decoder -/

theorem sameAcc_refl (c : Context) : c.sameAcc c := ⟨rfl, rfl, rfl⟩

theorem sameAcc_trans {c d e : Context} (h1 : c.sameAcc d) (h2 : d.sameAcc e) :
    c.sameAcc e :=
  ⟨h2.1.trans h1.1, h2.2.1.trans h1.2.1, h2.2.2.trans h1.2.2⟩

theorem sameAcc_runFor (col : Nat) (bs : BitStream) (todo i cnt : Nat) (ctx : Context) :
    ctx.sameAcc (runFor col bs todo i cnt ctx).ctx := by
  induction todo generalizing i cnt ctx with
  | zero => exact sameAcc_refl ctx
  | succ t ih =>
    unfold runFor
    simp only
    have h1 : ctx.sameAcc
        (if (cnt + ctx.rg) % 65536 ≤ col ∧ ctx.runIndex < 31 then ctx.runUp else ctx) := by
      split
      · exact ⟨rfl, rfl, rfl⟩
      · exact sameAcc_refl ctx
    by_cases hc : col ≤ (cnt + ctx.rg) % 65536
    · simp only [hc, if_true]
      cases bs.read (i + 1) with
      | none => exact h1
      | some b => exact h1
    · simp only [hc, if_false]
      exact sameAcc_trans h1 (ih _ _ _)

theorem sameAcc_runEnd (bs : BitStream) (ctx : Context) (z cnt : Nat) :
    ctx.sameAcc (runEnd bs ctx z cnt).ctx := by
  unfold runEnd
  cases bs.read (z + 1) with
  | none => exact sameAcc_refl ctx
  | some bs1 =>
    simp only
    by_cases hk : ctx.rk ≠ 0
    · rw [if_pos hk]
      cases bs1.read ctx.rk with
      | none => exact sameAcc_refl ctx
      | some bs2 =>
        simp only
        split <;> exact ⟨rfl, rfl, rfl⟩
    · rw [if_neg hk]
      split <;> exact ⟨rfl, rfl, rfl⟩

theorem sameAcc_runLoop (col fuel : Nat) (bs : BitStream) (ctx : Context) (cnt : Nat) :
    ctx.sameAcc (runLoop col fuel bs ctx cnt).ctx := by
  induction fuel generalizing bs ctx cnt with
  | zero => exact sameAcc_refl ctx
  | succ f ih =>
    unfold runLoop
    by_cases hv : 2 ^ 31 ≤ bs.value
    · simp only [hv, if_true]
      have h := sameAcc_runFor col bs (Z.getD ((bs.value >>> 24) ^^^ 255) 0) 0 cnt ctx
      cases hr : runFor col bs (Z.getD ((bs.value >>> 24) ^^^ 255) 0) 0 cnt ctx with
      | failed c =>
        rw [hr] at h
        exact h
      | hit b c =>
        rw [hr] at h
        exact h
      | through n c =>
        rw [hr] at h
        simp only
        by_cases hz : Z.getD ((bs.value >>> 24) ^^^ 255) 0 ≠ 8
        · rw [if_pos hz]
          exact sameAcc_trans h (sameAcc_runEnd bs c _ n)
        · rw [if_neg hz]
          cases bs.read 8 with
          | none => exact h
          | some bs1 => exact sameAcc_trans h (ih _ c n)
    · simp only [hv, if_false]
      exact sameAcc_runEnd bs ctx 0 cnt

theorem sameAcc_processRunMode (bs : BitStream) (ctx : Context) (col : Nat) :
    ctx.sameAcc (processRunMode bs ctx col).ctx :=
  sameAcc_runLoop _ _ bs ctx 0

/-! ## The row loop continues its state -/

theorem continues_fillOne (st : Line) : st.continues (fillOne st) := by
  refine ⟨rfl, rfl, ?_, ?_, [Event.fill st.col (toU16 st.Ra)], rfl⟩
  · simp only [fillOne]
    omega
  · intro i hi
    simp only [fillOne]
    exact getD_set_ne _ _ (by omega)

theorem kept_continues (p : Params) (st0 : Line) : Kept p (fun st => st0.continues st) where
  bits st b h := continues_trans h (continues_of_same (sameRows_refl _) rfl rfl)
  run st c h := continues_trans h (continues_of_same (sameRows_processRunMode _ _ _) rfl rfl)
  fill st h _ := continues_trans h (continues_fillOne st)
  reload st h := ⟨continues_trans h (continues_of_same (sameRows_refl _) rfl rfl),
    continues_trans h (continues_of_same (sameRows_refl _) rfl rfl)⟩
  bias st b i even h := continues_trans h (continues_of_same (sameRows_runBias _ _ _) rfl rfl)
  regular st b meh mes x h _ := by
    refine continues_trans h (continues_trans (?_ : st.continues
      { st with bs := b, ctx := regularUpdate st.ctx meh mes, Rc := st.Rb,
                Rb := sample st.ctx.last (st.col + 1) }) (continues_store _ _ _))
    exact continues_of_same (sameRows_regularUpdate _ _ _) rfl rfl
  interrupt st b rctx even evh x h _ _ := by
    refine continues_trans h (continues_trans (?_ : st.continues
      { st with bs := b, ctx := runUpdate (runBias st.ctx (rctx + 2) even) rctx evh })
      (continues_store _ _ _))
    exact continues_of_same
      (sameRows_trans (sameRows_runBias _ _ _) (sameRows_runUpdate _ _ _)) rfl rfl

end JLS
namespace JLS

/-! ## The left and the above neighbour -/

theorem toU16_cast {x : Int} (h0 : 0 ≤ x) (h1 : x ≤ 65535) : ((toU16 x : Nat) : Int) = x := by
  unfold toU16
  omega

theorem sample_set_self (l : List Nat) {i : Nat} {x : Int} (h : i < l.length) (h0 : 0 ≤ x)
    (h1 : x ≤ 65535) : sample (l.set i (toU16 x)) i = x := by
  unfold sample
  rw [getD_set_self _ _ h]
  exact toU16_cast h0 h1

theorem leftOk_store (p : Params) (hmax : p.maxval ≤ 65535) (st : Line) (x : Int)
    (ev : Nat → Nat → Event) (hlen : st.ctx.w + 2 ≤ st.ctx.current.length)
    (hc : st.col ≤ st.ctx.w ∨ st.col = 1) : (store st (clamp p x) ev).leftOk := by
  obtain ⟨c0, c1⟩ := clamp_range p x
  have c2 : clamp p x ≤ 65535 := by
    have : (p.maxval : Int) ≤ 65535 := by exact_mod_cast hmax
    omega
  refine ⟨?_, ?_, c0, c2, ?_⟩
  · simp only [store, Nat.add_sub_cancel]
    exact (sample_set_self _ (by omega) c0 c2).symm
  · simp only [store]
    omega
  · simp only [store, List.length_set]
    exact hlen

theorem kept_leftOk (p : Params) (hmax : p.maxval ≤ 65535) : Kept p Line.leftOk where
  bits st b h := h
  run st c h := by
    have hr := sameRows_processRunMode st.bs st.ctx c
    obtain ⟨h1, h2, h3, h4, h5⟩ := h
    refine ⟨?_, h2, h3, h4, ?_⟩
    · simp only [hr.2.2]
      exact h1
    · simp only [hr.1, hr.2.2]
      exact h5
  fill st h hw := by
    obtain ⟨h1, h2, h3, h4, h5⟩ := h
    refine ⟨?_, ?_, h3, h4, ?_⟩
    · simp only [fillOne, Nat.add_sub_cancel]
      exact (sample_set_self _ (by omega) h3 h4).symm
    · simp only [fillOne]
      omega
    · simp only [fillOne, List.length_set]
      exact h5
  reload st h := ⟨h, h⟩
  bias st b i even h := by
    have hr := sameRows_runBias st.ctx i even
    obtain ⟨h1, h2, h3, h4, h5⟩ := h
    refine ⟨?_, h2, h3, h4, ?_⟩
    · simp only [hr.2.2]
      exact h1
    · simp only [hr.1, hr.2.2]
      exact h5
  regular st b meh mes x h hc := by
    have hr := sameRows_regularUpdate st.ctx meh mes
    apply leftOk_store p hmax
    · simp only [hr.1, hr.2.2]
      exact h.2.2.2.2
    · simp only [hr.1]
      exact hc
  interrupt st b rctx even evh x h _ hc := by
    have hr := sameRows_trans (sameRows_runBias st.ctx (rctx + 2) even)
      (sameRows_runUpdate (runBias st.ctx (rctx + 2) even) rctx evh)
    apply leftOk_store p hmax
    · simp only [hr.1, hr.2.2]
      exact h.2.2.2.2
    · simp only [hr.1]
      exact hc

/-- A pass of the loop body that runs to its end leaves in `Rb` the sample of
the previous row above the next column. -/
theorem next_Rb (p : Params) (st st2 : Line) (hc : st.col ≤ st.ctx.w ∨ st.col = 1)
    (h : lineStep p st = StepResult.next st2) :
    st2.Rb = sample st2.ctx.last st2.col ∧ st2.ctx.last = st.ctx.last ∧ st2.ctx.w = st.ctx.w := by
  have hco := kept_lineStep (kept_continues p st) st (continues_refl st) hc
  rw [h] at hco
  refine ⟨?_, hco.2.1, hco.1⟩
  unfold lineStep at h
  split at h
  · unfold regularStep at h
    cases hk : kSearch (acc st.ctx.n 1) (acc st.ctx.a 1) with
    | none => simp [hk] at h
    | some k =>
      simp only [hk] at h
      cases hok : (decodeError p st.bs (p.limit % 256).toNat k).ok with
      | false => simp [hok] at h
      | true =>
        simp only [hok, Bool.not_true, Bool.false_eq_true, if_false, StepResult.next.injEq] at h
        rw [← h]
        simp only [store]
        rw [(sameRows_regularUpdate _ _ _).2.1]
  · unfold runStep at h
    simp only at h
    have hrows := sameRows_processRunMode st.bs st.ctx (runLength st)
    cases hok : (processRunMode st.bs st.ctx (runLength st)).ok with
    | false => simp [hok] at h
    | true =>
      simp only [hok, Bool.not_true, Bool.false_eq_true, if_false] at h
      by_cases hs : (processRunMode st.bs st.ctx (runLength st)).samples ≠ 0
      · rw [if_pos hs] at h
        cases hf : (fillRun (processRunMode st.bs st.ctx (runLength st)).samples
            { st with bs := (processRunMode st.bs st.ctx (runLength st)).bs,
                      ctx := (processRunMode st.bs st.ctx (runLength st)).ctx }).1 with
        | false => simp [hf] at h
        | true =>
          simp only [hf, Bool.not_true, Bool.false_eq_true, if_false] at h
          split at h
          · simp at h
          · rename_i hw
            obtain ⟨i1, i2, _⟩ := interruption_next p _ _ h
            have hl := kept_interruption (kept_continues p (afterRun _)) _ (continues_refl _)
              (Or.inl (Nat.le_of_not_lt hw))
            rw [h] at hl
            have hl2 : st2.ctx.last = _ := hl.2.1
            rw [i1, i2, hl2]
            rfl
      · rw [if_neg hs] at h
        obtain ⟨i1, i2, _⟩ := interruption_next p _ _ h
        have hl := kept_interruption (kept_continues p (afterNoRun
            { st with bs := (processRunMode st.bs st.ctx (runLength st)).bs,
                      ctx := (processRunMode st.bs st.ctx (runLength st)).ctx }))
          (afterNoRun
            { st with bs := (processRunMode st.bs st.ctx (runLength st)).bs,
                      ctx := (processRunMode st.bs st.ctx (runLength st)).ctx })
          (continues_refl _) (by simp only [afterNoRun]; rw [hrows.1]; exact hc)
        rw [h] at hl
        have hl2 : st2.ctx.last = _ := hl.2.1
        rw [i1, i2, hl2]
        rfl

end JLS
namespace JLS

theorem leftOk_first (bs : BitStream) (ctx : Context) (hlen : ctx.w + 2 ≤ ctx.current.length)
    (h16 : ∀ v ∈ ctx.last, v ≤ 65535) : (Line.first bs ctx).leftOk := by
  have h1 : ctx.last.getD 1 0 ≤ 65535 := by
    rw [List.getD_eq_getElem?_getD]
    cases hg : ctx.last[1]? with
    | none => simp
    | some v => exact h16 v (List.getElem?_mem hg)
  refine ⟨?_, Nat.le_refl 1, Int.ofNat_nonneg _, ?_, ?_⟩
  · simp only [Line.first, sample, Nat.sub_self]
    rw [getD_set_self _ _ (by omega)]
  · simp only [Line.first, sample]
    exact_mod_cast h1
  · simp only [Line.first, List.length_set]
    exact hlen

/-- Every step start of `readLine` has the left neighbour in `Ra` and the
above neighbour in `Rb`. -/
theorem lineStarts_neighbours (p : Params) (bs : BitStream) (ctx : Context)
    (hmax : p.maxval ≤ 65535) (hlen : ctx.w + 2 ≤ ctx.current.length)
    (h16 : ∀ v ∈ ctx.last, v ≤ 65535) :
    ∀ s ∈ lineStarts p bs ctx,
      s.leftOk ∧ (s.Rb = sample s.ctx.last s.col ∧ s.ctx.last = ctx.last ∧ s.ctx.w = ctx.w) ∧
      (s.col ≤ s.ctx.w ∨ s.col = 1) := by
  apply kept_stepStarts (kept_leftOk p hmax) _ _ _ (leftOk_first bs ctx hlen h16)
    ⟨rfl, rfl, rfl⟩ (Or.inr rfl)
  intro st st2 hc hE h
  obtain ⟨n1, n2, n3⟩ := next_Rb p st st2 hc h
  exact ⟨n1, n2.trans hE.2.1, n3.trans hE.2.2⟩

/-- C24: at every pixel position at which `readLine` starts a pass of its loop
body, the local `Ra` is the left neighbour `current[col - 1]` and the local
`Rb` the above neighbour `last[col]` of the previous row, so the pass is decoded
in regular mode if and only if |above - left| > near and in run mode otherwise;
the pass is the regular-mode branch or the run-mode branch accordingly, and the
loop does pass through that state. -/
theorem mode_selection (p : Params) (bs : BitStream) (ctx : Context)
    (hmax : p.maxval ≤ 65535) (hlen : ctx.w + 2 ≤ ctx.current.length)
    (h16 : ∀ v ∈ ctx.last, v ≤ 65535) :
    ∀ s ∈ lineStarts p bs ctx,
      s.Ra = sample s.ctx.current (s.col - 1) ∧ s.Rb = sample ctx.last s.col ∧
      1 ≤ s.col ∧ (s.col ≤ ctx.w ∨ s.col = 1) ∧
      (mode p s = Mode.regular ↔
        |sample ctx.last s.col - sample s.ctx.current (s.col - 1)| > (p.near : Int)) ∧
      (mode p s = Mode.run ↔
        |sample ctx.last s.col - sample s.ctx.current (s.col - 1)| ≤ (p.near : Int)) ∧
      (mode p s = Mode.regular → lineStep p s = regularStep p s) ∧
      (mode p s = Mode.run → lineStep p s = runStep p s) ∧
      ∃ f, readLine p bs ctx = lineLoop p (f + 1) s := by
  intro s hs
  obtain ⟨hN, ⟨hRb, hlast, hw⟩, hg⟩ := lineStarts_neighbours p bs ctx hmax hlen h16 s hs
  obtain ⟨f, _, hf⟩ := lineLoop_stepStarts p (ctx.w + 1) (Line.first bs ctx) s hs
  rw [hlast] at hRb
  rw [hw] at hg
  have hm := lineStep_mode p s
  refine ⟨hN.1, hRb, hN.2.1, hg, ?_, ?_, ?_, ?_, f, hf⟩
  · rw [← hRb, ← hN.1]
    unfold mode
    split
    · rename_i h
      simp only [true_iff]
      exact h
    · rename_i h
      simp only [false_iff, reduceCtorEq]
      exact h
  · rw [← hRb, ← hN.1]
    unfold mode
    split
    · rename_i h
      simp only [false_iff, not_le, reduceCtorEq]
      exact h
    · rename_i h
      simp only [true_iff]
      exact not_lt.1 h
  · intro h
    rw [hm, h]
  · intro h
    rw [hm, h]

theorem mode_selection_witness :
    (Line.first ⟨flatStream, 0⟩ (Context.init 4 256)).Ra
      = sample (Line.first ⟨flatStream, 0⟩ (Context.init 4 256)).ctx.current
          ((Line.first ⟨flatStream, 0⟩ (Context.init 4 256)).col - 1) ∧
    (Line.first ⟨flatStream, 0⟩ (Context.init 4 256)).Rb
      = sample (Context.init 4 256).last (Line.first ⟨flatStream, 0⟩ (Context.init 4 256)).col ∧
    (mode (Params.new 255 0 countMod32) (Line.first ⟨flatStream, 0⟩ (Context.init 4 256)) = Mode.run ↔
      |sample (Context.init 4 256).last (Line.first ⟨flatStream, 0⟩ (Context.init 4 256)).col
        - sample (Line.first ⟨flatStream, 0⟩ (Context.init 4 256)).ctx.current
            ((Line.first ⟨flatStream, 0⟩ (Context.init 4 256)).col - 1)|
        ≤ ((Params.new 255 0 countMod32).near : Int)) :=
  have h := mode_selection (Params.new 255 0 countMod32) ⟨flatStream, 0⟩ (Context.init 4 256) (by decide)
    (by decide) (by decide) (Line.first ⟨flatStream, 0⟩ (Context.init 4 256)) (by decide)
  ⟨h.1, h.2.1, h.2.2.2.2.2.1⟩

end JLS

namespace JLS

theorem lineStarts_first (p : Params) (bs : BitStream) (ctx : Context) :
    (lineStarts p bs ctx).head? = some (Line.first bs ctx) := rfl

end JLS

namespace JLS

/-! ## The sample counts and the bias of the regular mode -/

theorem acc_range {l : List Int} (h : ∀ v ∈ l, 1 ≤ v ∧ v ≤ 64) (i : Nat) :
    0 ≤ acc l i ∧ acc l i ≤ 64 ∧ (i < l.length → 1 ≤ acc l i) := by
  unfold acc
  rw [List.getD_eq_getElem?_getD]
  cases hg : l[i]? with
  | none =>
    refine ⟨by simp, by simp, fun hi => ?_⟩
    rw [List.getElem?_eq_none_iff] at hg
    omega
  | some v =>
    have := h v (List.getElem?_mem hg)
    simp only [Option.getD_some]
    exact ⟨by omega, this.2, fun _ => this.1⟩

theorem counts_set {l : List Int} (h : ∀ v ∈ l, 1 ≤ v ∧ v ≤ 64) (i : Nat) {x : Int}
    (hx : 1 ≤ x ∧ x ≤ 64) : ∀ v ∈ l.set i x, 1 ≤ v ∧ v ≤ 64 := by
  intro v hv
  rcases List.mem_or_eq_of_mem_set hv with h1 | h1
  · exact h v h1
  · rw [h1]
    exact hx

theorem countsOk_halve {ctx : Context} (h : ctx.countsOk) (i : Nat) : (halve ctx i).countsOk := by
  obtain ⟨hb, hn, hv⟩ := h
  have hr := acc_range hv i
  unfold halve
  split
  · exact ⟨by simp only [List.length_set]; exact hb, by simp only [List.length_set]; exact hn,
      counts_set hv i ⟨by decide, by decide⟩⟩
  · rename_i h64
    exact ⟨hb, by simp only [List.length_set]; exact hn, counts_set hv i ⟨by omega, by omega⟩⟩

theorem countsOk_biasFix {ctx : Context} (h : ctx.countsOk) : (biasFix ctx).countsOk := by
  obtain ⟨hb, hn, hv⟩ := h
  unfold biasFix
  simp only
  split
  · exact ⟨by simp only [List.length_set]; exact hb, hn, hv⟩
  · split
    · exact ⟨by simp only [List.length_set]; exact hb, hn, hv⟩
    · exact ⟨hb, hn, hv⟩

theorem countsOk_runBias {ctx : Context} (h : ctx.countsOk) (i : Nat) (even : Bool) :
    (runBias ctx i even).countsOk := by
  obtain ⟨hb, hn, hv⟩ := h
  unfold runBias
  split
  · exact ⟨hb, hn, hv⟩
  · exact ⟨by simp only [List.length_set]; exact hb, hn, hv⟩

theorem countsOk_regularUpdate {ctx : Context} (h : ctx.countsOk) (meh mes : Int) :
    (regularUpdate ctx meh mes).countsOk := by
  unfold regularUpdate
  apply countsOk_biasFix
  apply countsOk_halve
  obtain ⟨hb, hn, hv⟩ := h
  exact ⟨by simp only [List.length_set]; exact hb, hn, hv⟩

theorem countsOk_runUpdate {ctx : Context} (h : ctx.countsOk) (rctx : Nat) (evh : Int) :
    (runUpdate ctx rctx evh).countsOk := by
  unfold runUpdate
  apply countsOk_halve
  exact h

theorem biasOk_biasFix {ctx : Context} (h : ctx.countsOk) : (biasFix ctx).biasOk := by
  obtain ⟨hb, hn, hv⟩ := h
  have hr := (acc_range hv 1).2.2 (by omega)
  have h1 : 1 < ctx.b.length := by omega
  unfold biasFix Context.biasOk
  simp only
  split
  · simp only [acc_set_self _ _ h1]
    split <;> omega
  · split
    · simp only [acc_set_self _ _ h1]
      split <;> omega
    · omega

theorem biasOk_regularUpdate {ctx : Context} (h : ctx.countsOk) (meh mes : Int) :
    (regularUpdate ctx meh mes).biasOk := by
  unfold regularUpdate
  apply biasOk_biasFix
  apply countsOk_halve
  obtain ⟨hb, hn, hv⟩ := h
  exact ⟨by simp only [List.length_set]; exact hb, hn, hv⟩

theorem kept_countsOk (p : Params) : Kept p (fun st => st.ctx.countsOk) where
  bits st b h := h
  run st c h := by
    obtain ⟨_, e2, e3⟩ := sameAcc_processRunMode st.bs st.ctx c
    obtain ⟨hb, hn, hv⟩ := h
    exact ⟨by simp only [e2]; exact hb, by simp only [e3]; exact hn, by simp only [e3]; exact hv⟩
  fill st h _ := h
  reload st h := ⟨h, h⟩
  bias st b i even h := countsOk_runBias h i even
  regular st b meh mes x h _ := countsOk_regularUpdate h meh mes
  interrupt st b rctx even evh x h _ _ := countsOk_runUpdate (countsOk_runBias h _ even) rctx evh

theorem countsOk_init (w range : Nat) : (Context.init w range).countsOk := by
  refine ⟨rfl, rfl, ?_⟩
  intro v hv
  simp only [Context.init, List.mem_cons, List.mem_singleton, List.not_mem_nil, or_false,
    or_self] at hv
  rw [hv]
  decide

theorem countsOk_readLine (p : Params) (bs : BitStream) (ctx : Context) (h : ctx.countsOk) :
    (readLine p bs ctx).st.ctx.countsOk :=
  kept_lineLoop (kept_countsOk p) (ctx.w + 1) (Line.first bs ctx) h (Or.inr rfl)

theorem countsOk_rowState (p : Params) (i : Nat) (bs bs1 : BitStream) (ctx ctx1 : Context)
    (h : ctx.countsOk) (hr : rowState p i bs ctx = some (bs1, ctx1)) : ctx1.countsOk := by
  induction i generalizing bs ctx with
  | zero =>
    simp only [rowState, Option.some.injEq, Prod.mk.injEq] at hr
    rw [← hr.2]
    exact h
  | succ j ih =>
    unfold rowState at hr
    cases he : (readLine p bs ctx).err with
    | some f => simp [he] at hr
    | none =>
      simp only [he] at hr
      exact ih _ (readLine p bs ctx).st.ctx.swap (countsOk_readLine p bs ctx h) hr

theorem regularStep_ctx (p : Params) (st st2 : Line)
    (h : regularStep p st = StepResult.next st2) :
    ∃ meh mes, st2.ctx.b = (regularUpdate st.ctx meh mes).b ∧
      st2.ctx.n = (regularUpdate st.ctx meh mes).n := by
  unfold regularStep at h
  cases hk : kSearch (acc st.ctx.n 1) (acc st.ctx.a 1) with
  | none => simp [hk] at h
  | some k =>
    simp only [hk] at h
    cases hok : (decodeError p st.bs (p.limit % 256).toNat k).ok with
    | false => simp [hok] at h
    | true =>
      simp only [hok, Bool.not_true, Bool.false_eq_true, if_false, StepResult.next.injEq] at h
      rw [← h]
      exact ⟨_, _, rfl, rfl⟩

/-- C30: starting from a context in which every sample count `n[i]` is in
[1, 64], every `n[i]` is still in [1, 64] in the context `readLine` leaves, at
every step start of the row (after any number of decoded pixels) and in the
context of every later row of `decode`; and immediately after every
regular-mode update the bias of the regular mode satisfies
-n[1] < b[1] <= 0. The initial context of `decode` is such a context. -/
theorem accumulator_invariant (p : Params) (bs : BitStream) (ctx : Context)
    (h : ctx.countsOk) :
    (readLine p bs ctx).st.ctx.countsOk ∧
    (∀ s ∈ lineStarts p bs ctx, s.ctx.countsOk ∧
      (∀ meh mes, (regularUpdate s.ctx meh mes).countsOk ∧
        (regularUpdate s.ctx meh mes).biasOk) ∧
      (∀ s2, mode p s = Mode.regular → lineStep p s = StepResult.next s2 →
        -(acc s2.ctx.n 1) < acc s2.ctx.b 1 ∧ acc s2.ctx.b 1 ≤ 0)) ∧
    (∀ i bs1 ctx1, rowState p i bs ctx = some (bs1, ctx1) → ctx1.countsOk) ∧
    (∀ w range, (Context.init w range).countsOk) := by
  refine ⟨countsOk_readLine p bs ctx h, ?_,
    fun i bs1 ctx1 hr => countsOk_rowState p i bs bs1 ctx ctx1 h hr, countsOk_init⟩
  intro s hs
  obtain ⟨hc, _, _⟩ := kept_stepStarts (kept_countsOk p) (E := fun _ => True)
    (fun _ _ _ _ _ => trivial) (ctx.w + 1) (Line.first bs ctx) h trivial (Or.inr rfl) s hs
  refine ⟨hc, fun meh mes => ⟨countsOk_regularUpdate hc meh mes, biasOk_regularUpdate hc meh mes⟩,
    ?_⟩
  intro s2 hm hstep
  rw [lineStep_mode, hm] at hstep
  obtain ⟨meh, mes, e1, e2⟩ := regularStep_ctx p s s2 hstep
  have hb := biasOk_regularUpdate hc meh mes
  unfold Context.biasOk at hb
  rw [e1, e2]
  exact hb

theorem accumulator_invariant_witness :
    (readLine (Params.new 255 0 countMod32) ⟨flatStream, 0⟩ (Context.init 4 256)).st.ctx.countsOk ∧
    (∀ s ∈ lineStarts (Params.new 255 0 countMod32) ⟨flatStream, 0⟩ (Context.init 4 256), s.ctx.countsOk ∧
      (∀ meh mes, (regularUpdate s.ctx meh mes).countsOk ∧
        (regularUpdate s.ctx meh mes).biasOk) ∧
      (∀ s2, mode (Params.new 255 0 countMod32) s = Mode.regular →
        lineStep (Params.new 255 0 countMod32) s = StepResult.next s2 →
        -(acc s2.ctx.n 1) < acc s2.ctx.b 1 ∧ acc s2.ctx.b 1 ≤ 0)) ∧
    (∀ i bs1 ctx1, rowState (Params.new 255 0 countMod32) i ⟨flatStream, 0⟩ (Context.init 4 256)
      = some (bs1, ctx1) → ctx1.countsOk) ∧
    (∀ w range, (Context.init w range).countsOk) :=
  accumulator_invariant (Params.new 255 0 countMod32) ⟨flatStream, 0⟩ (Context.init 4 256) (by decide)

end JLS

namespace JLS

/-! ## The pixels of a run -/

theorem kept_fillsInside (p : Params) : Kept p Line.fillsInside where
  bits st b h := h
  run st c h := by
    have hr := sameRows_processRunMode st.bs st.ctx c
    refine ⟨h.1, fun c0 v hm => ?_⟩
    simp only [hr.1]
    exact h.2 c0 v hm
  fill st h hw := by
    refine ⟨Nat.le_add_left 1 _, fun c0 v hm => ?_⟩
    simp only [fillOne, List.mem_append, List.mem_singleton, Event.fill.injEq] at hm ⊢
    rcases hm with h1 | h1
    · exact h.2 c0 v h1
    · have := h.1
      omega
  reload st h := ⟨h, h⟩
  bias st b i even h := by
    have hr := sameRows_runBias st.ctx i even
    refine ⟨h.1, fun c0 v hm => ?_⟩
    simp only [hr.1]
    exact h.2 c0 v hm
  regular st b meh mes x h _ := by
    have hr := sameRows_regularUpdate st.ctx meh mes
    refine ⟨Nat.le_add_left 1 _, fun c0 v hm => ?_⟩
    simp only [store, List.mem_append, List.mem_singleton, reduceCtorEq, or_false] at hm
    simp only [store, hr.1]
    exact h.2 c0 v hm
  interrupt st b rctx even evh x h _ _ := by
    have hr := sameRows_trans (sameRows_runBias st.ctx (rctx + 2) even)
      (sameRows_runUpdate (runBias st.ctx (rctx + 2) even) rctx evh)
    refine ⟨Nat.le_add_left 1 _, fun c0 v hm => ?_⟩
    simp only [store, List.mem_append, List.mem_singleton, reduceCtorEq, or_false] at hm
    simp only [store, hr.1]
    exact h.2 c0 v hm

/-- The fill loop: it writes `Ra` into the columns from `col` on, as many as
asked for or as fit into the row, and fails exactly when asked for more than
fit. -/
theorem fillRun_shape (p : Params) (todo : Nat) (st : Line) :
    (fillRun todo st).2.Ra = st.Ra ∧
    (∀ i, st.col ≤ i → i < st.col + todo → i ≤ st.ctx.w → i < st.ctx.current.length →
      (fillRun todo st).2.ctx.current.getD i 0 = toU16 st.Ra) ∧
    ((fillRun todo st).1 = false ↔ todo ≠ 0 ∧ st.ctx.w + 1 < st.col + todo) ∧
    (st.col ≤ st.ctx.w + 1 → (fillRun todo st).2.col = min (st.col + todo) (st.ctx.w + 1)) := by
  induction todo generalizing st with
  | zero =>
    refine ⟨rfl, fun i h1 h2 => by omega, by simp [fillRun], fun h => ?_⟩
    simp only [fillRun, Nat.add_zero]
    omega
  | succ t ih =>
    by_cases hw : st.ctx.w < st.col
    · have e : fillRun (t + 1) st = (false, st) := by rw [fillRun, if_pos hw]
      rw [e]
      refine ⟨rfl, fun i h1 _ h3 => by omega, ?_, fun h => ?_⟩
      · simp only [true_iff]
        exact ⟨Nat.succ_ne_zero t, by omega⟩
      · simp only
        omega
    · have e : fillRun (t + 1) st = fillRun t (fillOne st) := by rw [fillRun, if_neg hw]
      rw [e]
      obtain ⟨i1, i2, i3, i4⟩ := ih (fillOne st)
      have hco := kept_fillRun (kept_continues p (fillOne st)) t (fillOne st) (continues_refl _)
      have hc1 : (fillOne st).col = st.col + 1 := rfl
      have hw1 : (fillOne st).ctx.w = st.ctx.w := rfl
      have hR1 : (fillOne st).Ra = st.Ra := rfl
      have hl1 : (fillOne st).ctx.current.length = st.ctx.current.length := by
        simp only [fillOne, List.length_set]
      rw [hc1, hw1, hR1, hl1] at i2
      rw [hc1, hw1] at i3 i4
      refine ⟨i1.trans hR1, fun i h1 h2 h3 h4 => ?_, ?_, fun h => ?_⟩
      · by_cases hi : i = st.col
        · rw [hco.2.2.2.1 i (by rw [hc1]; omega), hi]
          simp only [fillOne]
          exact getD_set_self _ _ (by omega)
        · exact i2 i (by omega) (by omega) h3 h4
      · rw [i3]
        constructor
        · intro h
          exact ⟨Nat.succ_ne_zero t, by omega⟩
        · intro h
          refine ⟨?_, by omega⟩
          intro h0
          omega
      · rw [i4 (by omega)]
        omega

theorem lineLoop_continues_step (p : Params) (fuel : Nat) (st : Line) :
    (lineStep p st).state.continues (lineLoop p (fuel + 1) st).st ∧
    (∀ f st1, lineStep p st = StepResult.fail f st1 →
      (lineLoop p (fuel + 1) st).err = some f) := by
  unfold lineLoop
  cases hr : lineStep p st with
  | fail fl st1 => exact ⟨continues_refl _, fun f st2 e => by simp at e; simp [e.1]⟩
  | stop st1 => exact ⟨continues_refl _, fun f st2 e => by simp at e⟩
  | next st1 =>
    simp only
    split
    · rename_i hw
      exact ⟨kept_lineLoop (kept_continues p st1) fuel st1 (continues_refl _) (Or.inl hw),
        fun f st2 e => by simp at e⟩
    · exact ⟨continues_refl _, fun f st2 e => by simp at e⟩

/-- The run-mode branch after a run of `n` samples, `n` not 0: the state the
fill loop leaves is continued by the state the branch leaves, and a failed fill
loop is the failure of the branch. -/
theorem runStep_fill (p : Params) (st : Line) (n : Nat)
    (hok : (processRunMode st.bs st.ctx (runLength st)).ok = true)
    (hn : (processRunMode st.bs st.ctx (runLength st)).samples = n) (h0 : n ≠ 0) :
    (fillRun n { st with bs := (processRunMode st.bs st.ctx (runLength st)).bs,
                         ctx := (processRunMode st.bs st.ctx (runLength st)).ctx }).2.continues
      (runStep p st).state ∧
    ((fillRun n { st with bs := (processRunMode st.bs st.ctx (runLength st)).bs,
                          ctx := (processRunMode st.bs st.ctx (runLength st)).ctx }).1 = false →
      ∃ st1, runStep p st = StepResult.fail Failure.overrun st1) := by
  unfold runStep
  simp only [hok, hn, Bool.not_true, Bool.false_eq_true, if_false]
  rw [if_pos h0]
  cases hf : (fillRun n
      { st with bs := (processRunMode st.bs st.ctx (runLength st)).bs,
                ctx := (processRunMode st.bs st.ctx (runLength st)).ctx }).1 with
  | false =>
    simp only [Bool.not_false, if_true]
    exact ⟨continues_refl _, fun _ => ⟨_, rfl⟩⟩
  | true =>
    simp only [Bool.not_true, Bool.false_eq_true, if_false]
    refine ⟨?_, fun h => by simp at h⟩
    split
    · exact continues_refl _
    · rename_i hw
      exact kept_interruption (kept_continues p _) _
        (continues_of_same (sameRows_refl _) rfl rfl) (Or.inl (Nat.le_of_not_lt hw))

end JLS
namespace JLS

/-- C27: when `readLine` is in run mode at a step start in column `col` with
left neighbour `Ra` and `processRunMode` reports a run of `n` samples (n not
0), the pixels of the run, columns col .. col + n - 1 as far as they lie in the
row, are all set to `Ra`, in the state the pass leaves and in the row
`readLine` leaves; if `n` exceeds the number w - col + 1 of pixels remaining in
the row, `readLine` returns false; and no pixel of a run is ever written at a
column greater than the width. -/
theorem run_fill (p : Params) (bs : BitStream) (ctx : Context)
    (hmax : p.maxval ≤ 65535) (hlen : ctx.w + 2 ≤ ctx.current.length)
    (h16 : ∀ v ∈ ctx.last, v ≤ 65535) :
    (∀ s ∈ lineStarts p bs ctx, mode p s = Mode.run →
      (processRunMode s.bs s.ctx (runLength s)).ok = true →
      ∀ n, (processRunMode s.bs s.ctx (runLength s)).samples = n → n ≠ 0 →
        (∀ i, s.col ≤ i → i < s.col + n → i ≤ ctx.w →
          sample (lineStep p s).state.ctx.current i = s.Ra ∧
          sample (readLine p bs ctx).st.ctx.current i = s.Ra) ∧
        (ctx.w + 1 < s.col + n → (readLine p bs ctx).err = some Failure.overrun)) ∧
    (∀ c v, Event.fill c v ∈ (readLine p bs ctx).st.trace → 1 ≤ c ∧ c ≤ ctx.w) := by
  constructor
  · intro s hs hm hok n hn h0
    obtain ⟨hN, ⟨_, _, hw⟩, hg⟩ := lineStarts_neighbours p bs ctx hmax hlen h16 s hs
    obtain ⟨f, _, hf⟩ := lineLoop_stepStarts p (ctx.w + 1) (Line.first bs ctx) s hs
    have hstep : lineStep p s = runStep p s := by rw [lineStep_mode, hm]
    obtain ⟨c1, c2⟩ := runStep_fill p s n hok hn h0
    obtain ⟨_, f2, f3, f4⟩ := fillRun_shape p n
      { s with bs := (processRunMode s.bs s.ctx (runLength s)).bs,
               ctx := (processRunMode s.bs s.ctx (runLength s)).ctx }
    obtain ⟨l1, l2⟩ := lineLoop_continues_step p f s
    have hrows := sameRows_processRunMode s.bs s.ctx (runLength s)
    simp only [hrows.1, hrows.2.2, hw] at f2 f3 f4
    obtain ⟨_, _, n3, n4, n5⟩ := hN
    rw [hw] at n5
    rw [readLine_eq, hf]
    rw [hstep] at l1 l2 ⊢
    constructor
    · intro i i1 i2 i3
      have hv := f2 i i1 i2 i3 (by omega)
      have hcol := f4 (by omega)
      have hlt : i < (fillRun n
          { s with bs := (processRunMode s.bs s.ctx (runLength s)).bs,
                   ctx := (processRunMode s.bs s.ctx (runLength s)).ctx }).2.col := by
        rw [hcol]
        omega
      have hv1 := (c1.2.2.2.1 i hlt).trans hv
      have hv2 := (l1.2.2.2.1 i (Nat.lt_of_lt_of_le hlt c1.2.2.1)).trans hv1
      unfold sample
      rw [hv1, hv2]
      exact ⟨toU16_cast n3 n4, toU16_cast n3 n4⟩
    · intro hover
      obtain ⟨st1, h1⟩ := c2 (f3.2 ⟨h0, hover⟩)
      exact l2 _ _ h1
  · intro c v hm
    have h1 := kept_lineLoop (kept_fillsInside p) (ctx.w + 1) (Line.first bs ctx)
      ⟨Nat.le_refl 1, fun c0 v0 h0 => by simp [Line.first] at h0⟩ (Or.inr rfl)
    have h2 := kept_lineLoop (kept_continues p (Line.first bs ctx)) (ctx.w + 1)
      (Line.first bs ctx) (continues_refl _) (Or.inr rfl)
    have h3 := h1.2 c v hm
    have h4 : (lineLoop p (ctx.w + 1) (Line.first bs ctx)).st.ctx.w = ctx.w := h2.1
    rw [h4] at h3
    exact h3

end JLS
namespace JLS

theorem run_fill_witness :
    (∀ s ∈ lineStarts (Params.new 255 0 countMod32) flatRow2.1 flatRow2.2,
      mode (Params.new 255 0 countMod32) s = Mode.run →
      (processRunMode s.bs s.ctx (runLength s)).ok = true →
      ∀ n, (processRunMode s.bs s.ctx (runLength s)).samples = n → n ≠ 0 →
        (∀ i, s.col ≤ i → i < s.col + n → i ≤ flatRow2.2.w →
          sample (lineStep (Params.new 255 0 countMod32) s).state.ctx.current i = s.Ra ∧
          sample (readLine (Params.new 255 0 countMod32) flatRow2.1 flatRow2.2).st.ctx.current i = s.Ra) ∧
        (flatRow2.2.w + 1 < s.col + n →
          (readLine (Params.new 255 0 countMod32) flatRow2.1 flatRow2.2).err = some Failure.overrun)) ∧
    (∀ c v, Event.fill c v ∈ (readLine (Params.new 255 0 countMod32) flatRow2.1 flatRow2.2).st.trace →
      1 ≤ c ∧ c ≤ flatRow2.2.w) :=
  run_fill (Params.new 255 0 countMod32) flatRow2.1 flatRow2.2 (by decide) (by decide) (by decide)

/-- The second row of the flat image is one run of 4 samples from column 1:
all four pixels are set to the left neighbour 100. -/
theorem run_fill_flat_row :
    rowState (Params.new 255 0 countMod32) 1 ⟨flatStream, 0⟩ (Context.init 4 256) = some flatRow2 ∧
    (lineStarts (Params.new 255 0 countMod32) flatRow2.1 flatRow2.2).map
      (fun s => (s.col, s.Ra, mode (Params.new 255 0 countMod32) s,
        (processRunMode s.bs s.ctx (runLength s)).ok,
        (processRunMode s.bs s.ctx (runLength s)).samples))
      = [(1, 100, Mode.run, true, 4)] ∧
    (readLine (Params.new 255 0 countMod32) flatRow2.1 flatRow2.2).err = none ∧
    (readLine (Params.new 255 0 countMod32) flatRow2.1 flatRow2.2).st.ctx.current
      = [100, 100, 100, 100, 100, 0] := by
  decide

/-- A run of 5 samples in a row of 3: the three pixels of the row are written,
then `readLine` returns false. -/
theorem run_fill_overrun :
    (lineStarts (Params.new 255 0 countMod32) ⟨overrunStream, 0⟩ overrunContext).map
      (fun s => (s.col, s.Ra, mode (Params.new 255 0 countMod32) s,
        (processRunMode s.bs s.ctx (runLength s)).ok,
        (processRunMode s.bs s.ctx (runLength s)).samples))
      = [(1, 0, Mode.run, true, 5)] ∧
    (readLine (Params.new 255 0 countMod32) ⟨overrunStream, 0⟩ overrunContext).err
      = some Failure.overrun ∧
    (readLine (Params.new 255 0 countMod32) ⟨overrunStream, 0⟩ overrunContext).st.trace
      = [Event.border 0, Event.fill 1 0, Event.fill 2 0, Event.fill 3 0] := by
  decide

end JLS

namespace JLS

/-! ## The lookahead and the bits of the source -/

theorem value_eq (d : List Nat) (pos i o : Nat) (ho : o < 8) (hp : pos = 8 * i + o) :
    BitStream.value ⟨d, pos⟩ = ((((d.getD i 0 % 256 * 256 + d.getD (i + 1) 0 % 256) * 256
      + d.getD (i + 2) 0 % 256) * 256 + d.getD (i + 3) 0 % 256) * 256
      + d.getD (i + 4) 0 % 256) / 2 ^ (8 - o) % 2 ^ 32 := by
  have e1 : pos / 8 = i := by omega
  have e2 : pos % 8 = o := by omega
  unfold BitStream.value
  simp only [e1, e2, BitStream.byte]

theorem bit_eq (d : List Nat) (pos i o : Nat) (ho : o < 8) (hp : pos = 8 * i + o) (q : Nat) :
    BitStream.bit ⟨d, q⟩ pos = d.getD i 0 % 256 / 2 ^ (7 - o) % 2 := by
  have e1 : pos / 8 = i := by omega
  have e2 : pos % 8 = o := by omega
  unfold BitStream.bit
  simp only [e1, e2, BitStream.byte]

theorem value_lt (bs : BitStream) : bs.value < 2 ^ 32 := by
  unfold BitStream.value
  exact Nat.mod_lt _ (by decide)

theorem bit_lt (bs : BitStream) (i : Nat) : bs.bit i < 2 := by
  unfold BitStream.bit
  exact Nat.mod_lt _ (by decide)

theorem pos_split (n : Nat) : ∃ i o, o < 8 ∧ n = 8 * i + o :=
  ⟨n / 8, n % 8, Nat.mod_lt _ (by decide), by omega⟩

set_option maxHeartbeats 1000000 in
/-- The lookahead is the next bit followed by the first 31 bits of the
lookahead one bit further. -/
theorem value_step (d : List Nat) (pos : Nat) :
    BitStream.value ⟨d, pos⟩
      = BitStream.bit ⟨d, pos⟩ pos * 2 ^ 31 + BitStream.value ⟨d, pos + 1⟩ / 2 := by
  obtain ⟨i, o, ho, hp⟩ := pos_split pos
  rw [value_eq d pos i o ho hp, bit_eq d pos i o ho hp]
  have b0 : d.getD i 0 % 256 < 256 := Nat.mod_lt _ (by decide)
  have b1 : d.getD (i + 1) 0 % 256 < 256 := Nat.mod_lt _ (by decide)
  have b2 : d.getD (i + 2) 0 % 256 < 256 := Nat.mod_lt _ (by decide)
  have b3 : d.getD (i + 3) 0 % 256 < 256 := Nat.mod_lt _ (by decide)
  have b4 : d.getD (i + 4) 0 % 256 < 256 := Nat.mod_lt _ (by decide)
  have b5 : d.getD (i + 5) 0 % 256 < 256 := Nat.mod_lt _ (by decide)
  by_cases h7 : o < 7
  · rw [value_eq d (pos + 1) i (o + 1) (by omega) (by omega)]
    generalize d.getD i 0 % 256 = x0 at *
    generalize d.getD (i + 1) 0 % 256 = x1 at *
    generalize d.getD (i + 2) 0 % 256 = x2 at *
    generalize d.getD (i + 3) 0 % 256 = x3 at *
    generalize d.getD (i + 4) 0 % 256 = x4 at *
    have h8 : o = 0 ∨ o = 1 ∨ o = 2 ∨ o = 3 ∨ o = 4 ∨ o = 5 ∨ o = 6 := by omega
    clear ho h7 hp b5
    rcases h8 with rfl | rfl | rfl | rfl | rfl | rfl | rfl <;>
      simp only [Nat.reduceAdd, Nat.reduceSub, Nat.reducePow, Nat.sub_zero, Nat.div_one] <;>
      omega
  · have e7 : o = 7 := by omega
    rw [value_eq d (pos + 1) (i + 1) 0 (by decide) (by omega), e7]
    simp only [Nat.add_assoc, Nat.reduceAdd]
    generalize d.getD i 0 % 256 = x0 at *
    generalize d.getD (i + 1) 0 % 256 = x1 at *
    generalize d.getD (i + 2) 0 % 256 = x2 at *
    generalize d.getD (i + 3) 0 % 256 = x3 at *
    generalize d.getD (i + 4) 0 % 256 = x4 at *
    generalize d.getD (i + 5) 0 % 256 = x5 at *
    clear ho h7 hp e7
    simp only [Nat.reduceAdd, Nat.reduceSub, Nat.reducePow, Nat.sub_zero, Nat.div_one]
    omega

/-- The next bit is the top bit of the lookahead. -/
theorem value_top (d : List Nat) (pos : Nat) :
    BitStream.value ⟨d, pos⟩ / 2 ^ 31 = BitStream.bit ⟨d, pos⟩ pos := by
  have h1 := value_step d pos
  have h2 := value_lt ⟨d, pos + 1⟩
  have h3 := bit_lt ⟨d, pos⟩ pos
  norm_num at h1 h2 ⊢
  omega

theorem bit_data (d : List Nat) (p q i : Nat) :
    BitStream.bit ⟨d, p⟩ i = BitStream.bit ⟨d, q⟩ i := rfl

/-- After `u` zero bits the lookahead is below 2^(32 - u). -/
theorem value_zeros (d : List Nat) (u : Nat) (hu : u ≤ 32) :
    ∀ pos, (∀ j, j < u → BitStream.bit ⟨d, pos⟩ (pos + j) = 0) →
      BitStream.value ⟨d, pos⟩ < 2 ^ (32 - u) := by
  induction u with
  | zero => intro pos _; exact value_lt _
  | succ t ih =>
    intro pos h
    have h0 := h 0 (Nat.succ_pos t)
    rw [Nat.add_zero] at h0
    have h1 := ih (by omega) (pos + 1) (fun j hj => by
      have := h (j + 1) (by omega)
      rw [bit_data d (pos + 1) pos, Nat.add_assoc, Nat.add_comm 1 j]
      exact this)
    rw [value_step d pos, h0, Nat.zero_mul, Nat.zero_add]
    have e : 32 - t = (32 - (t + 1)) + 1 := by omega
    rw [e, Nat.pow_succ] at h1
    omega

/-- After `u` zero bits and a one bit the lookahead is at least 2^(31 - u). -/
theorem value_one (d : List Nat) (u : Nat) (hu : u ≤ 31) :
    ∀ pos, (∀ j, j < u → BitStream.bit ⟨d, pos⟩ (pos + j) = 0) →
      BitStream.bit ⟨d, pos⟩ (pos + u) = 1 → 2 ^ (31 - u) ≤ BitStream.value ⟨d, pos⟩ := by
  induction u with
  | zero =>
    intro pos _ h1
    rw [Nat.add_zero] at h1
    rw [value_step d pos, h1]
    omega
  | succ t ih =>
    intro pos h hone
    have h0 := h 0 (Nat.succ_pos t)
    rw [Nat.add_zero] at h0
    have h1 := ih (by omega) (pos + 1) (fun j hj => by
      have := h (j + 1) (by omega)
      rw [bit_data d (pos + 1) pos, Nat.add_assoc, Nat.add_comm 1 j]
      exact this) (by
      rw [bit_data d (pos + 1) pos, Nat.add_assoc, Nat.add_comm 1 t]
      exact hone)
    rw [value_step d pos, h0, Nat.zero_mul, Nat.zero_add]
    have e : 31 - t = (31 - (t + 1)) + 1 := by omega
    rw [e, Nat.pow_succ] at h1
    omega

end JLS
namespace JLS

/-! ## The unary prefix of a Golomb code -/

set_option maxRecDepth 4000 in
theorem Z_spec : ∀ u, u < 8 → ∀ B, B < 128 → 2 ^ (7 - u) ≤ B → B < 2 ^ (8 - u) →
    Z.getD B 0 = u := by
  decide

theorem bit_in_range (d : List Nat) (q n : Nat) (h : BitStream.bit ⟨d, q⟩ n = 1) :
    n < 8 * d.length := by
  by_contra hn
  have h1 : d.length ≤ n / 8 := by omega
  unfold BitStream.bit BitStream.byte at h
  simp only at h
  rw [List.getD_eq_getElem?_getD, List.getElem?_eq_none h1] at h
  simp at h

theorem zeroRun_spec (d : List Nat) (fuel : Nat) :
    ∀ pos m u, (∀ j, j < u → BitStream.bit ⟨d, pos⟩ (pos + j) = 0) →
      BitStream.bit ⟨d, pos⟩ (pos + u) = 1 → u / 8 < fuel → m + u < 2 ^ 32 →
      zeroRun fuel ⟨d, pos⟩ m = (true, ⟨d, pos + 8 * (u / 8)⟩, u % 8, m + u) := by
  induction fuel with
  | zero => intro pos m u _ _ hf; omega
  | succ f ih =>
    intro pos m u hz hone hf hm
    have htop := value_top d pos
    have hlt := value_lt ⟨d, pos⟩
    by_cases hu0 : u = 0
    · subst hu0
      rw [Nat.add_zero] at hone
      rw [hone] at htop
      have hv : ¬ BitStream.value ⟨d, pos⟩ < 2 ^ 31 := by
        norm_num at htop hlt ⊢
        omega
      rw [zeroRun, if_neg hv]
      simp
    · have h0 := hz 0 (Nat.pos_of_ne_zero hu0)
      rw [Nat.add_zero] at h0
      rw [h0] at htop
      have hv : BitStream.value ⟨d, pos⟩ < 2 ^ 31 := by
        norm_num at htop hlt ⊢
        omega
      rw [zeroRun, if_pos hv]
      simp only [Nat.shiftRight_eq_div_pow]
      by_cases h8 : u < 8
      · have hz1 := value_zeros d u (by omega) pos hz
        have hz2 := value_one d u (by omega) pos hz hone
        have hB : 2 ^ (7 - u) ≤ BitStream.value ⟨d, pos⟩ / 2 ^ 24 ∧
            BitStream.value ⟨d, pos⟩ / 2 ^ 24 < 2 ^ (8 - u) := by
          have e1 : 31 - u = (7 - u) + 24 := by omega
          have e2 : 32 - u = (8 - u) + 24 := by omega
          rw [e1, Nat.pow_add] at hz2
          rw [e2, Nat.pow_add] at hz1
          exact ⟨(Nat.le_div_iff_mul_le (by positivity)).2 hz2,
            (Nat.div_lt_iff_lt_mul (by positivity)).2 hz1⟩
        have hB128 : BitStream.value ⟨d, pos⟩ / 2 ^ 24 < 128 := by
          norm_num at hv ⊢
          omega
        have hne : BitStream.value ⟨d, pos⟩ / 2 ^ 24 ≠ 0 := by
          have : 0 < 2 ^ (7 - u) := by positivity
          omega
        rw [if_pos hne, Z_spec u h8 _ hB128 hB.1 hB.2]
        have e1 : u / 8 = 0 := by omega
        have e2 : u % 8 = u := by omega
        rw [e1, e2, Nat.mod_eq_of_lt hm, Nat.mul_zero, Nat.add_zero]
      · have hz1 := value_zeros d 8 (by decide) pos (fun j hj => hz j (by omega))
        have hB : BitStream.value ⟨d, pos⟩ / 2 ^ 24 = 0 := by
          norm_num at hz1 ⊢
          omega
        have hin := bit_in_range d pos _ hone
        have hread : BitStream.read ⟨d, pos⟩ 8 = some ⟨d, pos + 8⟩ := by
          unfold BitStream.read BitStream.remaining
          rw [if_pos (by simp only; omega)]
        rw [hB]
        simp only [ne_eq, not_true_eq_false, if_false, hread]
        have hZ : Z.getD 0 0 = 8 := by decide
        rw [hZ, Nat.mod_eq_of_lt (by omega)]
        rw [ih (pos + 8) (m + 8) (u - 8)
          (fun j hj => by
            have := hz (8 + j) (by omega)
            rw [bit_data d (pos + 8) pos, Nat.add_assoc]
            exact this)
          (by
            rw [bit_data d (pos + 8) pos]
            have e : pos + 8 + (u - 8) = pos + u := by omega
            rw [e]
            exact hone)
          (by omega) (by omega)]
        have e1 : pos + 8 + 8 * ((u - 8) / 8) = pos + 8 * (u / 8) := by omega
        have e2 : (u - 8) % 8 = u % 8 := by omega
        have e3 : m + 8 + (u - 8) = m + u := by omega
        rw [e1, e2, e3]

end JLS
namespace JLS

/-- The body of `decodeError` after a unary prefix of `u` zero bits and a one
bit. -/
theorem decodeError_prefix (p : Params) (d : List Nat) (pos u limit k : Nat)
    (h : BitStream.zerosThenOne ⟨d, pos⟩ u) (hu : u < 2 ^ 32) :
    decodeError p ⟨d, pos⟩ limit k =
      if u < limit then
        if k ≠ 0 then
          match BitStream.read ⟨d, pos + u + 1⟩ k with
          | none => ⟨false, ⟨d, pos + u + 1⟩,
              if k < 32 then
                ((BitStream.value ⟨d, pos + u + 1⟩ >>> (32 - k)) + (u <<< k)) % 2 ^ 32
              else p.undefinedShift (BitStream.value ⟨d, pos + u + 1⟩) u k % 2 ^ 32⟩
          | some bs3 => ⟨true, bs3,
              if k < 32 then
                ((BitStream.value ⟨d, pos + u + 1⟩ >>> (32 - k)) + (u <<< k)) % 2 ^ 32
              else p.undefinedShift (BitStream.value ⟨d, pos + u + 1⟩) u k % 2 ^ 32⟩
        else ⟨true, ⟨d, pos + u + 1⟩, u⟩
      else
        match BitStream.read ⟨d, pos + u + 1⟩ p.qbpp with
        | none => ⟨false, ⟨d, pos + u + 1⟩,
            if 1 ≤ p.qbpp ∧ p.qbpp ≤ 32 then
              ((BitStream.value ⟨d, pos + u + 1⟩ >>> (32 - p.qbpp)) + 1) % 2 ^ 32
            else p.undefinedShift (BitStream.value ⟨d, pos + u + 1⟩) u p.qbpp % 2 ^ 32⟩
        | some bs3 => ⟨true, bs3,
            if 1 ≤ p.qbpp ∧ p.qbpp ≤ 32 then
              ((BitStream.value ⟨d, pos + u + 1⟩ >>> (32 - p.qbpp)) + 1) % 2 ^ 32
            else p.undefinedShift (BitStream.value ⟨d, pos + u + 1⟩) u p.qbpp % 2 ^ 32⟩ := by
  obtain ⟨hz, hone⟩ := h
  simp only at hz hone
  have hin := bit_in_range d pos _ hone
  have hfuel : u / 8 < BitStream.remaining ⟨d, pos⟩ / 8 + 1 := by
    unfold BitStream.remaining
    simp only
    omega
  have hrun := zeroRun_spec d _ pos 0 u hz hone hfuel (by omega)
  have hread : BitStream.read ⟨d, pos + 8 * (u / 8)⟩ (u % 8 + 1) = some ⟨d, pos + u + 1⟩ := by
    unfold BitStream.read BitStream.remaining
    rw [if_pos (by simp only; omega)]
    simp only [Option.some.injEq, BitStream.mk.injEq, true_and]
    omega
  unfold decodeError
  rw [hrun]
  simp only [hread, Nat.zero_add]

end JLS
namespace JLS

theorem peek_lt (bs : BitStream) (k : Nat) (hk : k ≤ 32) : bs.value >>> (32 - k) < 2 ^ k := by
  rw [Nat.shiftRight_eq_div_pow]
  apply (Nat.div_lt_iff_lt_mul (by positivity)).2
  rw [← Nat.pow_add]
  have e : k + (32 - k) = 32 := by omega
  rw [e]
  exact value_lt bs

/-- C25 (as stated) fails: at the stream 00001 followed by the 31 bits of
r = 1, `decodeError` with limit 10 and k = 31 has the unary prefix u = 4 below
the limit and returns true with MErrval = 1, not u * 2^k + r = 4 * 2^31 + 1:
`MErrval` is a 32-bit unsigned number and `MErrval << k` drops the bits above
it. And for maxval 0 the constructor gives qbpp = 0 and limit 19: at 19 zero
bits and a one bit the escape consumes no further bit (r = 0) and computes
`(bs.value() >> 32) + 1`, a shift of a 32-bit value by 32; where the processor
takes the count modulo 32 the result for the lookahead 2^27 is 2^27 + 1, not
r + 1 = 1. -/
theorem decodeError_wraps :
    BitStream.zerosThenOne ⟨[8, 0, 0, 0, 16, 0], 0⟩ 4 ∧
    BitStream.value ⟨[8, 0, 0, 0, 16, 0], 5⟩ >>> (32 - 31) = 1 ∧
    decodeError (Params.new 255 0 countMod32) ⟨[8, 0, 0, 0, 16, 0], 0⟩ 10 31
      = ⟨true, ⟨[8, 0, 0, 0, 16, 0], 36⟩, 1⟩ ∧
    (decodeError (Params.new 255 0 countMod32) ⟨[8, 0, 0, 0, 16, 0], 0⟩ 10 31).MErrval
      ≠ 4 * 2 ^ 31 + 1 ∧
    (Params.new 0 0 countMod32).qbpp = 0 ∧ (Params.new 0 0 countMod32).limit = 19 ∧
    BitStream.zerosThenOne ⟨[0, 0, 16, 128, 0, 0, 0], 0⟩ 19 ∧
    BitStream.value ⟨[0, 0, 16, 128, 0, 0, 0], 20⟩ = 2 ^ 27 ∧
    decodeError (Params.new 0 0 countMod32) ⟨[0, 0, 16, 128, 0, 0, 0], 0⟩ 19 0
      = ⟨true, ⟨[0, 0, 16, 128, 0, 0, 0], 20⟩, 2 ^ 27 + 1⟩ := by
  decide

/-- C25 (amended): if the stream at its position holds `u` zero bits followed
by a one bit, `decodeError(bs, limit, k)` (k below 32) consumes those u + 1
bits; when u < limit it consumes k further bits r (the first k bits of the
lookahead after the prefix, r below 2^k) and returns MErrval = u * 2^k + r
reduced modulo 2^32 (which is u * 2^k + r whenever that fits into 32 bits;
r = 0 and nothing further consumed when k = 0); when u >= limit it consumes
qbpp further bits r and, for qbpp at least 1, returns MErrval = r + 1 (for
qbpp = 0 it consumes nothing further and returns true with the value that the
undefined shift by 32 leaves); it returns false exactly when the consume of
the k bits or of the qbpp bits runs past the end of the stream. -/
theorem decodeError_golomb (p : Params) (bs : BitStream) (u limit k : Nat)
    (h : bs.zerosThenOne u) (hu : u < 2 ^ 32) (hk : k < 32) (hq : p.qbpp < 32) :
    BitStream.value ⟨bs.data, bs.pos + u + 1⟩ >>> (32 - k) < 2 ^ k ∧
    BitStream.value ⟨bs.data, bs.pos + u + 1⟩ >>> (32 - p.qbpp) < 2 ^ p.qbpp ∧
    (u < limit → k = 0 → decodeError p bs limit k = ⟨true, ⟨bs.data, bs.pos + u + 1⟩, u⟩) ∧
    (u < limit → k ≠ 0 → k ≤ BitStream.remaining ⟨bs.data, bs.pos + u + 1⟩ →
      decodeError p bs limit k = ⟨true, ⟨bs.data, bs.pos + u + 1 + k⟩,
        (u * 2 ^ k + BitStream.value ⟨bs.data, bs.pos + u + 1⟩ >>> (32 - k)) % 2 ^ 32⟩) ∧
    (u * 2 ^ k + BitStream.value ⟨bs.data, bs.pos + u + 1⟩ >>> (32 - k) < 2 ^ 32 →
      (u * 2 ^ k + BitStream.value ⟨bs.data, bs.pos + u + 1⟩ >>> (32 - k)) % 2 ^ 32
        = u * 2 ^ k + BitStream.value ⟨bs.data, bs.pos + u + 1⟩ >>> (32 - k)) ∧
    (limit ≤ u → 1 ≤ p.qbpp → p.qbpp ≤ BitStream.remaining ⟨bs.data, bs.pos + u + 1⟩ →
      decodeError p bs limit k = ⟨true, ⟨bs.data, bs.pos + u + 1 + p.qbpp⟩,
        BitStream.value ⟨bs.data, bs.pos + u + 1⟩ >>> (32 - p.qbpp) + 1⟩) ∧
    (limit ≤ u → p.qbpp = 0 →
      decodeError p bs limit k = ⟨true, ⟨bs.data, bs.pos + u + 1⟩,
        p.undefinedShift (BitStream.value ⟨bs.data, bs.pos + u + 1⟩) u 0 % 2 ^ 32⟩) ∧
    ((decodeError p bs limit k).ok = false ↔
      (u < limit ∧ k ≠ 0 ∧ BitStream.remaining ⟨bs.data, bs.pos + u + 1⟩ < k) ∨
      (limit ≤ u ∧ BitStream.remaining ⟨bs.data, bs.pos + u + 1⟩ < p.qbpp)) := by
  have hpre := decodeError_prefix p bs.data bs.pos u limit k h hu
  have hr := peek_lt ⟨bs.data, bs.pos + u + 1⟩ k (by omega)
  have he := peek_lt ⟨bs.data, bs.pos + u + 1⟩ p.qbpp (by omega)
  have he1 : (BitStream.value ⟨bs.data, bs.pos + u + 1⟩ >>> (32 - p.qbpp) + 1) % 2 ^ 32
      = BitStream.value ⟨bs.data, bs.pos + u + 1⟩ >>> (32 - p.qbpp) + 1 := by
    apply Nat.mod_eq_of_lt
    have : 2 ^ p.qbpp ≤ 2 ^ 31 := Nat.pow_le_pow_right (by decide) (by omega)
    omega
  have hadd : BitStream.value ⟨bs.data, bs.pos + u + 1⟩ >>> (32 - k) + u <<< k
      = u * 2 ^ k + BitStream.value ⟨bs.data, bs.pos + u + 1⟩ >>> (32 - k) := by
    rw [Nat.shiftLeft_eq, Nat.add_comm]
  rw [if_pos hk, hadd, he1] at hpre
  have hread : ∀ n, BitStream.read ⟨bs.data, bs.pos + u + 1⟩ n
      = if n ≤ BitStream.remaining ⟨bs.data, bs.pos + u + 1⟩
        then some ⟨bs.data, bs.pos + u + 1 + n⟩ else none := fun n => rfl
  refine ⟨hr, he, ?_, ?_, fun hfit => Nat.mod_eq_of_lt hfit, ?_, ?_, ?_⟩
  · intro h1 h2
    rw [hpre, if_pos h1, if_neg (by simp [h2])]
  · intro h1 h2 h3
    rw [hpre, if_pos h1, if_pos h2, hread, if_pos h3]
  · intro h1 h2 h3
    have hc : 1 ≤ p.qbpp ∧ p.qbpp ≤ 32 := ⟨h2, by omega⟩
    rw [hpre, if_neg (by omega), hread, if_pos h3, if_pos hc]
  · intro h1 h2
    have hc : ¬ (1 ≤ p.qbpp ∧ p.qbpp ≤ 32) := by omega
    rw [hpre, if_neg (by omega), hread, if_pos (by omega), if_neg hc, h2]
  · rw [hpre]
    by_cases h1 : u < limit
    · rw [if_pos h1]
      by_cases h2 : k ≠ 0
      · rw [if_pos h2, hread]
        by_cases h3 : k ≤ BitStream.remaining ⟨bs.data, bs.pos + u + 1⟩
        · rw [if_pos h3]
          simp only [Bool.true_eq_false, false_iff]
          omega
        · rw [if_neg h3]
          simp only [true_iff]
          exact Or.inl ⟨h1, h2, by omega⟩
      · rw [if_neg h2]
        simp only [Bool.true_eq_false, false_iff]
        omega
    · rw [if_neg h1, hread]
      by_cases h3 : p.qbpp ≤ BitStream.remaining ⟨bs.data, bs.pos + u + 1⟩
      · rw [if_pos h3]
        simp only [Bool.true_eq_false, false_iff]
        omega
      · rw [if_neg h3]
        simp only [true_iff]
        exact Or.inr ⟨by omega, by omega⟩

theorem decodeError_golomb_witness :
    (decodeError (Params.new 255 0 countMod32) ⟨[8, 255, 0, 0, 0, 0], 0⟩ 10 2
      = ⟨true, ⟨[8, 255, 0, 0, 0, 0], 0 + 4 + 1 + 2⟩,
        (4 * 2 ^ 2 + BitStream.value ⟨[8, 255, 0, 0, 0, 0], 0 + 4 + 1⟩ >>> (32 - 2)) % 2 ^ 32⟩) ∧
    (decodeError (Params.new 255 0 countMod32) ⟨[8, 255, 0, 0, 0, 0], 0⟩ 4 2
      = ⟨true, ⟨[8, 255, 0, 0, 0, 0], 0 + 4 + 1 + (Params.new 255 0 countMod32).qbpp⟩,
        BitStream.value ⟨[8, 255, 0, 0, 0, 0], 0 + 4 + 1⟩
          >>> (32 - (Params.new 255 0 countMod32).qbpp) + 1⟩) ∧
    (decodeError (Params.new 0 0 countMod32) ⟨[8, 255, 0, 0, 0, 0], 0⟩ 4 2
      = ⟨true, ⟨[8, 255, 0, 0, 0, 0], 0 + 4 + 1⟩,
        (Params.new 0 0 countMod32).undefinedShift
          (BitStream.value ⟨[8, 255, 0, 0, 0, 0], 0 + 4 + 1⟩) 4 0 % 2 ^ 32⟩) :=
  ⟨(decodeError_golomb (Params.new 255 0 countMod32) ⟨[8, 255, 0, 0, 0, 0], 0⟩ 4 10 2
      (by decide) (by decide) (by decide) (by decide)).2.2.2.1
      (by decide) (by decide) (by decide),
    (decodeError_golomb (Params.new 255 0 countMod32) ⟨[8, 255, 0, 0, 0, 0], 0⟩ 4 4 2
      (by decide) (by decide) (by decide) (by decide)).2.2.2.2.2.1
      (by decide) (by decide) (by decide),
    (decodeError_golomb (Params.new 0 0 countMod32) ⟨[8, 255, 0, 0, 0, 0], 0⟩ 4 4 2
      (by decide) (by decide) (by decide) (by decide)).2.2.2.2.2.2.1
      (by decide) (by decide)⟩

/-- Three decodes of the stream 00001 010 1...: a code with k = 2 (u = 4,
r = 1, MErrval = 17), the escape for limit 4 (qbpp = 8 bits r = 95,
MErrval = 96), and a consume of 31 bits past the end of a 16-bit stream. -/
theorem decodeError_examples :
    decodeError (Params.new 255 0 countMod32) ⟨[10, 255, 0, 0, 0, 0], 0⟩ 10 2
      = ⟨true, ⟨[10, 255, 0, 0, 0, 0], 7⟩, 17⟩ ∧
    decodeError (Params.new 255 0 countMod32) ⟨[10, 255, 0, 0, 0, 0], 0⟩ 4 2
      = ⟨true, ⟨[10, 255, 0, 0, 0, 0], 13⟩, 96⟩ ∧
    (decodeError (Params.new 255 0 countMod32) ⟨[10, 255], 0⟩ 10 31).ok = false := by
  decide

end JLS

namespace JLS

theorem predictor_is_clamped_plane_witness :
    predict (Params.new 255 0 countMod32) 10 20 15 = 10 + 20 - 15 ∧
    min 10 20 ≤ predict (Params.new 255 0 countMod32) 10 20 15 ∧
    predict (Params.new 255 0 countMod32) 10 20 15 ≤ max 10 20 :=
  (predictor_is_clamped_plane (Params.new 255 0 countMod32) 10 20 15).2.2.2 (by decide) (by decide)
    (by decide) (by decide) (by decide) (by decide)

end JLS

namespace JLS

/-! ## The run-length state across `processRunMode` -/

theorem J_le : ∀ i, i ≤ 31 → J.getD i 0 ≤ 15 := by
  decide

theorem one_shift_order {k : Nat} (h : k ≤ 15) : (1 <<< k) % 2 ^ 32 = 2 ^ k := by
  rw [Nat.one_shiftLeft]
  apply Nat.mod_eq_of_lt
  exact Nat.pow_lt_pow_right (by decide) (by omega)

theorem runOk_runUp {ctx : Context} (h31 : ctx.runIndex < 31) :
    ctx.runUp.runOk ∧ ctx.runUp.lrk = ctx.lrk := by
  refine ⟨⟨?_, rfl, ?_⟩, rfl⟩
  · simp only [Context.runUp]
    omega
  · simp only [Context.runUp]
    exact one_shift_order (J_le _ (by omega))

theorem runOk_runDown {ctx : Context} (h : ctx.runOk) : ctx.runDown.runOk := by
  refine ⟨?_, rfl, ?_⟩
  · simp only [Context.runDown]
    have := h.1
    omega
  · simp only [Context.runDown]
    exact one_shift_order (J_le _ (by have := h.1; omega))

theorem runOk_runFor (col : Nat) (bs : BitStream) (todo i cnt : Nat) (ctx : Context)
    (h : ctx.runOk) :
    (runFor col bs todo i cnt ctx).ctx.runOk ∧ (runFor col bs todo i cnt ctx).ctx.lrk = ctx.lrk := by
  induction todo generalizing i cnt ctx with
  | zero => exact ⟨h, rfl⟩
  | succ t ih =>
    unfold runFor
    simp only
    have h1 : (if (cnt + ctx.rg) % 65536 ≤ col ∧ ctx.runIndex < 31 then ctx.runUp else ctx).runOk ∧
        (if (cnt + ctx.rg) % 65536 ≤ col ∧ ctx.runIndex < 31 then ctx.runUp else ctx).lrk
          = ctx.lrk := by
      split
      · rename_i hc
        exact runOk_runUp hc.2
      · exact ⟨h, rfl⟩
    by_cases hc : col ≤ (cnt + ctx.rg) % 65536
    · simp only [hc, if_true]
      cases bs.read (i + 1) with
      | none => exact h1
      | some b => exact h1
    · simp only [hc, if_false]
      obtain ⟨i1, i2⟩ := ih (i + 1) ((cnt + ctx.rg) % 65536) _ h1.1
      exact ⟨i1, i2.trans h1.2⟩

/-- The code of `processRunMode` after the inner loop: when it returns true
the run has ended at a zero bit, `lrk` is the order before the decrement plus
1 and the run index has gone down by one (or stays 0); when it returns false
the context is as it was. -/
theorem runEnd_spec (bs : BitStream) (ctx : Context) (z cnt : Nat) (h : ctx.runOk) :
    (runEnd bs ctx z cnt).ctx.runOk ∧
    ((runEnd bs ctx z cnt).ok = true →
      (runEnd bs ctx z cnt).ctx.lrk = ctx.rk + 1 ∧
      (runEnd bs ctx z cnt).ctx.runIndex = ctx.runIndex - 1 ∧
      1 ≤ (runEnd bs ctx z cnt).ctx.lrk ∧ (runEnd bs ctx z cnt).ctx.lrk ≤ 16) ∧
    ((runEnd bs ctx z cnt).ok = false → (runEnd bs ctx z cnt).ctx = ctx) := by
  have hrk : ctx.rk ≤ 15 := by
    rw [h.2.1]
    exact J_le _ h.1
  have h2 : (if ctx.runIndex ≠ 0 then Context.runDown { ctx with lrk := ctx.rk + 1 }
      else { ctx with lrk := ctx.rk + 1 }).runOk ∧
      (if ctx.runIndex ≠ 0 then Context.runDown { ctx with lrk := ctx.rk + 1 }
        else { ctx with lrk := ctx.rk + 1 }).lrk = ctx.rk + 1 ∧
      (if ctx.runIndex ≠ 0 then Context.runDown { ctx with lrk := ctx.rk + 1 }
        else { ctx with lrk := ctx.rk + 1 }).runIndex = ctx.runIndex - 1 := by
    split
    · have hl : Context.runOk { ctx with lrk := ctx.rk + 1 } := h
      exact ⟨runOk_runDown hl, rfl, rfl⟩
    · rename_i h0
      refine ⟨h, rfl, ?_⟩
      simp only
      omega
  unfold runEnd
  cases bs.read (z + 1) with
  | none => exact ⟨h, fun e => by simp at e, fun _ => rfl⟩
  | some bs1 =>
    simp only
    by_cases hk : ctx.rk ≠ 0
    · rw [if_pos hk]
      cases bs1.read ctx.rk with
      | none => exact ⟨h, fun e => by simp at e, fun _ => rfl⟩
      | some bs2 =>
        simp only
        exact ⟨h2.1, fun _ => ⟨h2.2.1, h2.2.2, by rw [h2.2.1]; omega, by rw [h2.2.1]; omega⟩,
          fun e => by simp at e⟩
    · rw [if_neg hk]
      exact ⟨h2.1, fun _ => ⟨h2.2.1, h2.2.2, by rw [h2.2.1]; omega, by rw [h2.2.1]; omega⟩,
        fun e => by simp at e⟩

theorem runLoop_run (col fuel : Nat) (bs : BitStream) (ctx : Context) (cnt : Nat)
    (h : ctx.runOk) :
    (runLoop col fuel bs ctx cnt).ctx.runOk ∧
    ((runLoop col fuel bs ctx cnt).ctx.lrk = ctx.lrk ∨
      ((runLoop col fuel bs ctx cnt).ok = true ∧
        ∃ bs1 c1 z cnt1, c1.runOk ∧ c1.lrk = ctx.lrk ∧
          runLoop col fuel bs ctx cnt = runEnd bs1 c1 z cnt1)) := by
  induction fuel generalizing bs ctx cnt with
  | zero => exact ⟨h, Or.inl rfl⟩
  | succ f ih =>
    have hend : ∀ (b : BitStream) (c : Context) (z n : Nat), c.runOk → c.lrk = ctx.lrk →
        (runEnd b c z n).ctx.runOk ∧
        ((runEnd b c z n).ctx.lrk = ctx.lrk ∨
          ((runEnd b c z n).ok = true ∧
            ∃ bs1 c1 z1 cnt1, c1.runOk ∧ c1.lrk = ctx.lrk ∧
              runEnd b c z n = runEnd bs1 c1 z1 cnt1)) := by
      intro b c z n hc hl
      obtain ⟨e1, _, e3⟩ := runEnd_spec b c z n hc
      refine ⟨e1, ?_⟩
      cases hok : (runEnd b c z n).ok with
      | false =>
        left
        rw [e3 hok]
        exact hl
      | true => exact Or.inr ⟨rfl, b, c, z, n, hc, hl, rfl⟩
    unfold runLoop
    by_cases hv : 2 ^ 31 ≤ bs.value
    · simp only [hv, if_true]
      have hf := runOk_runFor col bs (Z.getD ((bs.value >>> 24) ^^^ 255) 0) 0 cnt ctx h
      cases hr : runFor col bs (Z.getD ((bs.value >>> 24) ^^^ 255) 0) 0 cnt ctx with
      | failed c =>
        rw [hr] at hf
        exact ⟨hf.1, Or.inl hf.2⟩
      | hit b c =>
        rw [hr] at hf
        exact ⟨hf.1, Or.inl hf.2⟩
      | through n c =>
        rw [hr] at hf
        simp only
        by_cases hz : Z.getD ((bs.value >>> 24) ^^^ 255) 0 ≠ 8
        · rw [if_pos hz]
          exact hend bs c _ n hf.1 hf.2
        · rw [if_neg hz]
          cases bs.read 8 with
          | none => exact ⟨hf.1, Or.inl hf.2⟩
          | some bs1 =>
            simp only
            obtain ⟨i1, i2⟩ := ih bs1 c n hf.1
            refine ⟨i1, ?_⟩
            rcases i2 with i2 | ⟨i3, b1, c1, z1, n1, i4, i5, i6⟩
            · exact Or.inl (i2.trans hf.2)
            · exact Or.inr ⟨i3, b1, c1, z1, n1, i4, i5.trans hf.2, i6⟩
    · simp only [hv, if_false]
      exact hend bs ctx 0 cnt h rfl

end JLS
namespace JLS

/-- C31: if before a call of `processRunMode` the context satisfies
runIndex <= 31, rk = J[runIndex] and rg = 2^rk, the same three relations hold
after the call, whether it returns true or false. Either the call leaves `lrk`
as it was (a failed call, or a run that fills the rest of the row), or it
returns true from the code after the inner loop, where the run has met a zero
bit: then `lrk` is the order `rk` that code was entered with plus 1 (so
1 <= lrk <= 16) and the run index is that of its entry minus 1, or 0 when it
was 0. -/
theorem run_state_invariant (bs : BitStream) (ctx : Context) (col : Nat) (h : ctx.runOk) :
    (processRunMode bs ctx col).ctx.runOk ∧
    ((processRunMode bs ctx col).ctx.lrk = ctx.lrk ∨
      ((processRunMode bs ctx col).ok = true ∧
        ∃ bs1 c1 z cnt1, c1.runOk ∧ processRunMode bs ctx col = runEnd bs1 c1 z cnt1 ∧
          (processRunMode bs ctx col).ctx.lrk = c1.rk + 1 ∧
          (processRunMode bs ctx col).ctx.runIndex = c1.runIndex - 1 ∧
          1 ≤ (processRunMode bs ctx col).ctx.lrk ∧
          (processRunMode bs ctx col).ctx.lrk ≤ 16)) ∧
    (∀ (b : BitStream) (c : Context) (z n : Nat), c.runOk →
      (runEnd b c z n).ctx.runOk ∧
      ((runEnd b c z n).ok = true →
        (runEnd b c z n).ctx.lrk = c.rk + 1 ∧ (runEnd b c z n).ctx.runIndex = c.runIndex - 1 ∧
        1 ≤ (runEnd b c z n).ctx.lrk ∧ (runEnd b c z n).ctx.lrk ≤ 16) ∧
      ((runEnd b c z n).ok = false → (runEnd b c z n).ctx = c)) := by
  obtain ⟨h1, h2⟩ := runLoop_run (col % 65536) (bs.remaining / 8 + 1) bs ctx 0 h
  refine ⟨h1, ?_, fun b c z n hc => runEnd_spec b c z n hc⟩
  rcases h2 with h2 | ⟨h3, b1, c1, z1, n1, h4, _, h6⟩
  · exact Or.inl h2
  · right
    refine ⟨h3, b1, c1, z1, n1, h4, h6, ?_⟩
    have hok : (runEnd b1 c1 z1 n1).ok = true := by
      rw [← h6]
      exact h3
    have e := (runEnd_spec b1 c1 z1 n1 h4).2.1 hok
    unfold processRunMode
    rw [h6]
    exact e

theorem run_state_invariant_witness :
    (processRunMode flatRow2.1 flatRow2.2 4).ctx.runOk ∧
    (processRunMode ⟨overrunStream, 0⟩ overrunContext 3).ctx.runOk :=
  ⟨(run_state_invariant flatRow2.1 flatRow2.2 4 (by decide)).1,
    (run_state_invariant ⟨overrunStream, 0⟩ overrunContext 3 (by decide)).1⟩

/-- Two calls of `processRunMode`: a run that fills a row of 4 at run index 0
(the index goes up to 4, `lrk` stays), and a run ended by a zero bit at run
index 8, order 2 (`lrk` becomes 3, the index goes down to 7). -/
theorem run_state_examples :
    ((processRunMode flatRow2.1 flatRow2.2 4).ok,
      (processRunMode flatRow2.1 flatRow2.2 4).samples,
      (processRunMode flatRow2.1 flatRow2.2 4).ctx.runIndex,
      (processRunMode flatRow2.1 flatRow2.2 4).ctx.lrk) = (true, 4, 4, 1) ∧
    ((processRunMode ⟨overrunStream, 0⟩ overrunContext 3).ok,
      (processRunMode ⟨overrunStream, 0⟩ overrunContext 3).samples,
      (processRunMode ⟨overrunStream, 0⟩ overrunContext 3).ctx.runIndex,
      (processRunMode ⟨overrunStream, 0⟩ overrunContext 3).ctx.rk,
      (processRunMode ⟨overrunStream, 0⟩ overrunContext 3).ctx.lrk) = (true, 5, 7, 1, 3) := by
  decide

end JLS

namespace JLS

/-! ## Every table read is inside its table -/

theorem readZ_eq {i : Nat} (h : i < 128) : readZ i = some (Z.getD i 0) := by
  have hl : i < Z.length := h
  unfold readZ
  rw [List.getD_eq_getElem?_getD, List.getElem?_eq_getElem hl]
  rfl

theorem readJ_eq {i : Nat} (h : i < 32) : readJ i = some (J.getD i 0) := by
  have hl : i < J.length := h
  unfold readJ
  rw [List.getD_eq_getElem?_getD, List.getElem?_eq_getElem hl]
  rfl

set_option maxRecDepth 8000 in
theorem xor_255_lt : ∀ B, B < 256 → 128 ≤ B → B ^^^ 255 < 128 := by
  decide

theorem zIndex_run (bs : BitStream) (h : 2 ^ 31 ≤ bs.value) :
    (bs.value >>> 24) ^^^ 255 < 128 := by
  have hlt := value_lt bs
  apply xor_255_lt
  · rw [Nat.shiftRight_eq_div_pow]
    norm_num at hlt ⊢
    omega
  · rw [Nat.shiftRight_eq_div_pow]
    norm_num at h ⊢
    omega

theorem zIndex_error (bs : BitStream) (h : bs.value < 2 ^ 31) : bs.value >>> 24 < 128 := by
  rw [Nat.shiftRight_eq_div_pow]
  norm_num at h ⊢
  omega

theorem runUpChecked_eq {ctx : Context} (h : ctx.runIndex < 31) :
    ctx.runUpChecked = some ctx.runUp := by
  unfold Context.runUpChecked
  rw [readJ_eq (by omega)]
  rfl

theorem runDownChecked_eq {ctx : Context} (h : ctx.runIndex ≤ 31) :
    ctx.runDownChecked = some ctx.runDown := by
  unfold Context.runDownChecked
  rw [readJ_eq (by omega)]
  rfl

theorem runForChecked_eq (col : Nat) (bs : BitStream) (todo i cnt : Nat) (ctx : Context) :
    runForChecked col bs todo i cnt ctx = some (runFor col bs todo i cnt ctx) := by
  induction todo generalizing i cnt ctx with
  | zero => rfl
  | succ t ih =>
    unfold runForChecked runFor
    simp only
    have h1 : (if (cnt + ctx.rg) % 65536 ≤ col ∧ ctx.runIndex < 31 then ctx.runUpChecked
        else some ctx)
        = some (if (cnt + ctx.rg) % 65536 ≤ col ∧ ctx.runIndex < 31 then ctx.runUp else ctx) := by
      split
      · rename_i hc
        exact runUpChecked_eq hc.2
      · rfl
    rw [h1]
    simp only
    by_cases hc : col ≤ (cnt + ctx.rg) % 65536
    · simp only [hc, if_true]
      cases bs.read (i + 1) <;> rfl
    · simp only [hc, if_false]
      exact ih _ _ _

theorem runEndChecked_eq (bs : BitStream) (ctx : Context) (z cnt : Nat)
    (h : ctx.runIndex ≤ 31) : runEndChecked bs ctx z cnt = some (runEnd bs ctx z cnt) := by
  have h2 : (if ctx.runIndex ≠ 0 then Context.runDownChecked { ctx with lrk := ctx.rk + 1 }
      else some { ctx with lrk := ctx.rk + 1 })
      = some (if ctx.runIndex ≠ 0 then Context.runDown { ctx with lrk := ctx.rk + 1 }
        else { ctx with lrk := ctx.rk + 1 }) := by
    split
    · have hl : (Context.runIndex { ctx with lrk := ctx.rk + 1 }) ≤ 31 := h
      exact runDownChecked_eq hl
    · rfl
  unfold runEndChecked runEnd
  cases bs.read (z + 1) with
  | none => rfl
  | some bs1 =>
    simp only
    by_cases hk : ctx.rk ≠ 0
    · rw [if_pos hk, if_pos hk]
      cases bs1.read ctx.rk with
      | none => rfl
      | some bs2 =>
        simp only
        rw [h2]
    · rw [if_neg hk, if_neg hk, h2]

theorem runLoopChecked_eq (col fuel : Nat) (bs : BitStream) (ctx : Context) (cnt : Nat)
    (h : ctx.runOk) : runLoopChecked col fuel bs ctx cnt = some (runLoop col fuel bs ctx cnt) := by
  induction fuel generalizing bs ctx cnt with
  | zero => rfl
  | succ f ih =>
    unfold runLoopChecked runLoop
    by_cases hv : 2 ^ 31 ≤ bs.value
    · simp only [hv, if_true]
      rw [readZ_eq (zIndex_run bs hv)]
      simp only
      rw [runForChecked_eq]
      have hf := runOk_runFor col bs (Z.getD ((bs.value >>> 24) ^^^ 255) 0) 0 cnt ctx h
      cases hr : runFor col bs (Z.getD ((bs.value >>> 24) ^^^ 255) 0) 0 cnt ctx with
      | failed c => rfl
      | hit b c => rfl
      | through n c =>
        rw [hr] at hf
        simp only
        by_cases hz : Z.getD ((bs.value >>> 24) ^^^ 255) 0 ≠ 8
        · rw [if_pos hz, if_pos hz]
          exact runEndChecked_eq bs c _ n hf.1.1
        · rw [if_neg hz, if_neg hz]
          cases bs.read 8 with
          | none => rfl
          | some bs1 => exact ih bs1 c n hf.1
    · simp only [hv, if_false]
      exact runEndChecked_eq bs ctx 0 cnt h.1

theorem zeroRunChecked_eq (fuel : Nat) (bs : BitStream) (m : Nat) :
    zeroRunChecked fuel bs m = some (zeroRun fuel bs m) := by
  induction fuel generalizing bs m with
  | zero => rfl
  | succ f ih =>
    unfold zeroRunChecked zeroRun
    by_cases hv : bs.value < 2 ^ 31
    · rw [if_pos hv, if_pos hv, readZ_eq (zIndex_error bs hv)]
      simp only
      by_cases h0 : bs.value >>> 24 ≠ 0
      · rw [if_pos h0, if_pos h0]
      · rw [if_neg h0, if_neg h0]
        cases bs.read 8 with
        | none => rfl
        | some bs1 => exact ih bs1 _
    · rw [if_neg hv, if_neg hv]

set_option maxRecDepth 4000 in
theorem Z_leading : ∀ b, b < 128 → Z.getD b 0 = leadingZeros8 b := by
  decide

/-- C32: the table `Z` has 128 entries, `Z[b]` being the number of leading
zero bits of the 8-bit value b (`Z[0]` = 8), and `J` has 32. For every
lookahead value the index (top byte XOR 0xff) that `processRunMode` reads `Z`
with, used when the top bit is 1, and the index (top byte) that `decodeError`
reads `Z` with, used when the top bit is 0, are below 128; with every read of
`Z` and of `J` checked against its table, `processRunMode` from a consistent
run-length state (run index at most 31) and the prefix loop of `decodeError`
never read outside: the checked functions give the results of the unchecked
ones. -/
theorem table_lookups_in_range :
    Z.length = 128 ∧ J.length = 32 ∧ Z.getD 0 0 = 8 ∧
    (∀ b, b < 128 → Z.getD b 0 = leadingZeros8 b) ∧
    (∀ bs : BitStream, 2 ^ 31 ≤ bs.value → (bs.value >>> 24) ^^^ 255 < 128) ∧
    (∀ bs : BitStream, bs.value < 2 ^ 31 → bs.value >>> 24 < 128) ∧
    (∀ ctx : Context, ctx.runIndex < 31 → ctx.runUpChecked = some ctx.runUp) ∧
    (∀ ctx : Context, ctx.runIndex ≤ 31 → ctx.runDownChecked = some ctx.runDown) ∧
    (∀ (bs : BitStream) (ctx : Context) (col : Nat), ctx.runOk →
      processRunModeChecked bs ctx col = some (processRunMode bs ctx col)) ∧
    (∀ (fuel : Nat) (bs : BitStream) (m : Nat),
      zeroRunChecked fuel bs m = some (zeroRun fuel bs m)) :=
  ⟨rfl, rfl, rfl, Z_leading, zIndex_run, zIndex_error, fun _ h => runUpChecked_eq h,
    fun _ h => runDownChecked_eq h, fun bs ctx _ h => runLoopChecked_eq _ _ bs ctx 0 h,
    zeroRunChecked_eq⟩

theorem table_lookups_in_range_witness :
    processRunModeChecked ⟨overrunStream, 0⟩ overrunContext 3
      = some (processRunMode ⟨overrunStream, 0⟩ overrunContext 3) :=
  table_lookups_in_range.2.2.2.2.2.2.2.2.1 ⟨overrunStream, 0⟩ overrunContext 3 (by decide)

set_option maxRecDepth 8000 in
/-- A read outside the tables is what the checks catch: index 128 of `Z`,
index 32 of `J`, and the decrement of a run index 33. -/
theorem table_reads_outside :
    readZ 128 = none ∧ readJ 32 = none ∧
    Context.runDownChecked { overrunContext with runIndex := 33 } = none :=
  ⟨rfl, rfl, rfl⟩

end JLS

namespace JLS

/-! ## The search for the Golomb parameter -/

theorem find_range (P : Nat → Bool) (N k : Nat) :
    (List.range N).find? P = some k ↔ k < N ∧ P k = true ∧ ∀ j, j < k → P j = false := by
  induction N generalizing k with
  | zero => simp
  | succ N ih =>
    rw [List.range_succ, List.find?_append]
    cases h : (List.range N).find? P with
    | some k0 =>
      obtain ⟨h1, h2, h3⟩ := (ih k0).1 h
      simp only [Option.or_some, Option.some.injEq]
      constructor
      · intro e
        subst e
        exact ⟨by omega, h2, h3⟩
      · rintro ⟨g1, g2, g3⟩
        rcases Nat.lt_trichotomy k0 k with hlt | heq | hgt
        · rw [g3 k0 hlt] at h2
          exact absurd h2 (by decide)
        · exact heq
        · rw [h3 k hgt] at g2
          exact absurd g2 (by decide)
    | none =>
      have hall : ∀ j, j < N → P j = false := by
        intro j hj
        have := List.find?_eq_none.1 h j (List.mem_range.2 hj)
        simpa using this
      simp only [Option.none_or]
      by_cases hN : P N = true
      · simp only [List.find?_cons, hN, Option.some.injEq]
        constructor
        · intro e
          subst e
          exact ⟨by omega, hN, hall⟩
        · rintro ⟨g1, g2, g3⟩
          rcases Nat.lt_trichotomy N k with hlt | heq | hgt
          · rw [g3 N hlt] at hN
            exact absurd hN (by decide)
          · exact heq
          · rw [hall k hgt] at g2
            exact absurd g2 (by decide)
      · have hN2 : P N = false := by simpa using hN
        simp only [List.find?_cons, hN2, List.find?_nil]
        constructor
        · intro e
          exact absurd e (by simp)
        · rintro ⟨g1, g2, g3⟩
          rcases Nat.lt_or_ge k N with hlt | hge
          · rw [hall k hlt] at g2
            exact absurd g2 (by decide)
          · have : k = N := by omega
            rw [this, hN2] at g2
            exact absurd g2 (by decide)

theorem kSearch_eq_some (n a : Int) (k : Nat) :
    kSearch n a = some k ↔
      k < 32 ∧ a ≤ n * 2 ^ k ∧ (∀ j, j < k → n * 2 ^ j < a) ∧ n * 2 ^ k < 2 ^ 31 := by
  unfold kSearch
  cases h : (List.range 32).find? (fun k => !decide (n * 2 ^ k < a)) with
  | none =>
    refine ⟨fun e => absurd e (by simp), ?_⟩
    rintro ⟨g1, g2, g3, _⟩
    have hk : (List.range 32).find? (fun k => !decide (n * 2 ^ k < a)) = some k := by
      rw [find_range]
      refine ⟨g1, ?_, ?_⟩
      · simp only [Bool.not_eq_true', decide_eq_false_iff_not, not_lt]
        exact g2
      · intro j hj
        simp only [Bool.not_eq_false', decide_eq_true_eq]
        exact g3 j hj
    rw [hk] at h
    exact absurd h (by simp)
  | some k0 =>
    obtain ⟨h1, h2, h3⟩ := (find_range _ 32 k0).1 h
    simp only [Bool.not_eq_true', decide_eq_false_iff_not, not_lt] at h2
    simp only [Bool.not_eq_false', decide_eq_true_eq] at h3
    simp only
    by_cases hs : n * 2 ^ k0 < 2 ^ 31
    · rw [if_pos hs]
      simp only [Option.some.injEq]
      constructor
      · intro e
        subst e
        exact ⟨h1, h2, h3, hs⟩
      · rintro ⟨g1, g2, g3, _⟩
        rcases Nat.lt_trichotomy k0 k with hlt | heq | hgt
        · exact absurd (g3 k0 hlt) (not_lt.2 h2)
        · exact heq
        · exact absurd (h3 k hgt) (not_lt.2 g2)
    · rw [if_neg hs]
      refine ⟨fun e => absurd e (by simp), ?_⟩
      rintro ⟨g1, g2, g3, g4⟩
      rcases Nat.lt_trichotomy k0 k with hlt | heq | hgt
      · exact absurd (g3 k0 hlt) (not_lt.2 h2)
      · rw [heq] at hs
        exact absurd g4 hs
      · exact absurd (h3 k hgt) (not_lt.2 g2)

/-- The search has a result whenever the count is at least 1 and the
accumulator at most 2^30: no shift leaves the range of `int`. -/
theorem kSearch_total (n a : Int) (hn : 1 ≤ n) (hn2 : n < 2 ^ 31) (ha : a ≤ 2 ^ 30) :
    ∃ k, kSearch n a = some k ∧ k ≤ 30 := by
  have hex : ∃ k : Nat, a ≤ n * 2 ^ k := by
    refine ⟨30, ?_⟩
    nlinarith [show (0 : Int) < 2 ^ 30 by norm_num]
  classical
  refine ⟨Nat.find hex, ?_, ?_⟩
  · rw [kSearch_eq_some]
    have h30 : Nat.find hex ≤ 30 := by
      apply Nat.find_min'
      nlinarith [show (0 : Int) < 2 ^ 30 by norm_num]
    refine ⟨by omega, Nat.find_spec hex, ?_, ?_⟩
    · intro j hj
      exact not_le.1 (Nat.find_min hex hj)
    · rcases Nat.eq_zero_or_pos (Nat.find hex) with h0 | hpos
      · rw [h0]
        simpa using hn2
      · have hprev := not_le.1 (Nat.find_min hex (Nat.sub_lt hpos Nat.one_pos))
        have hsplit : n * 2 ^ Nat.find hex = 2 * (n * 2 ^ (Nat.find hex - 1)) := by
          have : Nat.find hex = (Nat.find hex - 1) + 1 := by omega
          conv_lhs => rw [this, pow_succ]
          ring
        rw [hsplit]
        norm_num at ha ⊢
        omega
  · apply Nat.find_min'
    nlinarith [show (0 : Int) < 2 ^ 30 by norm_num]

theorem runTemp_lt (ctx : Context) (rctx : Nat) : runTemp ctx rctx < 2 ^ 16 := by
  unfold runTemp
  have := Int.emod_lt_of_pos (acc ctx.a (rctx + 2) + (if rctx = 1 then acc ctx.n (rctx + 2) >>> 1 else 0)) (show (0 : Int) < 65536 by norm_num)
  norm_num at this ⊢
  exact this

/-- C36 (counterexample): with the sample count 1 and the accumulator
2^30 + 1 the least k with n * 2^k >= a is 31, and the test `n << 31 < a`
shifts the count out of the range of `int`: the search has no defined
result. -/
theorem kSearch_overflows :
    kSearch 1 (2 ^ 30 + 1) = none ∧ ((2 : Int) ^ 30 + 1 ≤ 1 * 2 ^ 31) ∧
    (List.range 31).all (fun j => decide ((1 : Int) * 2 ^ j < 2 ^ 30 + 1)) = true := by
  decide

/-- C36 (amended): whenever the sample count n of the category is at least 1
and the accumulator a is at most 2^30, the search for k has a result, the
least k with n * 2^k >= a, which is 0 when a <= n. -/
theorem kSearch_least (n a : Int) (hn : 1 ≤ n) (hn2 : n < 2 ^ 31) (ha : a ≤ 2 ^ 30) :
    ∃ k, kSearch n a = some k ∧ a ≤ n * 2 ^ k ∧ (∀ j, j < k → n * 2 ^ j < a) ∧
      (a ≤ n → k = 0) := by
  obtain ⟨k, hk, _⟩ := kSearch_total n a hn hn2 ha
  have h := (kSearch_eq_some n a k).1 hk
  refine ⟨k, hk, h.2.1, h.2.2.1, ?_⟩
  intro hle
  by_contra hne
  have := h.2.2.1 0 (Nat.pos_of_ne_zero hne)
  simp only [pow_zero, mul_one] at this
  omega

theorem kSearch_least_witness :
    ∃ k, kSearch 3 20 = some k ∧ (20 : Int) ≤ 3 * 2 ^ k ∧ (∀ j, j < k → (3 : Int) * 2 ^ j < 20) ∧
      ((20 : Int) ≤ 3 → k = 0) :=
  kSearch_least 3 20 (by decide) (by decide) (by decide)

/-- The search on sample values: k = 3 for n = 3, a = 20; k = 0 when a <= n;
k = 30 at the largest accumulator the amended claim admits; and in a run
interruption, where a is the 16-bit `TEMP`, the search always has a result. -/
theorem kSearch_examples :
    kSearch 3 20 = some 3 ∧ kSearch 5 5 = some 0 ∧ kSearch 5 (-7) = some 0 ∧
    kSearch 1 (2 ^ 30) = some 30 ∧ kSearch 64 (2 ^ 30) = some 24 ∧
    (∀ (ctx : Context) (rctx : Nat), 1 ≤ acc ctx.n (rctx + 2) → acc ctx.n (rctx + 2) < 2 ^ 31 →
      ∃ k, kSearch (acc ctx.n (rctx + 2)) (runTemp ctx rctx) = some k ∧ k ≤ 30) := by
  refine ⟨by decide, by decide, by decide, by decide, by decide, ?_⟩
  intro ctx rctx h1 h2
  have ht := runTemp_lt ctx rctx
  exact kSearch_total _ _ h1 h2 (by norm_num at ht ⊢; omega)

end JLS

namespace JLS

/-! ## Why a row fails -/

theorem category_zero_differs (p : Params) (Ra Rc : Int) :
    ¬ (runCategory p Ra Rc = 0 ∧ Ra = Rc) := by
  rintro ⟨h, e⟩
  unfold runCategory at h
  rw [e, sub_self, abs_zero, if_pos (Int.ofNat_nonneg _)] at h
  exact absurd h (by decide)

theorem regularStep_fails (p : Params) (st st1 : Line) (f : Failure)
    (h : regularStep p st = StepResult.fail f st1) :
    (f = Failure.truncated ∧ ∃ k, kSearch (acc st.ctx.n 1) (acc st.ctx.a 1) = some k ∧
      (decodeError p st.bs (p.limit % 256).toNat k).ok = false) ∨
    (f = Failure.undefined ∧ kSearch (acc st.ctx.n 1) (acc st.ctx.a 1) = none) := by
  unfold regularStep at h
  cases hk : kSearch (acc st.ctx.n 1) (acc st.ctx.a 1) with
  | none =>
    rw [hk] at h
    simp only [StepResult.fail.injEq] at h
    exact Or.inr ⟨h.1.symm, rfl⟩
  | some k =>
    rw [hk] at h
    simp only at h
    cases hd : (decodeError p st.bs (p.limit % 256).toNat k).ok with
    | false =>
      simp only [hd, Bool.not_false, if_true, StepResult.fail.injEq] at h
      exact Or.inl ⟨h.1.symm, k, rfl, hd⟩
    | true =>
      simp only [hd, Bool.not_true, Bool.false_eq_true, if_false] at h
      exact absurd h (by simp)

theorem interruption_fails (p : Params) (st st1 : Line) (f : Failure)
    (h : interruption p st = StepResult.fail f st1) :
    (f = Failure.truncated ∧
      ∃ k, kSearch (acc st.ctx.n (runCategory p st.Ra st.Rc + 2))
          (runTemp st.ctx (runCategory p st.Ra st.Rc)) = some k ∧
        (decodeError p st.bs ((p.limit - (st.ctx.lrk : Int)) % 256).toNat k).ok = false) ∨
    (f = Failure.undefined ∧
      kSearch (acc st.ctx.n (runCategory p st.Ra st.Rc + 2))
        (runTemp st.ctx (runCategory p st.Ra st.Rc)) = none) := by
  unfold interruption at h
  simp only at h
  cases hk : kSearch (acc st.ctx.n (runCategory p st.Ra st.Rc + 2))
      (runTemp st.ctx (runCategory p st.Ra st.Rc)) with
  | none =>
    rw [hk] at h
    simp only [StepResult.fail.injEq] at h
    exact Or.inr ⟨h.1.symm, rfl⟩
  | some k =>
    rw [hk] at h
    simp only at h
    cases hd : (decodeError p st.bs ((p.limit - (st.ctx.lrk : Int)) % 256).toNat k).ok with
    | false =>
      simp only [hd, Bool.not_false, if_true, StepResult.fail.injEq] at h
      exact Or.inl ⟨h.1.symm, k, rfl, hd⟩
    | true =>
      simp only [hd, Bool.not_true, Bool.false_eq_true, if_false] at h
      rw [if_neg (category_zero_differs p st.Ra st.Rc)] at h
      exact absurd h (by simp)

theorem runStep_interruption (p : Params) (st s : Line) (h : interruptionStart st = some s) :
    runStep p st = interruption p s ∧
    (processRunMode st.bs st.ctx (runLength st)).ok = true := by
  unfold interruptionStart at h
  unfold runStep
  simp only at h ⊢
  cases hok : (processRunMode st.bs st.ctx (runLength st)).ok with
  | false =>
    simp only [hok, Bool.not_false, if_true] at h
    exact absurd h (by simp)
  | true =>
    simp only [hok, Bool.not_true, Bool.false_eq_true, if_false] at h ⊢
    by_cases hs : (processRunMode st.bs st.ctx (runLength st)).samples ≠ 0
    · rw [if_pos hs] at h ⊢
      cases hf : (fillRun (processRunMode st.bs st.ctx (runLength st)).samples
          { st with bs := (processRunMode st.bs st.ctx (runLength st)).bs,
                    ctx := (processRunMode st.bs st.ctx (runLength st)).ctx }).1 with
      | false =>
        simp only [hf, Bool.not_false, if_true] at h
        exact absurd h (by simp)
      | true =>
        simp only [hf, Bool.not_true, Bool.false_eq_true, if_false] at h ⊢
        split at h
        · exact absurd h (by simp)
        · rename_i hw
          rw [if_neg hw]
          simp only [Option.some.injEq] at h
          rw [h]
          exact ⟨rfl, trivial⟩
    · rw [if_neg hs] at h ⊢
      simp only [Option.some.injEq] at h
      rw [h]
      exact ⟨rfl, trivial⟩

theorem runStep_fails (p : Params) (st st1 : Line) (f : Failure)
    (h : runStep p st = StepResult.fail f st1) :
    (f = Failure.truncated ∧ (processRunMode st.bs st.ctx (runLength st)).ok = false) ∨
    (f = Failure.overrun ∧ (processRunMode st.bs st.ctx (runLength st)).ok = true ∧
      st.ctx.w + 1 < st.col + (processRunMode st.bs st.ctx (runLength st)).samples) ∨
    (∃ s, interruptionStart st = some s ∧ interruption p s = StepResult.fail f st1) := by
  cases hi : interruptionStart st with
  | some s =>
    rw [(runStep_interruption p st s hi).1] at h
    exact Or.inr (Or.inr ⟨s, rfl, h⟩)
  | none =>
    unfold interruptionStart at hi
    unfold runStep at h
    simp only at h hi
    cases hok : (processRunMode st.bs st.ctx (runLength st)).ok with
    | false =>
      simp only [hok, Bool.not_false, if_true, StepResult.fail.injEq] at h
      exact Or.inl ⟨h.1.symm, rfl⟩
    | true =>
      simp only [hok, Bool.not_true, Bool.false_eq_true, if_false] at h hi
      by_cases hs : (processRunMode st.bs st.ctx (runLength st)).samples ≠ 0
      · rw [if_pos hs] at h hi
        have hsh := (fillRun_shape p (processRunMode st.bs st.ctx (runLength st)).samples
          { st with bs := (processRunMode st.bs st.ctx (runLength st)).bs,
                    ctx := (processRunMode st.bs st.ctx (runLength st)).ctx }).2.2.1
        have hw := (sameRows_processRunMode st.bs st.ctx (runLength st)).1
        cases hf : (fillRun (processRunMode st.bs st.ctx (runLength st)).samples
            { st with bs := (processRunMode st.bs st.ctx (runLength st)).bs,
                      ctx := (processRunMode st.bs st.ctx (runLength st)).ctx }).1 with
        | false =>
          simp only [hf, Bool.not_false, if_true, StepResult.fail.injEq] at h
          have := (hsh.1 hf).2
          simp only [hw] at this
          exact Or.inr (Or.inl ⟨h.1.symm, rfl, this⟩)
        | true =>
          simp only [hf, Bool.not_true, Bool.false_eq_true, if_false] at h hi
          split at hi
          · rename_i hc
            rw [if_pos hc] at h
            exact absurd h (by simp)
          · exact absurd hi (by simp)
      · rw [if_neg hs] at hi
        exact absurd hi (by simp)

theorem lineStep_fails (p : Params) (st st1 : Line) (f : Failure)
    (h : lineStep p st = StepResult.fail f st1) : st.cause p f := by
  unfold lineStep at h
  split at h
  · rcases regularStep_fails p st st1 f h with ⟨e, hk⟩ | ⟨e, hk⟩
    · rw [e]
      exact Or.inl hk
    · rw [e]
      exact Or.inl hk
  · rcases runStep_fails p st st1 f h with ⟨e, hk⟩ | ⟨e, hk⟩ | ⟨s, hs, hi⟩
    · rw [e]
      exact Or.inr (Or.inl hk)
    · rw [e]
      exact hk
    · rcases interruption_fails p s st1 f hi with ⟨e, k, hk, hd⟩ | ⟨e, hk⟩
      · rw [e]
        exact Or.inr (Or.inr ⟨s, k, hs, hk, hd⟩)
      · rw [e]
        exact Or.inr ⟨s, hs, hk⟩

theorem lineLoop_not_sameNeighbours (p : Params) (fuel : Nat) (st : Line) :
    (lineLoop p fuel st).err ≠ some Failure.sameNeighbours := by
  induction fuel generalizing st with
  | zero =>
    unfold lineLoop
    simp
  | succ n ih =>
    unfold lineLoop
    cases hr : lineStep p st with
    | fail f st1 =>
      simp only
      intro e
      simp only [Option.some.injEq] at e
      have := lineStep_fails p st st1 f hr
      rw [e] at this
      exact this
    | stop st1 => simp
    | next st1 =>
      simp only
      split
      · exact ih st1
      · simp

/-- A failure of the row loop, when the fuel is enough, is the failure of a
pass of the body. -/
theorem lineLoop_fails (p : Params) (fuel : Nat) (st : Line) (h : st.inRange p)
    (hc : st.col ≤ st.ctx.w + 1) (hf : st.ctx.w + 1 < st.col + fuel) (f : Failure)
    (he : (lineLoop p fuel st).err = some f) :
    ∃ s ∈ stepStarts p fuel st, ∃ st1, lineStep p s = StepResult.fail f st1 := by
  induction fuel generalizing st with
  | zero => omega
  | succ n ih =>
    unfold lineLoop at he
    unfold stepStarts
    obtain ⟨s1, s2, s3, s4⟩ := stepOk_lineStep p st h
    cases hr : lineStep p st with
    | fail fl st1 =>
      rw [hr] at he
      simp only [Option.some.injEq] at he
      rw [← he]
      exact ⟨st, List.mem_cons_self _ _, st1, hr⟩
    | stop st1 =>
      rw [hr] at he
      simp at he
    | next st1 =>
      rw [hr] at he s1 s2
      simp only at he ⊢
      have hcol := s3 st1 hr
      have hw : st1.ctx.w = st.ctx.w := s2.1
      by_cases hle : st1.col ≤ st1.ctx.w
      · rw [if_pos hle] at he ⊢
        obtain ⟨s, hs, r⟩ := ih st1 s1 (by omega) (by omega) he
        exact ⟨s, List.mem_cons_of_mem _ hs, r⟩
      · rw [if_neg hle] at he
        simp at he

theorem inRange_first (p : Params) (bs : BitStream) (ctx : Context)
    (h1 : ctx.last.getD 1 0 ≤ p.maxval) : (Line.first bs ctx).inRange p := by
  refine ⟨⟨?_, ?_⟩, ?_, ?_, Nat.le_refl 1⟩
  · exact Int.ofNat_nonneg _
  · exact Int.ofNat_le.2 h1
  · intro e he
    rw [List.mem_singleton.1 he]
    exact h1
  · intro i hi1 hi2
    simp only [Line.first] at hi2
    omega

theorem kept_interruptionStart {p : Params} {P : Line → Prop} (k : Kept p P) (st s : Line)
    (h : P st) (hi : interruptionStart st = some s) : P s := by
  unfold interruptionStart at hi
  simp only at hi
  have h1 := k.run st (runLength st) h
  cases hok : (processRunMode st.bs st.ctx (runLength st)).ok with
  | false =>
    simp only [hok, Bool.not_false, if_true] at hi
    exact absurd hi (by simp)
  | true =>
    simp only [hok, Bool.not_true, Bool.false_eq_true, if_false] at hi
    by_cases hs : (processRunMode st.bs st.ctx (runLength st)).samples ≠ 0
    · rw [if_pos hs] at hi
      have h2 := kept_fillRun k (processRunMode st.bs st.ctx (runLength st)).samples _ h1
      split at hi
      · exact absurd hi (by simp)
      · split at hi
        · exact absurd hi (by simp)
        · simp only [Option.some.injEq] at hi
          rw [← hi]
          exact (k.reload _ h2).1
    · rw [if_neg hs] at hi
      simp only [Option.some.injEq] at hi
      rw [← hi]
      exact (k.reload _ h1).2

/-- With sample counts of at least 1 the search for `k` of a run
interruption has a result: the interruption fails only through
`decodeError`. -/
theorem interruption_counts (p : Params) (st : Line) (h : st.ctx.countsOk) :
    ∃ k, kSearch (acc st.ctx.n (runCategory p st.Ra st.Rc + 2))
      (runTemp st.ctx (runCategory p st.Ra st.Rc)) = some k := by
  have hr := acc_range h.2.2 (runCategory p st.Ra st.Rc + 2)
  have hle := runCategory_le p st.Ra st.Rc
  have ht := runTemp_lt st.ctx (runCategory p st.Ra st.Rc)
  obtain ⟨k, hk, _⟩ := kSearch_total (acc st.ctx.n (runCategory p st.Ra st.Rc + 2))
    (runTemp st.ctx (runCategory p st.Ra st.Rc)) (hr.2.2 (by rw [h.2.1]; omega))
    (by have := hr.2.1; norm_num; omega) (by norm_num at ht ⊢; omega)
  exact ⟨k, hk⟩

/-- C33: in the run interruption the condition of the failure branch, `rctx`
= 0 and `Ra == Rc`, never holds, so neither the interruption nor `readLine`
fails through it. Every failure of a pass of the loop body is a return value
false of `decodeError` or `processRunMode` (a failed bit-consume), or a run
that `processRunMode` returned longer than the rest of the row, the searches
for `k` without a defined result apart; and with sample counts of at least 1
and the sample above the first column in range, a failure of `readLine` is
the failure of one of its passes, where only the search of the regular mode
can be without a result. -/
theorem sameNeighbours_unreachable :
    (∀ (p : Params) (Ra Rc : Int), ¬ (runCategory p Ra Rc = 0 ∧ Ra = Rc)) ∧
    (∀ (p : Params) (st st1 : Line) (f : Failure),
      interruption p st = StepResult.fail f st1 → f ≠ Failure.sameNeighbours) ∧
    (∀ (p : Params) (st st1 : Line) (f : Failure),
      lineStep p st = StepResult.fail f st1 → st.cause p f) ∧
    (∀ (p : Params) (bs : BitStream) (ctx : Context),
      (readLine p bs ctx).err ≠ some Failure.sameNeighbours) ∧
    (∀ (p : Params) (bs : BitStream) (ctx : Context) (f : Failure), ctx.countsOk →
      ctx.last.getD 1 0 ≤ p.maxval → (readLine p bs ctx).err = some f →
      ∃ s ∈ lineStarts p bs ctx, s.cause p f ∧
        (f = Failure.truncated ∨ f = Failure.overrun ∨
          (f = Failure.undefined ∧ kSearch (acc s.ctx.n 1) (acc s.ctx.a 1) = none))) := by
  refine ⟨category_zero_differs, ?_, lineStep_fails, fun p bs ctx =>
    lineLoop_not_sameNeighbours p _ _, ?_⟩
  · intro p st st1 f h
    rcases interruption_fails p st st1 f h with ⟨e, _⟩ | ⟨e, _⟩ <;> rw [e] <;> decide
  · intro p bs ctx f hcnt h1 he
    obtain ⟨s, hs, st1, hfail⟩ := lineLoop_fails p (ctx.w + 1) (Line.first bs ctx)
      (inRange_first p bs ctx h1) (Nat.succ_le_succ (Nat.zero_le _))
      (by simp only [Line.first]; omega) f he
    have hP := (kept_stepStarts (kept_countsOk p) (fun _ _ _ _ _ => trivial) (ctx.w + 1)
      (Line.first bs ctx) hcnt (trivial : True) (Or.inr rfl) s hs).1
    have hcause := lineStep_fails p s st1 f hfail
    refine ⟨s, hs, hcause, ?_⟩
    cases f with
    | truncated => exact Or.inl rfl
    | overrun => exact Or.inr (Or.inl rfl)
    | sameNeighbours => exact absurd hcause id
    | undefined =>
      rcases hcause with hk | ⟨s2, hs2, hk⟩
      · exact Or.inr (Or.inr ⟨rfl, hk⟩)
      · have hP2 := kept_interruptionStart (kept_countsOk p) s s2 hP hs2
        obtain ⟨k, hk2⟩ := interruption_counts p s2 hP2
        rw [hk] at hk2
        exact absurd hk2 (by simp)

/-- The rows of the sample streams: the overrun input fails through a run of
5 samples in a row of 3, and the first row of the flat image does not fail. -/
theorem readLine_failure_examples :
    (readLine (Params.new 255 0 countMod32) ⟨overrunStream, 0⟩ overrunContext).err
      = some Failure.overrun ∧
    (readLine (Params.new 255 0 countMod32) ⟨flatStream, 0⟩ (Context.init 4 256)).err = none ∧
    (Line.first ⟨overrunStream, 0⟩ overrunContext).cause (Params.new 255 0 countMod32) Failure.overrun :=
  ⟨by decide, by decide, by simp only [Line.cause]; decide⟩

end JLS

namespace JLS

/-! ## The limit of the code length -/

theorem ceilLog2_le {n k : Nat} (hk : k ≤ 32) (h : n ≤ 2 ^ k) : ceilLog2 n ≤ k := by
  unfold ceilLog2
  cases hf : (List.range 33).find? (fun k => decide (n ≤ 2 ^ k)) with
  | none =>
    have := List.find?_eq_none.1 hf k (List.mem_range.2 (by omega))
    simp only [decide_eq_true_eq] at this
    exact absurd h this
  | some k0 =>
    obtain ⟨_, _, h3⟩ := (find_range _ 33 k0).1 hf
    simp only [Option.getD_some]
    by_contra hlt
    have := h3 k (by omega)
    simp only [decide_eq_false_iff_not] at this
    exact this h

theorem ceilLog2_spec {n : Nat} (h : n ≤ 2 ^ 32) : n ≤ 2 ^ ceilLog2 n ∧ ceilLog2 n ≤ 32 := by
  unfold ceilLog2
  cases hf : (List.range 33).find? (fun k => decide (n ≤ 2 ^ k)) with
  | none =>
    have := List.find?_eq_none.1 hf 32 (List.mem_range.2 (by omega))
    simp only [decide_eq_true_eq] at this
    exact absurd h this
  | some k0 =>
    obtain ⟨h1, h2, _⟩ := (find_range _ 33 k0).1 hf
    simp only [Option.getD_some]
    simp only [decide_eq_true_eq] at h2
    exact ⟨h2, by omega⟩

theorem ceilLog2_mono {a b : Nat} (hab : a ≤ b) (hb : b ≤ 2 ^ 32) : ceilLog2 a ≤ ceilLog2 b :=
  ceilLog2_le (ceilLog2_spec hb).2 (Nat.le_trans hab (ceilLog2_spec hb).1)

theorem range_le (maxval near : Nat) : (maxval + near * 2) / (near * 2 + 1) + 1 ≤ maxval + 1 := by
  apply Nat.succ_le_succ
  apply Nat.lt_succ_iff.1
  rw [Nat.div_lt_iff_lt_mul (by omega)]
  nlinarith

/-- The fields of `Params.new` for 16-bit arguments, the 8-bit casts
removed: no value wraps. -/
theorem params_new (maxval near : Nat) (us : Nat → Nat → Nat → Nat)
    (hm : maxval ≤ 65535) (hn : near ≤ 65535) :
    (Params.new maxval near us).range = (maxval + near * 2) / (near * 2 + 1) + 1 ∧
    (Params.new maxval near us).qbpp = ceilLog2 ((maxval + near * 2) / (near * 2 + 1) + 1) ∧
    (Params.new maxval near us).qbpp ≤ max 2 (ceilLog2 (maxval + 1)) ∧
    max 2 (ceilLog2 (maxval + 1)) ≤ 16 ∧
    (Params.new maxval near us).limit
      = ((2 * (max 2 (ceilLog2 (maxval + 1)) + max 8 (max 2 (ceilLog2 (maxval + 1)))) : Nat) : Int)
        - ((Params.new maxval near us).qbpp : Int) - 1 := by
  have e1 : maxval % 65536 = maxval := Nat.mod_eq_of_lt (by omega)
  have e2 : near % 65536 = near := Nat.mod_eq_of_lt (by omega)
  have hb : ceilLog2 (maxval + 1) ≤ 16 := ceilLog2_le (by decide) (by norm_num; omega)
  have hq : ceilLog2 ((maxval + near * 2) / (near * 2 + 1) + 1) ≤ ceilLog2 (maxval + 1) :=
    ceilLog2_mono (range_le maxval near) (by norm_num; omega)
  have hb2 : max 2 (ceilLog2 (maxval + 1)) ≤ 16 := max_le (by decide) hb
  have e3 : max 2 (ceilLog2 (maxval + 1)) % 256 = max 2 (ceilLog2 (maxval + 1)) :=
    Nat.mod_eq_of_lt (by omega)
  have hm8 : max 8 (max 2 (ceilLog2 (maxval + 1))) ≤ 16 := max_le (by decide) hb2
  have e4 : (2 * (max 2 (ceilLog2 (maxval + 1)) + max 8 (max 2 (ceilLog2 (maxval + 1))))) % 256
      = 2 * (max 2 (ceilLog2 (maxval + 1)) + max 8 (max 2 (ceilLog2 (maxval + 1)))) :=
    Nat.mod_eq_of_lt (by omega)
  unfold Params.new
  simp only [e1, e2, e3, e4]
  exact ⟨trivial, trivial, Nat.le_trans hq (le_max_right _ _), hb2, trivial⟩

theorem limit_range (maxval near : Nat) (us : Nat → Nat → Nat → Nat)
    (hm : maxval ≤ 65535) (hn : near ≤ 65535) :
    17 ≤ (Params.new maxval near us).limit ∧ (Params.new maxval near us).limit ≤ 63 := by
  obtain ⟨_, _, h3, h4, h5⟩ := params_new maxval near us hm hn
  rw [h5]
  have h2 : 2 ≤ max 2 (ceilLog2 (maxval + 1)) := le_max_left _ _
  have h8 : 8 ≤ max 8 (max 2 (ceilLog2 (maxval + 1))) := le_max_left _ _
  have hb : max 2 (ceilLog2 (maxval + 1)) ≤ max 8 (max 2 (ceilLog2 (maxval + 1))) :=
    le_max_right _ _
  have hm8 : max 8 (max 2 (ceilLog2 (maxval + 1))) ≤ 16 := max_le (by decide) h4
  generalize max 8 (max 2 (ceilLog2 (maxval + 1))) = c at *
  generalize max 2 (ceilLog2 (maxval + 1)) = b at *
  generalize (Params.new maxval near us).qbpp = q at *
  push_cast
  omega

theorem sameRun_halve (ctx : Context) (i : Nat) : ctx.sameRun (halve ctx i) := by
  unfold halve
  split <;> exact ⟨rfl, rfl, rfl, rfl⟩

theorem sameRun_biasFix (ctx : Context) : ctx.sameRun (biasFix ctx) := by
  unfold biasFix
  simp only
  split
  · exact ⟨rfl, rfl, rfl, rfl⟩
  · split <;> exact ⟨rfl, rfl, rfl, rfl⟩

theorem sameRun_trans {c d e : Context} (h1 : c.sameRun d) (h2 : d.sameRun e) : c.sameRun e :=
  ⟨h2.1.trans h1.1, h2.2.1.trans h1.2.1, h2.2.2.1.trans h1.2.2.1, h2.2.2.2.trans h1.2.2.2⟩

theorem sameRun_regularUpdate (ctx : Context) (meh mes : Int) :
    ctx.sameRun (regularUpdate ctx meh mes) := by
  unfold regularUpdate
  have h1 : ctx.sameRun { ctx with a := ctx.a.set 1 (acc ctx.a 1 + meh),
                                   b := ctx.b.set 1 (acc ctx.b 1 + mes) } := ⟨rfl, rfl, rfl, rfl⟩
  exact sameRun_trans (sameRun_trans h1 (sameRun_halve _ 1)) (sameRun_biasFix _)

theorem sameRun_runBias (ctx : Context) (i : Nat) (even : Bool) :
    ctx.sameRun (runBias ctx i even) := by
  unfold runBias
  split <;> exact ⟨rfl, rfl, rfl, rfl⟩

theorem sameRun_runUpdate (ctx : Context) (rctx : Nat) (evh : Int) :
    ctx.sameRun (runUpdate ctx rctx evh) := by
  unfold runUpdate
  have h1 : ctx.sameRun
      { ctx with a := ctx.a.set (rctx + 2) (acc ctx.a (rctx + 2) + (evh - (rctx : Int))) } :=
    ⟨rfl, rfl, rfl, rfl⟩
  exact sameRun_trans h1 (sameRun_halve _ _)

theorem runOk_of_sameRun {c d : Context} (h : c.sameRun d) (hc : c.runOk ∧ c.lrk ≤ 16) :
    d.runOk ∧ d.lrk ≤ 16 := by
  obtain ⟨e1, e2, e3, e4⟩ := h
  unfold Context.runOk at hc ⊢
  rw [e1, e2, e3, e4]
  exact hc

theorem runOk_processRunMode (bs : BitStream) (ctx : Context) (col : Nat)
    (h : ctx.runOk ∧ ctx.lrk ≤ 16) :
    (processRunMode bs ctx col).ctx.runOk ∧ (processRunMode bs ctx col).ctx.lrk ≤ 16 := by
  obtain ⟨h1, h2⟩ := runLoop_run (col % 65536) (bs.remaining / 8 + 1) bs ctx 0 h.1
  refine ⟨h1, ?_⟩
  rcases h2 with e | ⟨hok, bs1, c1, z, cnt1, hc1, _, he⟩
  · unfold processRunMode
    rw [e]
    exact h.2
  · unfold processRunMode
    rw [he] at hok ⊢
    exact ((runEnd_spec bs1 c1 z cnt1 hc1).2.1 hok).2.2.2

theorem kept_runOk (p : Params) : Kept p Line.runOk where
  bits _ _ h := h
  run st c h := runOk_processRunMode st.bs st.ctx c h
  fill _ h _ := h
  reload _ h := ⟨h, h⟩
  bias st _ i even h := runOk_of_sameRun (sameRun_runBias st.ctx i even) h
  regular st _ meh mes _ h _ := runOk_of_sameRun (sameRun_regularUpdate st.ctx meh mes) h
  interrupt st _ rctx even evh _ h _ _ :=
    runOk_of_sameRun (sameRun_trans (sameRun_runBias st.ctx (rctx + 2) even)
      (sameRun_runUpdate _ rctx evh)) h

theorem runOk_init (w range : Nat) :
    (Context.init w range).runOk ∧ (Context.init w range).lrk = 0 :=
  ⟨⟨Nat.zero_le _, rfl, rfl⟩, rfl⟩

theorem runOk_readLine (p : Params) (bs : BitStream) (ctx : Context)
    (h : ctx.runOk ∧ ctx.lrk ≤ 16) :
    (readLine p bs ctx).st.ctx.runOk ∧ (readLine p bs ctx).st.ctx.lrk ≤ 16 :=
  kept_lineLoop (kept_runOk p) (ctx.w + 1) (Line.first bs ctx) h (Or.inr rfl)

theorem runOk_rowState (p : Params) (i : Nat) (bs bs1 : BitStream) (ctx ctx1 : Context)
    (h : ctx.runOk ∧ ctx.lrk ≤ 16) (hr : rowState p i bs ctx = some (bs1, ctx1)) :
    ctx1.runOk ∧ ctx1.lrk ≤ 16 := by
  induction i generalizing bs ctx with
  | zero =>
    simp only [rowState, Option.some.injEq, Prod.mk.injEq] at hr
    rw [← hr.2]
    exact h
  | succ j ih =>
    unfold rowState at hr
    cases he : (readLine p bs ctx).err with
    | some f =>
      rw [he] at hr
      exact absurd hr (by simp)
    | none =>
      rw [he] at hr
      exact ih (readLine p bs ctx).st.bs (readLine p bs ctx).st.ctx.swap
        (runOk_readLine p bs ctx h) hr

/-- C34: for maxval and near in 0..65535 the constructor computes range <=
maxval + 1, qbpp <= bpp <= 16 (bpp being max(2, ceil(log2(maxval + 1)))) and
17 <= limit <= 63, the limit being LIMIT - qbpp - 1 without a wrap of the
8-bit values. The order `lrk` is 0 in the initial context and stays at most 16
along the rows; in every pass of `readLine` that enters a run interruption the
limit passed to `decodeError`, the 8-bit `limit - lrk`, is the difference
itself and at least 1. -/
theorem limit_arithmetic (maxval near : Nat) (us : Nat → Nat → Nat → Nat)
    (hm : maxval ≤ 65535) (hn : near ≤ 65535) :
    (Params.new maxval near us).range ≤ maxval + 1 ∧
    (Params.new maxval near us).qbpp ≤ max 2 (ceilLog2 (maxval + 1)) ∧
    max 2 (ceilLog2 (maxval + 1)) ≤ 16 ∧
    (Params.new maxval near us).limit
      = ((2 * (max 2 (ceilLog2 (maxval + 1)) + max 8 (max 2 (ceilLog2 (maxval + 1)))) : Nat) : Int)
        - ((Params.new maxval near us).qbpp : Int) - 1 ∧
    17 ≤ (Params.new maxval near us).limit ∧ (Params.new maxval near us).limit ≤ 63 ∧
    (((Params.new maxval near us).limit % 256).toNat : Int) = (Params.new maxval near us).limit ∧
    (∀ w, (Context.init w (Params.new maxval near us).range).runOk ∧
      (Context.init w (Params.new maxval near us).range).lrk = 0) ∧
    (∀ (i : Nat) (bs bs1 : BitStream) (ctx ctx1 : Context), ctx.runOk → ctx.lrk ≤ 16 →
      rowState (Params.new maxval near us) i bs ctx = some (bs1, ctx1) →
      ctx1.runOk ∧ ctx1.lrk ≤ 16) ∧
    (∀ (bs : BitStream) (ctx : Context), ctx.runOk → ctx.lrk ≤ 16 →
      ∀ s ∈ lineStarts (Params.new maxval near us) bs ctx, ∀ s2, interruptionStart s = some s2 →
        s2.ctx.lrk ≤ 16 ∧
        ((((Params.new maxval near us).limit - (s2.ctx.lrk : Int)) % 256).toNat : Int)
          = (Params.new maxval near us).limit - (s2.ctx.lrk : Int) ∧
        1 ≤ (((Params.new maxval near us).limit - (s2.ctx.lrk : Int)) % 256).toNat) := by
  obtain ⟨h1, _, h3, h4, h5⟩ := params_new maxval near us hm hn
  obtain ⟨l1, l2⟩ := limit_range maxval near us hm hn
  refine ⟨?_, h3, h4, h5, l1, l2, ?_, fun w => runOk_init w _,
    fun i bs bs1 ctx ctx1 hr hl hs => runOk_rowState _ i bs bs1 ctx ctx1 ⟨hr, hl⟩ hs, ?_⟩
  · rw [h1]
    exact range_le maxval near
  · omega
  · intro bs ctx hr hl s hs s2 hi
    have hP := (kept_stepStarts (kept_runOk (Params.new maxval near us))
      (fun _ _ _ _ _ => trivial) (ctx.w + 1) (Line.first bs ctx) ⟨hr, hl⟩ (trivial : True)
      (Or.inr rfl) s hs).1
    have hP2 := kept_interruptionStart (kept_runOk (Params.new maxval near us)) s s2 hP hi
    have h16 : s2.ctx.lrk ≤ 16 := hP2.2
    refine ⟨h16, by omega, by omega⟩

theorem limit_arithmetic_witness :
    (Params.new 255 0 countMod32).range ≤ 255 + 1 ∧
    (Params.new 255 0 countMod32).qbpp ≤ max 2 (ceilLog2 (255 + 1)) ∧
    max 2 (ceilLog2 (255 + 1)) ≤ 16 :=
  ⟨(limit_arithmetic 255 0 countMod32 (by decide) (by decide)).1,
    (limit_arithmetic 255 0 countMod32 (by decide) (by decide)).2.1,
    (limit_arithmetic 255 0 countMod32 (by decide) (by decide)).2.2.1⟩

/-- The parameters of sample images: maxval 255 gives range 256, qbpp 8 and
limit 23; maxval 65535 with near 0 gives limit 47; the corners of the argument
range give 19 and 62. -/
theorem limit_examples :
    ((Params.new 255 0 countMod32).range, (Params.new 255 0 countMod32).qbpp,
      (Params.new 255 0 countMod32).limit) = (256, 8, 23) ∧
    ((Params.new 65535 0 countMod32).range, (Params.new 65535 0 countMod32).qbpp,
      (Params.new 65535 0 countMod32).limit) = (65536, 16, 47) ∧
    (Params.new 0 0 countMod32).limit = 19 ∧ (Params.new 65535 65535 countMod32).limit = 62 ∧
    (Params.new 0 65535 countMod32).limit = 19 := by
  decide

end JLS

namespace JLS

/-! ## The error mapping of the regular mode -/

theorem errorMap_plain (p : Params) (ctx : Context) (k M : Nat) (hnear : p.near = 0)
    (hs : ¬ (k = 0 ∧ acc ctx.b 1 * 2 ≤ -(acc ctx.n 1))) :
    errorMap p ctx k M
      = (if M % 2 = 1 then (((M + 1) % 2 ^ 32 : Nat) : Int) / 2 else (M : Int) / 2,
         if M % 2 = 1 then -((((M + 1) % 2 ^ 32 : Nat) : Int) / 2) else (M : Int) / 2) := by
  unfold errorMap
  have hc : ¬ (p.near = 0 ∧ k = 0 ∧ acc ctx.b 1 * 2 ≤ -(acc ctx.n 1)) := fun h => hs h.2
  simp only [shiftRight_one]
  rw [if_neg hc, hnear]
  by_cases ho : M % 2 = 1
  · simp only [ho, if_true]
    norm_num
  · simp only [ho, if_false]
    norm_num

theorem errorMap_special (p : Params) (ctx : Context) (k M : Nat) (hnear : p.near = 0)
    (hs : k = 0 ∧ acc ctx.b 1 * 2 ≤ -(acc ctx.n 1)) :
    errorMap p ctx k M
      = (if M % 2 = 1 then (((M + 1) % 2 ^ 32 : Nat) : Int) / 2 - 1 else (M : Int) / 2 + 1,
         if M % 2 = 1 then (((M + 1) % 2 ^ 32 : Nat) : Int) / 2 - 1 else -((M : Int) / 2) - 1) := by
  unfold errorMap
  have hc : p.near = 0 ∧ k = 0 ∧ acc ctx.b 1 * 2 ≤ -(acc ctx.n 1) := ⟨hnear, hs⟩
  simp only [shiftRight_one]
  rw [if_pos hc]
  by_cases ho : M % 2 = 1
  · simp only [ho, if_true]
    norm_num
  · simp only [ho, if_false]

/-- C35 (counterexample): the 34 bits 0001 followed by thirty ones decode,
with k = 30, to the MErrval 2^32 - 1 (k = 30 is what the search gives for n =
1, a = 2^30). It is odd and `MErrval + 1` wraps to 0: the mapping gives mes =
0, not -(MErrval + 1) / 2 = -2^31; and where the bias special case applies the
pair is (-1, -1), a magnitude that is not the absolute value of mes. -/
theorem errorMap_wraps :
    kSearch 1 (2 ^ 30) = some 30 ∧
    (decodeError (Params.new 255 0 countMod32) ⟨[31, 255, 255, 255, 192], 0⟩ 23 30).ok = true ∧
    (decodeError (Params.new 255 0 countMod32) ⟨[31, 255, 255, 255, 192], 0⟩ 23 30).MErrval = 2 ^ 32 - 1 ∧
    errorMap (Params.new 255 0 countMod32) (Context.init 4 256) 30 (2 ^ 32 - 1) = (0, 0) ∧
    -((((2 ^ 32 - 1 : Nat) : Int) + 1) / 2) = -2 ^ 31 ∧
    errorMap (Params.new 255 0 countMod32) { Context.init 4 256 with b := [0, -1, 0, 0] } 0 (2 ^ 32 - 1)
      = (-1, -1) := by
  decide

/-- C35 (amended): in the regular mode with near = 0, for every decoded
MErrval below 2^32 - 1, every k and every accumulator state, the magnitude
meh added to `a[1]` is the absolute value of the signed error mes added to
`b[1]`; without the bias special case (k = 0 and 2 * b[1] <= -n[1]) mes is
MErrval / 2 for even MErrval and -(MErrval + 1) / 2 for odd MErrval, and with
it mes is that value replaced by -mes - 1. -/
theorem errorMap_near_zero (p : Params) (ctx : Context) (k M : Nat) (hnear : p.near = 0)
    (hM : M + 1 < 2 ^ 32) :
    (errorMap p ctx k M).1 = |(errorMap p ctx k M).2| ∧
    (¬ (k = 0 ∧ acc ctx.b 1 * 2 ≤ -(acc ctx.n 1)) →
      (errorMap p ctx k M).2 = if M % 2 = 0 then (M : Int) / 2 else -(((M : Int) + 1) / 2)) ∧
    (k = 0 ∧ acc ctx.b 1 * 2 ≤ -(acc ctx.n 1) →
      (errorMap p ctx k M).2
        = -(if M % 2 = 0 then (M : Int) / 2 else -(((M : Int) + 1) / 2)) - 1) := by
  have hm1 : (M + 1) % 2 ^ 32 = M + 1 := Nat.mod_eq_of_lt hM
  have hpar := Nat.mod_two_eq_zero_or_one M
  have hM0 : (0 : Int) ≤ (M : Int) := Int.ofNat_nonneg M
  by_cases hs : k = 0 ∧ acc ctx.b 1 * 2 ≤ -(acc ctx.n 1)
  · rw [errorMap_special p ctx k M hnear hs, hm1]
    refine ⟨?_, fun h => absurd hs h, fun _ => ?_⟩
    · rcases hpar with h0 | h1
      · rw [if_neg (by omega), if_neg (by omega)]
        simp only
        rw [abs_of_nonpos (by omega)]
        omega
      · rw [if_pos h1, if_pos h1]
        simp only
        rw [abs_of_nonneg (by push_cast; omega)]
    · simp only
      split_ifs <;> first | rfl | omega
  · rw [errorMap_plain p ctx k M hnear hs, hm1]
    refine ⟨?_, fun _ => ?_, fun h => absurd h hs⟩
    · rcases hpar with h0 | h1
      · rw [if_neg (by omega), if_neg (by omega)]
        simp only
        rw [abs_of_nonneg (by omega)]
      · rw [if_pos h1, if_pos h1]
        simp only
        rw [abs_neg, abs_of_nonneg (by push_cast; omega)]
    · simp only
      split_ifs <;> first | rfl | omega

theorem errorMap_near_zero_witness :
    (errorMap (Params.new 255 0 countMod32) (Context.init 4 256) 2 7).1
      = |(errorMap (Params.new 255 0 countMod32) (Context.init 4 256) 2 7).2| :=
  (errorMap_near_zero (Params.new 255 0 countMod32) (Context.init 4 256) 2 7 (by decide) (by decide)).1

/-- The mapping on sample values with near = 0: 6 gives (3, 3) and 7 gives
(4, -4); with the special case 6 gives (4, -4) and 7 gives (3, 3). -/
theorem errorMap_examples :
    errorMap (Params.new 255 0 countMod32) (Context.init 4 256) 2 6 = (3, 3) ∧
    errorMap (Params.new 255 0 countMod32) (Context.init 4 256) 2 7 = (4, -4) ∧
    errorMap (Params.new 255 0 countMod32) { Context.init 4 256 with b := [0, -1, 0, 0] } 0 6 = (4, -4) ∧
    errorMap (Params.new 255 0 countMod32) { Context.init 4 256 with b := [0, -1, 0, 0] } 0 7 = (3, 3) := by
  decide

end JLS

namespace ENC

/-! ## The rings of an area -/

theorem flatten_polyFlush (st : PolyState) : (polyFlush st).flatten = st.1.flatten ++ st.2 := by
  unfold polyFlush
  cases h : st.2 with
  | nil => simp
  | cons a l => simp

theorem edgePathSpec_ne_nil (COMF ORNT : Nat) (e : EdgeData) : edgePathSpec COMF ORNT e ≠ [] := by
  intro h
  have := length_edgePathSpec COMF ORNT e
  rw [h] at this
  simp only [List.length_nil] at this
  omega

theorem polyStep_of_resolves {vc ve : RecordMap} {COMF : Nat} {row : List QVariant}
    {ORNT : Nat} {e : EdgeData} (h : RowResolves vc ve COMF row ORNT e) (st : PolyState) :
    polyStep vc ve COMF row st
      = some (polyClose (cell row 2).toUInt
          ((if (cell row 2).toUInt = 2 ∧ st.1.isEmpty then (st.1 ++ [st.2], []) else st).1,
           (if (cell row 2).toUInt = 2 ∧ st.1.isEmpty then (st.1 ++ [st.2], []) else st).2
             ++ edgePathSpec COMF ORNT e)) := by
  obtain ⟨id, hname, hseg⟩ := edgeVertices_of_resolves h
  simp only [polyStep, polyAccum, hname, hseg]

/-- One pass over a resolved row from a state that is not the initial one:
the rings it emits are non-empty and no vertex is lost or added. -/
theorem polyStep_rings {vc ve : RecordMap} {COMF : Nat} {row : List QVariant}
    {ORNT : Nat} {e : EdgeData} (h : RowResolves vc ve COMF row ORNT e) (st : PolyState)
    (hJ : st.1 = [] → st.2 ≠ []) :
    ∃ st1 more, polyStep vc ve COMF row st = some st1 ∧ st1.1 = st.1 ++ more ∧
      (∀ ring ∈ more, ring ≠ []) ∧ (st1.1 = [] → st1.2 ≠ []) ∧
      st1.1.flatten ++ st1.2 = st.1.flatten ++ st.2 ++ edgePathSpec COMF ORNT e := by
  have hseg := edgePathSpec_ne_nil COMF ORNT e
  rw [polyStep_of_resolves h st]
  by_cases hemit : (cell row 2).toUInt = 2 ∧ st.1.isEmpty
  · have h1 : st.1 = [] := List.isEmpty_iff.1 hemit.2
    have h2 := hJ h1
    rw [if_pos hemit]
    unfold polyClose
    by_cases hc : (cell row 2).toUInt = 2 ∧ firstIsLast ([] ++ edgePathSpec COMF ORNT e)
    · rw [if_pos hc]
      refine ⟨_, [st.2, edgePathSpec COMF ORNT e], rfl, by simp [h1], ?_, by simp, by simp [h1]⟩
      intro ring hr
      simp only [List.mem_cons, List.mem_singleton, List.not_mem_nil, or_false] at hr
      rcases hr with e1 | e1 <;> rw [e1]
      · exact h2
      · exact hseg
    · rw [if_neg hc]
      refine ⟨_, [st.2], rfl, by simp [h1], ?_, by simp, by simp [h1]⟩
      intro ring hr
      rw [List.mem_singleton.1 hr]
      exact h2
  · rw [if_neg hemit]
    unfold polyClose
    by_cases hc : (cell row 2).toUInt = 2 ∧ firstIsLast (st.2 ++ edgePathSpec COMF ORNT e)
    · rw [if_pos hc]
      refine ⟨_, [st.2 ++ edgePathSpec COMF ORNT e], rfl, rfl, ?_, by simp, by simp⟩
      intro ring hr
      rw [List.mem_singleton.1 hr]
      simp [hseg]
    · rw [if_neg hc]
      refine ⟨_, [], rfl, by simp, by simp, fun _ => by simp [hseg], by simp⟩

theorem polyRows_rings {vc ve : RecordMap} {COMF : Nat} {rows : List (List QVariant)}
    {es : List (Nat × EdgeData)}
    (h : List.Forall₂ (fun row oe => RowResolves vc ve COMF row oe.1 oe.2) rows es)
    (st : PolyState) (hJ : st.1 = [] → st.2 ≠ []) :
    ∃ st1 more, polyRows vc ve COMF rows st = some st1 ∧ st1.1 = st.1 ++ more ∧
      (∀ ring ∈ more, ring ≠ []) ∧ (st1.1 = [] → st1.2 ≠ []) ∧
      st1.1.flatten ++ st1.2
        = st.1.flatten ++ st.2 ++ (es.map (fun oe => edgePathSpec COMF oe.1 oe.2)).flatten := by
  induction h generalizing st with
  | nil => exact ⟨st, [], rfl, by simp, by simp, hJ, by simp⟩
  | cons hr _ ih =>
    obtain ⟨st1, m1, e1, p1, n1, j1, f1⟩ := polyStep_rings hr st hJ
    obtain ⟨st2, m2, e2, p2, n2, j2, f2⟩ := ih st1 j1
    refine ⟨st2, m1 ++ m2, ?_, ?_, ?_, j2, ?_⟩
    · simp only [polyRows, e1, e2]
    · rw [p2, p1, List.append_assoc]
    · intro ring hr2
      rcases List.mem_append.1 hr2 with hm | hm
      · exact n1 ring hm
      · exact n2 ring hm
    · rw [f2, f1]
      simp [List.append_assoc]

/-- The first pass, from the initial state: with usage flag 2 it emits the
empty `v` as a ring. -/
theorem polyStep_first {vc ve : RecordMap} {COMF : Nat} {row : List QVariant}
    {ORNT : Nat} {e : EdgeData} (h : RowResolves vc ve COMF row ORNT e) :
    ∃ st1 more, polyStep vc ve COMF row ([], []) = some st1 ∧
      st1.1 = (if (cell row 2).toUInt = 2 then [[]] else []) ++ more ∧
      (∀ ring ∈ more, ring ≠ []) ∧ (st1.1 = [] → st1.2 ≠ []) ∧
      st1.1.flatten ++ st1.2 = edgePathSpec COMF ORNT e := by
  have hseg := edgePathSpec_ne_nil COMF ORNT e
  rw [polyStep_of_resolves h ([], [])]
  by_cases hu : (cell row 2).toUInt = 2
  · have hemit : (cell row 2).toUInt = 2 ∧ (([], []) : PolyState).1.isEmpty := ⟨hu, rfl⟩
    rw [if_pos hemit, if_pos hu]
    unfold polyClose
    by_cases hc : (cell row 2).toUInt = 2 ∧ firstIsLast ([] ++ edgePathSpec COMF ORNT e)
    · rw [if_pos hc]
      refine ⟨_, [edgePathSpec COMF ORNT e], rfl, rfl, ?_, by simp, by simp⟩
      intro ring hr
      rw [List.mem_singleton.1 hr]
      exact hseg
    · rw [if_neg hc]
      exact ⟨_, [], rfl, rfl, by simp, by simp, by simp⟩
  · have hemit : ¬ ((cell row 2).toUInt = 2 ∧ (([], []) : PolyState).1.isEmpty) := fun h => hu h.1
    rw [if_neg hemit, if_neg hu]
    unfold polyClose
    have hc : ¬ ((cell row 2).toUInt = 2 ∧ firstIsLast ([] ++ edgePathSpec COMF ORNT e)) :=
      fun h => hu h.1
    rw [if_neg hc]
    exact ⟨_, [], rfl, rfl, by simp, fun _ => by simp [hseg], by simp⟩

/-- What holds of the rings of an area whose pointer list resolves
completely: their concatenation is the concatenation of the oriented per-edge
vertex sequences; every ring after the first is non-empty; the first ring is
non-empty when the first pointer row does not carry usage flag 2, and is the
empty ring when it does. -/
theorem polyGeometry_rings (r : Record) (vc ve : RecordMap) (COMF : Nat) (FSPT : Field)
    (es : List (Nat × EdgeData))
    (hF : r.field "FSPT" = some FSPT) (h4 : (FSPT.row 0).length = 4)
    (hres : List.Forall₂ (fun row oe => RowResolves vc ve COMF row oe.1 oe.2) FSPT.data es) :
    (polyGeometry r vc ve COMF).flatten
      = (es.map (fun oe => edgePathSpec COMF oe.1 oe.2)).flatten ∧
    (∀ ring ∈ (polyGeometry r vc ve COMF).tail, ring ≠ []) ∧
    ((cell (FSPT.row 0) 2).toUInt ≠ 2 → ∀ ring ∈ polyGeometry r vc ve COMF, ring ≠ []) ∧
    ((cell (FSPT.row 0) 2).toUInt = 2 → (polyGeometry r vc ve COMF).head? = some []) := by
  unfold polyGeometry
  simp only [hF, h4, ne_eq, not_true_eq_false, if_false]
  generalize hd : FSPT.data = rows0 at hres
  cases hres with
  | nil =>
    rw [Field.row, hd] at h4
    simp at h4
  | cons hr hrest =>
    rename_i row oe rows es1
    have hrow : FSPT.row 0 = row := by
      rw [Field.row, hd]
      rfl
    obtain ⟨st1, m1, e1, p1, n1, j1, f1⟩ := polyStep_first hr
    obtain ⟨st2, m2, e2, p2, n2, j2, f2⟩ := polyRows_rings hrest st1 j1
    simp only [polyRows, e1, e2, hrow]
    have hflat : (polyFlush st2).flatten
        = ((oe :: es1).map (fun oe => edgePathSpec COMF oe.1 oe.2)).flatten := by
      rw [flatten_polyFlush, f2, f1]
      simp
    have hflush : ∃ last, polyFlush st2 = st2.1 ++ last ∧ ∀ ring ∈ last, ring ≠ [] := by
      unfold polyFlush
      cases hv : st2.2 with
      | nil => exact ⟨[], by simp, by simp⟩
      | cons a l =>
        refine ⟨[a :: l], by simp, ?_⟩
        intro ring hr2
        rw [List.mem_singleton.1 hr2]
        simp
    obtain ⟨last, hl, nl⟩ := hflush
    have hmore : ∀ ring ∈ m1 ++ m2 ++ last, ring ≠ [] := by
      intro ring hr2
      rcases List.mem_append.1 hr2 with hm | hm
      · rcases List.mem_append.1 hm with hm1 | hm2
        · exact n1 ring hm1
        · exact n2 ring hm2
      · exact nl ring hm
    have hall : polyFlush st2
        = (if (cell row 2).toUInt = 2 then [[]] else []) ++ (m1 ++ m2 ++ last) := by
      rw [hl, p2, p1]
      simp [List.append_assoc]
    refine ⟨hflat, ?_, ?_, ?_⟩
    · rw [hall]
      by_cases hu : (cell row 2).toUInt = 2
      · rw [if_pos hu]
        exact hmore
      · rw [if_neg hu]
        intro ring hr2
        exact hmore ring (List.mem_of_mem_tail hr2)
    · intro hu
      rw [hall, if_neg hu]
      exact hmore
    · intro hu
      rw [hall, if_pos hu]
      rfl

/-- C37 (divergence): the area `Sample.areaInnerFirst` has a pointer list
that resolves completely, its first row carrying usage flag 2. At that row no
ring has been emitted and `v` is still empty, and `polyGeometry` appends it:
the polygon returned is the empty ring, then the closed edge 9, then edge 7.
The same rows with usage flag 1 in the first row give no empty ring. -/
theorem polyGeometry_emits_empty_first_ring :
    polyGeometry Sample.areaInnerFirst Sample.vc Sample.ve 100
      = [[], Sample.path9, Sample.path7] ∧
    (Sample.fspt Sample.innerFirstRows).data.map
        (fun row => (edgeName row).bind
          (fun id => edgeVertices Sample.vc Sample.ve 100 id (cell row 1).toUInt))
      = [some Sample.path9, some Sample.path7] ∧
    polyAccum Sample.vc Sample.ve 100 ((Sample.fspt Sample.innerFirstRows).row 0) ([], [])
      = some ([[]], Sample.path9) ∧
    polyGeometry (Sample.feature 15 3 42 [Sample.fspt [(130, 9, 1, 1), (130, 7, 1, 1)]])
        Sample.vc Sample.ve 100
      = [Sample.path9 ++ Sample.path7] := by
  decide

/-- The rings of `Sample.areaInnerFirst`, whose pointer list resolves: their
concatenation is that of the edges 9 and 7, and the rings after the first one
are non-empty. -/
theorem polyGeometry_rings_sample :
    (polyGeometry Sample.areaInnerFirst Sample.vc Sample.ve 100).flatten
      = (Sample.innerFirstEdges.map (fun oe => edgePathSpec 100 oe.1 oe.2)).flatten ∧
    (∀ ring ∈ (polyGeometry Sample.areaInnerFirst Sample.vc Sample.ve 100).tail, ring ≠ []) :=
  have h := polyGeometry_rings Sample.areaInnerFirst Sample.vc Sample.ve 100
    (Sample.fspt Sample.innerFirstRows) Sample.innerFirstEdges (by decide) (by decide)
    (List.Forall₂.cons
      ⟨9, Sample.vector 130 9 [Sample.vrpt 1 1, Sample.sg2d [(22, 12)]], Sample.vrpt 1 1,
        by decide, by decide, by decide, by decide, by decide,
        ⟨1, Sample.vector 120 1 [Sample.sg2d [(20, 10)]], by decide, by decide, by decide,
          by decide⟩,
        ⟨1, Sample.vector 120 1 [Sample.sg2d [(20, 10)]], by decide, by decide, by decide,
          by decide⟩,
        by decide⟩
      (List.Forall₂.cons
        ⟨7, Sample.vector 130 7 [Sample.vrpt 1 2, Sample.sg2d [(25, 15)]], Sample.vrpt 1 2,
          by decide, by decide, by decide, by decide, by decide,
          ⟨1, Sample.vector 120 1 [Sample.sg2d [(20, 10)]], by decide, by decide, by decide,
            by decide⟩,
          ⟨2, Sample.vector 120 2 [Sample.sg2d [(40, 30)]], by decide, by decide, by decide,
            by decide⟩,
          by decide⟩
        List.Forall₂.nil))
  ⟨h.1, h.2.1⟩

end ENC

namespace ENC

/-! ## The priority of a subtype -/

theorem TYPE_low (c : Nat) : TYPE c % 65536 = 0 := by
  unfold TYPE
  rw [Nat.shiftLeft_eq]
  norm_num

theorem SUBTYPE_zero (c : Nat) : SUBTYPE c 0 = TYPE c := by
  unfold SUBTYPE TYPE
  rw [Nat.or_zero]

theorem class_of_SUBTYPE {c s : Nat} (hc : c < 65536) (hs : s < 65536) :
    SUBTYPE c s < 2 ^ 32 ∧ SUBTYPE c s >>> 16 = c ∧ SUBTYPE c s % 65536 = s := by
  rw [SUBTYPE_eq hc hs, Nat.shiftRight_eq_div_pow]
  norm_num
  omega

theorem lookup_ne_none {l : List (Nat × Nat)} {key v : Nat} (h : (key, v) ∈ l) :
    List.lookup key l ≠ none := by
  induction l with
  | nil => simp at h
  | cons a rest ih =>
    obtain ⟨a1, a2⟩ := a
    by_cases hk : key = a1
    · subst hk
      simp [List.lookup_cons]
    · have hb : (key == a1) = false := by simpa using hk
      simp only [List.lookup_cons, hb]
      rcases List.mem_cons.1 h with e | hm
      · simp only [Prod.mk.injEq] at e
        exact absurd e.1 hk
      · exact ih hm

theorem find_orderMap_ne_none {k : Codes} {o : OrderCodes} {key v : Nat}
    (h : (key, v) ∈ orderInserts k o) : (orderMap k o).find key ≠ none := by
  unfold orderMap orderMapInit OrderMap.find
  rw [foldl_insert, List.append_nil]
  exact lookup_ne_none (List.mem_reverse.2 h)

/-- The keys of the table: keys of a class (low 16 bits zero), and the six
keys of a `BUAARE` subtype other than 0. -/
theorem orderInserts_keys (k : Codes) (o : OrderCodes) :
    ∀ kv ∈ orderInserts k o, kv.1 % 65536 = 0 ∨
      kv = (SUBTYPE k.BUAARE 1, 2) ∨ kv = (SUBTYPE k.BUAARE 5, 3) ∨
      kv = (SUBTYPE k.BUAARE 4, 4) ∨ kv = (SUBTYPE k.BUAARE 3, 5) ∨
      kv = (SUBTYPE k.BUAARE 2, 6) ∨ kv = (SUBTYPE k.BUAARE 6, 7) := by
  simp [orderInserts, TYPE_low, SUBTYPE_zero]

theorem orderInserts_subtypes (k : Codes) (o : OrderCodes) :
    (SUBTYPE k.BUAARE 1, 2) ∈ orderInserts k o ∧ (SUBTYPE k.BUAARE 5, 3) ∈ orderInserts k o ∧
    (SUBTYPE k.BUAARE 4, 4) ∈ orderInserts k o ∧ (SUBTYPE k.BUAARE 3, 5) ∈ orderInserts k o ∧
    (SUBTYPE k.BUAARE 2, 6) ∈ orderInserts k o ∧ (SUBTYPE k.BUAARE 6, 7) ∈ orderInserts k o ∧
    (SUBTYPE k.BUAARE 0, 8) ∈ orderInserts k o := by
  simp [orderInserts]

/-- The priority of a type of class `BUAARE`: the subtype is part of the
key. -/
theorem order_buaare (k : Codes) (o : OrderCodes) {s : Nat} (hB : k.BUAARE < 65536)
    (hs : s < 65536) :
    order k o (SUBTYPE k.BUAARE s)
      = ((orderMap k o).find (SUBTYPE k.BUAARE s)).getD (k.BUAARE + 512) := by
  obtain ⟨_, h2, _⟩ := class_of_SUBTYPE hB hs
  unfold order
  simp only
  rw [if_pos h2, h2]
  cases (orderMap k o).find (SUBTYPE k.BUAARE s) with
  | none =>
    simp only [Option.getD_none]
    apply Nat.mod_eq_of_lt
    norm_num
    omega
  | some v => rfl

/-- The priority of a type of another class: the subtype is masked out of the
key. -/
theorem order_class (k : Codes) (o : OrderCodes) {c s : Nat} (hc : c < 65536)
    (hs : s < 65536) (hB : c ≠ k.BUAARE) :
    order k o (SUBTYPE c s) = ((orderMap k o).find (TYPE c)).getD (c + 512) := by
  obtain ⟨h1, h2, _⟩ := class_of_SUBTYPE hc hs
  unfold order
  simp only
  rw [key_of_class k h1 h2 hc hB, h2]
  cases (orderMap k o).find (TYPE c) with
  | none =>
    simp only [Option.getD_none]
    apply Nat.mod_eq_of_lt
    norm_num
    omega
  | some v => rfl

theorem order_subtype (k : Codes) (o : OrderCodes) {s v : Nat} (hB : k.BUAARE < 65536)
    (hs : 1 ≤ s ∧ s ≤ 6) (hm : (SUBTYPE k.BUAARE s, v) ∈ orderInserts k o) :
    order k o (SUBTYPE k.BUAARE s) = v := by
  rw [order_buaare k o hB (by omega)]
  cases hf : (orderMap k o).find (SUBTYPE k.BUAARE s) with
  | none => exact absurd hf (find_orderMap_ne_none hm)
  | some w =>
    simp only [Option.getD_some]
    have hlow := (class_of_SUBTYPE hB (show s < 65536 by omega)).2.2
    have e0 := SUBTYPE_eq hB (show s < 65536 by omega)
    have e1 := SUBTYPE_eq hB (show 1 < 65536 by decide)
    have e2 := SUBTYPE_eq hB (show 2 < 65536 by decide)
    have e3 := SUBTYPE_eq hB (show 3 < 65536 by decide)
    have e4 := SUBTYPE_eq hB (show 4 < 65536 by decide)
    have e5 := SUBTYPE_eq hB (show 5 < 65536 by decide)
    have e6 := SUBTYPE_eq hB (show 6 < 65536 by decide)
    have hw := orderInserts_keys k o _ (find_orderMap hf)
    have hv := orderInserts_keys k o _ hm
    simp only [Prod.mk.injEq] at hw hv
    omega

/-- C38: the draw priority ignores the subtype except for built-up areas.
For every object class c (a 16-bit code) other than `BUAARE` and all subtypes
s1, s2 below 65536, order(SUBTYPE(c, s1)) = order(SUBTYPE(c, s2)) =
order(TYPE(c)). For the class `BUAARE` (a class of its own: no other key of
the table is `TYPE(BUAARE)`) the subtypes 1, 5, 4, 3, 2, 6, 0 have the
priorities 2, 3, 4, 5, 6, 7, 8, seven distinct values for the subtypes 0..6,
and every other subtype has the fallback `BUAARE + 512`. -/
theorem order_ignores_subtype (k : Codes) (o : OrderCodes) (hB : k.BUAARE < 65536)
    (hown : ∀ kv ∈ orderInserts k o, kv.1 = TYPE k.BUAARE → kv.2 = 8) :
    (∀ c s1 s2, c < 65536 → c ≠ k.BUAARE → s1 < 65536 → s2 < 65536 →
      order k o (SUBTYPE c s1) = order k o (SUBTYPE c s2) ∧
      order k o (SUBTYPE c s2) = order k o (TYPE c)) ∧
    order k o (SUBTYPE k.BUAARE 1) = 2 ∧ order k o (SUBTYPE k.BUAARE 5) = 3 ∧
    order k o (SUBTYPE k.BUAARE 4) = 4 ∧ order k o (SUBTYPE k.BUAARE 3) = 5 ∧
    order k o (SUBTYPE k.BUAARE 2) = 6 ∧ order k o (SUBTYPE k.BUAARE 6) = 7 ∧
    order k o (SUBTYPE k.BUAARE 0) = 8 ∧
    (∀ s1 s2, s1 ≤ 6 → s2 ≤ 6 → s1 ≠ s2 →
      order k o (SUBTYPE k.BUAARE s1) ≠ order k o (SUBTYPE k.BUAARE s2)) ∧
    (∀ s, s ≤ 6 → 2 ≤ order k o (SUBTYPE k.BUAARE s) ∧ order k o (SUBTYPE k.BUAARE s) ≤ 8) ∧
    (∀ s, 6 < s → s < 65536 → order k o (SUBTYPE k.BUAARE s) = k.BUAARE + 512) := by
  obtain ⟨m1, m5, m4, m3, m2, m6, m0⟩ := orderInserts_subtypes k o
  have o1 := order_subtype k o hB (by omega) m1
  have o5 := order_subtype k o hB (by omega) m5
  have o4 := order_subtype k o hB (by omega) m4
  have o3 := order_subtype k o hB (by omega) m3
  have o2 := order_subtype k o hB (by omega) m2
  have o6 := order_subtype k o hB (by omega) m6
  have o0 : order k o (SUBTYPE k.BUAARE 0) = 8 := by
    rw [order_buaare k o hB (by decide)]
    cases hf : (orderMap k o).find (SUBTYPE k.BUAARE 0) with
    | none => exact absurd hf (find_orderMap_ne_none m0)
    | some w =>
      simp only [Option.getD_some]
      exact hown _ (find_orderMap hf) (SUBTYPE_zero _)
  have hcases : ∀ s, s ≤ 6 → s = 0 ∨ s = 1 ∨ s = 2 ∨ s = 3 ∨ s = 4 ∨ s = 5 ∨ s = 6 := by
    intro s hs
    omega
  refine ⟨?_, o1, o5, o4, o3, o2, o6, o0, ?_, ?_, ?_⟩
  · intro c s1 s2 hc hne h1 h2
    have ht := order_class k o hc (show 0 < 65536 by decide) hne
    rw [SUBTYPE_zero] at ht
    rw [order_class k o hc h1 hne, order_class k o hc h2 hne, ht]
    exact ⟨rfl, rfl⟩
  · intro s1 s2 h1 h2 hne
    rcases hcases s1 h1 with e | e | e | e | e | e | e <;>
      rcases hcases s2 h2 with f | f | f | f | f | f | f <;>
      subst e <;> subst f <;>
      first
        | exact absurd rfl hne
        | (simp only [o0, o1, o2, o3, o4, o5, o6]; decide)
  · intro s hs
    rcases hcases s hs with e | e | e | e | e | e | e <;> subst e <;>
      simp only [o0, o1, o2, o3, o4, o5, o6] <;> decide
  · intro s h6 hs
    rw [order_buaare k o hB hs]
    cases hf : (orderMap k o).find (SUBTYPE k.BUAARE s) with
    | none => rfl
    | some w =>
      exfalso
      have hlow := (class_of_SUBTYPE hB hs).2.2
      have e0 := SUBTYPE_eq hB hs
      have e1 := SUBTYPE_eq hB (show 1 < 65536 by decide)
      have e2 := SUBTYPE_eq hB (show 2 < 65536 by decide)
      have e3 := SUBTYPE_eq hB (show 3 < 65536 by decide)
      have e4 := SUBTYPE_eq hB (show 4 < 65536 by decide)
      have e5 := SUBTYPE_eq hB (show 5 < 65536 by decide)
      have e6 := SUBTYPE_eq hB (show 6 < 65536 by decide)
      have hw := orderInserts_keys k o _ (find_orderMap hf)
      simp only [Prod.mk.injEq] at hw
      omega

theorem order_ignores_subtype_witness :
    (order Sample.codes Sample.orderCodes (SUBTYPE 75 3)
        = order Sample.codes Sample.orderCodes (SUBTYPE 75 9) ∧
      order Sample.codes Sample.orderCodes (SUBTYPE 75 9)
        = order Sample.codes Sample.orderCodes (TYPE 75)) ∧
    order Sample.codes Sample.orderCodes (SUBTYPE Sample.codes.BUAARE 5) = 3 ∧
    order Sample.codes Sample.orderCodes (SUBTYPE Sample.codes.BUAARE 7)
      = Sample.codes.BUAARE + 512 :=
  have h := order_ignores_subtype Sample.codes Sample.orderCodes (by decide) (by decide)
  ⟨h.1 75 3 9 (by decide) (by decide) (by decide) (by decide), h.2.2.1,
    h.2.2.2.2.2.2.2.2.2.2 7 (by decide) (by decide)⟩

/-- The priorities of sample types: a light (class 75 in the sample codes)
has priority 0 with any subtype, a built-up area one of 2..8 by subtype, and
the fallback for subtype 7. -/
theorem order_examples :
    order Sample.codes Sample.orderCodes (SUBTYPE 75 3) = 0 ∧
    order Sample.codes Sample.orderCodes (TYPE 75) = 0 ∧
    (List.range 8).map (fun s => order Sample.codes Sample.orderCodes
      (SUBTYPE Sample.codes.BUAARE s))
      = [8, 2, 6, 5, 4, 3, 7, Sample.codes.BUAARE + 512] := by
  decide

end ENC

namespace OfflineMap

/-! ## The extremes `computeResolution` selects -/

theorem selectLoop_lon {α : Type} [LinearOrder α] [Inhabited α]
    (points : List (ReferencePoint α)) (n i : Nat) (e : Extremes)
    (hmin : e.minLon < i ∧
      (∀ j, j < i → (pointAt points e.minLon).lon ≤ (pointAt points j).lon) ∧
      ∀ j, j < e.minLon → (pointAt points e.minLon).lon < (pointAt points j).lon)
    (hmax : e.maxLon < i ∧
      (∀ j, j < i → (pointAt points j).lon ≤ (pointAt points e.maxLon).lon) ∧
      ∀ j, j < e.maxLon → (pointAt points j).lon < (pointAt points e.maxLon).lon) :
    ((selectLoop points n i e).minLon < i + n ∧
      (∀ j, j < i + n →
        (pointAt points (selectLoop points n i e).minLon).lon ≤ (pointAt points j).lon) ∧
      ∀ j, j < (selectLoop points n i e).minLon →
        (pointAt points (selectLoop points n i e).minLon).lon < (pointAt points j).lon) ∧
    ((selectLoop points n i e).maxLon < i + n ∧
      (∀ j, j < i + n →
        (pointAt points j).lon ≤ (pointAt points (selectLoop points n i e).maxLon).lon) ∧
      ∀ j, j < (selectLoop points n i e).maxLon →
        (pointAt points j).lon < (pointAt points (selectLoop points n i e).maxLon).lon) := by
  induction n generalizing i e with
  | zero => exact ⟨hmin, hmax⟩
  | succ m ih =>
    rw [selectLoop, show i + (m + 1) = (i + 1) + m by omega]
    apply ih
    · obtain ⟨h1, h2, h3⟩ := hmin
      simp only [select]
      by_cases hc : (pointAt points i).lon < (pointAt points e.minLon).lon
      · rw [if_pos hc]
        refine ⟨Nat.lt_succ_self i, fun j hj => ?_, fun j hj => ?_⟩
        · rcases Nat.lt_succ_iff_lt_or_eq.1 hj with hlt | heq
          · exact le_of_lt (lt_of_lt_of_le hc (h2 j hlt))
          · rw [heq]
        · exact lt_of_lt_of_le hc (h2 j hj)
      · rw [if_neg hc]
        refine ⟨Nat.lt_succ_of_lt h1, fun j hj => ?_, h3⟩
        rcases Nat.lt_succ_iff_lt_or_eq.1 hj with hlt | heq
        · exact h2 j hlt
        · rw [heq]
          exact not_lt.1 hc
    · obtain ⟨h1, h2, h3⟩ := hmax
      simp only [select]
      by_cases hc : (pointAt points i).lon > (pointAt points e.maxLon).lon
      · rw [if_pos hc]
        refine ⟨Nat.lt_succ_self i, fun j hj => ?_, fun j hj => ?_⟩
        · rcases Nat.lt_succ_iff_lt_or_eq.1 hj with hlt | heq
          · exact le_of_lt (lt_of_le_of_lt (h2 j hlt) hc)
          · rw [heq]
        · exact lt_of_le_of_lt (h2 j hj) hc
      · rw [if_neg hc]
        refine ⟨Nat.lt_succ_of_lt h1, fun j hj => ?_, h3⟩
        rcases Nat.lt_succ_iff_lt_or_eq.1 hj with hlt | heq
        · exact h2 j hlt
        · rw [heq]
          exact not_lt.1 hc

/-- The longitude half of the selection is as specified: for a list that is
not empty `minLon` and `maxLon` are the first points with the smallest and the
largest longitude. -/
theorem extremes_lon {α : Type} [LinearOrder α] [Inhabited α]
    (points : List (ReferencePoint α)) (h : 1 ≤ points.length) :
    IsFirstMin (fun q => q.lon) points (extremes points).minLon ∧
    IsFirstMax (fun q => q.lon) points (extremes points).maxLon := by
  have hs := selectLoop_lon points (points.length - 1) 1 ⟨0, 0, 0, 0⟩
    ⟨Nat.one_pos, fun j hj => by rw [show j = 0 by omega],
      fun j hj => absurd hj (Nat.not_lt_zero j)⟩
    ⟨Nat.one_pos, fun j hj => by rw [show j = 0 by omega],
      fun j hj => absurd hj (Nat.not_lt_zero j)⟩
  rw [show 1 + (points.length - 1) = points.length by omega] at hs
  exact hs

/-- C39 (divergence): for the three reference points (lon 10, lat 50), (lon
20, lat 40), (lon 30, lat 60) the loop of `computeResolution` ends with minLon
= 0, maxLon = 2, minLat = 0 and maxLat = 2. The first point with the smallest
latitude is point 1 (latitude 40): the loop does not select it, because it
compares the latitude 40 of point 1 with the longitude 10 of point 0. The
resolution is then computed between the points 0 and 2 for the latitude, not
between the points 1 and 2. -/
theorem computeResolution_compares_lat_with_lon :
    extremes samplePoints = ⟨0, 2, 0, 2⟩ ∧
    IsFirstMin (fun q => q.lon) samplePoints 0 ∧ IsFirstMax (fun q => q.lon) samplePoints 2 ∧
    IsFirstMin (fun q => q.lat) samplePoints 1 ∧ IsFirstMax (fun q => q.lat) samplePoints 2 ∧
    ¬ IsFirstMin (fun q => q.lat) samplePoints (extremes samplePoints).minLat ∧
    select samplePoints ⟨0, 0, 0, 0⟩ 1 = ⟨0, 1, 0, 1⟩ ∧
    (pointAt samplePoints 1).lat < (pointAt samplePoints 0).lat ∧
    ¬ (pointAt samplePoints 1).lat < (pointAt samplePoints 0).lon ∧
    (∀ (distanceTo : Int × Int → Int × Int → ℚ) (length : Int × Int → Int × Int → ℚ),
      computeResolution distanceTo length samplePoints
        = (distanceTo (10, 50) (30, 60) / length (0, 100) (200, 0)
            + distanceTo (10, 50) (30, 60) / length (0, 100) (200, 0)) / 2) := by
  have he : extremes samplePoints = ⟨0, 2, 0, 2⟩ := by decide
  refine ⟨he, by decide, by decide, by decide, by decide, by decide, by decide, by decide,
    by decide, ?_⟩
  intro distanceTo length
  unfold computeResolution
  simp only [he]
  rfl

end OfflineMap

namespace GPI

/-! ## Demangling is a nibble-wise subtraction -/

theorem and_15 (x : Nat) : x &&& 15 = x % 16 := Nat.and_pow_two_sub_one_eq_mod x 4

set_option maxRecDepth 8000 in
theorem and_240 : ∀ x, x < 256 → x &&& 240 = x / 16 * 16 := by
  decide

theorem or_nibbles (h l : Nat) (hl : l < 16) : (h * 16) ||| l = h * 16 + l := by
  have h4 : l < 2 ^ 4 := hl
  rw [Nat.mul_comm, ← Nat.mul_add_lt_is_or h4]

theorem shuf_le (i : Nat) : shuf.getD i 0 ≤ 15 := by
  by_cases h : i < 16
  · revert h
    revert i
    decide
  · rw [List.getD_eq_default _ _ (by simp only [shuf, List.length_cons, List.length_nil]; omega)]
    exact Nat.zero_le _

theorem keySum_eq (key : Nat) :
    keySum key = shuf.getD (((key >>> 24) + (key >>> 16) + (key >>> 8) + key) &&& 15) 0 := by
  unfold keySum
  rw [and_15, and_15]
  congr 1
  omega

theorem hiCntAt_eq (i : Nat) : hiCntAt i = 2 * (i % 4) := by
  induction i with
  | zero => rfl
  | succ n ih =>
    rw [hiCntAt, ih]
    unfold nextHiCnt loCntOf
    have h4 := Nat.mod_lt n (show 0 < 4 by decide)
    split_ifs <;> omega

theorem loCntOf_eq (i : Nat) : loCntOf (hiCntAt i) = 2 * (i % 4) + 1 := by
  rw [hiCntAt_eq]
  unfold loCntOf
  have h4 := Nat.mod_lt i (show 0 < 4 by decide)
  rw [if_neg (by omega)]

/-- The arithmetic of one byte: subtracting 16 * a and b in 8 bits and
recombining the nibbles is the subtraction of a and b nibble by nibble. -/
theorem nibble_arith (d a b : Nat) :
    (((((d : Int) - ((a * 16 : Nat) : Int)) % 256).toNat / 16) * 16)
        + ((((d : Int) - (b : Int)) % 256).toNat % 16)
      = 16 * ((((d / 16 : Nat) : Int) - (a : Int)) % 16).toNat
        + ((((d % 16 : Nat) : Int) - (b : Int)) % 16).toNat := by
  push_cast
  omega

theorem demangleByte_eq (key i d : Nat) :
    demangleByte key (hiCntAt i) d = demangledByte key i d := by
  have h4 := Nat.mod_lt i (show 0 < 4 by decide)
  have hs1 := shuf_le ((key >>> (8 * (i % 4))) &&& 15)
  have hs2 := shuf_le ((key >>> (8 * (i % 4) + 4)) &&& 15)
  have hs3 := shuf_le (((key >>> 24) + (key >>> 16) + (key >>> 8) + key) &&& 15)
  unfold demangleByte demangledByte hiSub loSub
  rw [loCntOf_eq, hiCntAt_eq, keySum_eq, Nat.shiftLeft_eq, Nat.shiftLeft_eq,
    show 2 * (i % 4) * 2 ^ 2 = 8 * (i % 4) by omega,
    show (2 * (i % 4) + 1) * 2 ^ 2 = 8 * (i % 4) + 4 by omega]
  simp only
  generalize shuf.getD ((key >>> (8 * (i % 4))) &&& 15) 0 = s1 at hs1 ⊢
  generalize shuf.getD ((key >>> (8 * (i % 4) + 4)) &&& 15) 0 = s2 at hs2 ⊢
  generalize shuf.getD (((key >>> 24) + (key >>> 16) + (key >>> 8) + key) &&& 15) 0 = s3 at hs3 ⊢
  rw [Nat.mod_eq_of_lt (show s1 + s3 < 256 by omega),
    Nat.mod_eq_of_lt (show s2 + s3 < 256 by omega),
    Nat.shiftLeft_eq, show (2 : Nat) ^ 4 = 16 by decide]
  rw [and_240 _ (by omega), and_15, or_nibbles _ _ (Nat.mod_lt _ (by decide))]
  exact nibble_arith d _ _

theorem hiCntAt_succ (i : Nat) : nextHiCnt (hiCntAt i) = hiCntAt (i + 1) := rfl

/-- The loop entered at byte `i` replaces the byte at offset `j` by
`demangledByte` of the index `i + j`. -/
theorem demangleLoop_getD (key : Nat) (data : List Nat) (i j : Nat)
    (hj : j < data.length) :
    (demangleLoop key data (hiCntAt i)).getD j 0 = demangledByte key (i + j) (data.getD j 0) := by
  induction data generalizing i j with
  | nil => simp at hj
  | cons d rest ih =>
    unfold demangleLoop
    cases j with
    | zero =>
      simp only [List.getD_cons_zero, Nat.add_zero]
      exact demangleByte_eq key i d
    | succ j0 =>
      simp only [List.getD_cons_succ]
      rw [hiCntAt_succ, ih (i + 1) j0 (by simpa using hj)]
      rw [show i + 1 + j0 = i + (j0 + 1) by omega]

theorem demangleLoop_length (key : Nat) (data : List Nat) (c : Nat) :
    (demangleLoop key data c).length = data.length := by
  induction data generalizing c with
  | nil => rfl
  | cons d rest ih => simp only [demangleLoop, List.length_cons, ih]

theorem mangleFrom_length (key : Nat) (data : List Nat) (i : Nat) :
    (mangleFrom key i data).length = data.length := by
  induction data generalizing i with
  | nil => rfl
  | cons d rest ih => simp only [mangleFrom, List.length_cons, ih]

theorem demangledByte_lt (key i d : Nat) : demangledByte key i d < 256 := by
  unfold demangledByte
  omega

theorem mangledByte_lt (key i d : Nat) : mangledByte key i d < 256 := by
  unfold mangledByte
  omega

theorem mangled_demangled (key i d : Nat) (hd : d < 256) :
    mangledByte key i (demangledByte key i d) = d := by
  unfold mangledByte demangledByte
  generalize hiSub key i = a
  generalize loSub key i = b
  omega

theorem demangled_mangled (key i d : Nat) (hd : d < 256) :
    demangledByte key i (mangledByte key i d) = d := by
  unfold mangledByte demangledByte
  generalize hiSub key i = a
  generalize loSub key i = b
  omega

/-- The loop as a map over the bytes. -/
theorem demangleLoop_eq (key : Nat) (data : List Nat) (i : Nat) (hb : ∀ b ∈ data, b < 256) :
    (∀ b ∈ demangleLoop key data (hiCntAt i), b < 256) ∧
    mangleFrom key i (demangleLoop key data (hiCntAt i)) = data := by
  induction data generalizing i with
  | nil => exact ⟨by simp [demangleLoop], rfl⟩
  | cons d rest ih =>
    have hd := hb d (List.mem_cons_self _ _)
    obtain ⟨h1, h2⟩ := ih (i + 1) (fun b hm => hb b (List.mem_cons_of_mem _ hm))
    unfold demangleLoop
    rw [hiCntAt_succ, demangleByte_eq key i d]
    constructor
    · intro b hm
      rcases List.mem_cons.1 hm with e | hm1
      · rw [e]
        exact demangledByte_lt key i d
      · exact h1 b hm1
    · rw [mangleFrom, mangled_demangled key i d hd, h2]

theorem mangleFrom_eq (key : Nat) (data : List Nat) (i : Nat) (hb : ∀ b ∈ data, b < 256) :
    (∀ b ∈ mangleFrom key i data, b < 256) ∧
    demangleLoop key (mangleFrom key i data) (hiCntAt i) = data := by
  induction data generalizing i with
  | nil => exact ⟨by simp [mangleFrom], rfl⟩
  | cons d rest ih =>
    have hd := hb d (List.mem_cons_self _ _)
    obtain ⟨h1, h2⟩ := ih (i + 1) (fun b hm => hb b (List.mem_cons_of_mem _ hm))
    unfold mangleFrom
    constructor
    · intro b hm
      rcases List.mem_cons.1 hm with e | hm1
      · rw [e]
        exact mangledByte_lt key i d
      · exact h1 b hm1
    · rw [demangleLoop, hiCntAt_succ, demangleByte_eq key i _,
        demangled_mangled key i d hd, h2]

/-- C40: demangling is a nibble-wise subtraction and invertible. For every
key and every byte sequence `demangle` replaces byte i by the byte whose high
nibble is (high nibble - (shuf[(key >> 8*(i mod 4)) & 15] + sum)) mod 16 and
whose low nibble is (low nibble - (shuf[(key >> (8*(i mod 4) + 4)) & 15] +
sum)) mod 16, with sum = shuf[((key>>24) + (key>>16) + (key>>8) + key) & 15];
the counter `hiCnt` is 2 * (i mod 4) at byte i (values 0, 2, 4, 6) and `loCnt`
is 2 * (i mod 4) + 1 (values 1, 3, 5, 7); the output byte depends on the input
byte, i mod 4 and the key only; and for each key `demangle` is a bijection on
the byte sequences of each length, its inverse being the nibble-wise
addition. -/
theorem demangle_is_nibble_subtraction (key : Nat) :
    (∀ (data : List Nat) (i : Nat), i < data.length →
      (demangle data key).getD i 0 = demangledByte key i (data.getD i 0)) ∧
    (∀ i, hiCntAt i = 2 * (i % 4) ∧ loCntOf (hiCntAt i) = 2 * (i % 4) + 1) ∧
    (∀ i j d, i % 4 = j % 4 → demangledByte key i d = demangledByte key j d) ∧
    (∀ data : List Nat, (demangle data key).length = data.length) ∧
    (∀ data : List Nat, (∀ b ∈ data, b < 256) →
      (∀ b ∈ demangle data key, b < 256) ∧ mangle (demangle data key) key = data ∧
      (∀ b ∈ mangle data key, b < 256) ∧ demangle (mangle data key) key = data) ∧
    (∀ n, Set.BijOn (fun data => demangle data key) (byteSeqs n) (byteSeqs n)) := by
  refine ⟨?_, fun i => ⟨hiCntAt_eq i, loCntOf_eq i⟩, ?_, fun data => demangleLoop_length key data 0,
    ?_, ?_⟩
  · intro data i hi
    have := demangleLoop_getD key data 0 i hi
    rw [Nat.zero_add] at this
    exact this
  · intro i j d hij
    unfold demangledByte hiSub loSub
    rw [hij]
  · intro data hb
    exact ⟨(demangleLoop_eq key data 0 hb).1, (demangleLoop_eq key data 0 hb).2,
      (mangleFrom_eq key data 0 hb).1, (mangleFrom_eq key data 0 hb).2⟩
  · intro n
    have hinv : Set.InvOn (fun data => mangle data key) (fun data => demangle data key)
        (byteSeqs n) (byteSeqs n) :=
      ⟨fun l hl => (demangleLoop_eq key l 0 hl.2).2, fun l hl => (mangleFrom_eq key l 0 hl.2).2⟩
    exact hinv.bijOn
      (fun l hl => ⟨(demangleLoop_length key l 0).trans hl.1, (demangleLoop_eq key l 0 hl.2).1⟩)
      (fun l hl => ⟨(mangleFrom_length key l 0).trans hl.1, (mangleFrom_eq key l 0 hl.2).1⟩)

/-- The block 0x12 0x34 0x56 0x78 0x9a under the key 0x01234567: sum is
shuf[0] = 0xb; byte 0 loses shuf[7] + sum and shuf[6] + sum nibble by nibble,
and byte 4 is treated as byte 0 is. Mangling gives the block back. -/
theorem demangle_example :
    keySum 0x01234567 = 0xb ∧
    demangle [0x12, 0x34, 0x56, 0x78, 0x9a] 0x01234567 = [0x55, 0x91, 0xa1, 0x02, 0xdd] ∧
    demangle [0x12] 0x01234567 = [demangledByte 0x01234567 0 0x12] ∧
    demangle [0x9a, 0, 0, 0, 0x9a] 0x01234567 = [0xdd, 0x6d, 0x5b, 0x9a, 0xdd] ∧
    mangle [0x55, 0x91, 0xa1, 0x02, 0xdd] 0x01234567 = [0x12, 0x34, 0x56, 0x78, 0x9a] ∧
    (List.range 9).map hiCntAt = [0, 2, 4, 6, 0, 2, 4, 6, 0] := by
  decide

end GPI
